import Mathlib

/-!
# AbstractSyntaxTree: lexer, recursive-descent parser and canonical forms

A shallow embedding of the expression pipeline of the repository:

* `src/parser/tokenizer.h`, `src/lab2/parser/tokenizer.cpp`  (namespace `Tokenizer`)
* `src/lab2/parser/parser_exceptions.h`                      (`ParserException`)
* `src/ast/ast.h`, `src/ast/ast.cpp`                         (`NodePtr`, namespace `AST`)
* `src/parser/parser.h`, `src/parser/parser.cpp`             (namespace `Parser`)
* `src/util/subtree_utils.cpp`                               (namespace `util`)
* `src/analysis/subexpression_finder.cpp`                    (namespace `SubexpressionFinder`)
* `src/lab2/analysis/msp_checker.cpp`                        (`EvaluateClosed`, namespace `MSPChecker`)

Modelling conventions.

* `std::string` is a Lean `String`; the scanner works on its list of characters.
  Character classes are those of the "C" locale.
* `AST::NodePtr` (a nullable `shared_ptr<Node>`) is the inductive type `NodePtr`
  with the constructor `null` for the null pointer.
* A pointer to a node of a tree that a client holds is a `NodeRef`: the node
  together with its position in the tree, which stands for the identity of the
  node object.  The node objects themselves, with their parent links, are the
  cells of a `Heap`.
* A C++ exception is the constructor `Outcome.thrown`; the exception classes are
  the constructors of `ParserException`.
* Loops whose variant is the unread input are recursive functions over the
  unread suffix.  The `while (true)` loop of `tokenizeAll` and the mutually
  recursive parser functions take a fuel argument; running out of fuel is the
  separate constructor `Outcome.outOfFuel`, and the lemmas `tokenizeAll_ne_outOfFuel`
  and `buildAST_ne_outOfFuel` show that it never happens with the fuel the
  entry points supply.
-/

namespace ASTLab

/-! ## Tokens (`tokenizer.h`) -/

/-- The enumeration `TokenType`. -/
inductive TokenType
  | Number
  | ID
  | Lambda
  | Dot
  | BinaryOperator
  | UnaryOperator
  | OpenScope
  | CloseScope
  | EndOfFile
  | Error
  deriving DecidableEq

/-- The record `Token`. -/
structure Token where
  type : TokenType
  value : String
  deriving DecidableEq

/-! ## Exceptions (`parser_exceptions.h`) -/

set_option linter.dupNamespace false in
/-- The exception classes; every class derives from `ParserException`, whose own
constructor is `ParserException.ParserException`. -/
inductive ParserException
  | ParserException (message : String)
  | SyntaxError (message : String)
  | UnexpectedTokenError (expected found : String)
  | UnexpectedEOFError
  | EmptyInputError
  | UnprocessedTokensError (token : String)
  | NoRuleFoundError (token : String)
  deriving DecidableEq

/-- Result of running a piece of code: a value, a thrown exception, or the
fuel of the model ran out. -/
inductive Outcome (α : Type)
  | ok (value : α)
  | thrown (e : ParserException)
  | outOfFuel
  deriving DecidableEq

/-- Sequencing of two steps: the second runs on the value of the first; an
exception or the end of the fuel in the first step ends the computation. -/
def Outcome.bind {α β : Type} (x : Outcome α) (f : α → Outcome β) : Outcome β :=
  match x with
  | Outcome.ok a => f a
  | Outcome.thrown e => Outcome.thrown e
  | Outcome.outOfFuel => Outcome.outOfFuel

/-! ## Trees (`ast.h`, `ast.cpp`) -/

/-- A value of `AST::NodePtr`: the null pointer or a node with its token and
its two owned children. -/
inductive NodePtr
  | null
  | node (token : Token) (left right : NodePtr)
  deriving DecidableEq

namespace AST

/-- `AST::createNode`. -/
def createNode (token : Token) (left right : NodePtr) : NodePtr :=
  NodePtr.node token left right

/-- `AST::createLeaf`. -/
def createLeaf (token : Token) : NodePtr :=
  NodePtr.node token NodePtr.null NodePtr.null

end AST

/-! ## Canonical form (`subtree_utils.cpp`) -/

namespace util

/-- `operator>` of `std::string`: lexicographic comparison of the characters. -/
def stringGt (a b : String) : Bool :=
  decide (b.data < a.data)

/-- `CanonicalBinary` of the anonymous namespace. -/
def CanonicalBinary (op left right : String) : String :=
  op ++ "(" ++ left ++ "," ++ right ++ ")"

/-- `util::CanonicalForm`. -/
def CanonicalForm : NodePtr → String
  | NodePtr.null => ""
  | NodePtr.node token left right =>
    match token.type with
    | TokenType.Number => token.value
    | TokenType.ID => token.value
    | TokenType.UnaryOperator =>
      let child := CanonicalForm left
      token.value ++ "(" ++ child ++ ")"
    | TokenType.BinaryOperator =>
      let l := CanonicalForm left
      let r := CanonicalForm right
      if token.value = "+" ∨ token.value = "*" then
        if stringGt l r then CanonicalBinary token.value r l
        else CanonicalBinary token.value l r
      else CanonicalBinary token.value l r
    | TokenType.Lambda =>
      let parameter :=
        match left with
        | NodePtr.null => ""
        | NodePtr.node _ _ _ => CanonicalForm left
      let body := CanonicalForm right
      "lambda(" ++ parameter ++ "." ++ body ++ ")"
    | _ => token.value

end util

/-! ## Lexer (`tokenizer.h`, `tokenizer.cpp`) -/

/-- The class `Tokenizer`: the input and the scan position. -/
structure Tokenizer where
  input_ : List Char
  index_ : Nat
  deriving DecidableEq

namespace Tokenizer

/-- The table `Tokenizer::kTokenMap`. -/
def kTokenMap : List (String × TokenType) :=
  [("#", TokenType.EndOfFile),
   ("lambda", TokenType.Lambda),
   (".", TokenType.Dot),
   ("+", TokenType.BinaryOperator),
   ("-", TokenType.BinaryOperator),
   ("*", TokenType.BinaryOperator),
   ("/", TokenType.BinaryOperator),
   ("^", TokenType.BinaryOperator),
   ("(", TokenType.OpenScope),
   (")", TokenType.CloseScope),
   ("sqrt", TokenType.UnaryOperator),
   ("abs", TokenType.UnaryOperator),
   ("exp", TokenType.UnaryOperator),
   ("ln", TokenType.UnaryOperator),
   ("floor", TokenType.UnaryOperator),
   ("ceil", TokenType.UnaryOperator),
   ("round", TokenType.UnaryOperator),
   ("trunc", TokenType.UnaryOperator),
   ("sin", TokenType.UnaryOperator),
   ("cos", TokenType.UnaryOperator),
   ("tan", TokenType.UnaryOperator),
   ("ctan", TokenType.UnaryOperator),
   ("random", TokenType.UnaryOperator)]

/-- `std::isalpha` in the "C" locale. -/
def isalpha (ch : Char) : Bool :=
  ('a' ≤ ch && ch ≤ 'z') || ('A' ≤ ch && ch ≤ 'Z')

/-- `std::isdigit`. -/
def isdigit (ch : Char) : Bool :=
  '0' ≤ ch && ch ≤ '9'

/-- `std::isspace` in the "C" locale: space, `\t`, `\n`, `\v`, `\f`, `\r`. -/
def isspace (ch : Char) : Bool :=
  ch = ' ' || ch = '\t' || ch = '\n' || ch = '\x0b' || ch = '\x0c' || ch = '\r'

/-- The constructor `Tokenizer::Tokenizer`. -/
def new (str : String) : Tokenizer :=
  { input_ := str.data, index_ := 0 }

/-- `Tokenizer::isEnd`. -/
def isEnd (t : Tokenizer) : Bool :=
  decide (t.index_ ≥ t.input_.length)

/-- The part of the regular expression `number_re` after the integer part:
`(\.[0-9]+)?$`. -/
def matchFraction : List Char → Bool
  | [] => true
  | ch :: cs => ch = '.' && !cs.isEmpty && cs.all isdigit

/-- `std::regex_match` with `number_re`, `^(0|[1-9][0-9]*)(\.[0-9]+)?$`. -/
def matchNumberRe : List Char → Bool
  | [] => false
  | ch :: cs =>
    if ch = '0' then matchFraction cs
    else if '1' ≤ ch && ch ≤ '9' then matchFraction (cs.dropWhile isdigit)
    else false

/-- `std::regex_match` with `id_re`, `^[A-Za-z]+$`. -/
def matchIdRe (s : List Char) : Bool :=
  !s.isEmpty && s.all isalpha

/-- `Tokenizer::getType`. -/
def getType (val : String) : TokenType :=
  if val = "#" then TokenType.EndOfFile
  else
    match kTokenMap.lookup val with
    | some type => type
    | none =>
      if matchNumberRe val.data then TokenType.Number
      else if matchIdRe val.data then TokenType.ID
      else TokenType.Error

/-- The loop of `Tokenizer::skipWhitespace`, over the unread input; returns the
new value of `index_`. -/
def skipWhitespaceLoop : List Char → Nat → Nat
  | [], index => index
  | ch :: rest, index =>
    if isspace ch then skipWhitespaceLoop rest (index + 1) else index

/-- `Tokenizer::skipWhitespace`. -/
def skipWhitespace (t : Tokenizer) : Tokenizer :=
  { t with index_ := skipWhitespaceLoop (t.input_.drop t.index_) t.index_ }

/-- `Tokenizer::isSingleCharToken`. -/
def isSingleCharToken (ch : Char) : Bool :=
  ch = '+' || ch = '-' || ch = '*' || ch = '/' ||
  ch = '^' || ch = '(' || ch = ')' || ch = '.'

/-- `Tokenizer::readSingleCharToken`, called with `ch = input_[index_]`.  The
lookup `kTokenMap.at` finds every character accepted by `isSingleCharToken`;
the model returns `Error` for a missing key. -/
def readSingleCharToken (t : Tokenizer) (ch : Char) : Token × Tokenizer :=
  let token_str := String.singleton ch
  (⟨(kTokenMap.lookup token_str).getD TokenType.Error, token_str⟩,
   { t with index_ := t.index_ + 1 })

/-- The loop of `Tokenizer::readIdentifierOrKeyword`, over the unread input. -/
def readWordLoop : List Char → Nat → Nat
  | [], index => index
  | ch :: rest, index =>
    if isalpha ch then readWordLoop rest (index + 1) else index

/-- `input_.substr(start, index - start)`. -/
def substr (input : List Char) (start index : Nat) : String :=
  String.mk ((input.drop start).take (index - start))

/-- `Tokenizer::readIdentifierOrKeyword`. -/
def readIdentifierOrKeyword (t : Tokenizer) : Token × Tokenizer :=
  let start := t.index_
  let index := readWordLoop (t.input_.drop t.index_) t.index_
  let word := substr t.input_ start index
  let t := { t with index_ := index }
  if word = "lambda" then (⟨TokenType.Lambda, word⟩, t)
  else
    match kTokenMap.lookup word with
    | some type => (⟨type, word⟩, t)
    | none =>
      if word.length = 1 then (⟨TokenType.ID, word⟩, t)
      else (⟨TokenType.Error, word⟩, t)

/-- The loop of `Tokenizer::readNumber`, over the unread input, with the flag
`has_dot`. -/
def readNumberLoop : List Char → Bool → Nat → Nat
  | [], _, index => index
  | ch :: rest, has_dot, index =>
    if isdigit ch then readNumberLoop rest has_dot (index + 1)
    else if ch = '.' && !has_dot then readNumberLoop rest true (index + 1)
    else index

/-- `Tokenizer::readNumber`. -/
def readNumber (t : Tokenizer) : Token × Tokenizer :=
  let start := t.index_
  let index := readNumberLoop (t.input_.drop t.index_) false t.index_
  let num := substr t.input_ start index
  let t := { t with index_ := index }
  let type := getType num
  if type ≠ TokenType.Number then (⟨TokenType.Error, num⟩, t)
  else (⟨TokenType.Number, num⟩, t)

/-- `Tokenizer::nextToken`: the token read and the tokenizer after the call.
The test `isEnd()` is `input_[index_]?` being `none` (`Tokenizer.isEnd_eq`);
otherwise `ch` is the character `input_[index_]`. -/
def nextToken (t : Tokenizer) : Token × Tokenizer :=
  let t := t.skipWhitespace
  match t.input_[t.index_]? with
  | none => (⟨TokenType.EndOfFile, "#"⟩, t)
  | some ch =>
    if isSingleCharToken ch then readSingleCharToken t ch
    else if isalpha ch then readIdentifierOrKeyword t
    else if isdigit ch then readNumber t
    else (⟨TokenType.Error, String.singleton ch⟩, { t with index_ := t.index_ + 1 })

/-- `Tokenizer::reset`. -/
def reset (t : Tokenizer) : Tokenizer :=
  { t with index_ := 0 }

/-- The loop `while (true)` of `Tokenizer::tokenizeAll`, with fuel. -/
def tokenizeAllLoop : Nat → Tokenizer → List Token → Outcome (List Token × Tokenizer)
  | 0, _, _ => Outcome.outOfFuel
  | fuel + 1, t, tokens =>
    let (token, t) := t.nextToken
    if token.type = TokenType.Error then
      Outcome.thrown (ParserException.SyntaxError ("Unrecognized token: " ++ token.value))
    else
      let tokens := tokens ++ [token]
      if token.type = TokenType.EndOfFile then Outcome.ok (tokens, t)
      else tokenizeAllLoop fuel t tokens

/-- `Tokenizer::tokenizeAll`: the tokens and the tokenizer after the call.  Every
iteration but the last reads at least one character, so `input_.size() + 1`
iterations suffice. -/
def tokenizeAll (t : Tokenizer) : Outcome (List Token × Tokenizer) :=
  tokenizeAllLoop (t.input_.length + 1) t.reset []

end Tokenizer


/-! ## Parser (`parser.h`, `parser.cpp`) -/

/-- The class `Parser`: the token vector and the cursor. -/
structure Parser where
  tokens_ : List Token
  current_index_ : Nat
  deriving DecidableEq

/-- A member function of `Parser` that may move the cursor and may throw. -/
def ParserM (α : Type) : Type :=
  Parser → Outcome (α × Parser)

namespace ParserM

/-- Return a value, leaving the parser as it is. -/
def pure {α : Type} (a : α) : ParserM α :=
  fun p => Outcome.ok (a, p)

/-- Sequencing: run `x`, then `f` on its value from the parser state it left. -/
def bind {α β : Type} (x : ParserM α) (f : α → ParserM β) : ParserM β :=
  fun p => (x p).bind (fun r => f r.1 r.2)

/-- The statement `throw e`. -/
def throw {α : Type} (e : ParserException) : ParserM α :=
  fun _ => Outcome.thrown e

/-- Value of a `const` member function at the current state. -/
def get {α : Type} (f : Parser → α) : ParserM α :=
  fun p => Outcome.ok (f p, p)

instance : Monad ParserM where
  pure := ParserM.pure
  bind := ParserM.bind

end ParserM

namespace Parser

/-- The static token `eofToken` of `peek` (and `dummy` of `previous`). -/
def eofToken : Token :=
  ⟨TokenType.EndOfFile, "#"⟩

/-- The constructor `Parser::Parser`. -/
def new (input : String) : Outcome Parser :=
  (Tokenizer.new input).tokenizeAll.bind fun r =>
    let tokens := r.1
    if tokens.isEmpty then Outcome.thrown ParserException.EmptyInputError
    else if (tokens.getLast?.map Token.type) ≠ some TokenType.EndOfFile then
      Outcome.ok { tokens_ := tokens ++ [⟨TokenType.EndOfFile, "#"⟩], current_index_ := 0 }
    else Outcome.ok { tokens_ := tokens, current_index_ := 0 }

/-- `Parser::peek`. -/
def peek (p : Parser) : Token :=
  if p.current_index_ < p.tokens_.length then p.tokens_.getD p.current_index_ eofToken
  else eofToken

/-- `Parser::previous`.  The cursor never exceeds `tokens_.size()`, so the
unchecked access `tokens_[current_index_ - 1]` is in range. -/
def previous (p : Parser) : Token :=
  if p.current_index_ = 0 then eofToken
  else p.tokens_.getD (p.current_index_ - 1) eofToken

/-- `Parser::isAtEnd`. -/
def isAtEnd (p : Parser) : Bool :=
  p.peek.type = TokenType.EndOfFile

/-- `Parser::advance`. -/
def advance : ParserM Token :=
  fun p =>
    let p1 := if !p.isAtEnd then { p with current_index_ := p.current_index_ + 1 } else p
    Outcome.ok (p1.previous, p1)

/-- `Parser::check`. -/
def check (type : TokenType) (p : Parser) : Bool :=
  if p.isAtEnd then false else p.peek.type = type

/-- `Parser::match`. -/
def match_ (type : TokenType) : ParserM Bool := do
  if (← ParserM.get (check type)) then
    let _ ← advance
    return true
  return false

/-- `Parser::matchBinaryOperator`. -/
def matchBinaryOperator (operators : List String) : ParserM Bool := do
  if !(← ParserM.get (check TokenType.BinaryOperator)) then
    return false
  let value := (← ParserM.get peek).value
  if value ∉ operators then
    return false
  let _ ← advance
  return true

/-- `Parser::consume`. -/
def consume (type : TokenType) (message : String) : ParserM Token := do
  if (← ParserM.get (check type)) then
    advance
  else
    ParserM.throw (ParserException.UnexpectedTokenError message (← ParserM.get peek).value)

/-- `Parser::makeBinaryNode`. -/
def makeBinaryNode (op : Token) (left right : NodePtr) : ParserM NodePtr :=
  if left = NodePtr.null ∨ right = NodePtr.null then
    ParserM.throw (ParserException.ParserException ("Binary operator missing operand: " ++ op.value))
  else pure (AST.createNode op left right)

/-- `Parser::makeUnaryNode`. -/
def makeUnaryNode (op : Token) (child : NodePtr) : ParserM NodePtr :=
  if child = NodePtr.null then
    ParserM.throw (ParserException.ParserException ("Unary operator missing operand: " ++ op.value))
  else pure (AST.createNode op child NodePtr.null)

mutual

/-- `Parser::parseExpression`. -/
def parseExpression : Nat → ParserM NodePtr
  | 0 => fun _ => Outcome.outOfFuel
  | fuel + 1 => parseAddition fuel

/-- `Parser::parseAddition`. -/
def parseAddition : Nat → ParserM NodePtr
  | 0 => fun _ => Outcome.outOfFuel
  | fuel + 1 => do
    let node ← parseMultiplication fuel
    parseAdditionLoop fuel node

/-- The `while` loop of `Parser::parseAddition`, from the value of `node`. -/
def parseAdditionLoop : Nat → NodePtr → ParserM NodePtr
  | 0, _ => fun _ => Outcome.outOfFuel
  | fuel + 1, node => do
    if (← matchBinaryOperator ["+", "-"]) then
      let op ← ParserM.get previous
      let right ← parseMultiplication fuel
      let node ← makeBinaryNode op node right
      parseAdditionLoop fuel node
    else
      return node

/-- `Parser::parseMultiplication`. -/
def parseMultiplication : Nat → ParserM NodePtr
  | 0 => fun _ => Outcome.outOfFuel
  | fuel + 1 => do
    let node ← parseExponentiation fuel
    parseMultiplicationLoop fuel node

/-- The `while` loop of `Parser::parseMultiplication`, from the value of `node`. -/
def parseMultiplicationLoop : Nat → NodePtr → ParserM NodePtr
  | 0, _ => fun _ => Outcome.outOfFuel
  | fuel + 1, node => do
    if (← matchBinaryOperator ["*", "/"]) then
      let op ← ParserM.get previous
      let right ← parseExponentiation fuel
      let node ← makeBinaryNode op node right
      parseMultiplicationLoop fuel node
    else
      return node

/-- `Parser::parseExponentiation`. -/
def parseExponentiation : Nat → ParserM NodePtr
  | 0 => fun _ => Outcome.outOfFuel
  | fuel + 1 => do
    let node ← parseUnary fuel
    if (← matchBinaryOperator ["^"]) then
      let op ← ParserM.get previous
      let right ← parseExponentiation fuel
      makeBinaryNode op node right
    else
      return node

/-- `Parser::parseUnary`. -/
def parseUnary : Nat → ParserM NodePtr
  | 0 => fun _ => Outcome.outOfFuel
  | fuel + 1 => do
    if (← ParserM.get (check TokenType.UnaryOperator)) then
      let op ← advance
      let _ ← consume TokenType.OpenScope "'(' after unary operator"
      let operand ← parseExpression fuel
      let _ ← consume TokenType.CloseScope "')' after unary operator"
      makeUnaryNode op operand
    else if (← ParserM.get (check TokenType.BinaryOperator))
        && ((← ParserM.get peek).value = "-" || (← ParserM.get peek).value = "+") then
      let op ← advance
      let operand ← parseUnary fuel
      let zero_node := AST.createLeaf ⟨TokenType.Number, "0"⟩
      makeBinaryNode op zero_node operand
    else if (← match_ TokenType.Lambda) then
      let lambda_token ← ParserM.get previous
      let identifier ← consume TokenType.ID "identifier after lambda"
      let _ ← consume TokenType.Dot "'.' after lambda parameter"
      let body ← parseExpression fuel
      let parameter_node := AST.createLeaf identifier
      let lambda_node := AST.createNode lambda_token parameter_node body
      return lambda_node
    else
      parsePrimary fuel

/-- `Parser::parsePrimary`.  The condition `match(Number) || match(ID)` is
short-circuit: `match(ID)` runs only when `match(Number)` returned false. -/
def parsePrimary : Nat → ParserM NodePtr
  | 0 => fun _ => Outcome.outOfFuel
  | fuel + 1 => do
    if (← match_ TokenType.Number) then
      return AST.createLeaf (← ParserM.get previous)
    else if (← match_ TokenType.ID) then
      return AST.createLeaf (← ParserM.get previous)
    else if (← match_ TokenType.OpenScope) then
      let expr ← parseExpression fuel
      let _ ← consume TokenType.CloseScope "closing parenthesis"
      return expr
    else
      ParserM.throw (ParserException.SyntaxError ("Unexpected token: " ++ (← ParserM.get peek).value))

end

/-- Fuel that `buildAST` gives to `parseExpression`. -/
def fuelFor (p : Parser) : Nat :=
  8 * p.tokens_.length + 8

/-- `Parser::buildAST`; the returned `AST` is its root (`AST::setRoot` only
clears the parent link of the root). -/
def buildAST (p : Parser) : Outcome NodePtr :=
  let p := { p with current_index_ := 0 }
  (parseExpression (fuelFor p) p).bind fun r =>
    let root := r.1
    let p := r.2
    if !p.isAtEnd then
      Outcome.thrown (ParserException.UnprocessedTokensError p.peek.value)
    else Outcome.ok root

end Parser

/-- The two statements `Parser parser(input); parser.buildAST();`. -/
def parse (input : String) : Outcome NodePtr :=
  (Parser.new input).bind fun p => p.buildAST

namespace Parser

/-- The parser with the cursor moved one token forward. -/
def next (p : Parser) : Parser :=
  { p with current_index_ := p.current_index_ + 1 }

/-- The condition of `matchBinaryOperator`: the current token is a binary
operator whose text is in `operators`. -/
def isOp (operators : List String) (p : Parser) : Bool :=
  check TokenType.BinaryOperator p && decide (p.peek.value ∈ operators)

/-- The condition of the prefix-sign branch of `parseUnary`. -/
def isSign (p : Parser) : Bool :=
  check TokenType.BinaryOperator p && (p.peek.value = "-" || p.peek.value = "+")

end Parser

/-! ## Successful scans of the lexer, without fuel -/

/-- `Lex s ts`: scanning the unread input `s` with `nextToken` until the
end-of-file token, without meeting an `Error` token, yields the tokens `ts`. -/
inductive Lex : List Char → List Token → Prop
  | eof {s : List Char} :
    (Tokenizer.nextToken ⟨s, 0⟩).1.type = TokenType.EndOfFile →
    Lex s [(Tokenizer.nextToken ⟨s, 0⟩).1]
  | token {s : List Char} {ts : List Token} :
    (Tokenizer.nextToken ⟨s, 0⟩).1.type ≠ TokenType.EndOfFile →
    (Tokenizer.nextToken ⟨s, 0⟩).1.type ≠ TokenType.Error →
    Lex (s.drop (Tokenizer.nextToken ⟨s, 0⟩).2.index_) ts →
    Lex s ((Tokenizer.nextToken ⟨s, 0⟩).1 :: ts)

/-- The character after a lexeme does not continue a word or a number. -/
def Tokenizer.isSeparator (r : List Char) : Prop :=
  ∀ c, r.head? = some c → isalpha c = false ∧ isdigit c = false ∧ c ≠ '.'

/-! ## Atoms -/

/-- A number literal: a string that `number_re` matches. -/
def isNumberLiteral (x : String) : Bool :=
  Tokenizer.matchNumberRe x.data

/-- A single-letter identifier. -/
def isLetter (x : String) : Bool :=
  match x.data with
  | [c] => Tokenizer.isalpha c
  | _ => false

/-- An atom: a number literal or a single-letter identifier. -/
def isAtom (x : String) : Bool :=
  isNumberLiteral x || isLetter x

/-- The token of an atom. -/
def atomToken (x : String) : Token :=
  ⟨if isLetter x then TokenType.ID else TokenType.Number, x⟩

/-- The tokens of `x o1 y o2 z`. -/
def infixTokens (x o1 y o2 z : String) : List Token :=
  [atomToken x, ⟨TokenType.BinaryOperator, o1⟩, atomToken y, ⟨TokenType.BinaryOperator, o2⟩,
    atomToken z, ⟨TokenType.EndOfFile, "#"⟩]

/-! ## Successful runs of the parser, without fuel -/

/-- The parsing functions of `Parser`; the loops carry the value of `node`
on entry. -/
inductive Level
  | expression
  | addition
  | additionLoop (node : NodePtr)
  | multiplication
  | multiplicationLoop (node : NodePtr)
  | exponentiation
  | unary
  | primary

/-- The parsing function of a level, with its fuel. -/
def Parser.parseAt : Level → Nat → Parser → Outcome (NodePtr × Parser)
  | Level.expression, fuel => Parser.parseExpression fuel
  | Level.addition, fuel => Parser.parseAddition fuel
  | Level.additionLoop node, fuel => Parser.parseAdditionLoop fuel node
  | Level.multiplication, fuel => Parser.parseMultiplication fuel
  | Level.multiplicationLoop node, fuel => Parser.parseMultiplicationLoop fuel node
  | Level.exponentiation, fuel => Parser.parseExponentiation fuel
  | Level.unary, fuel => Parser.parseUnary fuel
  | Level.primary, fuel => Parser.parsePrimary fuel

/-- Whether a level is one of the two loops. -/
def Level.isLoop : Level → Bool
  | Level.additionLoop _ => true
  | Level.multiplicationLoop _ => true
  | _ => false

/-- The node a loop starts from is not null (no condition on the other levels). -/
def Level.entryOK : Level → Prop
  | Level.additionLoop node => node ≠ NodePtr.null
  | Level.multiplicationLoop node => node ≠ NodePtr.null
  | _ => True

/-- The node a loop starts from (null for the other levels). -/
def Level.entry : Level → NodePtr
  | Level.additionLoop node => node
  | Level.multiplicationLoop node => node
  | _ => NodePtr.null

/-- Rank of a level in the call order of the parsing functions. -/
def Level.rank : Level → Nat
  | Level.expression => 6
  | Level.addition => 5
  | Level.additionLoop _ => 1
  | Level.multiplication => 4
  | Level.multiplicationLoop _ => 1
  | Level.exponentiation => 3
  | Level.unary => 2
  | Level.primary => 1

/-- `Run l p t q`: started in state `p`, the parsing function of level `l`
returns the tree `t` and leaves the parser in state `q`.  One rule for each
path through the code that returns normally. -/
inductive Run : Level → Parser → NodePtr → Parser → Prop
  | expression {p q : Parser} {t : NodePtr} :
    Run Level.addition p t q → Run Level.expression p t q
  | addition {p q q1 : Parser} {node t : NodePtr} :
    Run Level.multiplication p node q → Run (Level.additionLoop node) q t q1 →
    Run Level.addition p t q1
  | additionExit {p : Parser} {node : NodePtr} :
    Parser.isOp ["+", "-"] p = false → Run (Level.additionLoop node) p node p
  | additionStep {p q q1 : Parser} {node right t : NodePtr} :
    Parser.isOp ["+", "-"] p = true → Run Level.multiplication p.next right q →
    node ≠ NodePtr.null → right ≠ NodePtr.null →
    Run (Level.additionLoop (NodePtr.node p.peek node right)) q t q1 →
    Run (Level.additionLoop node) p t q1
  | multiplication {p q q1 : Parser} {node t : NodePtr} :
    Run Level.exponentiation p node q → Run (Level.multiplicationLoop node) q t q1 →
    Run Level.multiplication p t q1
  | multiplicationExit {p : Parser} {node : NodePtr} :
    Parser.isOp ["*", "/"] p = false → Run (Level.multiplicationLoop node) p node p
  | multiplicationStep {p q q1 : Parser} {node right t : NodePtr} :
    Parser.isOp ["*", "/"] p = true → Run Level.exponentiation p.next right q →
    node ≠ NodePtr.null → right ≠ NodePtr.null →
    Run (Level.multiplicationLoop (NodePtr.node p.peek node right)) q t q1 →
    Run (Level.multiplicationLoop node) p t q1
  | exponentiationSingle {p q : Parser} {node : NodePtr} :
    Run Level.unary p node q → Parser.isOp ["^"] q = false →
    Run Level.exponentiation p node q
  | exponentiationPower {p q q1 : Parser} {node right : NodePtr} :
    Run Level.unary p node q → Parser.isOp ["^"] q = true →
    Run Level.exponentiation q.next right q1 →
    node ≠ NodePtr.null → right ≠ NodePtr.null →
    Run Level.exponentiation p (NodePtr.node q.peek node right) q1
  | unaryCall {p q : Parser} {operand : NodePtr} :
    Parser.check TokenType.UnaryOperator p = true →
    Parser.check TokenType.OpenScope p.next = true →
    Run Level.expression p.next.next operand q →
    Parser.check TokenType.CloseScope q = true → operand ≠ NodePtr.null →
    Run Level.unary p (NodePtr.node p.peek operand NodePtr.null) q.next
  | unarySign {p q : Parser} {operand : NodePtr} :
    Parser.check TokenType.UnaryOperator p = false → Parser.isSign p = true →
    Run Level.unary p.next operand q → operand ≠ NodePtr.null →
    Run Level.unary p
      (NodePtr.node p.peek (AST.createLeaf ⟨TokenType.Number, "0"⟩) operand) q
  | unaryLambda {p q : Parser} {body : NodePtr} :
    Parser.check TokenType.UnaryOperator p = false → Parser.isSign p = false →
    Parser.check TokenType.Lambda p = true → Parser.check TokenType.ID p.next = true →
    Parser.check TokenType.Dot p.next.next = true →
    Run Level.expression p.next.next.next body q →
    Run Level.unary p (NodePtr.node p.peek (AST.createLeaf p.next.peek) body) q
  | unaryPrimary {p q : Parser} {t : NodePtr} :
    Parser.check TokenType.UnaryOperator p = false → Parser.isSign p = false →
    Parser.check TokenType.Lambda p = false → Run Level.primary p t q →
    Run Level.unary p t q
  | primaryNumber {p : Parser} :
    Parser.check TokenType.Number p = true →
    Run Level.primary p (AST.createLeaf p.peek) p.next
  | primaryID {p : Parser} :
    Parser.check TokenType.Number p = false → Parser.check TokenType.ID p = true →
    Run Level.primary p (AST.createLeaf p.peek) p.next
  | primaryParen {p q : Parser} {expr : NodePtr} :
    Parser.check TokenType.Number p = false → Parser.check TokenType.ID p = false →
    Parser.check TokenType.OpenScope p = true → Run Level.expression p.next expr q →
    Parser.check TokenType.CloseScope q = true →
    Run Level.primary p expr q.next

/-- The parser with the cursor moved `k` tokens forward. -/
def Parser.shift (p : Parser) (k : Nat) : Parser :=
  { p with current_index_ := p.current_index_ + k }

/-- `Agree p p1 d`: the next `d` tokens of `p1` are those of `p`, and the token
after them is the same as in `p` or is not a binary operator. -/
def Parser.Agree (p p1 : Parser) (d : Nat) : Prop :=
  (∀ k, k < d → (p1.shift k).peek = (p.shift k).peek) ∧
  ((p1.shift d).peek = (p.shift d).peek ∨
    (p1.shift d).peek.type ≠ TokenType.BinaryOperator)

/-- The token at position `k` of the token vector (`eofToken` outside it). -/
def Parser.tokenAt (p : Parser) (k : Nat) : Token :=
  p.tokens_.getD k eofToken

/-- The unary function names of `kTokenMap`. -/
def Tokenizer.unaryNames : List String :=
  (kTokenMap.filter fun entry => entry.2 = TokenType.UnaryOperator).map Prod.fst

/-- The statement `Parser parser(input);` followed by a call of `parseUnary`
(the grammar level of an operand) at the first token. -/
def parseOperand (input : String) : Outcome (NodePtr × Parser) :=
  (Parser.new input).bind fun p => Parser.parseUnary (Parser.fuelFor p) p

/-! ## The data model and the reference rendering of the specification -/

/-- The shape invariants of the data model, at every node: a `Number` or `ID`
node has no children, a `UnaryOperator` node has a left child only, a
`BinaryOperator` node has both children, a `Lambda` node has an `ID` leaf on the
left and a body on the right, and no other token kind occurs. -/
def ShapeOK : NodePtr → Bool
  | NodePtr.null => true
  | NodePtr.node token left right =>
    (match token.type with
      | TokenType.Number => left = NodePtr.null && right = NodePtr.null
      | TokenType.ID => left = NodePtr.null && right = NodePtr.null
      | TokenType.UnaryOperator => left ≠ NodePtr.null && right = NodePtr.null
      | TokenType.BinaryOperator => left ≠ NodePtr.null && right ≠ NodePtr.null
      | TokenType.Lambda =>
        (match left with
          | NodePtr.node t NodePtr.null NodePtr.null => t.type = TokenType.ID
          | _ => false) && right ≠ NodePtr.null
      | _ => false)
    && ShapeOK left && ShapeOK right

/-- Every `BinaryOperator` node of the tree carries one of the five arithmetic
symbols of the lexer. -/
def OperatorsKnown : NodePtr → Bool
  | NodePtr.null => true
  | NodePtr.node token left right =>
    (token.type ≠ TokenType.BinaryOperator || token.value ∈ ["+", "-", "*", "/", "^"])
    && OperatorsKnown left && OperatorsKnown right

/-- Text of the parameter leaf of a `Lambda` node. -/
def parameterText : NodePtr → String
  | NodePtr.null => ""
  | NodePtr.node token _ _ => token.value

/-- Reference rendering, written from the specification of the canonical form:
leaves render as their text, `f(child)` for a unary function, `op(left,right)`
for `-`, `/`, `^`, the same with the smaller operand string first for `+` and
`*`, `lambda(param.body)` for a lambda, and the empty string for an absent node.
Where the specification is silent the result is the empty string. -/
def referenceRendering : NodePtr → String
  | NodePtr.null => ""
  | NodePtr.node token left right =>
    match token.type with
    | TokenType.Number => token.value
    | TokenType.ID => token.value
    | TokenType.UnaryOperator => token.value ++ "(" ++ referenceRendering left ++ ")"
    | TokenType.BinaryOperator =>
      let a := referenceRendering left
      let b := referenceRendering right
      if token.value ∈ ["-", "/", "^"] then
        token.value ++ "(" ++ a ++ "," ++ b ++ ")"
      else if token.value ∈ ["+", "*"] then
        if a.data ≤ b.data then token.value ++ "(" ++ a ++ "," ++ b ++ ")"
        else token.value ++ "(" ++ b ++ "," ++ a ++ ")"
      else ""
    | TokenType.Lambda =>
      "lambda(" ++ parameterText left ++ "." ++ referenceRendering right ++ ")"
    | _ => ""

/-! ## The exceptions of the parsing functions -/

/-- The exception classes constructed by the parsing functions of `Parser`:
`SyntaxError` (in `parsePrimary`), `UnexpectedTokenError` (in `consume`) and the
base class `ParserException` (in `makeBinaryNode` and `makeUnaryNode`). -/
def isGrammarError : ParserException → Bool
  | ParserException.SyntaxError _ => true
  | ParserException.UnexpectedTokenError _ _ => true
  | ParserException.ParserException _ => true
  | _ => false

/-- The tokenizer after `n` calls of `nextToken`. -/
def Tokenizer.afterCalls : Nat → Tokenizer → Tokenizer
  | 0, t => t
  | n + 1, t => afterCalls n t.nextToken.2

/-! ## Node references, traversals and measures (`ast.cpp`, `subtree_utils.cpp`) -/

/-- A non-null `AST::NodePtr` held by a client of a tree: the node pointed to
(as a value, with its subtree) together with the identity of the node, which is
its position in the tree.  The position is the list of turns that lead from the
node up to the root (`false` for a left child, `true` for a right child), so the
root has the position `[]` and the parent of a node has the tail of its
position. -/
structure NodeRef where
  path : List Bool
  node : NodePtr
  deriving DecidableEq

/-- The child of a node on the given side (null for the null pointer). -/
def NodePtr.child : NodePtr → Bool → NodePtr
  | NodePtr.null, _ => NodePtr.null
  | NodePtr.node _ left _, false => left
  | NodePtr.node _ _ right, true => right

/-- The node at a position of the tree with the given root (null when the
position leaves the tree). -/
def NodePtr.nodeAt (root : NodePtr) : List Bool → NodePtr
  | [] => root
  | turn :: path => (nodeAt root path).child turn

/-- A reference into a child subtree, seen from the tree of the parent: the
turn from the parent to the child is added at the root end of the position. -/
def NodeRef.under (turn : Bool) (r : NodeRef) : NodeRef :=
  ⟨r.path ++ [turn], r.node⟩

/-- The class `AST`: the root pointer. -/
structure AST where
  root_ : NodePtr
  deriving DecidableEq

namespace AST

/-- `AST::getRoot`. -/
def getRoot (ast : AST) : NodePtr :=
  ast.root_

/-- `AST::empty`. -/
def empty (ast : AST) : Bool :=
  ast.root_ = NodePtr.null

/-- `AST::LCRTraversalRec`; `path` is the position of `node`. -/
def LCRTraversalRec : NodePtr → List Bool → List NodeRef → List NodeRef
  | NodePtr.null, _, out => out
  | NodePtr.node token left right, path, out =>
    let out := LCRTraversalRec left (false :: path) out
    let out := out ++ [⟨path, NodePtr.node token left right⟩]
    LCRTraversalRec right (true :: path) out

/-- `AST::LRCTraversalRec`; `path` is the position of `node`. -/
def LRCTraversalRec : NodePtr → List Bool → List NodeRef → List NodeRef
  | NodePtr.null, _, out => out
  | NodePtr.node token left right, path, out =>
    let out := LRCTraversalRec left (false :: path) out
    let out := LRCTraversalRec right (true :: path) out
    out ++ [⟨path, NodePtr.node token left right⟩]

/-- `AST::CRLTraversalRec`; `path` is the position of `node`. -/
def CRLTraversalRec : NodePtr → List Bool → List NodeRef → List NodeRef
  | NodePtr.null, _, out => out
  | NodePtr.node token left right, path, out =>
    let out := out ++ [⟨path, NodePtr.node token left right⟩]
    let out := CRLTraversalRec left (false :: path) out
    CRLTraversalRec right (true :: path) out

/-- `AST::LCRTraversal`. -/
def LCRTraversal (ast : AST) : List NodeRef :=
  let out : List NodeRef := []
  if ast.root_ = NodePtr.null then out
  else LCRTraversalRec ast.root_ [] out

/-- `AST::LRCTraversal`. -/
def LRCTraversal (ast : AST) : List NodeRef :=
  let out : List NodeRef := []
  if ast.root_ = NodePtr.null then out
  else LRCTraversalRec ast.root_ [] out

/-- `AST::CRLTraversal`. -/
def CRLTraversal (ast : AST) : List NodeRef :=
  let out : List NodeRef := []
  if ast.root_ = NodePtr.null then out
  else CRLTraversalRec ast.root_ [] out

/-- The private overload `AST::height(const NodePtr&)`. -/
def heightRec : NodePtr → Nat
  | NodePtr.null => 0
  | NodePtr.node _ left right => 1 + max (heightRec left) (heightRec right)

/-- `AST::height()`. -/
def height (ast : AST) : Nat :=
  heightRec ast.root_

end AST

namespace util

/-- `util::Height`. -/
def Height : NodePtr → Nat
  | NodePtr.null => 0
  | NodePtr.node _ left right => 1 + max (Height left) (Height right)

/-- `util::NodeCount`. -/
def NodeCount : NodePtr → Nat
  | NodePtr.null => 0
  | NodePtr.node _ left right => 1 + NodeCount left + NodeCount right

/-- `util::CollectNodesPreOrder`; `path` is the position of `node`. -/
def CollectNodesPreOrder : NodePtr → List Bool → List NodeRef → List NodeRef
  | NodePtr.null, _, out => out
  | NodePtr.node token left right, path, out =>
    let out := out ++ [⟨path, NodePtr.node token left right⟩]
    let out := CollectNodesPreOrder left (false :: path) out
    CollectNodesPreOrder right (true :: path) out

end util

/-- In-order sequence of the node references of a tree, written from the
specification: `LCR(left) ++ [node] ++ LCR(right)`, empty for the empty tree. -/
def inOrder : NodePtr → List NodeRef
  | NodePtr.null => []
  | NodePtr.node token left right =>
    (inOrder left).map (NodeRef.under false) ++ [⟨[], NodePtr.node token left right⟩]
      ++ (inOrder right).map (NodeRef.under true)

/-- Post-order sequence, written from the specification:
`LRC(left) ++ LRC(right) ++ [node]`, empty for the empty tree. -/
def postOrder : NodePtr → List NodeRef
  | NodePtr.null => []
  | NodePtr.node token left right =>
    (postOrder left).map (NodeRef.under false) ++ (postOrder right).map (NodeRef.under true)
      ++ [⟨[], NodePtr.node token left right⟩]

/-- Pre-order sequence, written from the specification:
`[node] ++ CRL(left) ++ CRL(right)`, empty for the empty tree. -/
def preOrder : NodePtr → List NodeRef
  | NodePtr.null => []
  | NodePtr.node token left right =>
    [⟨[], NodePtr.node token left right⟩] ++ (preOrder left).map (NodeRef.under false)
      ++ (preOrder right).map (NodeRef.under true)

/-- A reference into the subtree at position `path`, seen from the whole
tree. -/
def NodeRef.below (path : List Bool) (r : NodeRef) : NodeRef :=
  ⟨r.path ++ path, r.node⟩

/-- A reference that points to a node of the tree with the given root. -/
def NodeRef.isNodeOf (r : NodeRef) (root : NodePtr) : Prop :=
  r.node ≠ NodePtr.null ∧ root.nodeAt r.path = r.node

/-! ## Closed subtrees (`subtree_utils.cpp`) -/

namespace util

/-- `util::IsClosedSubtree(node, bound_identifiers)`.  The set of bound
identifiers is a list (`insert` is `::`, `find(..) != end()` is membership). -/
def IsClosedSubtree : NodePtr → List String → Bool
  | NodePtr.null, _ => true
  | NodePtr.node token left right, bound_identifiers =>
    match token.type with
    | TokenType.Number => true
    | TokenType.ID => decide (token.value ∈ bound_identifiers)
    | TokenType.UnaryOperator => IsClosedSubtree left bound_identifiers
    | TokenType.BinaryOperator =>
      let left_bound := bound_identifiers
      let left_closed := IsClosedSubtree left left_bound
      let right_closed := IsClosedSubtree right bound_identifiers
      left_closed && right_closed
    | TokenType.Lambda =>
      let bound_identifiers :=
        match left with
        | NodePtr.node left_token _ _ =>
          if left_token.type = TokenType.ID then left_token.value :: bound_identifiers
          else bound_identifiers
        | NodePtr.null => bound_identifiers
      let _ :=
        match left with
        | NodePtr.node _ _ _ => IsClosedSubtree left bound_identifiers
        | NodePtr.null => true
      IsClosedSubtree right bound_identifiers
    | _ => false

/-- The overload `util::IsClosedSubtree(node)`. -/
def IsClosedSubtreeRoot (node : NodePtr) : Bool :=
  IsClosedSubtree node []

end util

/-- Free variables of a tree, written from the specification: the names of the
`ID` occurrences other than parameter leaves that do not lie in the body of a
`Lambda` of the tree whose parameter has that name. -/
def freeVariables : NodePtr → List String
  | NodePtr.null => []
  | NodePtr.node token left right =>
    match token.type with
    | TokenType.Number => []
    | TokenType.ID => [token.value]
    | TokenType.UnaryOperator => freeVariables left
    | TokenType.BinaryOperator => freeVariables left ++ freeVariables right
    | TokenType.Lambda => (freeVariables right).filter fun x => x ≠ parameterText left
    | _ => []

/-! ## Maximal closed subtrees (`msp_checker.cpp`) -/

/-- `EvaluateClosed` of the anonymous namespace; `path` is the position of
`node`.  The map `memo` from node identities to truth values is an association
list whose first entry for a key is the current one (`memo[k] = v` puts an entry
in front).  Returns the truth value and the map after the call. -/
def EvaluateClosed :
    NodePtr → List Bool → List String → List (List Bool × Bool) → Bool × List (List Bool × Bool)
  | NodePtr.null, _, _, memo => (true, memo)
  | NodePtr.node token left right, path, bound, memo =>
    match memo.lookup path with
    | some value => (value, memo)
    | none =>
      let r : Bool × List (List Bool × Bool) :=
        match token.type with
        | TokenType.Number => (true, memo)
        | TokenType.ID => (decide (token.value ∈ bound), memo)
        | TokenType.UnaryOperator => EvaluateClosed left (false :: path) bound memo
        | TokenType.BinaryOperator =>
          let left_bound := bound
          let left_closed := EvaluateClosed left (false :: path) left_bound memo
          let right_closed := EvaluateClosed right (true :: path) bound left_closed.2
          (left_closed.1 && right_closed.1, right_closed.2)
        | TokenType.Lambda =>
          let s : List String × List (List Bool × Bool) :=
            match left with
            | NodePtr.node left_token _ _ =>
              if left_token.type = TokenType.ID then
                (left_token.value :: bound, (false :: path, true) :: memo)
              else (bound, memo)
            | NodePtr.null => (bound, memo)
          EvaluateClosed right (true :: path) s.1 s.2
        | _ => (false, memo)
      (r.1, (path, r.1) :: r.2)

namespace MSPChecker

/-- The body of the loop of `MSPChecker::FindMaximallyClosed` for one node of
the traversal; the parent of a node stands at the tail of its position, and the
root has no parent. -/
def visit (closed_memo : List (List Bool × Bool)) (result : List NodeRef) (node : NodeRef) :
    List NodeRef :=
  match closed_memo.lookup node.path with
  | none => result
  | some false => result
  | some true =>
    match node.path with
    | [] => result ++ [node]
    | _ :: parent =>
      match closed_memo.lookup parent with
      | some true => result
      | _ => result ++ [node]

/-- `MSPChecker::FindMaximallyClosed`. -/
def FindMaximallyClosed (ast : AST) : List NodeRef :=
  let result : List NodeRef := []
  let root := ast.getRoot
  if root = NodePtr.null then result
  else
    let closed_memo := (EvaluateClosed root [] [] []).2
    let traversal := util.CollectNodesPreOrder root [] []
    traversal.foldl (visit closed_memo) result

end MSPChecker

/-- The bound set that a node passes to its children, written from the
specification: a `Lambda` adds its parameter. -/
def lambdaBinding : NodePtr → List String → List String
  | NodePtr.null, bound => bound
  | NodePtr.node token left _, bound =>
    if token.type = TokenType.Lambda then parameterText left :: bound else bound

/-- The bindings of the enclosing lambdas of the node at a position below
`node`, when `bound` is bound at `node`. -/
def bindingsAt (node : NodePtr) (bound : List String) : List Bool → List String
  | [] => bound
  | _ :: path => lambdaBinding (node.nodeAt path) (bindingsAt node bound path)

/-- The node at a position is closed under the bindings of its enclosing
lambdas. -/
def closedInContext (root : NodePtr) (path : List Bool) : Bool :=
  util.IsClosedSubtree (root.nodeAt path) (bindingsAt root [] path)

/-- The maximal closed nodes, written from the specification: the pre-order
subsequence of the nodes that are closed and whose parent is absent or not
closed. -/
def maximallyClosed (root : NodePtr) : List NodeRef :=
  (preOrder root).filter fun r =>
    closedInContext root r.path &&
      (match r.path with
        | [] => true
        | _ :: parent => !closedInContext root parent)

/-! ## Repeated subexpressions (`subexpression_finder.h`, `subexpression_finder.cpp`) -/

/-- The record `RepeatedSubexpression`. -/
structure RepeatedSubexpression where
  canonical : String
  count : Nat
  height : Nat
  node_count : Nat
  occurrences : List NodeRef
  deriving DecidableEq

/-- The record `AggregateInfo` of the anonymous namespace. -/
structure AggregateInfo where
  height : Nat
  node_count : Nat
  nodes : List NodeRef
  deriving DecidableEq

namespace SubexpressionFinder

/-- The `while` loop of `HasCoveredAncestor`, with `current` the node at the
given position: the node is looked up in `covered`, then the loop goes on with
its parent, and ends after the root.  The set `covered` of node identities is a
list of positions. -/
def HasCoveredAncestorLoop (covered : List (List Bool)) : List Bool → Bool
  | [] => decide (([] : List Bool) ∈ covered)
  | turn :: parent =>
    if (turn :: parent) ∈ covered then true else HasCoveredAncestorLoop covered parent

/-- `HasCoveredAncestor`: the loop starts at the parent of `node`, if any. -/
def HasCoveredAncestor (node : NodeRef) (covered : List (List Bool)) : Bool :=
  match node.path with
  | [] => false
  | _ :: parent => HasCoveredAncestorLoop covered parent

/-- The statements `auto& info = aggregates[canonical]; info.height = height;
info.node_count = count; info.nodes.push_back(node);` of `dfs`.  The map
`aggregates` is an association list with one entry for a key. -/
def store (canonical : String) (height count : Nat) (node : NodeRef) :
    List (String × AggregateInfo) → List (String × AggregateInfo)
  | [] => [(canonical, ⟨height, count, [node]⟩)]
  | (key, info) :: rest =>
    if key = canonical then (key, ⟨height, count, info.nodes ++ [node]⟩) :: rest
    else (key, info) :: store canonical height count node rest

/-- The lambda `dfs` of `find`; `path` is the position of `node`.  Returns the
pair of height and node count, and the map after the call. -/
def dfs : NodePtr → List Bool → List (String × AggregateInfo) →
    (Nat × Nat) × List (String × AggregateInfo)
  | NodePtr.null, _, aggregates => ((0, 0), aggregates)
  | NodePtr.node token left right, path, aggregates =>
    let l := dfs left (false :: path) aggregates
    let r := dfs right (true :: path) l.2
    let canonical := util.CanonicalForm (NodePtr.node token left right)
    let height := 1 + max l.1.1 r.1.1
    let count := 1 + l.1.2 + r.1.2
    ((height, count), store canonical height count ⟨path, NodePtr.node token left right⟩ r.2)

/-- The loop of `find` that fills `candidates` from the map. -/
def candidatesOf (aggregates : List (String × AggregateInfo)) : List RepeatedSubexpression :=
  aggregates.filterMap fun entry =>
    if entry.2.nodes.length < 2 then none
    else some
      { canonical := entry.1
        count := entry.2.nodes.length
        height := entry.2.height
        node_count := entry.2.node_count
        occurrences := entry.2.nodes }

/-- The comparator passed to `std::sort`. -/
def precedes (lhs rhs : RepeatedSubexpression) : Bool :=
  if lhs.height ≠ rhs.height then decide (lhs.height > rhs.height)
  else if lhs.count ≠ rhs.count then decide (lhs.count > rhs.count)
  else if lhs.node_count ≠ rhs.node_count then decide (lhs.node_count > rhs.node_count)
  else decide (lhs.canonical.data < rhs.canonical.data)

/-- `std::sort(candidates.begin(), candidates.end(), precedes)`: a permutation
of the candidates in which no element precedes an earlier one, computed by
insertion.  The candidates have pairwise different canonical strings, on which
the comparator is a strict total order, so this permutation is the only one. -/
def sort (candidates : List RepeatedSubexpression) : List RepeatedSubexpression :=
  candidates.insertionSort fun lhs rhs => precedes rhs lhs = false

/-- The body of the last loop of `find` for one candidate, on the pair of
`covered` and `result`. -/
def accept (state : List (List Bool) × List RepeatedSubexpression)
    (candidate : RepeatedSubexpression) : List (List Bool) × List RepeatedSubexpression :=
  let covered := state.1
  let result := state.2
  let skip := candidate.occurrences.all fun occurrence => HasCoveredAncestor occurrence covered
  if skip then (covered, result)
  else (covered ++ candidate.occurrences.map NodeRef.path, result ++ [candidate])

/-- `SubexpressionFinder::find`. -/
def find (ast : AST) : List RepeatedSubexpression :=
  let result : List RepeatedSubexpression := []
  let root := ast.getRoot
  if root = NodePtr.null then result
  else
    let aggregates := (dfs root [] []).2
    let candidates := sort (candidatesOf aggregates)
    (candidates.foldl accept ([], result)).2

end SubexpressionFinder

/-- The nodes of a tree with a given canonical form, in post-order. -/
def occurrencesOf (root : NodePtr) (canonical : String) : List NodeRef :=
  (postOrder root).filter fun r => util.CanonicalForm r.node = canonical

/-- The order of the reports, written from the specification: height
descending, then count descending, then node count descending, then canonical
string ascending. -/
def reportOrder (a b : RepeatedSubexpression) : Prop :=
  a.height > b.height ∨ (a.height = b.height ∧
    (a.count > b.count ∨ (a.count = b.count ∧
      (a.node_count > b.node_count ∨ (a.node_count = b.node_count ∧
        a.canonical < b.canonical)))))

/-- The reports do not overlap in the ancestor sense: no occurrence of a report
has a proper ancestor that is an occurrence of a report. -/
def nonOverlapping (result : List RepeatedSubexpression) : Prop :=
  ∀ r ∈ result, ∀ occurrence ∈ r.occurrences, ∀ r1 ∈ result, ∀ ancestor ∈ r1.occurrences,
    ∀ s : List Bool, occurrence.path = s ++ ancestor.path → s = []

/-- The nodes stored in the map under a key (none when the key is absent). -/
def SubexpressionFinder.bucket (aggregates : List (String × AggregateInfo)) (key : String) :
    List NodeRef :=
  match aggregates.lookup key with
  | some info => info.nodes
  | none => []

/-- The sort key of a report, ordered lexicographically; the three numbers are
compared in descending order. -/
def reportKey (a : RepeatedSubexpression) :
    ℕᵒᵈ ×ₗ ℕᵒᵈ ×ₗ ℕᵒᵈ ×ₗ String :=
  toLex (OrderDual.toDual a.height,
    toLex (OrderDual.toDual a.count, toLex (OrderDual.toDual a.node_count, a.canonical)))

/-- Every entry of the map records the height and the node count of the node
stored last. -/
def SubexpressionFinder.GoodInfo (agg : List (String × AggregateInfo)) : Prop :=
  ∀ e ∈ agg, ∃ nd, e.2.nodes.getLast? = some nd ∧ e.2.height = util.Height nd.node
    ∧ e.2.node_count = util.NodeCount nd.node

/-- The state of the last loop of `find`: `covered` holds the positions of the
occurrences of the accepted reports, and every accepted report has an
occurrence without a proper ancestor among the occurrences of the reports
accepted before it. -/
def SubexpressionFinder.Accepted (st : List (List Bool) × List RepeatedSubexpression) : Prop :=
  (∀ a, a ∈ st.1 ↔ ∃ r ∈ st.2, ∃ occurrence ∈ r.occurrences, occurrence.path = a)
  ∧ ∀ front r back, st.2 = front ++ r :: back →
      ∃ occurrence ∈ r.occurrences, ∀ r1 ∈ front, ∀ ancestor ∈ r1.occurrences,
        ∀ s : List Bool, occurrence.path = s ++ ancestor.path → s = []

/-! ## Lexemes of the specification -/

/-- The form of a number literal, written from the specification: a digit run
that is `0` or has no leading zero, optionally followed by one `.` and at least
one digit. -/
def numberForm (l : List Char) : Bool :=
  let digits := l.takeWhile Tokenizer.isdigit
  let rest := l.dropWhile Tokenizer.isdigit
  (digits = ['0'] || (!digits.isEmpty && digits.head? ≠ some '0')) &&
    (match rest with
      | [] => true
      | c :: fraction => c = '.' && !fraction.isEmpty && fraction.all Tokenizer.isdigit)

/-- The lexeme that starts at a digit, written from the specification: the
digits, and when a `.` follows them, the `.` and the digits after it. -/
def numberLexeme (s : List Char) : List Char :=
  let digits := s.takeWhile Tokenizer.isdigit
  match s.dropWhile Tokenizer.isdigit with
  | '.' :: rest => digits ++ '.' :: rest.takeWhile Tokenizer.isdigit
  | _ => digits

/-- The class of a word, written from the specification: `Lambda` for
`lambda`, `UnaryOperator` for the 13 keyword names, `ID` for a word of length
one, and `Error` (a lexing failure) for any other word. -/
def wordClass (w : String) : TokenType :=
  if w = "lambda" then TokenType.Lambda
  else if w ∈ Tokenizer.unaryNames then TokenType.UnaryOperator
  else if w.length = 1 then TokenType.ID
  else TokenType.Error

/-! ## Node objects and parent links (`ast.h`, `ast.cpp`) -/

/-- An object of the class `AST::Node` in memory: the token, the two owning
pointers `left` and `right`, and the weak pointer `parent`; a pointer is the
address of a node object or `none` (null, or an empty weak pointer). -/
structure HeapNode where
  token : Token
  left : Option Nat
  right : Option Nat
  parent : Option Nat
  deriving DecidableEq

/-- The node objects allocated so far: the next free address and the object at
every address. -/
structure Heap where
  size : Nat
  cell : Nat → Option HeapNode

namespace Heap

/-- No node object. -/
def empty : Heap :=
  ⟨0, fun _ => none⟩

/-- `std::make_shared<Node>(..)`: the address of the new object and the memory
with it. -/
def allocate (h : Heap) (n : HeapNode) : Nat × Heap :=
  (h.size, ⟨h.size + 1, fun a => if a = h.size then some n else h.cell a⟩)

/-- The assignment `node->parent = parent` (and `node->parent.reset()` with
`none`) for the object at the address `a`. -/
def assignParent (h : Heap) (a : Nat) (parent : Option Nat) : Heap :=
  ⟨h.size, fun b =>
    if b = a then (h.cell b).map fun n => { n with parent := parent } else h.cell b⟩

/-- `SetParent` of the anonymous namespace of `ast.cpp`. -/
def SetParent (h : Heap) (node parent : Option Nat) : Heap :=
  match node with
  | some a => h.assignParent a parent
  | none => h

/-- `AST::createNode`, on node objects. -/
def createNode (h : Heap) (token : Token) (left right : Option Nat) : Nat × Heap :=
  let r := h.allocate ⟨token, left, right, none⟩
  let node := r.1
  let h := r.2.SetParent left (some node)
  let h := h.SetParent right (some node)
  (node, h)

/-- `AST::createLeaf`, on node objects. -/
def createLeaf (h : Heap) (token : Token) : Nat × Heap :=
  h.allocate ⟨token, none, none, none⟩

/-- `AST::setRoot` (and the constructor `AST::AST(NodePtr)`): the parent link of
the root is cleared. -/
def setRoot (h : Heap) (root : Option Nat) : Heap :=
  match root with
  | some a => h.assignParent a none
  | none => h

/-- `node->parent.lock()` for the object at an address. -/
def parentOf (h : Heap) (a : Nat) : Option Nat :=
  (h.cell a).bind fun n => n.parent

/-- `node->left` for the object at an address. -/
def leftOf (h : Heap) (a : Nat) : Option Nat :=
  (h.cell a).bind fun n => n.left

/-- `node->right` for the object at an address. -/
def rightOf (h : Heap) (a : Nat) : Option Nat :=
  (h.cell a).bind fun n => n.right

/-- The object at `a` is the left or the right child of the object at `p`. -/
def isChildOf (h : Heap) (a p : Nat) : Prop :=
  h.leftOf p = some a ∨ h.rightOf p = some a

/-- The objects reachable from a pointer through `left` and `right` form the
given tree. -/
def Represents (h : Heap) : Option Nat → NodePtr → Prop
  | none, NodePtr.null => True
  | some a, NodePtr.node token left right =>
    ∃ n, h.cell a = some n ∧ n.token = token ∧ Represents h n.left left
      ∧ Represents h n.right right
  | _, _ => False

/-- No object beyond the next free address. -/
def WF (h : Heap) : Prop :=
  ∀ b, h.size ≤ b → h.cell b = none

/-- The memory `h1` has the objects of `h` with the same tokens and children. -/
def Extends (h h1 : Heap) : Prop :=
  ∀ b n, h.cell b = some n →
    ∃ n1, h1.cell b = some n1 ∧ n1.token = n.token ∧ n1.left = n.left ∧ n1.right = n.right

/-- The state after building a tree in the memory `h0`: the objects of `h0`
are as before, and among the new objects every one but the root has as parent
the one object it is a child of. -/
structure Built (h0 h1 : Heap) (ptr : Option Nat) (t : NodePtr) : Prop where
  size_le : h0.size ≤ h1.size
  wf : WF h1
  old : ∀ b, b < h0.size → h1.cell b = h0.cell b
  null : t = NodePtr.null → ptr = none
  root : t ≠ NodePtr.null → ∃ a, ptr = some a ∧ h0.size ≤ a ∧ a < h1.size
    ∧ h1.parentOf a = none ∧ ∀ q, h0.size ≤ q → ¬ h1.isChildOf a q
  represents : Represents h1 ptr t
  children : ∀ q c, h0.size ≤ q → h1.isChildOf c q → h0.size ≤ c ∧ c < h1.size
  parent : ∀ b, h0.size ≤ b → b < h1.size → ptr ≠ some b →
    ∃ q, h0.size ≤ q ∧ h1.parentOf b = some q ∧ h1.isChildOf b q
      ∧ ∀ q1, h0.size ≤ q1 → h1.isChildOf b q1 → q1 = q

end Heap

/-- The parameter names of the `Lambda` nodes on the path from the root to the
node at a position, that node included, written from the specification. -/
def parametersOnPath (root : NodePtr) (path : List Bool) : List String :=
  lambdaBinding (root.nodeAt path) (bindingsAt root [] path)

/-- The candidate record of a canonical form, written from the description of
`find`: the occurrences of the form in post-order and their number, with the
height and the node count of the occurrence visited last. -/
def recordOf (root : NodePtr) (canonical : String) : RepeatedSubexpression :=
  let occurrences := occurrencesOf root canonical
  let last : NodePtr :=
    match occurrences.getLast? with
    | some nd => nd.node
    | none => NodePtr.null
  ⟨canonical, occurrences.length, util.Height last, util.NodeCount last, occurrences⟩

/-- Every occurrence of the candidate has a proper ancestor among the
occurrences of the records of `result` that come before the candidate in the
order of the reports. -/
def coveredByEarlier (result : List RepeatedSubexpression) (candidate : RepeatedSubexpression) :
    Prop :=
  ∀ occurrence ∈ candidate.occurrences, ∃ r ∈ result, reportOrder r candidate
    ∧ ∃ ancestor ∈ r.occurrences, ∃ s : List Bool, s ≠ [] ∧ occurrence.path = s ++ ancestor.path

/-- The concatenation of the texts of a list of tokens, in order. -/
def concatTexts (ts : List Token) : String :=
  ts.foldl (fun text token => text ++ token.value) ""

/-! ## The pushdown automaton (`pda.h`, `pda.cpp`) -/

/-- The enumeration `NonTerminal`. -/
inductive NonTerminal
  | E
  | E_
  | T
  | T_
  | F
  deriving DecidableEq

/-- The type `StackSymbol`, a variant of `TokenType` and `NonTerminal`. -/
inductive StackSymbol
  | terminal (type : TokenType)
  | nonTerminal (symbol : NonTerminal)
  deriving DecidableEq

/-- The members of the class `PDA` that change; the top of `stack_` is the head
of the list.  The member `grammar_` is constant after the constructor. -/
structure PDA where
  stack_ : List StackSymbol
  tokens_ : List Token
  current_index_ : Nat
  deriving DecidableEq

namespace PDA

/-- The table filled by `PDA::InitGrammar`. -/
def grammar_ : NonTerminal → List (List StackSymbol)
  | NonTerminal.E =>
    [[StackSymbol.nonTerminal NonTerminal.T, StackSymbol.nonTerminal NonTerminal.E_]]
  | NonTerminal.E_ =>
    [[StackSymbol.terminal TokenType.BinaryOperator, StackSymbol.nonTerminal NonTerminal.T,
        StackSymbol.nonTerminal NonTerminal.E_],
      []]
  | NonTerminal.T =>
    [[StackSymbol.nonTerminal NonTerminal.F, StackSymbol.nonTerminal NonTerminal.T_]]
  | NonTerminal.T_ =>
    [[StackSymbol.terminal TokenType.BinaryOperator, StackSymbol.nonTerminal NonTerminal.F,
        StackSymbol.nonTerminal NonTerminal.T_],
      []]
  | NonTerminal.F =>
    [[StackSymbol.terminal TokenType.Number],
      [StackSymbol.terminal TokenType.ID],
      [StackSymbol.terminal TokenType.OpenScope, StackSymbol.nonTerminal NonTerminal.E,
        StackSymbol.terminal TokenType.CloseScope],
      [StackSymbol.terminal TokenType.UnaryOperator, StackSymbol.nonTerminal NonTerminal.F],
      [StackSymbol.terminal TokenType.Lambda, StackSymbol.terminal TokenType.Dot,
        StackSymbol.terminal TokenType.ID]]

/-- The constructor `PDA::PDA`. -/
def new (input_tokens : List Token) : PDA :=
  { stack_ := [], tokens_ := input_tokens, current_index_ := 0 }

/-- The element `tokens_[current_index_]`, read only below `tokens_.size()`. -/
def tokenAt (pda : PDA) : Token :=
  pda.tokens_.getD pda.current_index_ ⟨TokenType.EndOfFile, "#"⟩

/-- The text `std::to_string(static_cast<int>(type))`. -/
def typeCode : TokenType → String
  | TokenType.Number => "0"
  | TokenType.ID => "1"
  | TokenType.Lambda => "2"
  | TokenType.Dot => "3"
  | TokenType.BinaryOperator => "4"
  | TokenType.UnaryOperator => "5"
  | TokenType.OpenScope => "6"
  | TokenType.CloseScope => "7"
  | TokenType.EndOfFile => "8"
  | TokenType.Error => "9"

/-- `PDA::SelectRule`. -/
def SelectRule (pda : PDA) (non_terminal : NonTerminal) (lookahead : TokenType) :
    Outcome (List StackSymbol) :=
  let rules := grammar_ non_terminal
  match non_terminal with
  | NonTerminal.E => Outcome.ok (rules.getD 0 [])
  | NonTerminal.E_ =>
    if lookahead = TokenType.BinaryOperator ∧ pda.current_index_ < pda.tokens_.length
        ∧ (pda.tokenAt.value = "+" ∨ pda.tokenAt.value = "-") then
      Outcome.ok (rules.getD 0 [])
    else Outcome.ok (rules.getD 1 [])
  | NonTerminal.T => Outcome.ok (rules.getD 0 [])
  | NonTerminal.T_ =>
    if lookahead = TokenType.BinaryOperator ∧ pda.current_index_ < pda.tokens_.length
        ∧ (pda.tokenAt.value = "*" ∨ pda.tokenAt.value = "/" ∨ pda.tokenAt.value = "^") then
      Outcome.ok (rules.getD 0 [])
    else Outcome.ok (rules.getD 1 [])
  | NonTerminal.F =>
    if lookahead = TokenType.Number then Outcome.ok (rules.getD 0 [])
    else if lookahead = TokenType.ID then Outcome.ok (rules.getD 1 [])
    else if lookahead = TokenType.OpenScope then Outcome.ok (rules.getD 2 [])
    else if lookahead = TokenType.UnaryOperator then
      if pda.current_index_ < pda.tokens_.length
          ∧ (pda.tokenAt.value = "+" ∨ pda.tokenAt.value = "-" ∨ pda.tokenAt.value = "*"
            ∨ pda.tokenAt.value = "/" ∨ pda.tokenAt.value = "^") then
        Outcome.thrown (ParserException.SyntaxError
          ("Unexpected binary operator '" ++ pda.tokenAt.value ++ "' in operand position"))
      else Outcome.ok (rules.getD 3 [])
    else if lookahead = TokenType.Lambda then Outcome.ok (rules.getD 4 [])
    else if lookahead = TokenType.BinaryOperator then
      if pda.current_index_ < pda.tokens_.length then
        Outcome.thrown (ParserException.SyntaxError
          ("Unexpected operator '" ++ pda.tokenAt.value
            ++ "' where operand expected (number, variable or expression)"))
      else Outcome.ok []
    else Outcome.ok []

/-- `PDA::Match`: the value returned and the automaton after the call. -/
def Match (pda : PDA) (expected : TokenType) : Outcome (Bool × PDA) :=
  if pda.current_index_ ≥ pda.tokens_.length then
    Outcome.thrown ParserException.UnexpectedEOFError
  else
    let current := pda.tokenAt.type
    if expected = current then
      Outcome.ok (true, { pda with current_index_ := pda.current_index_ + 1 })
    else
      Outcome.thrown
        (ParserException.UnexpectedTokenError ("type " ++ typeCode expected) pda.tokenAt.value)

/-- `PDA::GetCurrentToken`. -/
def GetCurrentToken (pda : PDA) : TokenType :=
  if pda.current_index_ < pda.tokens_.length then pda.tokenAt.type
  else TokenType.EndOfFile

/-- The loop `while (!stack_.empty())` of `PDA::Parse`, with fuel.  The result
is `some b` when the function returns `b` from inside the loop, and `none` when
the loop ends. -/
def ParseLoop : Nat → PDA → Outcome (Option Bool × PDA)
  | 0, _ => Outcome.outOfFuel
  | fuel + 1, pda =>
    match pda.stack_ with
    | [] => Outcome.ok (none, pda)
    | top :: rest =>
      let pda := { pda with stack_ := rest }
      match top with
      | StackSymbol.terminal expected =>
        (pda.Match expected).bind fun r =>
          if !r.1 then Outcome.ok (some false, r.2)
          else ParseLoop fuel r.2
      | StackSymbol.nonTerminal nt =>
        let lookahead := pda.GetCurrentToken
        (pda.SelectRule nt lookahead).bind fun rule =>
          if rule.isEmpty then
            if nt = NonTerminal.E_ ∨ nt = NonTerminal.T_ then ParseLoop fuel pda
            else
              let token_val :=
                if pda.current_index_ < pda.tokens_.length then pda.tokenAt.value else "EOF"
              Outcome.thrown (ParserException.NoRuleFoundError token_val)
          else ParseLoop fuel { pda with stack_ := rule ++ pda.stack_ }

/-- Weight of a stack symbol in the bound on the iterations of the loop. -/
def weight : StackSymbol → Nat
  | StackSymbol.terminal _ => 1
  | StackSymbol.nonTerminal NonTerminal.E => 5
  | StackSymbol.nonTerminal NonTerminal.T => 3
  | StackSymbol.nonTerminal _ => 1

/-- Fuel for the loop of `PDA::Parse`: an iteration that pushes a rule with a
terminal in front is followed by one that reads a token or throws, and every
other iteration makes the weight of the stack smaller
(`PDA.ParseLoop_ne_outOfFuel`). -/
def fuelFor (pda : PDA) : Nat :=
  7 * pda.tokens_.length + (pda.stack_.map weight).sum + 1

/-- `PDA::Parse`: the value returned and the automaton after the call. -/
def Parse (pda : PDA) : Outcome (Bool × PDA) :=
  if pda.tokens_.isEmpty then Outcome.thrown ParserException.EmptyInputError
  else
    let pda :=
      { pda with
        stack_ := StackSymbol.nonTerminal NonTerminal.E :: pda.stack_
        current_index_ := 0 }
    (ParseLoop (fuelFor pda) pda).bind fun r =>
      match r.1 with
      | some value => Outcome.ok (value, r.2)
      | none =>
        if r.2.current_index_ < r.2.tokens_.length then
          Outcome.thrown (ParserException.UnprocessedTokensError r.2.tokenAt.value)
        else Outcome.ok (true, r.2)

/-- No symbol of the stack is the terminal `EndOfFile`. -/
def NoEOF (stack : List StackSymbol) : Prop :=
  ∀ symbol ∈ stack, symbol ≠ StackSymbol.terminal TokenType.EndOfFile

/-- The measure that every iteration of the loop makes smaller: the unread
tokens and the weight of the stack, less the token that a terminal on top of
the stack is about to read. -/
def potential (pda : PDA) : Nat :=
  7 * (pda.tokens_.length - pda.current_index_) + (pda.stack_.map weight).sum
    - (match pda.stack_ with
        | StackSymbol.terminal _ :: _ => 7
        | _ => 0)

end PDA

/-! ## The texts of the tokens of a tree -/

/-- The texts that the lexer gives to the tokens of each kind: a `Number` is a
non-empty run of digits and dots, an `ID` is one letter, a `UnaryOperator` is a
word of letters other than `lambda`, a `BinaryOperator` is one of the five
arithmetic symbols, and a `Lambda` is the word `lambda`. -/
def tokenOK (token : Token) : Bool :=
  match token.type with
  | TokenType.Number =>
    !token.value.data.isEmpty
      && token.value.data.all fun c => Tokenizer.isdigit c || c = '.'
  | TokenType.ID =>
    match token.value.data with
    | [c] => Tokenizer.isalpha c
    | _ => false
  | TokenType.UnaryOperator =>
    !token.value.data.isEmpty && token.value.data.all Tokenizer.isalpha
      && token.value ≠ "lambda"
  | TokenType.BinaryOperator => token.value ∈ ["+", "-", "*", "/", "^"]
  | TokenType.Lambda => token.value = "lambda"
  | _ => true

/-- Every token of the tree has a text that the lexer gives to its kind. -/
def TokensOK : NodePtr → Bool
  | NodePtr.null => true
  | NodePtr.node token left right => tokenOK token && TokensOK left && TokensOK right

/-! ## Trees with the same canonical form -/

/-- Two trees are identical up to swapping the operands of `+` and `*` nodes:
both are absent, or their root tokens are equal (kind and text) and their
children are identical up to swapping, in the same order, or crosswise when the
root is a `BinaryOperator` with text `+` or `*`. -/
def sameUpToSwap : NodePtr → NodePtr → Bool
  | NodePtr.null, NodePtr.null => true
  | NodePtr.null, NodePtr.node _ _ _ => false
  | NodePtr.node _ _ _, NodePtr.null => false
  | NodePtr.node token1 left1 right1, NodePtr.node token2 left2 right2 =>
    decide (token1 = token2) &&
      ((sameUpToSwap left1 left2 && sameUpToSwap right1 right2)
        || (decide (token1.type = TokenType.BinaryOperator
              ∧ (token1.value = "+" ∨ token1.value = "*"))
            && sameUpToSwap left1 right2 && sameUpToSwap right1 left2))

/-- A character of the text of a token of a tree: a letter, a digit, a dot or
an arithmetic symbol. -/
def nameChar (c : Char) : Bool :=
  Tokenizer.isalpha c || Tokenizer.isdigit c || c = '.' || c = '+' || c = '-' || c = '*'
    || c = '/' || c = '^'

/-- What follows a canonical form inside a larger one: nothing, a comma or a
closing parenthesis. -/
def Delimited (r : List Char) : Prop :=
  ∀ c, r.head? = some c → c = ',' ∨ c = ')'

/-- The kind of the token of a node, from its text and from whether the node
is a leaf. -/
def kindOf (value : String) (leaf : Bool) : TokenType :=
  if leaf then
    if value.data.all (fun c => Tokenizer.isdigit c || c = '.') then TokenType.Number
    else TokenType.ID
  else if value = "lambda" then TokenType.Lambda
  else if value ∈ ["+", "-", "*", "/", "^"] then TokenType.BinaryOperator
  else TokenType.UnaryOperator

/-! ## The parser on node objects (`parser.cpp` with `ast.cpp`) -/

namespace ObjectParser

/-- `Parser::makeBinaryNode`, on node objects: the pointer returned and the
memory after the call. -/
def makeBinaryNode (op : Token) (left right : Option Nat) (h : Heap) :
    Outcome (Option Nat × Heap) :=
  if left = none ∨ right = none then
    Outcome.thrown
      (ParserException.ParserException ("Binary operator missing operand: " ++ op.value))
  else
    let r := h.createNode op left right
    Outcome.ok (some r.1, r.2)

/-- `Parser::makeUnaryNode`, on node objects. -/
def makeUnaryNode (op : Token) (child : Option Nat) (h : Heap) : Outcome (Option Nat × Heap) :=
  if child = none then
    Outcome.thrown
      (ParserException.ParserException ("Unary operator missing operand: " ++ op.value))
  else
    let r := h.createNode op child none
    Outcome.ok (some r.1, r.2)

mutual

/-- `Parser::parseExpression`, on node objects: the pointer returned, the
parser and the memory after the call. -/
def parseExpression : Nat → Parser → Heap → Outcome (Option Nat × Parser × Heap)
  | 0 => fun _ _ => Outcome.outOfFuel
  | fuel + 1 => fun p h => parseAddition fuel p h

/-- `Parser::parseAddition`, on node objects. -/
def parseAddition : Nat → Parser → Heap → Outcome (Option Nat × Parser × Heap)
  | 0 => fun _ _ => Outcome.outOfFuel
  | fuel + 1 => fun p h =>
    (parseMultiplication fuel p h).bind fun r =>
      parseAdditionLoop fuel r.1 r.2.1 r.2.2

/-- The `while` loop of `Parser::parseAddition`, on node objects, from the
value of `node`. -/
def parseAdditionLoop : Nat → Option Nat → Parser → Heap →
    Outcome (Option Nat × Parser × Heap)
  | 0 => fun _ _ _ => Outcome.outOfFuel
  | fuel + 1 => fun node p h =>
    (Parser.matchBinaryOperator ["+", "-"] p).bind fun m =>
      if m.1 then
        let op := m.2.previous
        (parseMultiplication fuel m.2 h).bind fun r =>
          (makeBinaryNode op node r.1 r.2.2).bind fun n =>
            parseAdditionLoop fuel n.1 r.2.1 n.2
      else Outcome.ok (node, m.2, h)

/-- `Parser::parseMultiplication`, on node objects. -/
def parseMultiplication : Nat → Parser → Heap → Outcome (Option Nat × Parser × Heap)
  | 0 => fun _ _ => Outcome.outOfFuel
  | fuel + 1 => fun p h =>
    (parseExponentiation fuel p h).bind fun r =>
      parseMultiplicationLoop fuel r.1 r.2.1 r.2.2

/-- The `while` loop of `Parser::parseMultiplication`, on node objects, from
the value of `node`. -/
def parseMultiplicationLoop : Nat → Option Nat → Parser → Heap →
    Outcome (Option Nat × Parser × Heap)
  | 0 => fun _ _ _ => Outcome.outOfFuel
  | fuel + 1 => fun node p h =>
    (Parser.matchBinaryOperator ["*", "/"] p).bind fun m =>
      if m.1 then
        let op := m.2.previous
        (parseExponentiation fuel m.2 h).bind fun r =>
          (makeBinaryNode op node r.1 r.2.2).bind fun n =>
            parseMultiplicationLoop fuel n.1 r.2.1 n.2
      else Outcome.ok (node, m.2, h)

/-- `Parser::parseExponentiation`, on node objects. -/
def parseExponentiation : Nat → Parser → Heap → Outcome (Option Nat × Parser × Heap)
  | 0 => fun _ _ => Outcome.outOfFuel
  | fuel + 1 => fun p h =>
    (parseUnary fuel p h).bind fun r =>
      (Parser.matchBinaryOperator ["^"] r.2.1).bind fun m =>
        if m.1 then
          let op := m.2.previous
          (parseExponentiation fuel m.2 r.2.2).bind fun r1 =>
            (makeBinaryNode op r.1 r1.1 r1.2.2).bind fun n =>
              Outcome.ok (n.1, r1.2.1, n.2)
        else Outcome.ok (r.1, m.2, r.2.2)

/-- `Parser::parseUnary`, on node objects.  The operand of a prefix sign is
made before the leaf of the zero, and the body of a lambda before the leaf of
the parameter. -/
def parseUnary : Nat → Parser → Heap → Outcome (Option Nat × Parser × Heap)
  | 0 => fun _ _ => Outcome.outOfFuel
  | fuel + 1 => fun p h =>
    if Parser.check TokenType.UnaryOperator p then
      (Parser.advance p).bind fun op =>
        (Parser.consume TokenType.OpenScope "'(' after unary operator" op.2).bind fun c =>
          (parseExpression fuel c.2 h).bind fun operand =>
            (Parser.consume TokenType.CloseScope "')' after unary operator" operand.2.1).bind
              fun c1 =>
                (makeUnaryNode op.1 operand.1 operand.2.2).bind fun n =>
                  Outcome.ok (n.1, c1.2, n.2)
    else if Parser.check TokenType.BinaryOperator p
        && (p.peek.value = "-" || p.peek.value = "+") then
      (Parser.advance p).bind fun op =>
        (parseUnary fuel op.2 h).bind fun operand =>
          let zero_node := operand.2.2.createLeaf ⟨TokenType.Number, "0"⟩
          (makeBinaryNode op.1 (some zero_node.1) operand.1 zero_node.2).bind fun n =>
            Outcome.ok (n.1, operand.2.1, n.2)
    else
      (Parser.match_ TokenType.Lambda p).bind fun m =>
        if m.1 then
          let lambda_token := m.2.previous
          (Parser.consume TokenType.ID "identifier after lambda" m.2).bind fun identifier =>
            (Parser.consume TokenType.Dot "'.' after lambda parameter" identifier.2).bind
              fun c =>
                (parseExpression fuel c.2 h).bind fun body =>
                  let parameter_node := body.2.2.createLeaf identifier.1
                  let lambda_node :=
                    parameter_node.2.createNode lambda_token (some parameter_node.1) body.1
                  Outcome.ok (some lambda_node.1, body.2.1, lambda_node.2)
        else parsePrimary fuel m.2 h

/-- `Parser::parsePrimary`, on node objects. -/
def parsePrimary : Nat → Parser → Heap → Outcome (Option Nat × Parser × Heap)
  | 0 => fun _ _ => Outcome.outOfFuel
  | fuel + 1 => fun p h =>
    (Parser.match_ TokenType.Number p).bind fun m =>
      if m.1 then
        let leaf := h.createLeaf m.2.previous
        Outcome.ok (some leaf.1, m.2, leaf.2)
      else
        (Parser.match_ TokenType.ID m.2).bind fun m1 =>
          if m1.1 then
            let leaf := h.createLeaf m1.2.previous
            Outcome.ok (some leaf.1, m1.2, leaf.2)
          else
            (Parser.match_ TokenType.OpenScope m1.2).bind fun m2 =>
              if m2.1 then
                (parseExpression fuel m2.2 h).bind fun expr =>
                  (Parser.consume TokenType.CloseScope "closing parenthesis" expr.2.1).bind
                    fun c => Outcome.ok (expr.1, c.2, expr.2.2)
              else
                Outcome.thrown
                  (ParserException.SyntaxError ("Unexpected token: " ++ m2.2.peek.value))

end

/-- `Parser::buildAST`, on node objects: the root pointer of the returned `AST`
and the memory after the call, `ast.setRoot(root)` included. -/
def buildAST (p : Parser) (h : Heap) : Outcome (Option Nat × Heap) :=
  let p := { p with current_index_ := 0 }
  (parseExpression (Parser.fuelFor p) p h).bind fun r =>
    let root := r.1
    let p := r.2.1
    if !p.isAtEnd then
      Outcome.thrown (ParserException.UnprocessedTokensError p.peek.value)
    else Outcome.ok (root, r.2.2.setRoot root)

/-- The outcome `y` of a parsing function on node objects matches the outcome
`x` of the function on tree values: the same exception, the same end of the
fuel, and on success the same cursor and a pointer to the objects of the tree,
made in the memory `h0` or in a later one. -/
def Simulates (h0 : Heap) (x : Outcome (NodePtr × Parser))
    (y : Outcome (Option Nat × Parser × Heap)) : Prop :=
  match x with
  | Outcome.ok r => ∃ ptr h1, y = Outcome.ok (ptr, r.2, h1) ∧ Heap.Built h0 h1 ptr r.1
  | Outcome.thrown e => y = Outcome.thrown e
  | Outcome.outOfFuel => y = Outcome.outOfFuel

end ObjectParser

/-! ## Theorems -/

/-- The model of `operator>` is the strict order of strings. -/
theorem util.stringGt_iff (a b : String) : util.stringGt a b = true ↔ b < a := by
  simp [util.stringGt, String.lt_iff_toList_lt]

/-! ### Lexer: the unread input decides; `tokenizeAll` and `Lex` -/

open Tokenizer

theorem Tokenizer.isEnd_eq (t : Tokenizer) : t.isEnd = t.input_[t.index_]?.isNone := by
  by_cases h : t.index_ < t.input_.length
  · simp [isEnd, h, List.getElem?_eq_getElem h]
  · have h1 : t.input_.length ≤ t.index_ := by omega
    simp [isEnd, h1, List.getElem?_eq_none h1]

theorem Tokenizer.skipWhitespaceLoop_shift (s : List Char) (i : Nat) :
    skipWhitespaceLoop s i = i + skipWhitespaceLoop s 0 := by
  induction s generalizing i with
  | nil => simp [skipWhitespaceLoop]
  | cons c cs ih =>
    simp only [skipWhitespaceLoop]
    split
    · rw [ih (i + 1), ih (0 + 1)]; omega
    · rfl

theorem Tokenizer.readWordLoop_shift (s : List Char) (i : Nat) :
    readWordLoop s i = i + readWordLoop s 0 := by
  induction s generalizing i with
  | nil => simp [readWordLoop]
  | cons c cs ih =>
    simp only [readWordLoop]
    split
    · rw [ih (i + 1), ih (0 + 1)]; omega
    · rfl

theorem Tokenizer.readNumberLoop_shift (s : List Char) (d : Bool) (i : Nat) :
    readNumberLoop s d i = i + readNumberLoop s d 0 := by
  induction s generalizing i d with
  | nil => simp [readNumberLoop]
  | cons c cs ih =>
    simp only [readNumberLoop]
    split
    · rw [ih d (i + 1), ih d (0 + 1)]; omega
    · split
      · rw [ih true (i + 1), ih true (0 + 1)]; omega
      · rfl

theorem Tokenizer.skipWhitespaceLoop_le (s : List Char) :
    skipWhitespaceLoop s 0 ≤ s.length := by
  induction s with
  | nil => simp [skipWhitespaceLoop]
  | cons c cs ih =>
    simp only [skipWhitespaceLoop]
    split
    · rw [skipWhitespaceLoop_shift]; simp; omega
    · simp

theorem Tokenizer.readWordLoop_le (s : List Char) : readWordLoop s 0 ≤ s.length := by
  induction s with
  | nil => simp [readWordLoop]
  | cons c cs ih =>
    simp only [readWordLoop]
    split
    · rw [readWordLoop_shift]; simp; omega
    · simp

theorem Tokenizer.readNumberLoop_le (s : List Char) (d : Bool) :
    readNumberLoop s d 0 ≤ s.length := by
  induction s generalizing d with
  | nil => simp [readNumberLoop]
  | cons c cs ih =>
    simp only [readNumberLoop]
    split
    · rw [readNumberLoop_shift]; have := ih d; simp; omega
    · split
      · rw [readNumberLoop_shift]; have := ih true; simp; omega
      · simp

theorem Tokenizer.substr_shift (inp : List Char) (i j k : Nat) :
    substr inp (i + j) (i + k) = substr (inp.drop i) j k := by
  simp only [substr, List.drop_drop]
  rw [Nat.add_sub_add_left]

theorem Tokenizer.readIdentifierOrKeyword_shift (inp : List Char) (i j : Nat) :
    readIdentifierOrKeyword ⟨inp, i + j⟩ =
      ((readIdentifierOrKeyword ⟨inp.drop i, j⟩).1,
        ⟨inp, i + (readIdentifierOrKeyword ⟨inp.drop i, j⟩).2.index_⟩) := by
  simp only [readIdentifierOrKeyword, List.drop_drop]
  rw [readWordLoop_shift _ (i + j), readWordLoop_shift _ j]
  generalize readWordLoop (List.drop (i + j) inp) 0 = m
  rw [Nat.add_assoc, substr_shift]
  generalize substr (List.drop i inp) j (j + m) = w
  split
  · rfl
  · split <;> [rfl; (split <;> rfl)]

theorem Tokenizer.readNumber_shift (inp : List Char) (i j : Nat) :
    readNumber ⟨inp, i + j⟩ =
      ((readNumber ⟨inp.drop i, j⟩).1, ⟨inp, i + (readNumber ⟨inp.drop i, j⟩).2.index_⟩) := by
  simp only [readNumber, List.drop_drop]
  rw [readNumberLoop_shift _ _ (i + j), readNumberLoop_shift _ _ j]
  generalize readNumberLoop (List.drop (i + j) inp) false 0 = m
  rw [Nat.add_assoc, substr_shift]
  generalize substr (List.drop i inp) j (j + m) = w
  split <;> rfl

/-- `nextToken` depends on the unread input only. -/
theorem Tokenizer.nextToken_shift (inp : List Char) (i : Nat) :
    nextToken ⟨inp, i⟩ =
      ((nextToken ⟨inp.drop i, 0⟩).1, ⟨inp, i + (nextToken ⟨inp.drop i, 0⟩).2.index_⟩) := by
  simp only [nextToken, skipWhitespace, List.drop_zero]
  rw [skipWhitespaceLoop_shift (inp.drop i) i]
  generalize skipWhitespaceLoop (List.drop i inp) 0 = k
  simp only [List.getElem?_drop]
  cases h : inp[i + k]? with
  | none => rfl
  | some ch =>
    simp only
    split
    · simp only [readSingleCharToken, Nat.add_assoc]
    · split
      · exact readIdentifierOrKeyword_shift inp i k
      · split
        · exact readNumber_shift inp i k
        · simp only [Nat.add_assoc]

theorem Tokenizer.nextToken_input (t : Tokenizer) : (nextToken t).2.input_ = t.input_ := by
  obtain ⟨inp, i⟩ := t
  rw [nextToken_shift]

theorem Tokenizer.readWordLoop_pos {c : Char} (cs : List Char) (h : isalpha c = true) :
    0 < readWordLoop (c :: cs) 0 := by
  simp only [readWordLoop, h, if_true]
  rw [readWordLoop_shift]; omega

theorem Tokenizer.readNumberLoop_pos {c : Char} (cs : List Char) (d : Bool)
    (h : isdigit c = true) : 0 < readNumberLoop (c :: cs) d 0 := by
  simp only [readNumberLoop, h, if_true]
  rw [readNumberLoop_shift]; omega

theorem Tokenizer.nextToken_index_le (s : List Char) :
    (nextToken ⟨s, 0⟩).2.index_ ≤ s.length := by
  simp only [nextToken, skipWhitespace, List.drop_zero]
  have hk := skipWhitespaceLoop_le s
  generalize skipWhitespaceLoop s 0 = k at hk
  cases h : s[k]? with
  | none => simpa using hk
  | some ch =>
    have hlt : k < s.length := by
      by_contra hc
      rw [List.getElem?_eq_none (by omega)] at h
      exact absurd h (by simp)
    simp only
    split
    · simp only [readSingleCharToken]; omega
    · split
      · have e : (readIdentifierOrKeyword ⟨s, k⟩).2.index_ = readWordLoop (s.drop k) k := by
          simp only [readIdentifierOrKeyword]
          split <;> [rfl; (split <;> [rfl; (split <;> rfl)])]
        rw [e, readWordLoop_shift]
        have := readWordLoop_le (s.drop k)
        simp only [List.length_drop] at this
        omega
      · split
        · have e : (readNumber ⟨s, k⟩).2.index_ = readNumberLoop (s.drop k) false k := by
            simp only [readNumber]
            split <;> rfl
          rw [e, readNumberLoop_shift]
          have := readNumberLoop_le (s.drop k) false
          simp only [List.length_drop] at this
          omega
        · simp only; omega

theorem Tokenizer.nextToken_index_pos (s : List Char)
    (h : (nextToken ⟨s, 0⟩).1.type ≠ TokenType.EndOfFile) :
    0 < (nextToken ⟨s, 0⟩).2.index_ := by
  revert h
  simp only [nextToken, skipWhitespace, List.drop_zero]
  generalize skipWhitespaceLoop s 0 = k
  cases h : s[k]? with
  | none => simp
  | some ch =>
    have hlt : k < s.length := by
      by_contra hc
      rw [List.getElem?_eq_none (by omega)] at h
      exact absurd h (by simp)
    have hd : s.drop k = ch :: s.drop (k + 1) := by
      rw [List.drop_eq_getElem_cons hlt]
      congr 1
      rw [List.getElem?_eq_getElem hlt] at h
      exact Option.some.inj h
    intro _
    simp only
    split
    · simp only [readSingleCharToken]; omega
    · split
      · rename_i ha
        have e : (readIdentifierOrKeyword ⟨s, k⟩).2.index_ = readWordLoop (s.drop k) k := by
          simp only [readIdentifierOrKeyword]
          split <;> [rfl; (split <;> [rfl; (split <;> rfl)])]
        rw [e, readWordLoop_shift, hd]
        have := readWordLoop_pos (s.drop (k + 1)) ha
        omega
      · split
        · rename_i hdg
          have e : (readNumber ⟨s, k⟩).2.index_ = readNumberLoop (s.drop k) false k := by
            simp only [readNumber]
            split <;> rfl
          rw [e, readNumberLoop_shift, hd]
          have := readNumberLoop_pos (s.drop (k + 1)) false hdg
          omega
        · simp only; omega

/-- The loop of `tokenizeAll`, one iteration unfolded, in terms of the unread
input. -/
theorem Tokenizer.tokenizeAllLoop_succ (fuel : Nat) (inp : List Char) (i : Nat)
    (acc : List Token) :
    tokenizeAllLoop (fuel + 1) ⟨inp, i⟩ acc =
      if (nextToken ⟨inp.drop i, 0⟩).1.type = TokenType.Error then
        Outcome.thrown (ParserException.SyntaxError
          ("Unrecognized token: " ++ (nextToken ⟨inp.drop i, 0⟩).1.value))
      else if (nextToken ⟨inp.drop i, 0⟩).1.type = TokenType.EndOfFile then
        Outcome.ok (acc ++ [(nextToken ⟨inp.drop i, 0⟩).1],
          ⟨inp, i + (nextToken ⟨inp.drop i, 0⟩).2.index_⟩)
      else tokenizeAllLoop fuel ⟨inp, i + (nextToken ⟨inp.drop i, 0⟩).2.index_⟩
        (acc ++ [(nextToken ⟨inp.drop i, 0⟩).1]) := by
  rw [tokenizeAllLoop, nextToken_shift]

theorem Tokenizer.lex_of_tokenizeAllLoop (fuel : Nat) :
    ∀ (inp : List Char) (i : Nat) (acc ts : List Token) (t1 : Tokenizer),
      tokenizeAllLoop fuel ⟨inp, i⟩ acc = Outcome.ok (ts, t1) →
      ∃ ts1, ts = acc ++ ts1 ∧ Lex (inp.drop i) ts1 := by
  induction fuel with
  | zero => intro inp i acc ts t1 h; simp [tokenizeAllLoop] at h
  | succ n ih =>
    intro inp i acc ts t1 h
    rw [tokenizeAllLoop_succ] at h
    split at h
    · simp at h
    · rename_i herr
      split at h
      · rename_i heof
        simp only [Outcome.ok.injEq, Prod.mk.injEq] at h
        exact ⟨_, h.1.symm, Lex.eof heof⟩
      · rename_i heof
        obtain ⟨ts1, e1, l1⟩ := ih _ _ _ _ _ h
        refine ⟨_ :: ts1, by simp [e1], Lex.token heof herr ?_⟩
        simpa [List.drop_drop] using l1

theorem Lex.tokenizeAllLoop {s : List Char} {ts : List Token} (h : Lex s ts) :
    ∀ (fuel : Nat) (inp : List Char) (i : Nat) (acc : List Token),
      inp.drop i = s → s.length < fuel →
      ∃ t1, Tokenizer.tokenizeAllLoop fuel ⟨inp, i⟩ acc = Outcome.ok (acc ++ ts, t1) := by
  induction h with
  | @eof s heof =>
    intro fuel inp i acc hs hf
    obtain ⟨n, rfl⟩ : ∃ n, fuel = n + 1 := ⟨fuel - 1, by omega⟩
    subst hs
    rw [tokenizeAllLoop_succ]
    simp [heof]
  | @token s ts heof herr _ ih =>
    intro fuel inp i acc hs hf
    obtain ⟨n, rfl⟩ : ∃ n, fuel = n + 1 := ⟨fuel - 1, by omega⟩
    subst hs
    rw [tokenizeAllLoop_succ]
    simp only [herr, heof, if_false]
    have hpos := nextToken_index_pos _ heof
    have hle := nextToken_index_le (inp.drop i)
    obtain ⟨t1, e⟩ := ih n inp (i + (nextToken ⟨inp.drop i, 0⟩).2.index_)
      (acc ++ [(nextToken ⟨inp.drop i, 0⟩).1]) (by simp [List.drop_drop])
      (by simp only [List.length_drop] at hf hle ⊢; omega)
    exact ⟨t1, by simpa using e⟩

theorem Tokenizer.tokenizeAllLoop_ne_outOfFuel (fuel : Nat) :
    ∀ (inp : List Char) (i : Nat) (acc : List Token), (inp.drop i).length < fuel →
      tokenizeAllLoop fuel ⟨inp, i⟩ acc ≠ Outcome.outOfFuel := by
  induction fuel with
  | zero => intro inp i acc h; simp at h
  | succ n ih =>
    intro inp i acc h
    rw [tokenizeAllLoop_succ]
    split
    · simp
    · split
      · simp
      · rename_i heof
        have hpos := nextToken_index_pos _ heof
        have hle := nextToken_index_le (inp.drop i)
        exact ih _ _ _ (by simp only [List.length_drop] at h hle ⊢; omega)

/-- `tokenizeAll` does not run out of fuel. -/
theorem Tokenizer.tokenizeAll_ne_outOfFuel (t : Tokenizer) :
    t.tokenizeAll ≠ Outcome.outOfFuel :=
  tokenizeAllLoop_ne_outOfFuel _ _ _ _ (by simp)

/-- `tokenizeAll` returns exactly the token sequences of `Lex`. -/
theorem Tokenizer.tokenizeAll_eq_ok (t : Tokenizer) (ts : List Token) :
    (∃ t1, t.tokenizeAll = Outcome.ok (ts, t1)) ↔ Lex t.input_ ts := by
  constructor
  · rintro ⟨t1, h⟩
    obtain ⟨ts1, e, l⟩ := lex_of_tokenizeAllLoop _ _ _ _ _ _ h
    simpa [e, reset] using l
  · intro h
    simpa using h.tokenizeAllLoop (t.input_.length + 1) t.input_ 0 [] rfl (by omega)

/-! ### Lexer: tokens in context -/

theorem Tokenizer.skipWhitespaceLoop_append_of_lt (s r : List Char)
    (h : skipWhitespaceLoop s 0 < s.length) :
    skipWhitespaceLoop (s ++ r) 0 = skipWhitespaceLoop s 0 := by
  induction s with
  | nil => simp at h
  | cons c cs ih =>
    simp only [List.cons_append, skipWhitespaceLoop, List.append_eq] at h ⊢
    split
    · rename_i hc
      simp only [hc, if_true] at h
      rw [skipWhitespaceLoop_shift] at h
      rw [skipWhitespaceLoop_shift, skipWhitespaceLoop_shift cs, ih (by simp at h; omega)]
    · rename_i hc
      simp [hc]

theorem Tokenizer.skipWhitespaceLoop_append_of_eq (s r : List Char)
    (h : skipWhitespaceLoop s 0 = s.length) :
    skipWhitespaceLoop (s ++ r) 0 = s.length + skipWhitespaceLoop r 0 := by
  induction s with
  | nil => simp
  | cons c cs ih =>
    simp only [List.cons_append, skipWhitespaceLoop, List.append_eq] at h ⊢
    split
    · rename_i hc
      simp only [hc, if_true] at h
      rw [skipWhitespaceLoop_shift] at h
      rw [skipWhitespaceLoop_shift, ih (by simp at h; omega)]
      simp; omega
    · rename_i hc
      simp [hc] at h

theorem Tokenizer.readWordLoop_append (a r : List Char)
    (hr : ∀ c, r.head? = some c → isalpha c = false) :
    readWordLoop (a ++ r) 0 = readWordLoop a 0 := by
  induction a with
  | nil =>
    cases r with
    | nil => rfl
    | cons c cs => simp [readWordLoop, hr c rfl]
  | cons c cs ih =>
    simp only [List.cons_append, readWordLoop, List.append_eq]
    split
    · rw [readWordLoop_shift, readWordLoop_shift cs, ih]
    · rfl

theorem Tokenizer.readNumberLoop_append (a r : List Char) (d : Bool)
    (hr : ∀ c, r.head? = some c → isdigit c = false ∧ c ≠ '.') :
    readNumberLoop (a ++ r) d 0 = readNumberLoop a d 0 := by
  induction a generalizing d with
  | nil =>
    cases r with
    | nil => rfl
    | cons c cs => simp [readNumberLoop, hr c rfl]
  | cons c cs ih =>
    simp only [List.cons_append, readNumberLoop, List.append_eq]
    split
    · rw [readNumberLoop_shift, readNumberLoop_shift cs, ih]
    · split
      · rw [readNumberLoop_shift, readNumberLoop_shift cs, ih]
      · rfl

theorem Tokenizer.substr_append (s r : List Char) (k m : Nat) (h : m ≤ (s.drop k).length)
    (hk : k ≤ s.length) :
    substr (s ++ r) k (k + m) = substr s k (k + m) := by
  simp only [substr, Nat.add_sub_cancel_left]
  rw [List.drop_append_of_le_length hk, List.take_append_of_le_length h]

/-- A token read from `s` is read in the same way when `s` is followed by input
that starts with a separator. -/
theorem Tokenizer.nextToken_append (s r : List Char)
    (h : (nextToken ⟨s, 0⟩).1.type ≠ TokenType.EndOfFile) (hr : isSeparator r) :
    nextToken ⟨s ++ r, 0⟩ = ((nextToken ⟨s, 0⟩).1, ⟨s ++ r, (nextToken ⟨s, 0⟩).2.index_⟩) := by
  revert h
  simp only [nextToken, skipWhitespace, List.drop_zero]
  have hk0 := skipWhitespaceLoop_le s
  cases hs : s[skipWhitespaceLoop s 0]? with
  | none => simp
  | some ch =>
    intro _
    have hlt : skipWhitespaceLoop s 0 < s.length := by
      by_contra hc
      rw [List.getElem?_eq_none (by omega)] at hs
      exact absurd hs (by simp)
    rw [skipWhitespaceLoop_append_of_lt s r hlt]
    generalize skipWhitespaceLoop s 0 = k at *
    rw [List.getElem?_append_left hlt, hs]
    simp only
    split
    · rfl
    · split
      · simp only [readIdentifierOrKeyword]
        rw [List.drop_append_of_le_length (by omega), readWordLoop_shift,
          readWordLoop_shift (s.drop k), readWordLoop_append _ _ (fun c hc => (hr c hc).1)]
        have hm := readWordLoop_le (s.drop k)
        generalize readWordLoop (s.drop k) 0 = m at hm
        rw [substr_append s r k m hm (by omega)]
        generalize substr s k (k + m) = w
        split <;> [rfl; (split <;> [rfl; (split <;> rfl)])]
      · split
        · simp only [readNumber]
          rw [List.drop_append_of_le_length (by omega), readNumberLoop_shift,
            readNumberLoop_shift (s.drop k),
            readNumberLoop_append _ _ _ (fun c hc => ⟨(hr c hc).2.1, (hr c hc).2.2⟩)]
          have hm := readNumberLoop_le (s.drop k) false
          generalize readNumberLoop (s.drop k) false 0 = m at hm
          rw [substr_append s r k m hm (by omega)]
          generalize substr s k (k + m) = w
          split <;> rfl
        · rfl

theorem Tokenizer.lookup_ne_eof (w : String) (h : w ≠ "#") :
    List.lookup w kTokenMap ≠ some TokenType.EndOfFile := by
  have h1 : (w == "#") = false := by simpa using h
  simp only [kTokenMap, List.lookup, h1]
  repeat' split
  all_goals simp

theorem Tokenizer.readIdentifierOrKeyword_type (s : List Char) (k : Nat) (ch : Char)
    (hs : s[k]? = some ch) (ha : isalpha ch = true) :
    (readIdentifierOrKeyword ⟨s, k⟩).1.type ≠ TokenType.EndOfFile := by
  have hlt : k < s.length := by
    by_contra hc
    rw [List.getElem?_eq_none (by omega)] at hs
    exact absurd hs (by simp)
  have hd : s.drop k = ch :: s.drop (k + 1) := by
    rw [List.drop_eq_getElem_cons hlt]
    congr 1
    rw [List.getElem?_eq_getElem hlt] at hs
    exact Option.some.inj hs
  have hw : substr s k (readWordLoop (s.drop k) k) ≠ "#" := by
    rw [readWordLoop_shift, hd]
    have hp := readWordLoop_pos (s.drop (k + 1)) ha
    obtain ⟨m, hm⟩ : ∃ m, readWordLoop (ch :: s.drop (k + 1)) 0 = m + 1 :=
      ⟨readWordLoop (ch :: s.drop (k + 1)) 0 - 1, by omega⟩
    simp only [substr, hd, hm, Nat.add_sub_cancel_left, List.take_succ_cons]
    intro hc
    have : ch = '#' := by
      have := congrArg String.data hc
      simp at this
      exact this.1
    subst this
    simp [isalpha] at ha
  simp only [readIdentifierOrKeyword]
  generalize substr s k (readWordLoop (s.drop k) k) = w at hw
  split
  · simp
  · split
    · rename_i ty hty
      simp only
      intro hc
      subst hc
      exact lookup_ne_eof w hw hty
    · split <;> simp

theorem Tokenizer.nextToken_eof (s : List Char)
    (h : (nextToken ⟨s, 0⟩).1.type = TokenType.EndOfFile) :
    skipWhitespaceLoop s 0 = s.length := by
  have hk0 := skipWhitespaceLoop_le s
  revert h
  simp only [nextToken, skipWhitespace, List.drop_zero]
  cases hs : s[skipWhitespaceLoop s 0]? with
  | none =>
    intro _
    by_contra hc
    rw [List.getElem?_eq_getElem (by omega)] at hs
    exact absurd hs (by simp)
  | some ch =>
    simp only
    split
    · rename_i h1
      simp only [readSingleCharToken]
      simp only [isSingleCharToken, Bool.or_eq_true, decide_eq_true_eq] at h1
      intro h
      exfalso
      rcases h1 with ((((((h1 | h1) | h1) | h1) | h1) | h1) | h1) | h1 <;> subst h1 <;>
        exact absurd h (by decide)
    · split
      · rename_i ha
        intro h
        exact absurd h (readIdentifierOrKeyword_type s _ ch hs ha)
      · split
        · simp only [readNumber]
          split <;> simp
        · simp

/-- White space before the input is skipped. -/
theorem Tokenizer.nextToken_blank (s r : List Char)
    (h : (nextToken ⟨s, 0⟩).1.type = TokenType.EndOfFile) :
    nextToken ⟨s ++ r, 0⟩ = ((nextToken ⟨r, 0⟩).1, ⟨s ++ r, s.length + (nextToken ⟨r, 0⟩).2.index_⟩) := by
  have hk : skipWhitespaceLoop s 0 = s.length := nextToken_eof s h
  have e : nextToken ⟨s ++ r, 0⟩ = nextToken ⟨s ++ r, s.length⟩ := by
    simp only [nextToken, skipWhitespace, List.drop_zero, List.drop_left]
    rw [skipWhitespaceLoop_append_of_eq s r hk, skipWhitespaceLoop_shift r s.length]
  rw [e, nextToken_shift, List.drop_left]

theorem Lex.step {s : List Char} {ts : List Token} {tok : Token} {t1 : Tokenizer}
    (h : nextToken ⟨s, 0⟩ = (tok, t1)) (h1 : tok.type ≠ TokenType.EndOfFile)
    (h2 : tok.type ≠ TokenType.Error) (h3 : Lex (s.drop t1.index_) ts) : Lex s (tok :: ts) := by
  have e1 : tok = (nextToken ⟨s, 0⟩).1 := by rw [h]
  have e2 : t1 = (nextToken ⟨s, 0⟩).2 := by rw [h]
  subst e1 e2
  exact Lex.token h1 h2 h3

theorem Lex.ne_nil {s : List Char} {ts : List Token} (h : Lex s ts) : ts ≠ [] := by
  cases h <;> simp

/-- White space before the input does not change the tokens. -/
theorem Lex.blank {s r : List Char} {ts : List Token}
    (hs : (nextToken ⟨s, 0⟩).1.type = TokenType.EndOfFile) (h : Lex r ts) :
    Lex (s ++ r) ts := by
  have e := nextToken_blank s r hs
  cases h with
  | eof heof =>
    have := Lex.eof (s := s ++ r) (by rw [e]; exact heof)
    rw [e] at this
    exact this
  | token h1 h2 h3 =>
    refine Lex.step e h1 h2 ?_
    simpa [List.drop_append] using h3

/-- The tokens of `s ++ r` are the tokens of `s` without its end-of-file token,
followed by the tokens of `r`, when `r` starts with a separator. -/
theorem Lex.append {s r : List Char} {ts ts1 : List Token} (h : Lex s ts)
    (hr : isSeparator r) (h1 : Lex r ts1) : Lex (s ++ r) (ts.dropLast ++ ts1) := by
  induction h with
  | eof heof => simpa using Lex.blank heof h1
  | @token s ts heof herr hl ih =>
    have e := nextToken_append s r heof hr
    have hle := nextToken_index_le s
    rw [List.dropLast_cons_of_ne_nil hl.ne_nil, List.cons_append]
    refine Lex.step e heof herr ?_
    simp only
    rw [List.drop_append_of_le_length hle]
    exact ih

theorem Tokenizer.isalpha_not_space {c : Char} (h : isalpha c = true) : isspace c = false := by
  by_contra hc
  simp only [Bool.not_eq_false, isspace, Bool.or_eq_true, decide_eq_true_eq] at hc
  rcases hc with ((((hc | hc) | hc) | hc) | hc) | hc <;> subst hc <;> simp [isalpha] at h

theorem Tokenizer.isalpha_not_single {c : Char} (h : isalpha c = true) :
    isSingleCharToken c = false := by
  by_contra hc
  simp only [Bool.not_eq_false, isSingleCharToken, Bool.or_eq_true, decide_eq_true_eq] at hc
  rcases hc with ((((((hc | hc) | hc) | hc) | hc) | hc) | hc) | hc <;> subst hc <;>
    simp [isalpha] at h

theorem Tokenizer.isdigit_not_space {c : Char} (h : isdigit c = true) : isspace c = false := by
  by_contra hc
  simp only [Bool.not_eq_false, isspace, Bool.or_eq_true, decide_eq_true_eq] at hc
  rcases hc with ((((hc | hc) | hc) | hc) | hc) | hc <;> subst hc <;> simp [isdigit] at h

theorem Tokenizer.isdigit_not_single {c : Char} (h : isdigit c = true) :
    isSingleCharToken c = false := by
  by_contra hc
  simp only [Bool.not_eq_false, isSingleCharToken, Bool.or_eq_true, decide_eq_true_eq] at hc
  rcases hc with ((((((hc | hc) | hc) | hc) | hc) | hc) | hc) | hc <;> subst hc <;>
    simp [isdigit] at h

theorem Tokenizer.isdigit_not_alpha {c : Char} (h : isdigit c = true) : isalpha c = false := by
  simp only [isdigit, Bool.and_eq_true, decide_eq_true_eq] at h
  simp only [isalpha, Bool.or_eq_false_iff, Bool.and_eq_false_iff, decide_eq_false_iff_not,
    not_le]
  have h1 : c.toNat ≤ 57 := h.2
  constructor
  · left
    show c.toNat < 97
    omega
  · left
    show c.toNat < 65
    omega

/-! ### Lexer: atoms and one-character tokens -/

theorem Tokenizer.lookup_letter (c : Char) (h : isalpha c = true) :
    List.lookup (String.mk [c]) kTokenMap = none := by
  rw [List.lookup_eq_none_iff]
  intro p hp
  have key : (kTokenMap.all fun q =>
      match q.1.data with
      | [d] => !isalpha d
      | _ => true) = true := by decide
  simp only [bne_iff_ne, ne_eq]
  intro hc
  have := List.all_eq_true.1 key p hp
  rw [← hc] at this
  simp only at this
  rw [h] at this
  exact absurd this (by simp)

theorem Tokenizer.lookup_digit (w : String) (c : Char) (hw : w.data.head? = some c)
    (h : isdigit c = true) : List.lookup w kTokenMap = none := by
  rw [List.lookup_eq_none_iff]
  intro p hp
  have key : (kTokenMap.all fun q =>
      match q.1.data.head? with
      | some d => !isdigit d
      | none => true) = true := by decide
  simp only [bne_iff_ne, ne_eq]
  intro hc
  have := List.all_eq_true.1 key p hp
  rw [← hc, hw] at this
  simp only at this
  rw [h] at this
  exact absurd this (by simp)

/-- A letter followed by a character that is not a letter is an identifier. -/
theorem Tokenizer.nextToken_letter (c : Char) (r : List Char) (h : isalpha c = true)
    (hr : ∀ d, r.head? = some d → isalpha d = false) :
    nextToken ⟨c :: r, 0⟩ = (⟨TokenType.ID, String.mk [c]⟩, ⟨c :: r, 1⟩) := by
  have e : readWordLoop (c :: r) 0 = 1 := by
    have := readWordLoop_append [c] r hr
    simpa [readWordLoop, h] using this
  have hl : String.mk [c] ≠ "lambda" := by
    intro hc
    have := congrArg String.length hc
    simp [String.length] at this
  simp only [nextToken, skipWhitespace, List.drop_zero, skipWhitespaceLoop,
    isalpha_not_space h, Bool.false_eq_true, if_false, List.getElem?_cons_zero,
    isalpha_not_single h, h, if_true, readIdentifierOrKeyword, e, substr, List.drop_zero,
    Nat.sub_zero, List.take_succ_cons, List.take_zero, hl, lookup_letter c h]
  simp [String.length]

theorem Tokenizer.readNumberLoop_digits (g : List Char) (d : Bool)
    (h : g.all isdigit = true) : readNumberLoop g d 0 = g.length := by
  induction g with
  | nil => rfl
  | cons c cs ih =>
    simp only [List.all_cons, Bool.and_eq_true] at h
    simp only [readNumberLoop, h.1, if_true]
    rw [readNumberLoop_shift, ih h.2]
    simp; omega

theorem Tokenizer.readNumberLoop_fraction (f : List Char) (h : matchFraction f = true) :
    readNumberLoop f false 0 = f.length := by
  cases f with
  | nil => rfl
  | cons c g =>
    simp only [matchFraction, Bool.and_eq_true, decide_eq_true_eq] at h
    obtain ⟨⟨rfl, _⟩, hg⟩ := h
    have hd : isdigit '.' = false := by decide
    simp only [readNumberLoop, hd, Bool.false_eq_true, if_false, decide_True, Bool.not_false,
      Bool.and_self, if_true]
    rw [readNumberLoop_shift, readNumberLoop_digits g true hg]
    simp; omega

theorem Tokenizer.readNumberLoop_tail (cs : List Char)
    (h : matchFraction (cs.dropWhile isdigit) = true) :
    readNumberLoop cs false 0 = cs.length := by
  induction cs with
  | nil => rfl
  | cons c g ih =>
    by_cases hc : isdigit c = true
    · simp only [List.dropWhile_cons, hc, if_true] at h
      simp only [readNumberLoop, hc, if_true]
      rw [readNumberLoop_shift, ih h]
      simp; omega
    · simp only [List.dropWhile_cons, hc, if_false] at h
      exact readNumberLoop_fraction _ h

theorem Tokenizer.matchNumberRe_head {x : List Char} (h : matchNumberRe x = true) :
    ∃ c cs, x = c :: cs ∧ isdigit c = true ∧ readNumberLoop cs false 0 = cs.length := by
  cases x with
  | nil => simp [matchNumberRe] at h
  | cons c cs =>
    refine ⟨c, cs, rfl, ?_⟩
    simp only [matchNumberRe] at h
    split at h
    · rename_i h0
      subst h0
      exact ⟨by decide, readNumberLoop_fraction cs h⟩
    · split at h
      · rename_i h1
        refine ⟨?_, readNumberLoop_tail cs h⟩
        simp only [Bool.and_eq_true, decide_eq_true_eq] at h1
        simp only [isdigit, Bool.and_eq_true, decide_eq_true_eq]
        have a : 49 ≤ c.toNat := h1.1
        have b : c.toNat ≤ 57 := h1.2
        exact ⟨show 48 ≤ c.toNat by omega, show c.toNat ≤ 57 from b⟩
      · simp at h

/-- A number literal is read as one `Number` token. -/
theorem Tokenizer.nextToken_number (x : List Char) (h : matchNumberRe x = true) :
    nextToken ⟨x, 0⟩ = (⟨TokenType.Number, String.mk x⟩, ⟨x, x.length⟩) := by
  obtain ⟨c, cs, rfl, hc, hcs⟩ := matchNumberRe_head h
  have e : readNumberLoop (c :: cs) false 0 = (c :: cs).length := by
    simp only [readNumberLoop, hc, if_true]
    rw [readNumberLoop_shift, hcs]
    simp; omega
  have hsub : substr (c :: cs) 0 (c :: cs).length = String.mk (c :: cs) := by
    simp [substr]
  have hty : getType (String.mk (c :: cs)) = TokenType.Number := by
    have hne : String.mk (c :: cs) ≠ "#" := by
      intro hh
      have := congrArg String.data hh
      simp at this
      have h2 := this.1
      subst h2
      simp [isdigit] at hc
    simp only [getType, hne, if_false, lookup_digit (String.mk (c :: cs)) c rfl hc, h, if_true]
  simp only [nextToken, skipWhitespace, List.drop_zero, skipWhitespaceLoop,
    isdigit_not_space hc, Bool.false_eq_true, if_false, List.getElem?_cons_zero,
    isdigit_not_single hc, isdigit_not_alpha hc, hc, if_true, readNumber, e, hsub, hty,
    ne_eq, not_true_eq_false]

theorem isLetter_data {x : String} (h : isLetter x = true) :
    ∃ c, x = String.mk [c] ∧ Tokenizer.isalpha c = true := by
  obtain ⟨d⟩ := x
  simp only [isLetter] at h
  split at h
  · rename_i c
    exact ⟨c, rfl, h⟩
  · simp at h

/-- An atom followed by a separator is read as its token. -/
theorem Tokenizer.nextToken_atom (x : String) (r : List Char) (hx : isAtom x = true)
    (hr : isSeparator r) :
    nextToken ⟨x.data ++ r, 0⟩ = (atomToken x, ⟨x.data ++ r, x.length⟩) := by
  by_cases hl : isLetter x = true
  · obtain ⟨c, rfl, hc⟩ := isLetter_data hl
    have := nextToken_letter c r hc (fun d hd => (hr d hd).1)
    simp only [atomToken, hl, if_true, String.length]
    exact this
  · have hn : matchNumberRe x.data = true := by
      simpa [isAtom, hl, isNumberLiteral] using hx
    have hl1 : isLetter x = false := by simpa using hl
    have e := nextToken_number x.data hn
    rw [nextToken_append x.data r (by rw [e]; simp) hr, e]
    simp only [atomToken, hl1, Bool.false_eq_true, if_false, String.length]

/-- Tokens of an atom followed by input that starts with a separator. -/
theorem Lex.atom {x : String} {r : List Char} {ts : List Token} (hx : isAtom x = true)
    (hr : isSeparator r) (h : Lex r ts) : Lex (x.data ++ r) (atomToken x :: ts) := by
  refine Lex.step (nextToken_atom x r hx hr) ?_ ?_ ?_
  · simp only [atomToken]; split <;> simp
  · simp only [atomToken]; split <;> simp
  · simp only [String.length, List.drop_left]
    exact h

/-- White space is skipped. -/
theorem Lex.space {c : Char} {r : List Char} {ts : List Token} (hc : isspace c = true)
    (h : Lex r ts) : Lex (c :: r) ts := by
  have : (nextToken ⟨[c], 0⟩).1.type = TokenType.EndOfFile := by
    simp [nextToken, skipWhitespace, skipWhitespaceLoop, hc]
  exact Lex.blank this h

theorem Lex.nil : Lex [] [⟨TokenType.EndOfFile, "#"⟩] :=
  Lex.eof (s := []) rfl

/-- Tokens of a one-character token followed by any input. -/
theorem Lex.single {c : Char} {r : List Char} {ts : List Token}
    (hc : isSingleCharToken c = true) (h : Lex r ts) :
    Lex (c :: r)
      (⟨(List.lookup (String.singleton c) kTokenMap).getD TokenType.Error, String.singleton c⟩
        :: ts) := by
  have hsp : isspace c = false := by
    simp only [isSingleCharToken, Bool.or_eq_true, decide_eq_true_eq] at hc
    rcases hc with ((((((hc | hc) | hc) | hc) | hc) | hc) | hc) | hc <;> subst hc <;> decide
  have e : nextToken ⟨c :: r, 0⟩ =
      (⟨(List.lookup (String.singleton c) kTokenMap).getD TokenType.Error, String.singleton c⟩,
        ⟨c :: r, 1⟩) := by
    simp [nextToken, skipWhitespace, skipWhitespaceLoop, hsp, hc, readSingleCharToken]
  simp only [isSingleCharToken, Bool.or_eq_true, decide_eq_true_eq] at hc
  refine Lex.step e ?_ ?_ (by simpa using h)
  · rcases hc with ((((((hc | hc) | hc) | hc) | hc) | hc) | hc) | hc <;> subst hc <;> decide
  · rcases hc with ((((((hc | hc) | hc) | hc) | hc) | hc) | hc) | hc <;> subst hc <;> decide

/-! ### The parser functions, one step unfolded -/

open Parser

@[simp]
theorem ParserM.bind_apply {α β : Type} (x : ParserM α) (f : α → ParserM β) (p : Parser) :
    (x >>= f) p = (x p).bind (fun r => f r.1 r.2) := rfl

@[simp]
theorem Outcome.bind_ok {α β : Type} (a : α) (f : α → Outcome β) :
    (Outcome.ok a).bind f = f a := rfl

@[simp]
theorem Outcome.bind_thrown {α β : Type} (e : ParserException) (f : α → Outcome β) :
    (Outcome.thrown e : Outcome α).bind f = Outcome.thrown e := rfl

@[simp]
theorem Outcome.bind_outOfFuel {α β : Type} (f : α → Outcome β) :
    (Outcome.outOfFuel : Outcome α).bind f = Outcome.outOfFuel := rfl

@[simp]
theorem ParserM.pure_apply {α : Type} (a : α) (p : Parser) :
    (Pure.pure a : ParserM α) p = Outcome.ok (a, p) := rfl

@[simp]
theorem ParserM.get_apply {α : Type} (f : Parser → α) (p : Parser) :
    ParserM.get f p = Outcome.ok (f p, p) := rfl

@[simp]
theorem ParserM.throw_apply {α : Type} (e : ParserException) (p : Parser) :
    (ParserM.throw e : ParserM α) p = Outcome.thrown e := rfl

theorem Parser.peek_eq (p : Parser) : p.peek = p.tokens_.getD p.current_index_ eofToken := by
  unfold peek
  split
  · rfl
  · rw [List.getD_eq_default]; omega

theorem Parser.previous_next (p : Parser) : p.next.previous = p.peek := by
  simp [previous, next, peek_eq]

theorem Parser.check_isAtEnd {type : TokenType} {p : Parser} (h : check type p = true) :
    p.isAtEnd = false := by
  unfold check at h; split at h <;> simp_all

theorem Parser.advance_eq (p : Parser) (h : p.isAtEnd = false) :
    advance p = Outcome.ok (p.peek, p.next) := by
  simp only [advance, h, ← previous_next]
  rfl

theorem Parser.match_eq (type : TokenType) (p : Parser) :
    match_ type p = if check type p then Outcome.ok (true, p.next) else Outcome.ok (false, p) := by
  unfold match_
  by_cases h : check type p = true
  · simp [h, advance_eq p (check_isAtEnd h)]
  · simp [h]

theorem Parser.matchBinaryOperator_eq (operators : List String) (p : Parser) :
    matchBinaryOperator operators p
      = if isOp operators p then Outcome.ok (true, p.next) else Outcome.ok (false, p) := by
  unfold matchBinaryOperator isOp
  by_cases h : check TokenType.BinaryOperator p = true
  · by_cases h2 : p.peek.value ∈ operators
    · simp [h, h2, advance_eq p (check_isAtEnd h)]
    · simp [h, h2]
  · simp [h]

theorem Parser.consume_eq (type : TokenType) (message : String) (p : Parser) :
    consume type message p
      = if check type p then Outcome.ok (p.peek, p.next)
        else Outcome.thrown (ParserException.UnexpectedTokenError message p.peek.value) := by
  unfold consume
  by_cases h : check type p = true
  · simp [h, advance_eq p (check_isAtEnd h)]
  · simp [h]

theorem Parser.makeBinaryNode_eq (op : Token) (left right : NodePtr) (p : Parser) :
    makeBinaryNode op left right p
      = if left = NodePtr.null ∨ right = NodePtr.null then
          Outcome.thrown (ParserException.ParserException
            ("Binary operator missing operand: " ++ op.value))
        else Outcome.ok (NodePtr.node op left right, p) := by
  unfold makeBinaryNode
  split <;> rfl

theorem Parser.makeUnaryNode_eq (op : Token) (child : NodePtr) (p : Parser) :
    makeUnaryNode op child p
      = if child = NodePtr.null then
          Outcome.thrown (ParserException.ParserException
            ("Unary operator missing operand: " ++ op.value))
        else Outcome.ok (NodePtr.node op child NodePtr.null, p) := by
  unfold makeUnaryNode
  split <;> rfl

theorem Parser.parsePrimary_succ (fuel : Nat) (p : Parser) :
    parsePrimary (fuel + 1) p =
      if check TokenType.Number p then Outcome.ok (AST.createLeaf p.peek, p.next)
      else if check TokenType.ID p then Outcome.ok (AST.createLeaf p.peek, p.next)
      else if check TokenType.OpenScope p then
        (parseExpression fuel p.next).bind fun r =>
          if check TokenType.CloseScope r.2 then Outcome.ok (r.1, r.2.next)
          else Outcome.thrown
            (ParserException.UnexpectedTokenError "closing parenthesis" r.2.peek.value)
      else Outcome.thrown (ParserException.SyntaxError ("Unexpected token: " ++ p.peek.value)) := by
  by_cases h1 : check TokenType.Number p = true
  · simp [parsePrimary, match_eq, h1, previous_next]
  by_cases h2 : check TokenType.ID p = true
  · simp [parsePrimary, match_eq, h1, h2, previous_next]
  by_cases h3 : check TokenType.OpenScope p = true
  · simp only [parsePrimary, ParserM.bind_apply, match_eq, h1, h2, h3, if_true, if_false,
      Bool.false_eq_true, Outcome.bind_ok]
    congr 1
    funext r
    by_cases h4 : check TokenType.CloseScope r.2 = true <;> simp [consume_eq, h4]
  · simp [parsePrimary, match_eq, h1, h2, h3]

theorem Parser.parseExpression_succ (fuel : Nat) (p : Parser) :
    parseExpression (fuel + 1) p = parseAddition fuel p := by
  simp [parseExpression]

theorem Parser.parseAddition_succ (fuel : Nat) (p : Parser) :
    parseAddition (fuel + 1) p =
      (parseMultiplication fuel p).bind fun r => parseAdditionLoop fuel r.1 r.2 := by
  simp [parseAddition]

theorem Parser.parseAdditionLoop_succ (fuel : Nat) (node : NodePtr) (p : Parser) :
    parseAdditionLoop (fuel + 1) node p =
      if isOp ["+", "-"] p then
        (parseMultiplication fuel p.next).bind fun r =>
          if node = NodePtr.null ∨ r.1 = NodePtr.null then
            Outcome.thrown (ParserException.ParserException
              ("Binary operator missing operand: " ++ p.peek.value))
          else parseAdditionLoop fuel (NodePtr.node p.peek node r.1) r.2
      else Outcome.ok (node, p) := by
  by_cases h : isOp ["+", "-"] p = true
  · simp only [parseAdditionLoop, ParserM.bind_apply, matchBinaryOperator_eq, h, if_true,
      ParserM.get_apply, previous_next, Outcome.bind_ok]
    congr 1
    funext r
    by_cases hn : node = NodePtr.null ∨ r.1 = NodePtr.null <;>
      simp [makeBinaryNode_eq, AST.createNode, hn]
  · simp [parseAdditionLoop, matchBinaryOperator_eq, h]

theorem Parser.parseMultiplication_succ (fuel : Nat) (p : Parser) :
    parseMultiplication (fuel + 1) p =
      (parseExponentiation fuel p).bind fun r => parseMultiplicationLoop fuel r.1 r.2 := by
  simp [parseMultiplication]

theorem Parser.parseMultiplicationLoop_succ (fuel : Nat) (node : NodePtr) (p : Parser) :
    parseMultiplicationLoop (fuel + 1) node p =
      if isOp ["*", "/"] p then
        (parseExponentiation fuel p.next).bind fun r =>
          if node = NodePtr.null ∨ r.1 = NodePtr.null then
            Outcome.thrown (ParserException.ParserException
              ("Binary operator missing operand: " ++ p.peek.value))
          else parseMultiplicationLoop fuel (NodePtr.node p.peek node r.1) r.2
      else Outcome.ok (node, p) := by
  by_cases h : isOp ["*", "/"] p = true
  · simp only [parseMultiplicationLoop, ParserM.bind_apply, matchBinaryOperator_eq, h, if_true,
      ParserM.get_apply, previous_next, Outcome.bind_ok]
    congr 1
    funext r
    by_cases hn : node = NodePtr.null ∨ r.1 = NodePtr.null <;>
      simp [makeBinaryNode_eq, AST.createNode, hn]
  · simp [parseMultiplicationLoop, matchBinaryOperator_eq, h]

theorem Parser.parseExponentiation_succ (fuel : Nat) (p : Parser) :
    parseExponentiation (fuel + 1) p =
      (parseUnary fuel p).bind fun r =>
        if isOp ["^"] r.2 then
          (parseExponentiation fuel r.2.next).bind fun r1 =>
            if r.1 = NodePtr.null ∨ r1.1 = NodePtr.null then
              Outcome.thrown (ParserException.ParserException
                ("Binary operator missing operand: " ++ r.2.peek.value))
            else Outcome.ok (NodePtr.node r.2.peek r.1 r1.1, r1.2)
        else Outcome.ok r := by
  simp only [parseExponentiation, ParserM.bind_apply]
  congr 1
  funext r
  by_cases h : isOp ["^"] r.2 = true
  · simp only [matchBinaryOperator_eq, h, if_true, ParserM.bind_apply, ParserM.get_apply,
      previous_next, Outcome.bind_ok]
    congr 1
    funext r1
    by_cases hn : r.1 = NodePtr.null ∨ r1.1 = NodePtr.null <;>
      simp [makeBinaryNode_eq, AST.createNode, hn]
  · simp [matchBinaryOperator_eq, h]

theorem Parser.parseUnary_succ (fuel : Nat) (p : Parser) :
    parseUnary (fuel + 1) p =
      if check TokenType.UnaryOperator p then
        if check TokenType.OpenScope p.next then
          (parseExpression fuel p.next.next).bind fun r =>
            if check TokenType.CloseScope r.2 then
              if r.1 = NodePtr.null then
                Outcome.thrown (ParserException.ParserException
                  ("Unary operator missing operand: " ++ p.peek.value))
              else Outcome.ok (NodePtr.node p.peek r.1 NodePtr.null, r.2.next)
            else Outcome.thrown
              (ParserException.UnexpectedTokenError "')' after unary operator" r.2.peek.value)
        else Outcome.thrown
          (ParserException.UnexpectedTokenError "'(' after unary operator" p.next.peek.value)
      else if isSign p then
        (parseUnary fuel p.next).bind fun r =>
          if r.1 = NodePtr.null then
            Outcome.thrown (ParserException.ParserException
              ("Binary operator missing operand: " ++ p.peek.value))
          else Outcome.ok
            (NodePtr.node p.peek (AST.createLeaf ⟨TokenType.Number, "0"⟩) r.1, r.2)
      else if check TokenType.Lambda p then
        if check TokenType.ID p.next then
          if check TokenType.Dot p.next.next then
            (parseExpression fuel p.next.next.next).bind fun r =>
              Outcome.ok (NodePtr.node p.peek (AST.createLeaf p.next.peek) r.1, r.2)
          else Outcome.thrown
            (ParserException.UnexpectedTokenError "'.' after lambda parameter"
              p.next.next.peek.value)
        else Outcome.thrown
          (ParserException.UnexpectedTokenError "identifier after lambda" p.next.peek.value)
      else parsePrimary fuel p := by
  by_cases h1 : check TokenType.UnaryOperator p = true
  · simp only [parseUnary, ParserM.bind_apply, ParserM.get_apply, h1, if_true,
      advance_eq p (check_isAtEnd h1), consume_eq, Outcome.bind_ok]
    by_cases h2 : check TokenType.OpenScope p.next = true
    · simp only [h2, if_true, Outcome.bind_ok]
      congr 1
      funext r
      by_cases h3 : check TokenType.CloseScope r.2 = true
      · simp only [h3, if_true, makeUnaryNode_eq, AST.createNode, Outcome.bind_ok]
      · simp [h3]
    · simp [h2]
  by_cases h2 : isSign p = true
  · have h2a : check TokenType.BinaryOperator p = true := by
      simp only [isSign, Bool.and_eq_true] at h2; exact h2.1
    have h2b : (p.peek.value = "-" ∨ p.peek.value = "+") := by
      simpa [isSign, h2a] using h2
    simp only [parseUnary, ParserM.bind_apply, ParserM.get_apply, h1, h2, if_true, h2a,
      advance_eq p (check_isAtEnd h2a), Bool.false_eq_true, if_false, Outcome.bind_ok]
    have h2c : (true && (decide (p.peek.value = "-") || decide (p.peek.value = "+"))) = true := by
      rcases h2b with h | h <;> simp [h]
    simp only [h2c, if_true, ParserM.bind_apply, advance_eq p (check_isAtEnd h2a),
      Outcome.bind_ok]
    congr 1
    funext r
    by_cases hn : r.1 = NodePtr.null <;>
      simp [makeBinaryNode_eq, AST.createNode, AST.createLeaf, hn]
  have h2c : (check TokenType.BinaryOperator p
      && (decide (p.peek.value = "-") || decide (p.peek.value = "+"))) = false := by
    simpa [isSign] using h2
  simp only [parseUnary, ParserM.bind_apply, ParserM.get_apply, h1, h2, h2c, if_true,
    Bool.false_eq_true, if_false, Outcome.bind_ok, match_eq]
  by_cases h3 : check TokenType.Lambda p = true
  · simp only [h3, if_true, Outcome.bind_ok, ParserM.bind_apply, ParserM.get_apply,
      previous_next, consume_eq]
    by_cases h4 : check TokenType.ID p.next = true
    · simp only [h4, if_true, Outcome.bind_ok]
      by_cases h5 : check TokenType.Dot p.next.next = true
      · simp only [h5, if_true, Outcome.bind_ok]
        congr 1
      · simp [h5]
    · simp [h4]
  · simp [h3]

/-! ### Runs: soundness of the fuelled functions -/

theorem Outcome.bind_eq_ok {α β : Type} {x : Outcome α} {f : α → Outcome β} {b : β} :
    x.bind f = Outcome.ok b ↔ ∃ a, x = Outcome.ok a ∧ f a = Outcome.ok b := by
  cases x <;> simp [Outcome.bind]

/-- Soundness of the fuelled functions with respect to `Run`. -/
theorem Parser.run_of_parseAt (fuel : Nat) :
    ∀ (l : Level) (p : Parser) (t : NodePtr) (q : Parser),
      parseAt l fuel p = Outcome.ok (t, q) → Run l p t q := by
  induction fuel with
  | zero =>
    intro l p t q h
    cases l <;> simp [parseAt, parseExpression, parseAddition, parseAdditionLoop,
      parseMultiplication, parseMultiplicationLoop, parseExponentiation, parseUnary,
      parsePrimary] at h
  | succ n ih =>
    intro l p t q h
    cases l with
    | expression =>
      simp only [parseAt, parseExpression_succ] at h
      exact Run.expression (ih Level.addition p t q h)
    | addition =>
      simp only [parseAt, parseAddition_succ, Outcome.bind_eq_ok] at h
      obtain ⟨⟨node, q0⟩, h1, h2⟩ := h
      exact Run.addition (ih Level.multiplication _ _ _ h1) (ih (Level.additionLoop node) _ _ _ h2)
    | additionLoop node =>
      simp only [parseAt, parseAdditionLoop_succ] at h
      split at h
      · rename_i hop
        simp only [Outcome.bind_eq_ok] at h
        obtain ⟨⟨right, q0⟩, h1, h2⟩ := h
        split at h2
        · simp at h2
        · rename_i hn
          simp only [not_or] at hn
          exact Run.additionStep hop (ih Level.multiplication _ _ _ h1) hn.1 hn.2
            (ih (Level.additionLoop _) _ _ _ h2)
      · rename_i hop
        simp only [Outcome.ok.injEq, Prod.mk.injEq] at h
        obtain ⟨rfl, rfl⟩ := h
        exact Run.additionExit (by simpa using hop)
    | multiplication =>
      simp only [parseAt, parseMultiplication_succ, Outcome.bind_eq_ok] at h
      obtain ⟨⟨node, q0⟩, h1, h2⟩ := h
      exact Run.multiplication (ih Level.exponentiation _ _ _ h1)
        (ih (Level.multiplicationLoop node) _ _ _ h2)
    | multiplicationLoop node =>
      simp only [parseAt, parseMultiplicationLoop_succ] at h
      split at h
      · rename_i hop
        simp only [Outcome.bind_eq_ok] at h
        obtain ⟨⟨right, q0⟩, h1, h2⟩ := h
        split at h2
        · simp at h2
        · rename_i hn
          simp only [not_or] at hn
          exact Run.multiplicationStep hop (ih Level.exponentiation _ _ _ h1) hn.1 hn.2
            (ih (Level.multiplicationLoop _) _ _ _ h2)
      · rename_i hop
        simp only [Outcome.ok.injEq, Prod.mk.injEq] at h
        obtain ⟨rfl, rfl⟩ := h
        exact Run.multiplicationExit (by simpa using hop)
    | exponentiation =>
      simp only [parseAt, parseExponentiation_succ, Outcome.bind_eq_ok] at h
      obtain ⟨⟨node, q0⟩, h1, h2⟩ := h
      split at h2
      · rename_i hop
        simp only [Outcome.bind_eq_ok] at h2
        obtain ⟨⟨right, q1⟩, h3, h4⟩ := h2
        split at h4
        · simp at h4
        · rename_i hn
          simp only [not_or] at hn
          simp only [Outcome.ok.injEq, Prod.mk.injEq] at h4
          obtain ⟨rfl, rfl⟩ := h4
          exact Run.exponentiationPower (ih Level.unary _ _ _ h1) hop
            (ih Level.exponentiation _ _ _ h3) hn.1 hn.2
      · rename_i hop
        simp only [Outcome.ok.injEq, Prod.mk.injEq] at h2
        obtain ⟨rfl, rfl⟩ := h2
        exact Run.exponentiationSingle (ih Level.unary _ _ _ h1) (by simpa using hop)
    | unary =>
      simp only [parseAt, parseUnary_succ] at h
      split at h
      · rename_i h1
        split at h
        · rename_i h2
          simp only [Outcome.bind_eq_ok] at h
          obtain ⟨⟨operand, q0⟩, h3, h4⟩ := h
          split at h4
          · rename_i h5
            split at h4
            · simp at h4
            · rename_i hn
              simp only [Outcome.ok.injEq, Prod.mk.injEq] at h4
              obtain ⟨rfl, rfl⟩ := h4
              exact Run.unaryCall h1 h2 (ih Level.expression _ _ _ h3) h5 hn
          · simp at h4
        · simp at h
      · rename_i h1
        have h1 : check TokenType.UnaryOperator p = false := by simpa using h1
        split at h
        · rename_i h2
          simp only [Outcome.bind_eq_ok] at h
          obtain ⟨⟨operand, q0⟩, h3, h4⟩ := h
          split at h4
          · simp at h4
          · rename_i hn
            simp only [Outcome.ok.injEq, Prod.mk.injEq] at h4
            obtain ⟨rfl, rfl⟩ := h4
            exact Run.unarySign h1 h2 (ih Level.unary _ _ _ h3) hn
        · rename_i h2
          have h2 : isSign p = false := by simpa using h2
          split at h
          · rename_i h3
            split at h
            · rename_i h4
              split at h
              · rename_i h5
                simp only [Outcome.bind_eq_ok] at h
                obtain ⟨⟨body, q0⟩, h6, h7⟩ := h
                simp only [Outcome.ok.injEq, Prod.mk.injEq] at h7
                obtain ⟨rfl, rfl⟩ := h7
                exact Run.unaryLambda h1 h2 h3 h4 h5 (ih Level.expression _ _ _ h6)
              · simp at h
            · simp at h
          · rename_i h3
            exact Run.unaryPrimary h1 h2 (by simpa using h3) (ih Level.primary _ _ _ h)
    | primary =>
      simp only [parseAt, parsePrimary_succ] at h
      split at h
      · rename_i h1
        simp only [Outcome.ok.injEq, Prod.mk.injEq] at h
        obtain ⟨rfl, rfl⟩ := h
        exact Run.primaryNumber h1
      · rename_i h1
        have h1 : check TokenType.Number p = false := by simpa using h1
        split at h
        · rename_i h2
          simp only [Outcome.ok.injEq, Prod.mk.injEq] at h
          obtain ⟨rfl, rfl⟩ := h
          exact Run.primaryID h1 h2
        · rename_i h2
          have h2 : check TokenType.ID p = false := by simpa using h2
          split at h
          · rename_i h3
            simp only [Outcome.bind_eq_ok] at h
            obtain ⟨⟨expr, q0⟩, h4, h5⟩ := h
            split at h5
            · rename_i h6
              simp only [Outcome.ok.injEq, Prod.mk.injEq] at h5
              obtain ⟨rfl, rfl⟩ := h5
              exact Run.primaryParen h1 h2 h3 (ih Level.expression _ _ _ h4) h6
            · simp at h5
          · simp at h

/-! ### Runs: cursor and result -/

theorem Parser.check_lt {type : TokenType} {p : Parser} (h : check type p = true) :
    p.current_index_ < p.tokens_.length := by
  have h1 := check_isAtEnd h
  by_contra hlt
  simp only [isAtEnd, peek, hlt, if_false, eofToken] at h1
  simp at h1

theorem Parser.isOp_check {ops : List String} {p : Parser} (h : isOp ops p = true) :
    check TokenType.BinaryOperator p = true := by
  simp only [isOp, Bool.and_eq_true] at h; exact h.1

theorem Parser.isSign_check {p : Parser} (h : isSign p = true) :
    check TokenType.BinaryOperator p = true := by
  simp only [isSign, Bool.and_eq_true] at h; exact h.1

@[simp]
theorem Parser.next_tokens (p : Parser) : p.next.tokens_ = p.tokens_ := rfl

@[simp]
theorem Parser.next_index (p : Parser) : p.next.current_index_ = p.current_index_ + 1 := rfl

/-- A run leaves the token vector alone, moves the cursor forward only, and
keeps it within the vector; outside the loops it reads at least one token; it
returns a node. -/
theorem Run.basic {l : Level} {p q : Parser} {t : NodePtr} (h : Run l p t q) :
    q.tokens_ = p.tokens_ ∧ p.current_index_ ≤ q.current_index_ ∧
    (p.current_index_ ≤ p.tokens_.length → q.current_index_ ≤ p.tokens_.length) ∧
    (l.isLoop = false → p.current_index_ < q.current_index_) ∧
    (l.entryOK → t ≠ NodePtr.null) := by
  induction h with
  | expression _ ih => simpa [Level.isLoop, Level.entryOK] using ih
  | addition _ _ ih1 ih2 =>
    obtain ⟨a1, b1, c1, d1, e1⟩ := ih1
    obtain ⟨a2, b2, c2, d2, e2⟩ := ih2
    have := d1 rfl
    refine ⟨by rw [a2, a1], by omega, fun hp => ?_, fun _ => by omega, fun _ => ?_⟩
    · rw [a1] at c2; exact c2 (c1 hp)
    · exact e2 (e1 trivial)
  | additionExit _ => exact ⟨rfl, le_refl _, fun h => h, by simp [Level.isLoop], fun h => h⟩
  | additionStep hop _ hn hr _ ih1 ih2 =>
    obtain ⟨a1, b1, c1, d1, e1⟩ := ih1
    obtain ⟨a2, b2, c2, d2, e2⟩ := ih2
    have hlt := check_lt (isOp_check hop)
    simp only [next_tokens, next_index] at a1 b1 c1 d1
    refine ⟨by rw [a2, a1], by omega, fun _ => ?_, by simp [Level.isLoop], fun _ => ?_⟩
    · rw [a1] at c2; exact c2 (c1 hlt)
    · exact e2 (by simp [Level.entryOK])
  | multiplication _ _ ih1 ih2 =>
    obtain ⟨a1, b1, c1, d1, e1⟩ := ih1
    obtain ⟨a2, b2, c2, d2, e2⟩ := ih2
    have := d1 rfl
    refine ⟨by rw [a2, a1], by omega, fun hp => ?_, fun _ => by omega, fun _ => ?_⟩
    · rw [a1] at c2; exact c2 (c1 hp)
    · exact e2 (e1 trivial)
  | multiplicationExit _ => exact ⟨rfl, le_refl _, fun h => h, by simp [Level.isLoop], fun h => h⟩
  | multiplicationStep hop _ hn hr _ ih1 ih2 =>
    obtain ⟨a1, b1, c1, d1, e1⟩ := ih1
    obtain ⟨a2, b2, c2, d2, e2⟩ := ih2
    have hlt := check_lt (isOp_check hop)
    simp only [next_tokens, next_index] at a1 b1 c1 d1
    refine ⟨by rw [a2, a1], by omega, fun _ => ?_, by simp [Level.isLoop], fun _ => ?_⟩
    · rw [a1] at c2; exact c2 (c1 hlt)
    · exact e2 (by simp [Level.entryOK])
  | exponentiationSingle _ _ ih => simpa [Level.isLoop, Level.entryOK] using ih
  | exponentiationPower _ hop _ hn hr ih1 ih2 =>
    obtain ⟨a1, b1, c1, d1, e1⟩ := ih1
    obtain ⟨a2, b2, c2, d2, e2⟩ := ih2
    have hlt := check_lt (isOp_check hop)
    simp only [next_tokens, next_index] at a2 b2 c2 d2
    rw [a1] at hlt c2
    refine ⟨by rw [a2, a1], by omega, fun _ => c2 hlt, fun _ => by omega, fun _ => by simp⟩
  | unaryCall h1 h2 _ h3 hn ih =>
    obtain ⟨a, b, c, d, e⟩ := ih
    have hlt := check_lt h2
    have hlt3 := check_lt h3
    simp only [next_tokens, next_index] at a b c d hlt ⊢
    rw [a] at hlt3
    exact ⟨a, by omega, fun _ => by omega, fun _ => by omega, fun _ => by simp⟩
  | unarySign h1 h2 _ hn ih =>
    obtain ⟨a, b, c, d, e⟩ := ih
    have hlt := check_lt (isSign_check h2)
    simp only [next_tokens, next_index] at a b c d
    exact ⟨a, by omega, fun _ => c hlt, fun _ => by omega, fun _ => by simp⟩
  | unaryLambda h1 h2 h3 h4 h5 _ ih =>
    obtain ⟨a, b, c, d, e⟩ := ih
    have hlt := check_lt h5
    simp only [next_tokens, next_index] at a b c d hlt
    exact ⟨a, by omega, fun _ => c hlt, fun _ => by omega, fun _ => by simp⟩
  | unaryPrimary _ _ _ _ ih => simpa [Level.isLoop, Level.entryOK] using ih
  | primaryNumber h1 =>
    have hlt := check_lt h1
    exact ⟨rfl, by simp, fun _ => by simpa using hlt, fun _ => by simp,
      fun _ => by simp [AST.createLeaf]⟩
  | primaryID _ h1 =>
    have hlt := check_lt h1
    exact ⟨rfl, by simp, fun _ => by simpa using hlt, fun _ => by simp,
      fun _ => by simp [AST.createLeaf]⟩
  | primaryParen _ _ h1 _ h2 ih =>
    obtain ⟨a, b, c, d, e⟩ := ih
    have hlt := check_lt h1
    have hlt2 := check_lt h2
    simp only [next_tokens, next_index] at a b c d ⊢
    rw [a] at hlt2
    exact ⟨a, by omega, fun _ => by omega, fun _ => by omega, fun _ => e trivial⟩

/-! ### The fuel suffices -/

theorem Outcome.bind_ne_outOfFuel {α β : Type} {x : Outcome α} {f : α → Outcome β}
    (hx : x ≠ Outcome.outOfFuel) (hf : ∀ a, x = Outcome.ok a → f a ≠ Outcome.outOfFuel) :
    x.bind f ≠ Outcome.outOfFuel := by
  cases x with
  | ok a => simpa using hf a rfl
  | thrown e => simp
  | outOfFuel => exact absurd rfl hx

/-- With fuel `8 * (tokens left) + rank`, a parsing function does not run out
of fuel. -/
theorem Parser.parseAt_ne_outOfFuel (fuel : Nat) :
    ∀ (l : Level) (p : Parser),
      8 * (p.tokens_.length - p.current_index_) + l.rank ≤ fuel →
      parseAt l fuel p ≠ Outcome.outOfFuel := by
  induction fuel with
  | zero =>
    intro l p h
    cases l <;> simp [Level.rank] at h
  | succ n ih =>
    intro l p h
    cases l with
    | expression =>
      simp only [parseAt, parseExpression_succ]
      exact ih Level.addition p (by simp only [Level.rank] at h ⊢; omega)
    | addition =>
      simp only [parseAt, parseAddition_succ]
      refine Outcome.bind_ne_outOfFuel
        (ih Level.multiplication p (by simp only [Level.rank] at h ⊢; omega)) ?_
      rintro ⟨node, q⟩ hq
      obtain ⟨a, b, -⟩ := (run_of_parseAt n Level.multiplication _ _ _ hq).basic
      exact ih (Level.additionLoop node) q (by simp only [Level.rank, a] at h ⊢; omega)
    | additionLoop node =>
      simp only [parseAt, parseAdditionLoop_succ]
      split
      · rename_i hop
        have hlt := check_lt (isOp_check hop)
        refine Outcome.bind_ne_outOfFuel
          (ih Level.multiplication p.next
            (by simp only [Level.rank, next_tokens, next_index] at h ⊢; omega)) ?_
        rintro ⟨right, q⟩ hq
        obtain ⟨a, b, -⟩ := (run_of_parseAt n Level.multiplication _ _ _ hq).basic
        simp only [next_tokens, next_index] at a b
        split
        · simp
        · exact ih (Level.additionLoop _) q (by simp only [Level.rank, a] at h ⊢; omega)
      · simp
    | multiplication =>
      simp only [parseAt, parseMultiplication_succ]
      refine Outcome.bind_ne_outOfFuel
        (ih Level.exponentiation p (by simp only [Level.rank] at h ⊢; omega)) ?_
      rintro ⟨node, q⟩ hq
      obtain ⟨a, b, -⟩ := (run_of_parseAt n Level.exponentiation _ _ _ hq).basic
      exact ih (Level.multiplicationLoop node) q (by simp only [Level.rank, a] at h ⊢; omega)
    | multiplicationLoop node =>
      simp only [parseAt, parseMultiplicationLoop_succ]
      split
      · rename_i hop
        have hlt := check_lt (isOp_check hop)
        refine Outcome.bind_ne_outOfFuel
          (ih Level.exponentiation p.next
            (by simp only [Level.rank, next_tokens, next_index] at h ⊢; omega)) ?_
        rintro ⟨right, q⟩ hq
        obtain ⟨a, b, -⟩ := (run_of_parseAt n Level.exponentiation _ _ _ hq).basic
        simp only [next_tokens, next_index] at a b
        split
        · simp
        · exact ih (Level.multiplicationLoop _) q (by simp only [Level.rank, a] at h ⊢; omega)
      · simp
    | exponentiation =>
      simp only [parseAt, parseExponentiation_succ]
      refine Outcome.bind_ne_outOfFuel
        (ih Level.unary p (by simp only [Level.rank] at h ⊢; omega)) ?_
      rintro ⟨node, q⟩ hq
      obtain ⟨a, b, -⟩ := (run_of_parseAt n Level.unary _ _ _ hq).basic
      split
      · rename_i hop
        have hlt := check_lt (isOp_check hop)
        refine Outcome.bind_ne_outOfFuel
          (ih Level.exponentiation q.next
            (by simp only [Level.rank, next_tokens, next_index, a] at h hlt ⊢; omega)) ?_
        rintro ⟨right, q1⟩ hq1
        split <;> simp
      · simp
    | unary =>
      simp only [parseAt, parseUnary_succ]
      split
      · split
        · rename_i h1 h2
          have hlt := check_lt h2
          simp only [next_tokens, next_index] at hlt
          refine Outcome.bind_ne_outOfFuel
            (ih Level.expression p.next.next
              (by simp only [Level.rank, next_tokens, next_index] at h ⊢; omega)) ?_
          rintro ⟨operand, q⟩ hq
          split
          · split <;> simp
          · simp
        · simp
      · split
        · rename_i h1 h2
          have hlt := check_lt (isSign_check h2)
          refine Outcome.bind_ne_outOfFuel
            (ih Level.unary p.next
              (by simp only [Level.rank, next_tokens, next_index] at h ⊢; omega)) ?_
          rintro ⟨operand, q⟩ hq
          split <;> simp
        · split
          · split
            · split
              · rename_i h5
                have hlt := check_lt h5
                simp only [next_tokens, next_index] at hlt
                refine Outcome.bind_ne_outOfFuel
                  (ih Level.expression p.next.next.next
                    (by simp only [Level.rank, next_tokens, next_index] at h ⊢; omega)) ?_
                rintro ⟨body, q⟩ hq
                simp
              · simp
            · simp
          · exact ih Level.primary p (by simp only [Level.rank] at h ⊢; omega)
    | primary =>
      simp only [parseAt, parsePrimary_succ]
      split
      · simp
      · split
        · simp
        · split
          · rename_i h3
            have hlt := check_lt h3
            refine Outcome.bind_ne_outOfFuel
              (ih Level.expression p.next
                (by simp only [Level.rank, next_tokens, next_index] at h ⊢; omega)) ?_
            rintro ⟨expr, q⟩ hq
            split <;> simp
          · simp

/-! ### More fuel, same result; completeness -/

theorem Outcome.bind_congr_fuel {α β : Type} {x x1 : Outcome α} {f f1 : α → Outcome β}
    (h : x.bind f ≠ Outcome.outOfFuel)
    (hx : x ≠ Outcome.outOfFuel → x1 = x)
    (hf : ∀ a, x = Outcome.ok a → f a ≠ Outcome.outOfFuel → f1 a = f a) :
    x1.bind f1 = x.bind f := by
  cases x with
  | ok a =>
    rw [hx (by simp)]
    simp only [Outcome.bind_ok] at h ⊢
    exact hf a rfl h
  | thrown e => rw [hx (by simp)]; rfl
  | outOfFuel => exact absurd rfl h

theorem Parser.parseAt_zero (l : Level) (p : Parser) : parseAt l 0 p = Outcome.outOfFuel := by
  cases l <;> simp [parseAt, parseExpression, parseAddition, parseAdditionLoop,
      parseMultiplication, parseMultiplicationLoop, parseExponentiation, parseUnary,
      parsePrimary]

/-- One more unit of fuel does not change a result. -/
theorem Parser.parseAt_succ (fuel : Nat) :
    ∀ (l : Level) (p : Parser), parseAt l fuel p ≠ Outcome.outOfFuel →
      parseAt l (fuel + 1) p = parseAt l fuel p := by
  induction fuel with
  | zero => intro l p h; exact absurd (parseAt_zero l p) h
  | succ n ih =>
    intro l p h
    cases l with
    | expression =>
      simp only [parseAt] at h ⊢
      rw [parseExpression_succ (n + 1) p]
      rw [parseExpression_succ n p] at h ⊢
      exact ih Level.addition p h
    | addition =>
      simp only [parseAt] at h ⊢
      rw [parseAddition_succ (n + 1) p]
      rw [parseAddition_succ n p] at h ⊢
      exact Outcome.bind_congr_fuel h (ih Level.multiplication p)
        (fun r _ hr => ih (Level.additionLoop r.1) r.2 hr)
    | additionLoop node =>
      simp only [parseAt] at h ⊢
      rw [parseAdditionLoop_succ (n + 1) node p]
      rw [parseAdditionLoop_succ n node p] at h ⊢
      split
      · rename_i hop
        simp only [hop, if_true] at h
        refine Outcome.bind_congr_fuel h (ih Level.multiplication p.next) ?_
        intro r _ hr
        split
        · rfl
        · rename_i hn
          simp only [hn, if_false] at hr
          exact ih (Level.additionLoop _) r.2 hr
      · rfl
    | multiplication =>
      simp only [parseAt] at h ⊢
      rw [parseMultiplication_succ (n + 1) p]
      rw [parseMultiplication_succ n p] at h ⊢
      exact Outcome.bind_congr_fuel h (ih Level.exponentiation p)
        (fun r _ hr => ih (Level.multiplicationLoop r.1) r.2 hr)
    | multiplicationLoop node =>
      simp only [parseAt] at h ⊢
      rw [parseMultiplicationLoop_succ (n + 1) node p]
      rw [parseMultiplicationLoop_succ n node p] at h ⊢
      split
      · rename_i hop
        simp only [hop, if_true] at h
        refine Outcome.bind_congr_fuel h (ih Level.exponentiation p.next) ?_
        intro r _ hr
        split
        · rfl
        · rename_i hn
          simp only [hn, if_false] at hr
          exact ih (Level.multiplicationLoop _) r.2 hr
      · rfl
    | exponentiation =>
      simp only [parseAt] at h ⊢
      rw [parseExponentiation_succ (n + 1) p]
      rw [parseExponentiation_succ n p] at h ⊢
      refine Outcome.bind_congr_fuel h (ih Level.unary p) ?_
      intro r _ hr
      split
      · rename_i hop
        simp only [hop, if_true] at hr
        exact Outcome.bind_congr_fuel hr (ih Level.exponentiation r.2.next) (fun _ _ _ => rfl)
      · rfl
    | unary =>
      simp only [parseAt] at h ⊢
      rw [parseUnary_succ (n + 1) p]
      rw [parseUnary_succ n p] at h ⊢
      split
      · rename_i h1
        simp only [h1, if_true] at h
        split
        · rename_i h2
          simp only [h2, if_true] at h
          exact Outcome.bind_congr_fuel h (ih Level.expression p.next.next) (fun _ _ _ => rfl)
        · rfl
      · rename_i h1
        simp only [h1, if_false] at h
        split
        · rename_i h2
          simp only [h2, if_true] at h
          exact Outcome.bind_congr_fuel h (ih Level.unary p.next) (fun _ _ _ => rfl)
        · rename_i h2
          simp only [h2, if_false] at h
          split
          · rename_i h3
            simp only [h3, if_true] at h
            split
            · rename_i h4
              simp only [h4, if_true] at h
              split
              · rename_i h5
                simp only [h5, if_true] at h
                exact Outcome.bind_congr_fuel h (ih Level.expression p.next.next.next)
                  (fun _ _ _ => rfl)
              · rfl
            · rfl
          · rename_i h3
            simp only [h3, if_false] at h
            exact ih Level.primary p h
    | primary =>
      simp only [parseAt] at h ⊢
      rw [parsePrimary_succ (n + 1) p]
      rw [parsePrimary_succ n p] at h ⊢
      split
      · rfl
      · rename_i h1
        simp only [h1, if_false] at h
        split
        · rfl
        · rename_i h2
          simp only [h2, if_false] at h
          split
          · rename_i h3
            simp only [h3, if_true] at h
            exact Outcome.bind_congr_fuel h (ih Level.expression p.next) (fun _ _ _ => rfl)
          · rfl

/-- More fuel does not change a result. -/
theorem Parser.parseAt_mono {l : Level} {p : Parser} {n m : Nat} (hnm : n ≤ m)
    (h : parseAt l n p ≠ Outcome.outOfFuel) : parseAt l m p = parseAt l n p := by
  induction m with
  | zero =>
    have : n = 0 := by omega
    subst this; rfl
  | succ k ih =>
    by_cases hk : n ≤ k
    · have e := ih hk
      rw [parseAt_succ k l p (by rw [e]; exact h), e]
    · have : n = k + 1 := by omega
      subst this; rfl

theorem Parser.parseAt_mono_ok {l : Level} {p : Parser} {n m : Nat} {r : NodePtr × Parser}
    (hnm : n ≤ m) (h : parseAt l n p = Outcome.ok r) : parseAt l m p = Outcome.ok r := by
  rw [parseAt_mono hnm (by rw [h]; simp), h]

/-- Completeness of the fuelled functions with respect to `Run`. -/
theorem Run.parseAt {l : Level} {p q : Parser} {t : NodePtr} (h : Run l p t q) :
    ∃ fuel, Parser.parseAt l fuel p = Outcome.ok (t, q) := by
  induction h with
  | expression _ ih =>
    obtain ⟨n, hn⟩ := ih
    exact ⟨n + 1, by simpa only [Parser.parseAt, parseExpression_succ] using hn⟩
  | addition _ _ ih1 ih2 =>
    obtain ⟨n1, e1⟩ := ih1
    obtain ⟨n2, e2⟩ := ih2
    refine ⟨max n1 n2 + 1, ?_⟩
    have e1 := parseAt_mono_ok (le_max_left n1 n2) e1
    have e2 := parseAt_mono_ok (le_max_right n1 n2) e2
    simp only [Parser.parseAt] at e1 e2
    simp only [Parser.parseAt, parseAddition_succ, e1, Outcome.bind_ok, e2]
  | additionExit hop =>
    exact ⟨1, by simp [Parser.parseAt, parseAdditionLoop_succ, hop]⟩
  | additionStep hop _ hn hr _ ih1 ih2 =>
    obtain ⟨n1, e1⟩ := ih1
    obtain ⟨n2, e2⟩ := ih2
    refine ⟨max n1 n2 + 1, ?_⟩
    have e1 := parseAt_mono_ok (le_max_left n1 n2) e1
    have e2 := parseAt_mono_ok (le_max_right n1 n2) e2
    simp only [Parser.parseAt] at e1 e2
    simp [Parser.parseAt, parseAdditionLoop_succ, e1, e2, hop, hn, hr]
  | multiplication _ _ ih1 ih2 =>
    obtain ⟨n1, e1⟩ := ih1
    obtain ⟨n2, e2⟩ := ih2
    refine ⟨max n1 n2 + 1, ?_⟩
    have e1 := parseAt_mono_ok (le_max_left n1 n2) e1
    have e2 := parseAt_mono_ok (le_max_right n1 n2) e2
    simp only [Parser.parseAt] at e1 e2
    simp only [Parser.parseAt, parseMultiplication_succ, e1, Outcome.bind_ok, e2]
  | multiplicationExit hop =>
    exact ⟨1, by simp [Parser.parseAt, parseMultiplicationLoop_succ, hop]⟩
  | multiplicationStep hop _ hn hr _ ih1 ih2 =>
    obtain ⟨n1, e1⟩ := ih1
    obtain ⟨n2, e2⟩ := ih2
    refine ⟨max n1 n2 + 1, ?_⟩
    have e1 := parseAt_mono_ok (le_max_left n1 n2) e1
    have e2 := parseAt_mono_ok (le_max_right n1 n2) e2
    simp only [Parser.parseAt] at e1 e2
    simp [Parser.parseAt, parseMultiplicationLoop_succ, e1, e2, hop, hn, hr]
  | exponentiationSingle _ hop ih =>
    obtain ⟨n, e⟩ := ih
    simp only [Parser.parseAt] at e
    exact ⟨n + 1, by simp [Parser.parseAt, parseExponentiation_succ, e, hop]⟩
  | exponentiationPower _ hop _ hn hr ih1 ih2 =>
    obtain ⟨n1, e1⟩ := ih1
    obtain ⟨n2, e2⟩ := ih2
    refine ⟨max n1 n2 + 1, ?_⟩
    have e1 := parseAt_mono_ok (le_max_left n1 n2) e1
    have e2 := parseAt_mono_ok (le_max_right n1 n2) e2
    simp only [Parser.parseAt] at e1 e2
    simp [Parser.parseAt, parseExponentiation_succ, e1, e2, hop, hn, hr]
  | unaryCall h1 h2 _ h3 hn ih =>
    obtain ⟨n, e⟩ := ih
    simp only [Parser.parseAt] at e
    exact ⟨n + 1, by simp [Parser.parseAt, parseUnary_succ, e, h1, h2, h3, hn]⟩
  | unarySign h1 h2 _ hn ih =>
    obtain ⟨n, e⟩ := ih
    simp only [Parser.parseAt] at e
    exact ⟨n + 1, by simp [Parser.parseAt, parseUnary_succ, e, h1, h2, hn]⟩
  | unaryLambda h1 h2 h3 h4 h5 _ ih =>
    obtain ⟨n, e⟩ := ih
    simp only [Parser.parseAt] at e
    exact ⟨n + 1, by simp [Parser.parseAt, parseUnary_succ, e, h1, h2, h3, h4, h5]⟩
  | unaryPrimary h1 h2 h3 _ ih =>
    obtain ⟨n, e⟩ := ih
    simp only [Parser.parseAt] at e
    exact ⟨n + 1, by simp [Parser.parseAt, parseUnary_succ, e, h1, h2, h3]⟩
  | primaryNumber h1 =>
    exact ⟨1, by simp [Parser.parseAt, parsePrimary_succ, h1]⟩
  | primaryID h1 h2 =>
    exact ⟨1, by simp [Parser.parseAt, parsePrimary_succ, h1, h2]⟩
  | primaryParen h1 h2 h3 _ h4 ih =>
    obtain ⟨n, e⟩ := ih
    simp only [Parser.parseAt] at e
    exact ⟨n + 1, by simp [Parser.parseAt, parsePrimary_succ, e, h1, h2, h3, h4]⟩

/-- With the fuel of `buildAST`, `parseExpression` returns exactly the runs. -/
theorem Parser.parseExpression_fuelFor_eq_ok (p : Parser) (t : NodePtr) (q : Parser) :
    parseExpression (fuelFor p) p = Outcome.ok (t, q) ↔ Run Level.expression p t q := by
  constructor
  · exact run_of_parseAt (fuelFor p) Level.expression p t q
  · intro h
    obtain ⟨n, hn⟩ := h.parseAt
    have htot : Parser.parseAt Level.expression (fuelFor p) p ≠ Outcome.outOfFuel :=
      parseAt_ne_outOfFuel _ _ _ (by simp only [fuelFor, Level.rank]; omega)
    rcases le_total n (fuelFor p) with hle | hle
    · exact parseAt_mono_ok hle hn
    · have := parseAt_mono hle htot
      rw [hn] at this
      exact this.symm

/-- `buildAST` returns a tree exactly when `parseExpression` runs from the first
token to the end-of-file token. -/
theorem Parser.buildAST_eq_ok (p : Parser) (t : NodePtr) :
    p.buildAST = Outcome.ok t ↔
      ∃ q, Run Level.expression { p with current_index_ := 0 } t q ∧ q.isAtEnd = true := by
  simp only [buildAST, Outcome.bind_eq_ok, Prod.exists]
  constructor
  · rintro ⟨t1, q, h1, h2⟩
    rw [parseExpression_fuelFor_eq_ok] at h1
    by_cases hq : q.isAtEnd = true
    · simp only [hq, Bool.not_true, Bool.false_eq_true, if_false, Outcome.ok.injEq] at h2
      subst h2
      exact ⟨q, h1, hq⟩
    · simp [hq] at h2
  · rintro ⟨q, h1, h2⟩
    refine ⟨t, q, (parseExpression_fuelFor_eq_ok _ t q).2 h1, ?_⟩
    simp [h2]

/-- `buildAST` does not run out of fuel. -/
theorem Parser.buildAST_ne_outOfFuel (p : Parser) : p.buildAST ≠ Outcome.outOfFuel := by
  simp only [buildAST]
  refine Outcome.bind_ne_outOfFuel ?_ ?_
  · exact parseAt_ne_outOfFuel (fuelFor { p with current_index_ := 0 }) Level.expression
      { p with current_index_ := 0 } (by simp only [fuelFor, Level.rank]; omega)
  · rintro ⟨t, q⟩ _
    dsimp only
    split <;> simp

/-! ### From the source text to the tree -/

theorem Lex.getLast {s : List Char} {ts : List Token} (h : Lex s ts) :
    ts.getLast?.map Token.type = some TokenType.EndOfFile := by
  induction h with
  | eof heof => simpa using heof
  | @token s ts _ _ hl ih =>
    cases ts with
    | nil => exact absurd rfl hl.ne_nil
    | cons b l => rw [List.getLast?_cons_cons]; exact ih

/-- The constructor of `Parser` stores the tokens of `Lex`. -/
theorem Parser.new_eq_ok (input : String) (p : Parser) :
    Parser.new input = Outcome.ok p ↔ Lex input.data p.tokens_ ∧ p.current_index_ = 0 := by
  simp only [Parser.new]
  constructor
  · intro h
    rw [Outcome.bind_eq_ok] at h
    obtain ⟨⟨ts, t1⟩, h1, h2⟩ := h
    have hl : Lex input.data ts := (tokenizeAll_eq_ok (Tokenizer.new input) ts).1 ⟨t1, h1⟩
    have hne := hl.ne_nil
    have hlast := hl.getLast
    simp only [List.isEmpty_iff, hne, if_false, hlast, ne_eq, not_true_eq_false,
      Outcome.ok.injEq] at h2
    subst h2
    exact ⟨hl, rfl⟩
  · rintro ⟨hl, h0⟩
    obtain ⟨t1, h1⟩ := (tokenizeAll_eq_ok (Tokenizer.new input) p.tokens_).2 hl
    have hne := hl.ne_nil
    have hlast := hl.getLast
    rw [h1]
    simp only [Outcome.bind_ok, List.isEmpty_iff, hne, if_false, hlast, ne_eq,
      not_true_eq_false, Outcome.ok.injEq]
    obtain ⟨a, b⟩ := p
    simp only at h0
    subst h0
    rfl

/-- `parse` returns a tree exactly when the source scans to tokens on which
`parseExpression` runs from the first token to the end-of-file token. -/
theorem parse_eq_ok (input : String) (t : NodePtr) :
    parse input = Outcome.ok t ↔
      ∃ ts q, Lex input.data ts ∧ Run Level.expression ⟨ts, 0⟩ t q ∧ q.isAtEnd = true := by
  simp only [parse, Outcome.bind_eq_ok, Parser.new_eq_ok, buildAST_eq_ok]
  constructor
  · rintro ⟨p, ⟨hl, h0⟩, q, hr, he⟩
    exact ⟨p.tokens_, q, hl, hr, he⟩
  · rintro ⟨ts, q, hl, hr, he⟩
    exact ⟨⟨ts, 0⟩, ⟨hl, rfl⟩, q, hr, he⟩

/-- `parse` does not run out of fuel. -/
theorem parse_ne_outOfFuel (input : String) : parse input ≠ Outcome.outOfFuel := by
  simp only [parse, Parser.new]
  refine Outcome.bind_ne_outOfFuel (Outcome.bind_ne_outOfFuel (tokenizeAll_ne_outOfFuel _) ?_) ?_
  · intro r _
    dsimp only
    split
    · simp
    · split <;> simp
  · intro p _
    exact buildAST_ne_outOfFuel p

theorem Parser.check_eq (type : TokenType) (p : Parser) :
    check type p = (decide (p.peek.type ≠ TokenType.EndOfFile) && decide (p.peek.type = type)) := by
  simp only [check, isAtEnd]
  by_cases h : p.peek.type = TokenType.EndOfFile <;> simp [h]

/-! ### Sources of the form `x o1 y o2 z` -/

theorem isSeparator_space (r : List Char) : isSeparator (' ' :: r) := by
  intro c hc
  simp only [List.head?_cons, Option.some.injEq] at hc
  subst hc
  decide

theorem isSeparator_nil : isSeparator [] := by
  intro c hc
  simp at hc

theorem atomToken_type (x : String) :
    (atomToken x).type = TokenType.ID ∨ (atomToken x).type = TokenType.Number := by
  simp only [atomToken]
  split <;> simp

/-- An atom at the cursor is parsed by `parseUnary` as a leaf. -/
theorem Run.atomUnary {p : Parser} {x : String} (h : p.peek = atomToken x) :
    Run Level.unary p (AST.createLeaf (atomToken x)) p.next := by
  have ht := atomToken_type x
  rw [← h] at ht ⊢
  have h1 : check TokenType.UnaryOperator p = false := by
    rcases ht with ht | ht <;> simp [check_eq, ht]
  have h2 : isSign p = false := by
    rcases ht with ht | ht <;> simp [isSign, check_eq, ht]
  have h3 : check TokenType.Lambda p = false := by
    rcases ht with ht | ht <;> simp [check_eq, ht]
  refine Run.unaryPrimary h1 h2 h3 ?_
  rcases ht with ht | ht
  · exact Run.primaryID (by simp [check_eq, ht]) (by simp [check_eq, ht])
  · exact Run.primaryNumber (by simp [check_eq, ht])

/-- Tokens of an operator symbol followed by any input. -/
theorem Lex.operator {o : String} {r : List Char} {ts : List Token}
    (ho : o ∈ ["+", "-", "*", "/", "^"]) (h : Lex r ts) :
    Lex (o.data ++ r) (⟨TokenType.BinaryOperator, o⟩ :: ts) := by
  simp only [List.mem_cons, List.mem_singleton, List.not_mem_nil, or_false] at ho
  rcases ho with rfl | rfl | rfl | rfl | rfl
  · exact Lex.single (c := '+') rfl h
  · exact Lex.single (c := '-') rfl h
  · exact Lex.single (c := '*') rfl h
  · exact Lex.single (c := '/') rfl h
  · exact Lex.single (c := '^') rfl h

theorem lex_infixTokens (x o1 y o2 z : String) (hx : isAtom x = true) (hy : isAtom y = true)
    (hz : isAtom z = true) (h1 : o1 ∈ ["+", "-", "*", "/", "^"])
    (h2 : o2 ∈ ["+", "-", "*", "/", "^"]) :
    Lex (x ++ " " ++ o1 ++ " " ++ y ++ " " ++ o2 ++ " " ++ z).data (infixTokens x o1 y o2 z) := by
  have e : (x ++ " " ++ o1 ++ " " ++ y ++ " " ++ o2 ++ " " ++ z).data
      = x.data ++ ' ' :: (o1.data ++ ' ' :: (y.data ++ ' ' :: (o2.data ++ ' ' :: (z.data ++ []))))
      := by simp [String.data_append]
  rw [e]
  exact Lex.atom hx (isSeparator_space _) (Lex.space (by decide) (Lex.operator h1
    (Lex.space (by decide) (Lex.atom hy (isSeparator_space _) (Lex.space (by decide)
      (Lex.operator h2 (Lex.space (by decide) (Lex.atom hz isSeparator_nil Lex.nil))))))))

theorem Run.atomExponentiation {p : Parser} {x : String} (h : p.peek = atomToken x)
    (h1 : isOp ["^"] p.next = false) :
    Run Level.exponentiation p (AST.createLeaf (atomToken x)) p.next :=
  Run.exponentiationSingle (Run.atomUnary h) h1

theorem Run.atomMultiplication {p : Parser} {x : String} (h : p.peek = atomToken x)
    (h1 : isOp ["^"] p.next = false) (h2 : isOp ["*", "/"] p.next = false) :
    Run Level.multiplication p (AST.createLeaf (atomToken x)) p.next :=
  Run.multiplication (Run.atomExponentiation h h1) (Run.multiplicationExit h2)

theorem isOp_infixTokens (ops : List String) (x o1 y o2 z : String) (i : Nat) :
    isOp ops ⟨infixTokens x o1 y o2 z, i⟩ =
      ((i = 1 ∧ o1 ∈ ops) ∨ (i = 3 ∧ o2 ∈ ops) : Bool) := by
  have hx := atomToken_type x
  have hy := atomToken_type y
  have hz := atomToken_type z
  match i with
  | 0 => rcases hx with h | h <;> simp [isOp, check_eq, peek, infixTokens, h]
  | 1 => simp [isOp, check_eq, peek, infixTokens]
  | 2 => rcases hy with h | h <;> simp [isOp, check_eq, peek, infixTokens, h]
  | 3 => simp [isOp, check_eq, peek, infixTokens]
  | 4 => rcases hz with h | h <;> simp [isOp, check_eq, peek, infixTokens, h]
  | 5 => simp [isOp, check_eq, peek, infixTokens, eofToken]
  | n + 6 => simp [isOp, check_eq, peek, infixTokens, eofToken]

theorem isAtEnd_infixTokens (x o1 y o2 z : String) :
    isAtEnd ⟨infixTokens x o1 y o2 z, 5⟩ = true := by
  simp [isAtEnd, peek, infixTokens]

/-- `x a y m z` with `a` additive and `m` multiplicative. -/
theorem run_infix_add_mul (x a y m z : String) (ha : a ∈ ["+", "-"]) (hm : m ∈ ["*", "/"]) :
    Run Level.expression ⟨infixTokens x a y m z, 0⟩
      (NodePtr.node ⟨TokenType.BinaryOperator, a⟩ (AST.createLeaf (atomToken x))
        (NodePtr.node ⟨TokenType.BinaryOperator, m⟩ (AST.createLeaf (atomToken y))
          (AST.createLeaf (atomToken z))))
      ⟨infixTokens x a y m z, 5⟩ := by
  have a1 : a ≠ "^" := by
    simp only [List.mem_cons, List.mem_singleton, List.not_mem_nil, or_false] at ha
    rcases ha with rfl | rfl <;> decide
  have a2 : a ∉ ["*", "/"] := by
    simp only [List.mem_cons, List.mem_singleton, List.not_mem_nil, or_false] at ha ⊢
    rcases ha with rfl | rfl <;> decide
  have m1 : m ≠ "^" := by
    simp only [List.mem_cons, List.mem_singleton, List.not_mem_nil, or_false] at hm
    rcases hm with rfl | rfl <;> decide
  refine Run.expression (Run.addition (q := ⟨infixTokens x a y m z, 1⟩)
    (Run.atomMultiplication rfl ?_ ?_) ?_)
  · simp [next, isOp_infixTokens, a1]
  · simp [next, isOp_infixTokens, a2]
  refine Run.additionStep (q := ⟨infixTokens x a y m z, 5⟩) ?_
    (Run.multiplication (q := ⟨infixTokens x a y m z, 3⟩)
      (Run.atomExponentiation (p := ⟨infixTokens x a y m z, 2⟩) rfl ?_)
      (Run.multiplicationStep (q := ⟨infixTokens x a y m z, 5⟩) ?_
        (Run.atomExponentiation (p := ⟨infixTokens x a y m z, 4⟩) rfl ?_) ?_ ?_
        (Run.multiplicationExit ?_)))
    ?_ ?_ (Run.additionExit ?_)
  · simp [isOp_infixTokens, ha]
  · simp [next, isOp_infixTokens, m1]
  · simp [isOp_infixTokens, hm]
  · simp [next, isOp_infixTokens]
  · simp [AST.createLeaf]
  · simp [AST.createLeaf]
  · simp [isOp_infixTokens]
  · simp [AST.createLeaf]
  · simp
  · simp [isOp_infixTokens]

/-- `x m y a z` with `m` multiplicative and `a` additive. -/
theorem run_infix_mul_add (x m y a z : String) (hm : m ∈ ["*", "/"]) (ha : a ∈ ["+", "-"]) :
    Run Level.expression ⟨infixTokens x m y a z, 0⟩
      (NodePtr.node ⟨TokenType.BinaryOperator, a⟩
        (NodePtr.node ⟨TokenType.BinaryOperator, m⟩ (AST.createLeaf (atomToken x))
          (AST.createLeaf (atomToken y)))
        (AST.createLeaf (atomToken z)))
      ⟨infixTokens x m y a z, 5⟩ := by
  have a1 : a ≠ "^" := by
    simp only [List.mem_cons, List.mem_singleton, List.not_mem_nil, or_false] at ha
    rcases ha with rfl | rfl <;> decide
  have a2 : a ∉ ["*", "/"] := by
    simp only [List.mem_cons, List.mem_singleton, List.not_mem_nil, or_false] at ha ⊢
    rcases ha with rfl | rfl <;> decide
  have m1 : m ≠ "^" := by
    simp only [List.mem_cons, List.mem_singleton, List.not_mem_nil, or_false] at hm
    rcases hm with rfl | rfl <;> decide
  refine Run.expression (Run.addition (q := ⟨infixTokens x m y a z, 3⟩)
    (Run.multiplication (q := ⟨infixTokens x m y a z, 1⟩)
      (Run.atomExponentiation (p := ⟨infixTokens x m y a z, 0⟩) rfl ?_)
      (Run.multiplicationStep (q := ⟨infixTokens x m y a z, 3⟩) ?_
        (Run.atomExponentiation (p := ⟨infixTokens x m y a z, 2⟩) rfl ?_) ?_ ?_
        (Run.multiplicationExit ?_)))
    (Run.additionStep (q := ⟨infixTokens x m y a z, 5⟩) ?_
      (Run.atomMultiplication (p := ⟨infixTokens x m y a z, 4⟩) rfl ?_ ?_) ?_ ?_
      (Run.additionExit ?_)))
  · simp [next, isOp_infixTokens, m1]
  · simp [isOp_infixTokens, hm]
  · simp [next, isOp_infixTokens, a1]
  · simp [AST.createLeaf]
  · simp [AST.createLeaf]
  · simp [isOp_infixTokens, a2]
  · simp [isOp_infixTokens, ha]
  · simp [next, isOp_infixTokens]
  · simp [next, isOp_infixTokens]
  · simp
  · simp [AST.createLeaf]
  · simp [isOp_infixTokens]

/-- `x p y q z` with `p` and `q` additive. -/
theorem run_infix_add_add (x p y q z : String) (hp : p ∈ ["+", "-"]) (hq : q ∈ ["+", "-"]) :
    Run Level.expression ⟨infixTokens x p y q z, 0⟩
      (NodePtr.node ⟨TokenType.BinaryOperator, q⟩
        (NodePtr.node ⟨TokenType.BinaryOperator, p⟩ (AST.createLeaf (atomToken x))
          (AST.createLeaf (atomToken y)))
        (AST.createLeaf (atomToken z)))
      ⟨infixTokens x p y q z, 5⟩ := by
  have p1 : p ≠ "^" := by
    simp only [List.mem_cons, List.mem_singleton, List.not_mem_nil, or_false] at hp
    rcases hp with rfl | rfl <;> decide
  have p2 : p ∉ ["*", "/"] := by
    simp only [List.mem_cons, List.mem_singleton, List.not_mem_nil, or_false] at hp ⊢
    rcases hp with rfl | rfl <;> decide
  have q1 : q ≠ "^" := by
    simp only [List.mem_cons, List.mem_singleton, List.not_mem_nil, or_false] at hq
    rcases hq with rfl | rfl <;> decide
  have q2 : q ∉ ["*", "/"] := by
    simp only [List.mem_cons, List.mem_singleton, List.not_mem_nil, or_false] at hq ⊢
    rcases hq with rfl | rfl <;> decide
  refine Run.expression (Run.addition (q := ⟨infixTokens x p y q z, 1⟩)
    (Run.atomMultiplication (p := ⟨infixTokens x p y q z, 0⟩) rfl ?_ ?_)
    (Run.additionStep (q := ⟨infixTokens x p y q z, 3⟩) ?_
      (Run.atomMultiplication (p := ⟨infixTokens x p y q z, 2⟩) rfl ?_ ?_) ?_ ?_
      (Run.additionStep (q := ⟨infixTokens x p y q z, 5⟩) ?_
        (Run.atomMultiplication (p := ⟨infixTokens x p y q z, 4⟩) rfl ?_ ?_) ?_ ?_
        (Run.additionExit ?_))))
  · simp [next, isOp_infixTokens, p1]
  · simp [next, isOp_infixTokens, p2]
  · simp [isOp_infixTokens, hp]
  · simp [next, isOp_infixTokens, q1]
  · simp [next, isOp_infixTokens, q2]
  · simp [AST.createLeaf]
  · simp [AST.createLeaf]
  · simp [isOp_infixTokens, hq]
  · simp [next, isOp_infixTokens]
  · simp [next, isOp_infixTokens]
  · simp
  · simp [AST.createLeaf]
  · simp [isOp_infixTokens]

/-- `x p y q z` with `p` and `q` multiplicative. -/
theorem run_infix_mul_mul (x p y q z : String) (hp : p ∈ ["*", "/"]) (hq : q ∈ ["*", "/"]) :
    Run Level.expression ⟨infixTokens x p y q z, 0⟩
      (NodePtr.node ⟨TokenType.BinaryOperator, q⟩
        (NodePtr.node ⟨TokenType.BinaryOperator, p⟩ (AST.createLeaf (atomToken x))
          (AST.createLeaf (atomToken y)))
        (AST.createLeaf (atomToken z)))
      ⟨infixTokens x p y q z, 5⟩ := by
  have p1 : p ≠ "^" := by
    simp only [List.mem_cons, List.mem_singleton, List.not_mem_nil, or_false] at hp
    rcases hp with rfl | rfl <;> decide
  have q1 : q ≠ "^" := by
    simp only [List.mem_cons, List.mem_singleton, List.not_mem_nil, or_false] at hq
    rcases hq with rfl | rfl <;> decide
  refine Run.expression (Run.addition (q := ⟨infixTokens x p y q z, 5⟩)
    (Run.multiplication (q := ⟨infixTokens x p y q z, 1⟩)
      (Run.atomExponentiation (p := ⟨infixTokens x p y q z, 0⟩) rfl ?_)
      (Run.multiplicationStep (q := ⟨infixTokens x p y q z, 3⟩) ?_
        (Run.atomExponentiation (p := ⟨infixTokens x p y q z, 2⟩) rfl ?_) ?_ ?_
        (Run.multiplicationStep (q := ⟨infixTokens x p y q z, 5⟩) ?_
          (Run.atomExponentiation (p := ⟨infixTokens x p y q z, 4⟩) rfl ?_) ?_ ?_
          (Run.multiplicationExit ?_))))
    (Run.additionExit ?_))
  · simp [next, isOp_infixTokens, p1]
  · simp [isOp_infixTokens, hp]
  · simp [next, isOp_infixTokens, q1]
  · simp [AST.createLeaf]
  · simp [AST.createLeaf]
  · simp [isOp_infixTokens, hq]
  · simp [next, isOp_infixTokens]
  · simp
  · simp [AST.createLeaf]
  · simp [isOp_infixTokens]
  · simp [isOp_infixTokens]

/-- `x ^ y ^ z`. -/
theorem run_infix_pow_pow (x y z : String) :
    Run Level.expression ⟨infixTokens x "^" y "^" z, 0⟩
      (NodePtr.node ⟨TokenType.BinaryOperator, "^"⟩ (AST.createLeaf (atomToken x))
        (NodePtr.node ⟨TokenType.BinaryOperator, "^"⟩ (AST.createLeaf (atomToken y))
          (AST.createLeaf (atomToken z))))
      ⟨infixTokens x "^" y "^" z, 5⟩ := by
  refine Run.expression (Run.addition (q := ⟨infixTokens x "^" y "^" z, 5⟩)
    (Run.multiplication (q := ⟨infixTokens x "^" y "^" z, 5⟩)
      (Run.exponentiationPower (q := ⟨infixTokens x "^" y "^" z, 1⟩)
        (Run.atomUnary (p := ⟨infixTokens x "^" y "^" z, 0⟩) rfl) ?_
        (Run.exponentiationPower (q := ⟨infixTokens x "^" y "^" z, 3⟩)
          (Run.atomUnary (p := ⟨infixTokens x "^" y "^" z, 2⟩) rfl) ?_
          (Run.atomExponentiation (p := ⟨infixTokens x "^" y "^" z, 4⟩) rfl ?_) ?_ ?_) ?_ ?_)
      (Run.multiplicationExit ?_))
    (Run.additionExit ?_))
  · simp [isOp_infixTokens]
  · simp [isOp_infixTokens]
  · simp [next, isOp_infixTokens]
  · simp [AST.createLeaf]
  · simp [AST.createLeaf]
  · simp [AST.createLeaf]
  · simp
  · simp [isOp_infixTokens]
  · simp [isOp_infixTokens]

/-! ### Runs: the frame property -/

@[simp]
theorem Parser.shift_zero (p : Parser) : p.shift 0 = p := rfl

@[simp]
theorem Parser.shift_shift (p : Parser) (j k : Nat) : (p.shift j).shift k = p.shift (j + k) := by
  simp [shift, Nat.add_assoc]

theorem Parser.next_eq_shift (p : Parser) : p.next = p.shift 1 := rfl

theorem Parser.eq_shift {p q : Parser} {d : Nat} (h1 : q.tokens_ = p.tokens_)
    (h2 : q.current_index_ = p.current_index_ + d) : q = p.shift d := by
  obtain ⟨a, b⟩ := q
  simp only at h1 h2
  subst h1 h2
  rfl

theorem Parser.check_congr {p p1 : Parser} (type : TokenType) (h : p1.peek = p.peek) :
    check type p1 = check type p := by
  rw [check_eq, check_eq, h]

theorem Parser.isOp_congr {p p1 : Parser} (ops : List String) (h : p1.peek = p.peek) :
    isOp ops p1 = isOp ops p := by
  simp only [isOp, check_congr _ h, h]

theorem Parser.isSign_congr {p p1 : Parser} (h : p1.peek = p.peek) :
    isSign p1 = isSign p := by
  simp only [isSign, check_congr _ h, h]

theorem Parser.Agree.le {p p1 : Parser} {d e : Nat} (h : Agree p p1 d) (he : e ≤ d) :
    Agree p p1 e := by
  refine ⟨fun k hk => h.1 k (by omega), ?_⟩
  rcases Nat.lt_or_ge e d with hlt | hge
  · exact Or.inl (h.1 e hlt)
  · have : e = d := by omega
    subst this
    exact h.2

theorem Parser.Agree.shift {p p1 : Parser} {d : Nat} (h : Agree p p1 d) (k : Nat)
    (hk : k ≤ d) : Agree (p.shift k) (p1.shift k) (d - k) := by
  refine ⟨fun j hj => ?_, ?_⟩
  · simpa using h.1 (k + j) (by omega)
  · have := h.2
    simp only [shift_shift]
    rwa [Nat.add_sub_cancel' hk]

theorem Parser.Agree.peek {p p1 : Parser} {d : Nat} (h : Agree p p1 d) (hd : 0 < d) :
    p1.peek = p.peek := by
  simpa using h.1 0 hd

theorem Parser.Agree.next {p p1 : Parser} {d : Nat} (h : Agree p p1 (d + 1)) :
    Agree p.next p1.next d := by
  simpa [next_eq_shift] using h.shift 1 (by omega)

theorem Parser.Agree.isOp_false {p p1 : Parser} {ops : List String} (h : Agree p p1 0)
    (hp : isOp ops p = false) : isOp ops p1 = false := by
  rcases h.2 with h2 | h2
  · simp only [shift_zero] at h2
    rw [isOp_congr ops h2]; exact hp
  · simp only [shift_zero] at h2
    simp [isOp, check_eq, h2]

theorem Parser.next_shift (p : Parser) (k : Nat) : p.next.shift k = p.shift (k + 1) := by
  simp [shift, next, Nat.add_assoc, Nat.add_comm 1 k]

theorem Parser.shift_next (p : Parser) (k : Nat) : (p.shift k).next = p.shift (k + 1) := by
  simp [shift, next, Nat.add_assoc]

/-- Frame property: a run depends only on the tokens it reads and on whether
the token after them is a binary operator. -/
theorem Run.frame {l : Level} {p q : Parser} {t : NodePtr} (h : Run l p t q) :
    ∀ (p1 : Parser) (d : Nat), q.current_index_ = p.current_index_ + d → Agree p p1 d →
      Run l p1 t (p1.shift d) := by
  induction h with
  | expression _ ih => exact fun p1 d hd ha => Run.expression (ih p1 d hd ha)
  | @addition p q q1 node t h1 h2 ih1 ih2 =>
    intro p1 d hd ha
    obtain ⟨a1, b1, -⟩ := h1.basic
    obtain ⟨a2, b2, -⟩ := h2.basic
    obtain ⟨d0, hd0⟩ : ∃ d0, q.current_index_ = p.current_index_ + d0 :=
      ⟨q.current_index_ - p.current_index_, by omega⟩
    have r1 := ih1 p1 d0 hd0 (ha.le (by omega))
    have e : q = p.shift d0 := eq_shift a1 hd0
    have r2 := ih2 (p1.shift d0) (d - d0) (by omega) (e ▸ ha.shift d0 (by omega))
    rw [shift_shift, Nat.add_sub_cancel' (by omega)] at r2
    exact Run.addition r1 r2
  | @additionExit p node hop =>
    intro p1 d hd ha
    have : d = 0 := by omega
    subst this
    exact Run.additionExit (ha.isOp_false hop)
  | @additionStep p q q1 node right t hop h1 hn hr h2 ih1 ih2 =>
    intro p1 d hd ha
    obtain ⟨a1, b1, -⟩ := h1.basic
    obtain ⟨a2, b2, -⟩ := h2.basic
    simp only [next_tokens, next_index] at a1 b1
    obtain ⟨d0, hd0⟩ : ∃ d0, q.current_index_ = p.current_index_ + 1 + d0 :=
      ⟨q.current_index_ - (p.current_index_ + 1), by omega⟩
    obtain ⟨d1, rfl⟩ : ∃ d1, d = d1 + 1 := ⟨d - 1, by omega⟩
    have hpk := ha.peek (by omega)
    have r1 := ih1 p1.next d0 (by simp only [next_index]; omega) (ha.next.le (by omega))
    have e : q = p.next.shift d0 := eq_shift a1 (by simp only [next_index]; omega)
    have r2 := ih2 (p1.next.shift d0) (d1 - d0) (by omega) (e ▸ ha.next.shift d0 (by omega))
    rw [shift_shift, Nat.add_sub_cancel' (by omega), next_shift p1 d1] at r2
    rw [← hpk] at r2
    exact Run.additionStep (by rw [isOp_congr _ hpk]; exact hop) r1 hn hr r2
  | @multiplication p q q1 node t h1 h2 ih1 ih2 =>
    intro p1 d hd ha
    obtain ⟨a1, b1, -⟩ := h1.basic
    obtain ⟨a2, b2, -⟩ := h2.basic
    obtain ⟨d0, hd0⟩ : ∃ d0, q.current_index_ = p.current_index_ + d0 :=
      ⟨q.current_index_ - p.current_index_, by omega⟩
    have r1 := ih1 p1 d0 hd0 (ha.le (by omega))
    have e : q = p.shift d0 := eq_shift a1 hd0
    have r2 := ih2 (p1.shift d0) (d - d0) (by omega) (e ▸ ha.shift d0 (by omega))
    rw [shift_shift, Nat.add_sub_cancel' (by omega)] at r2
    exact Run.multiplication r1 r2
  | @multiplicationExit p node hop =>
    intro p1 d hd ha
    have : d = 0 := by omega
    subst this
    exact Run.multiplicationExit (ha.isOp_false hop)
  | @multiplicationStep p q q1 node right t hop h1 hn hr h2 ih1 ih2 =>
    intro p1 d hd ha
    obtain ⟨a1, b1, -⟩ := h1.basic
    obtain ⟨a2, b2, -⟩ := h2.basic
    simp only [next_tokens, next_index] at a1 b1
    obtain ⟨d0, hd0⟩ : ∃ d0, q.current_index_ = p.current_index_ + 1 + d0 :=
      ⟨q.current_index_ - (p.current_index_ + 1), by omega⟩
    obtain ⟨d1, rfl⟩ : ∃ d1, d = d1 + 1 := ⟨d - 1, by omega⟩
    have hpk := ha.peek (by omega)
    have r1 := ih1 p1.next d0 (by simp only [next_index]; omega) (ha.next.le (by omega))
    have e : q = p.next.shift d0 := eq_shift a1 (by simp only [next_index]; omega)
    have r2 := ih2 (p1.next.shift d0) (d1 - d0) (by omega) (e ▸ ha.next.shift d0 (by omega))
    rw [shift_shift, Nat.add_sub_cancel' (by omega), next_shift p1 d1] at r2
    rw [← hpk] at r2
    exact Run.multiplicationStep (by rw [isOp_congr _ hpk]; exact hop) r1 hn hr r2
  | @exponentiationSingle p q node h1 hop ih =>
    intro p1 d hd ha
    have r1 := ih p1 d hd ha
    have ha0 : Agree q (p1.shift d) 0 := by
      have e : q = p.shift d := eq_shift h1.basic.1 hd
      have := ha.shift d (le_refl d)
      rw [Nat.sub_self] at this
      exact e ▸ this
    exact Run.exponentiationSingle r1 (ha0.isOp_false hop)
  | @exponentiationPower p q q1 node right h1 hop h2 hn hr ih1 ih2 =>
    intro p1 d hd ha
    obtain ⟨a1, b1, -⟩ := h1.basic
    obtain ⟨a2, b2, -⟩ := h2.basic
    simp only [next_tokens, next_index] at a2 b2
    obtain ⟨d0, hd0⟩ : ∃ d0, q.current_index_ = p.current_index_ + d0 :=
      ⟨q.current_index_ - p.current_index_, by omega⟩
    have e : q = p.shift d0 := eq_shift a1 hd0
    have r1 := ih1 p1 d0 hd0 (ha.le (by omega))
    have haq : Agree q (p1.shift d0) (d - d0) := e ▸ ha.shift d0 (by omega)
    obtain ⟨d1, hd1⟩ : ∃ d1, d - d0 = d1 + 1 := ⟨d - d0 - 1, by omega⟩
    rw [hd1] at haq
    have hpk := haq.peek (by omega)
    have r2 := ih2 (p1.shift d0).next d1 (by simp only [next_index]; omega) haq.next
    rw [shift_next, shift_shift] at r2
    have e3 : d0 + 1 + d1 = d := by omega
    rw [e3] at r2
    rw [← hpk]
    exact Run.exponentiationPower r1 (by rw [isOp_congr _ hpk]; exact hop)
      (by rw [shift_next]; exact r2) hn hr
  | @unaryCall p q operand h1 h2 h3 h4 hn ih =>
    intro p1 d hd ha
    obtain ⟨a1, b1, -⟩ := h3.basic
    simp only [next_tokens, next_index] at a1 b1 hd
    obtain ⟨d0, hd0⟩ : ∃ d0, q.current_index_ = p.current_index_ + 1 + 1 + d0 :=
      ⟨q.current_index_ - (p.current_index_ + 1 + 1), by omega⟩
    have hpk := ha.peek (by omega)
    have ha1 : Agree p.next p1.next (d - 1) := by
      have := ha.shift 1 (by omega)
      simpa [next_eq_shift] using this
    have hpk1 := ha1.peek (by omega)
    have ha2 : Agree p.next.next p1.next.next (d - 1 - 1) := by
      have := ha1.shift 1 (by omega)
      simpa [next_eq_shift] using this
    have r := ih p1.next.next d0 (by simp only [next_index]; omega) (ha2.le (by omega))
    have e : q = p.next.next.shift d0 := eq_shift a1 (by simp only [next_index]; omega)
    have haq : Agree q (p1.next.next.shift d0) (d - 1 - 1 - d0) := e ▸ ha2.shift d0 (by omega)
    have hpkq := haq.peek (by omega)
    have e2 : p1.shift d = (p1.next.next.shift d0).next := by
      simp only [shift, next]
      congr 1
      omega
    rw [e2, ← hpk]
    exact Run.unaryCall (by rw [check_congr _ hpk]; exact h1)
      (by rw [check_congr _ hpk1]; exact h2) r (by rw [check_congr _ hpkq]; exact h4) hn
  | @unarySign p q operand h1 h2 h3 hn ih =>
    intro p1 d hd ha
    obtain ⟨a1, b1, -⟩ := h3.basic
    simp only [next_tokens, next_index] at a1 b1
    obtain ⟨d1, rfl⟩ : ∃ d1, d = d1 + 1 := ⟨d - 1, by omega⟩
    have hpk := ha.peek (by omega)
    have r := ih p1.next d1 (by simp only [next_index]; omega) ha.next
    rw [next_shift] at r
    rw [← hpk]
    exact Run.unarySign (by rw [check_congr _ hpk]; exact h1)
      (by rw [isSign_congr hpk]; exact h2) r hn
  | @unaryLambda p q body h1 h2 h3 h4 h5 h6 ih =>
    intro p1 d hd ha
    obtain ⟨a1, b1, -⟩ := h6.basic
    simp only [next_tokens, next_index] at a1 b1
    obtain ⟨d0, hd0⟩ : ∃ d0, q.current_index_ = p.current_index_ + 1 + 1 + 1 + d0 :=
      ⟨q.current_index_ - (p.current_index_ + 1 + 1 + 1), by omega⟩
    have hpk := ha.peek (by omega)
    have ha1 : Agree p.next p1.next (d - 1) := by
      have := ha.shift 1 (by omega)
      simpa [next_eq_shift] using this
    have hpk1 := ha1.peek (by omega)
    have ha2 : Agree p.next.next p1.next.next (d - 1 - 1) := by
      have := ha1.shift 1 (by omega)
      simpa [next_eq_shift] using this
    have hpk2 := ha2.peek (by omega)
    have ha3 : Agree p.next.next.next p1.next.next.next (d - 1 - 1 - 1) := by
      have := ha2.shift 1 (by omega)
      simpa [next_eq_shift] using this
    have e3 : d - 1 - 1 - 1 = d0 := by omega
    rw [e3] at ha3
    have r := ih p1.next.next.next d0 (by simp only [next_index]; omega) ha3
    have e2 : p1.next.next.next.shift d0 = p1.shift d := by
      simp only [shift, next]
      congr 1
      omega
    rw [e2] at r
    rw [← hpk, ← hpk1]
    exact Run.unaryLambda (by rw [check_congr _ hpk]; exact h1)
      (by rw [isSign_congr hpk]; exact h2) (by rw [check_congr _ hpk]; exact h3)
      (by rw [check_congr _ hpk1]; exact h4) (by rw [check_congr _ hpk2]; exact h5) r
  | @unaryPrimary p q t h1 h2 h3 h4 ih =>
    intro p1 d hd ha
    obtain ⟨a1, b1, c1, d1, -⟩ := h4.basic
    have := d1 rfl
    have hpk := ha.peek (by omega)
    exact Run.unaryPrimary (by rw [check_congr _ hpk]; exact h1)
      (by rw [isSign_congr hpk]; exact h2) (by rw [check_congr _ hpk]; exact h3) (ih p1 d hd ha)
  | @primaryNumber p h1 =>
    intro p1 d hd ha
    simp only [next_index] at hd
    have : d = 1 := by omega
    subst this
    have hpk := ha.peek (by omega)
    rw [← hpk, ← next_eq_shift]
    exact Run.primaryNumber (by rw [check_congr _ hpk]; exact h1)
  | @primaryID p h1 h2 =>
    intro p1 d hd ha
    simp only [next_index] at hd
    have : d = 1 := by omega
    subst this
    have hpk := ha.peek (by omega)
    rw [← hpk, ← next_eq_shift]
    exact Run.primaryID (by rw [check_congr _ hpk]; exact h1)
      (by rw [check_congr _ hpk]; exact h2)
  | @primaryParen p q expr h1 h2 h3 h4 h5 ih =>
    intro p1 d hd ha
    obtain ⟨a1, b1, -⟩ := h4.basic
    simp only [next_tokens, next_index] at a1 b1 hd
    obtain ⟨d0, hd0⟩ : ∃ d0, q.current_index_ = p.current_index_ + 1 + d0 :=
      ⟨q.current_index_ - (p.current_index_ + 1), by omega⟩
    have hpk := ha.peek (by omega)
    have ha1 : Agree p.next p1.next (d - 1) := by
      have := ha.shift 1 (by omega)
      simpa [next_eq_shift] using this
    have r := ih p1.next d0 (by simp only [next_index]; omega) (ha1.le (by omega))
    have e : q = p.next.shift d0 := eq_shift a1 (by simp only [next_index]; omega)
    have haq : Agree q (p1.next.shift d0) (d - 1 - d0) := e ▸ ha1.shift d0 (by omega)
    have hpkq := haq.peek (by omega)
    have e2 : p1.shift d = (p1.next.shift d0).next := by
      simp only [shift, next]
      congr 1
      omega
    rw [e2]
    exact Run.primaryParen (by rw [check_congr _ hpk]; exact h1)
      (by rw [check_congr _ hpk]; exact h2) (by rw [check_congr _ hpk]; exact h3) r
      (by rw [check_congr _ hpkq]; exact h5)

/-! ### Runs: the tokens read -/

theorem Parser.check_type {type : TokenType} {p : Parser} (h : check type p = true) :
    p.peek.type = type ∧ p.peek.type ≠ TokenType.EndOfFile := by
  rw [check_eq] at h
  simp only [Bool.and_eq_true, decide_eq_true_eq] at h
  exact ⟨h.2, h.1⟩

theorem Parser.peek_eq_tokenAt (p : Parser) : p.peek = p.tokenAt p.current_index_ :=
  peek_eq p

theorem Parser.tokenAt_next (p : Parser) (k : Nat) : p.next.tokenAt k = p.tokenAt k := rfl

/-- Every token read by a run is not the end-of-file token, and a unary
function name that is read is followed by an opening parenthesis. -/
theorem Run.consumed {l : Level} {p q : Parser} {t : NodePtr} (h : Run l p t q) :
    ∀ k, p.current_index_ ≤ k → k < q.current_index_ →
      (p.tokenAt k).type ≠ TokenType.EndOfFile ∧
      ((p.tokenAt k).type = TokenType.UnaryOperator →
        (p.tokenAt (k + 1)).type = TokenType.OpenScope) := by
  induction h with
  | expression _ ih => exact ih
  | @addition p q q1 node t h1 h2 ih1 ih2 =>
    intro k hk1 hk2
    obtain ⟨a1, -⟩ := h1.basic
    rcases Nat.lt_or_ge k q.current_index_ with hlt | hge
    · exact ih1 k hk1 hlt
    · have := ih2 k hge hk2
      simpa only [tokenAt, a1] using this
  | additionExit _ => intro k hk1 hk2; omega
  | @additionStep p q q1 node right t hop h1 hn hr h2 ih1 ih2 =>
    intro k hk1 hk2
    obtain ⟨a1, -⟩ := h1.basic
    simp only [next_tokens] at a1
    have hc := check_type (isOp_check hop)
    rw [peek_eq_tokenAt] at hc
    rcases Nat.lt_or_ge k (p.current_index_ + 1) with hlt | hge
    · have : k = p.current_index_ := by omega
      subst this
      exact ⟨hc.2, fun hu => by rw [hc.1] at hu; exact absurd hu (by decide)⟩
    · rcases Nat.lt_or_ge k q.current_index_ with hlt2 | hge2
      · exact ih1 k (by simpa using hge) hlt2
      · have := ih2 k hge2 hk2
        simpa only [tokenAt, a1] using this
  | @multiplication p q q1 node t h1 h2 ih1 ih2 =>
    intro k hk1 hk2
    obtain ⟨a1, -⟩ := h1.basic
    rcases Nat.lt_or_ge k q.current_index_ with hlt | hge
    · exact ih1 k hk1 hlt
    · have := ih2 k hge hk2
      simpa only [tokenAt, a1] using this
  | multiplicationExit _ => intro k hk1 hk2; omega
  | @multiplicationStep p q q1 node right t hop h1 hn hr h2 ih1 ih2 =>
    intro k hk1 hk2
    obtain ⟨a1, -⟩ := h1.basic
    simp only [next_tokens] at a1
    have hc := check_type (isOp_check hop)
    rw [peek_eq_tokenAt] at hc
    rcases Nat.lt_or_ge k (p.current_index_ + 1) with hlt | hge
    · have : k = p.current_index_ := by omega
      subst this
      exact ⟨hc.2, fun hu => by rw [hc.1] at hu; exact absurd hu (by decide)⟩
    · rcases Nat.lt_or_ge k q.current_index_ with hlt2 | hge2
      · exact ih1 k (by simpa using hge) hlt2
      · have := ih2 k hge2 hk2
        simpa only [tokenAt, a1] using this
  | exponentiationSingle _ _ ih => exact ih
  | @exponentiationPower p q q1 node right h1 hop h2 hn hr ih1 ih2 =>
    intro k hk1 hk2
    obtain ⟨a1, -⟩ := h1.basic
    have hc := check_type (isOp_check hop)
    rw [peek_eq_tokenAt] at hc
    simp only [tokenAt, a1, next_tokens] at hc ih2
    rcases Nat.lt_or_ge k q.current_index_ with hlt | hge
    · exact ih1 k hk1 hlt
    · rcases Nat.lt_or_ge k (q.current_index_ + 1) with hlt2 | hge2
      · have : k = q.current_index_ := by omega
        subst this
        exact ⟨hc.2, fun hu => by
          simp only [tokenAt] at hu; rw [hc.1] at hu; exact absurd hu (by decide)⟩
      · exact ih2 k (by simpa using hge2) hk2
  | @unaryCall p q operand h1 h2 h3 h4 hn ih =>
    intro k hk1 hk2
    obtain ⟨a1, -⟩ := h3.basic
    simp only [next_tokens] at a1
    simp only [next_index] at hk2
    have c1 := check_type h1
    have c2 := check_type h2
    have c4 := check_type h4
    rw [peek_eq_tokenAt] at c1 c2 c4
    simp only [tokenAt, a1, next_tokens, next_index] at c1 c2 c4 ih
    rcases Nat.lt_or_ge k (p.current_index_ + 1) with hlt | hge
    · have : k = p.current_index_ := by omega
      subst this
      exact ⟨c1.2, fun _ => c2.1⟩
    · rcases Nat.lt_or_ge k (p.current_index_ + 1 + 1) with hlt2 | hge2
      · have : k = p.current_index_ + 1 := by omega
        subst this
        exact ⟨c2.2, fun hu => by
          simp only [tokenAt] at hu; rw [c2.1] at hu; exact absurd hu (by decide)⟩
      · rcases Nat.lt_or_ge k q.current_index_ with hlt3 | hge3
        · exact ih k hge2 hlt3
        · have : k = q.current_index_ := by omega
          subst this
          exact ⟨c4.2, fun hu => by
            simp only [tokenAt] at hu; rw [c4.1] at hu; exact absurd hu (by decide)⟩
  | @unarySign p q operand h1 h2 h3 hn ih =>
    intro k hk1 hk2
    have hc := check_type (isSign_check h2)
    rw [peek_eq_tokenAt] at hc
    rcases Nat.lt_or_ge k (p.current_index_ + 1) with hlt | hge
    · have : k = p.current_index_ := by omega
      subst this
      exact ⟨hc.2, fun hu => by rw [hc.1] at hu; exact absurd hu (by decide)⟩
    · exact ih k (by simpa using hge) hk2
  | @unaryLambda p q body h1 h2 h3 h4 h5 h6 ih =>
    intro k hk1 hk2
    have c3 := check_type h3
    have c4 := check_type h4
    have c5 := check_type h5
    rw [peek_eq_tokenAt] at c3 c4 c5
    simp only [tokenAt, next_tokens, next_index] at c3 c4 c5 ih
    rcases Nat.lt_or_ge k (p.current_index_ + 1) with hlt | hge
    · have : k = p.current_index_ := by omega
      subst this
      exact ⟨c3.2, fun hu => by
        simp only [tokenAt] at hu; rw [c3.1] at hu; exact absurd hu (by decide)⟩
    · rcases Nat.lt_or_ge k (p.current_index_ + 1 + 1) with hlt2 | hge2
      · have : k = p.current_index_ + 1 := by omega
        subst this
        exact ⟨c4.2, fun hu => by
          simp only [tokenAt] at hu; rw [c4.1] at hu; exact absurd hu (by decide)⟩
      · rcases Nat.lt_or_ge k (p.current_index_ + 1 + 1 + 1) with hlt3 | hge3
        · have : k = p.current_index_ + 1 + 1 := by omega
          subst this
          exact ⟨c5.2, fun hu => by
            simp only [tokenAt] at hu; rw [c5.1] at hu; exact absurd hu (by decide)⟩
        · exact ih k hge3 hk2
  | unaryPrimary _ _ _ _ ih => exact ih
  | @primaryNumber p h1 =>
    intro k hk1 hk2
    simp only [next_index] at hk2
    have hc := check_type h1
    rw [peek_eq_tokenAt] at hc
    have : k = p.current_index_ := by omega
    subst this
    exact ⟨hc.2, fun hu => by rw [hc.1] at hu; exact absurd hu (by decide)⟩
  | @primaryID p h1 h2 =>
    intro k hk1 hk2
    simp only [next_index] at hk2
    have hc := check_type h2
    rw [peek_eq_tokenAt] at hc
    have : k = p.current_index_ := by omega
    subst this
    exact ⟨hc.2, fun hu => by rw [hc.1] at hu; exact absurd hu (by decide)⟩
  | @primaryParen p q expr h1 h2 h3 h4 h5 ih =>
    intro k hk1 hk2
    obtain ⟨a1, -⟩ := h4.basic
    simp only [next_tokens] at a1
    simp only [next_index] at hk2
    have c3 := check_type h3
    have c5 := check_type h5
    rw [peek_eq_tokenAt] at c3 c5
    simp only [tokenAt, a1, next_tokens, next_index] at c3 c5 ih
    rcases Nat.lt_or_ge k (p.current_index_ + 1) with hlt | hge
    · have : k = p.current_index_ := by omega
      subst this
      exact ⟨c3.2, fun hu => by
        simp only [tokenAt] at hu; rw [c3.1] at hu; exact absurd hu (by decide)⟩
    · rcases Nat.lt_or_ge k q.current_index_ with hlt3 | hge3
      · exact ih k hge hlt3
      · have : k = q.current_index_ := by omega
        subst this
        exact ⟨c5.2, fun hu => by
          simp only [tokenAt] at hu; rw [c5.1] at hu; exact absurd hu (by decide)⟩

/-! ### Runs: shape of the tree; end of the token vector -/

theorem ShapeOK_binary {tok : Token} {l r : NodePtr} (ht : tok.type = TokenType.BinaryOperator)
    (hl : l ≠ NodePtr.null) (hr : r ≠ NodePtr.null) (sl : ShapeOK l = true)
    (sr : ShapeOK r = true) : ShapeOK (NodePtr.node tok l r) = true := by
  simp [ShapeOK, ht, hl, hr, sl, sr]

theorem ShapeOK_leaf {tok : Token}
    (ht : tok.type = TokenType.Number ∨ tok.type = TokenType.ID) :
    ShapeOK (AST.createLeaf tok) = true := by
  rcases ht with ht | ht <;> simp [ShapeOK, AST.createLeaf, ht]

/-- Every tree returned by a parsing function satisfies the shape invariants. -/
theorem Run.shape {l : Level} {p q : Parser} {t : NodePtr} (h : Run l p t q) :
    ShapeOK l.entry = true → ShapeOK t = true := by
  induction h with
  | expression _ ih => exact fun _ => ih rfl
  | addition _ _ ih1 ih2 => exact fun _ => ih2 (ih1 rfl)
  | additionExit _ => exact fun h => h
  | additionStep hop _ hn hr _ ih1 ih2 =>
    intro he
    exact ih2 (ShapeOK_binary (check_type (isOp_check hop)).1 hn hr he (ih1 rfl))
  | multiplication _ _ ih1 ih2 => exact fun _ => ih2 (ih1 rfl)
  | multiplicationExit _ => exact fun h => h
  | multiplicationStep hop _ hn hr _ ih1 ih2 =>
    intro he
    exact ih2 (ShapeOK_binary (check_type (isOp_check hop)).1 hn hr he (ih1 rfl))
  | exponentiationSingle _ _ ih => exact ih
  | exponentiationPower _ hop _ hn hr ih1 ih2 =>
    intro _
    exact ShapeOK_binary (check_type (isOp_check hop)).1 hn hr (ih1 rfl) (ih2 rfl)
  | unaryCall h1 _ _ _ hn ih =>
    intro _
    simp [ShapeOK, (check_type h1).1, hn, ih rfl]
  | unarySign _ h2 _ hn ih =>
    intro _
    exact ShapeOK_binary (check_type (isSign_check h2)).1 (by simp [AST.createLeaf]) hn
      (ShapeOK_leaf (Or.inl rfl)) (ih rfl)
  | unaryLambda _ _ h3 h4 _ h6 ih =>
    intro _
    have hb := h6.basic.2.2.2.2 trivial
    simp [ShapeOK, (check_type h3).1, (check_type h4).1, AST.createLeaf, hb, ih rfl]
  | unaryPrimary _ _ _ _ ih => exact ih
  | primaryNumber h1 => exact fun _ => ShapeOK_leaf (Or.inl (check_type h1).1)
  | primaryID _ h2 => exact fun _ => ShapeOK_leaf (Or.inr (check_type h2).1)
  | primaryParen _ _ _ _ _ ih => exact ih

/-- Every token of a scan but the last is not the end-of-file token. -/
theorem Lex.not_eof {s : List Char} {ts : List Token} (h : Lex s ts) :
    ∀ k, k + 1 < ts.length → (ts.getD k Parser.eofToken).type ≠ TokenType.EndOfFile := by
  induction h with
  | eof _ => intro k hk; simp at hk
  | @token s ts heof _ _ ih =>
    intro k hk
    cases k with
    | zero => simpa using heof
    | succ k =>
      simp only [List.length_cons] at hk
      simpa using ih k (by omega)

/-- The last token of a scan is the end-of-file token. -/
theorem Lex.last_eof {s : List Char} {ts : List Token} (h : Lex s ts) :
    (ts.getD (ts.length - 1) Parser.eofToken).type = TokenType.EndOfFile := by
  induction h with
  | eof heof => simpa using heof
  | @token s ts _ _ hl ih =>
    have := hl.ne_nil
    obtain ⟨n, hn⟩ : ∃ n, ts.length = n + 1 :=
      ⟨ts.length - 1, by have := List.length_pos.2 this; omega⟩
    simp only [List.length_cons, hn, Nat.add_sub_cancel] at ih ⊢
    simpa using ih

/-- A run over the tokens of a scan that stops at the end-of-file token stops
at the last token. -/
theorem Run.stops_at_last {l : Level} {p q : Parser} {t : NodePtr} {s : List Char}
    (h : Run l p t q) (hl : Lex s p.tokens_) (hp : p.current_index_ ≤ p.tokens_.length - 1)
    (he : q.isAtEnd = true) : q.current_index_ = p.tokens_.length - 1 := by
  obtain ⟨a, b, -⟩ := h.basic
  have hne := List.length_pos.2 hl.ne_nil
  have h1 : ¬ (q.current_index_ + 1 < p.tokens_.length) := by
    intro hlt
    have := hl.not_eof q.current_index_ hlt
    simp only [isAtEnd, peek_eq, a, decide_eq_true_eq] at he
    exact this he
  have h2 : ¬ (p.tokens_.length - 1 < q.current_index_) := by
    intro hlt
    have := (h.consumed (p.tokens_.length - 1) hp hlt).1
    exact this hl.last_eof
  omega

/-! ### Runs behind other tokens; sources `f(e)` and `lambda x. e` -/

/-- With the fuel of `buildAST`, every parsing function returns exactly the runs. -/
theorem Parser.parseAt_fuelFor_eq_ok (l : Level) (p : Parser) (t : NodePtr) (q : Parser) :
    parseAt l (fuelFor p) p = Outcome.ok (t, q) ↔ Run l p t q := by
  constructor
  · exact run_of_parseAt (fuelFor p) l p t q
  · intro h
    obtain ⟨n, hn⟩ := h.parseAt
    have htot : Parser.parseAt l (fuelFor p) p ≠ Outcome.outOfFuel :=
      parseAt_ne_outOfFuel _ _ _ (by
        have : l.rank ≤ 6 := by cases l <;> simp [Level.rank]
        simp only [fuelFor]; omega)
    rcases le_total n (fuelFor p) with hle | hle
    · exact parseAt_mono_ok hle hn
    · have := parseAt_mono hle htot
      rw [hn] at this
      exact this.symm

theorem Parser.isOp_of_not_binary {p : Parser} (ops : List String)
    (h : p.peek.type ≠ TokenType.BinaryOperator) : isOp ops p = false := by
  simp [isOp, check_eq, h]

/-- A run of `parseUnary` that stops before a token that is not a binary
operator is a run of `parseExpression`. -/
theorem Run.unary_expression {p q : Parser} {t : NodePtr} (h : Run Level.unary p t q)
    (hq : q.peek.type ≠ TokenType.BinaryOperator) : Run Level.expression p t q :=
  Run.expression (Run.addition (Run.multiplication
    (Run.exponentiationSingle h (isOp_of_not_binary _ hq))
    (Run.multiplicationExit (isOp_of_not_binary _ hq)))
    (Run.additionExit (isOp_of_not_binary _ hq)))

theorem Parser.isAtEnd_not_binary {p : Parser} (h : p.isAtEnd = true) :
    p.peek.type ≠ TokenType.BinaryOperator := by
  simp only [isAtEnd, decide_eq_true_eq] at h
  rw [h]; decide

/-- Tokens in front of the cursor do not matter. -/
theorem Parser.agree_append_left (pre ts : List Token) (i d : Nat) :
    Agree ⟨ts, i⟩ ⟨pre ++ ts, pre.length + i⟩ d := by
  have key : ∀ k, (Parser.shift ⟨pre ++ ts, pre.length + i⟩ k).peek
      = (Parser.shift ⟨ts, i⟩ k).peek := by
    intro k
    simp only [peek_eq, shift, Nat.add_assoc]
    rw [List.getD_append_right _ _ _ _ (by omega)]
    congr 1
    omega
  exact ⟨fun k _ => key k, Or.inl (key d)⟩

/-- A run can be moved behind a list of tokens. -/
theorem Run.append_left {l : Level} {ts : List Token} {i j : Nat} {t : NodePtr}
    (h : Run l ⟨ts, i⟩ t ⟨ts, j⟩) (pre : List Token) :
    Run l ⟨pre ++ ts, pre.length + i⟩ t ⟨pre ++ ts, pre.length + j⟩ := by
  have hij := h.basic.2.1
  simp only at hij
  have := h.frame ⟨pre ++ ts, pre.length + i⟩ (j - i) (by simp only; omega)
    (agree_append_left pre ts i (j - i))
  simp only [shift] at this
  rw [Nat.add_assoc, Nat.add_sub_cancel' hij] at this
  exact this

theorem Run.target {l : Level} {ts : List Token} {i : Nat} {t : NodePtr} {q : Parser}
    (h : Run l ⟨ts, i⟩ t q) : q = ⟨ts, q.current_index_⟩ := by
  obtain ⟨a, b⟩ := q
  have := h.basic.1
  simp only at this
  subst this
  rfl

/-- Tokens of a lexeme, read as one token on its own, followed by input that
starts with a separator. -/
theorem Lex.lexeme {w r : List Char} {tok : Token} {ts : List Token}
    (hw : nextToken ⟨w, 0⟩ = (tok, ⟨w, w.length⟩)) (h1 : tok.type ≠ TokenType.EndOfFile)
    (h2 : tok.type ≠ TokenType.Error) (hr : isSeparator r) (h : Lex r ts) :
    Lex (w ++ r) (tok :: ts) := by
  have e := nextToken_append w r (by rw [hw]; exact h1) hr
  rw [hw] at e
  refine Lex.step e h1 h2 ?_
  simpa using h

theorem Lex.letter {c : Char} {r : List Char} {ts : List Token} (hc : isalpha c = true)
    (hr : ∀ d, r.head? = some d → isalpha d = false) (h : Lex r ts) :
    Lex (c :: r) (⟨TokenType.ID, String.mk [c]⟩ :: ts) :=
  Lex.step (nextToken_letter c r hc hr) (by simp) (by simp) (by simpa using h)

/-- The tokens of `lambda x. e`. -/
theorem lex_lambda (x e : String) (ts : List Token) (hx : isLetter x = true)
    (h : Lex e.data ts) :
    Lex ("lambda " ++ x ++ ". " ++ e).data
      (⟨TokenType.Lambda, "lambda"⟩ :: ⟨TokenType.ID, x⟩ :: ⟨TokenType.Dot, "."⟩ :: ts) := by
  obtain ⟨c, rfl, hc⟩ := isLetter_data hx
  have e1 : ("lambda " ++ String.mk [c] ++ ". " ++ e).data
      = "lambda".data ++ ' ' :: c :: '.' :: ' ' :: e.data := by
    simp [String.data_append]
  rw [e1]
  have hw : nextToken ⟨"lambda".data, 0⟩
      = (⟨TokenType.Lambda, "lambda"⟩, ⟨"lambda".data, "lambda".data.length⟩) := by decide
  refine Lex.lexeme hw (by decide) (by decide)
    (isSeparator_space _) (Lex.space (by decide) (Lex.letter hc ?_ ?_))
  · intro d hd
    simp only [List.head?_cons, Option.some.injEq] at hd
    subst hd
    decide
  · exact Lex.single (c := '.') rfl (Lex.space (by decide) h)

theorem Tokenizer.unaryNames_eq :
    unaryNames = ["sqrt", "abs", "exp", "ln", "floor", "ceil", "round", "trunc", "sin", "cos",
      "tan", "ctan", "random"] := by
  decide

/-- A unary function name, on its own, is read as one `UnaryOperator` token. -/
theorem Tokenizer.nextToken_unaryName (f : String) (hf : f ∈ unaryNames) :
    nextToken ⟨f.data, 0⟩ = (⟨TokenType.UnaryOperator, f⟩, ⟨f.data, f.data.length⟩) := by
  rw [unaryNames_eq] at hf
  simp only [List.mem_cons, List.mem_singleton, List.not_mem_nil, or_false] at hf
  rcases hf with rfl | rfl | rfl | rfl | rfl | rfl | rfl | rfl | rfl | rfl | rfl | rfl | rfl <;>
    decide

theorem isSeparator_open (r : List Char) : isSeparator ('(' :: r) := by
  intro c hc
  simp only [List.head?_cons, Option.some.injEq] at hc
  subst hc
  decide

theorem isSeparator_close (r : List Char) : isSeparator (')' :: r) := by
  intro c hc
  simp only [List.head?_cons, Option.some.injEq] at hc
  subst hc
  decide

/-- The tokens of `f(e)`. -/
theorem lex_call (f e : String) (ts : List Token) (hf : f ∈ unaryNames) (h : Lex e.data ts) :
    Lex (f ++ "(" ++ e ++ ")").data
      (⟨TokenType.UnaryOperator, f⟩ :: ⟨TokenType.OpenScope, "("⟩ ::
        (ts.dropLast ++ [⟨TokenType.CloseScope, ")"⟩, ⟨TokenType.EndOfFile, "#"⟩])) := by
  have e1 : (f ++ "(" ++ e ++ ")").data = f.data ++ '(' :: (e.data ++ [')']) := by
    simp [String.data_append]
  rw [e1]
  refine Lex.lexeme (nextToken_unaryName f hf) (by simp) (by simp) (isSeparator_open _)
    (Lex.single (c := '(') rfl ?_)
  exact Lex.append h (isSeparator_close _) (Lex.single (c := ')') rfl Lex.nil)

theorem List.getD_dropLast_append {α : Type} (ts rest : List α) (k : Nat) (a : α)
    (hk : k + 1 < ts.length) : (ts.dropLast ++ rest).getD k a = ts.getD k a := by
  rw [List.getD_append _ _ _ _ (by simp; omega)]
  simp only [List.getD_eq_getElem?_getD]
  rw [List.getElem?_eq_getElem (by simp; omega), List.getElem?_eq_getElem (by omega)]
  simp [List.getElem_dropLast]

/-! ### Prefix signs -/

/-- A sign in front of an operand: the tokens and the run of `parseUnary`. -/
theorem run_sign (s : String) (ts : List Token) (t : NodePtr) (j : Nat)
    (hs : s ∈ ["+", "-"]) (h : Run Level.unary ⟨ts, 0⟩ t ⟨ts, j⟩) :
    Run Level.unary ⟨⟨TokenType.BinaryOperator, s⟩ :: ts, 0⟩
      (NodePtr.node ⟨TokenType.BinaryOperator, s⟩ (AST.createLeaf ⟨TokenType.Number, "0"⟩) t)
      ⟨⟨TokenType.BinaryOperator, s⟩ :: ts, j + 1⟩ := by
  have hnn := h.basic.2.2.2.2 trivial
  have r := h.append_left [⟨TokenType.BinaryOperator, s⟩]
  simp only [List.length_cons, List.length_nil, List.cons_append, List.nil_append] at r
  have hsign : isSign ⟨⟨TokenType.BinaryOperator, s⟩ :: ts, 0⟩ = true := by
    simp only [List.mem_cons, List.mem_singleton, List.not_mem_nil, or_false] at hs
    rcases hs with rfl | rfl <;> simp [isSign, check_eq, peek]
  have r2 := Run.unarySign (p := ⟨⟨TokenType.BinaryOperator, s⟩ :: ts, 0⟩)
    (by simp [check_eq, peek]) hsign r hnn
  have e1 : (⟨⟨TokenType.BinaryOperator, s⟩ :: ts, 0⟩ : Parser).peek
      = ⟨TokenType.BinaryOperator, s⟩ := by simp [peek_eq]
  rw [e1, Nat.add_comm (0 + 1) j] at r2
  exact r2

theorem parseOperand_eq_ok (input : String) (t : NodePtr) (q : Parser) :
    parseOperand input = Outcome.ok (t, q) ↔
      Lex input.data q.tokens_ ∧ Run Level.unary ⟨q.tokens_, 0⟩ t q := by
  simp only [parseOperand, Outcome.bind_eq_ok, new_eq_ok]
  constructor
  · rintro ⟨p, ⟨hl, h0⟩, h⟩
    have hr := (parseAt_fuelFor_eq_ok Level.unary p t q).1 h
    have ht := hr.basic.1
    obtain ⟨a, b⟩ := p
    simp only at h0 ht
    subst h0
    rw [ht]
    exact ⟨hl, hr⟩
  · rintro ⟨hl, hr⟩
    exact ⟨⟨q.tokens_, 0⟩, ⟨hl, rfl⟩, (parseAt_fuelFor_eq_ok Level.unary _ t q).2 hr⟩

/-- The source `-x` for an atom `x`. -/
theorem parse_minus_atom (x : String) (hx : isAtom x = true) :
    parse ("-" ++ x)
      = Outcome.ok (NodePtr.node ⟨TokenType.BinaryOperator, "-"⟩
          (AST.createLeaf ⟨TokenType.Number, "0"⟩) (AST.createLeaf (atomToken x))) := by
  rw [parse_eq_ok]
  have hl : Lex ("-" ++ x).data
      [⟨TokenType.BinaryOperator, "-"⟩, atomToken x, ⟨TokenType.EndOfFile, "#"⟩] := by
    have e : ("-" ++ x).data = "-".data ++ (x.data ++ []) := by simp [String.data_append]
    rw [e]
    exact Lex.operator (by decide) (Lex.atom hx isSeparator_nil Lex.nil)
  have r0 : Run Level.unary ⟨[atomToken x, ⟨TokenType.EndOfFile, "#"⟩], 0⟩
      (AST.createLeaf (atomToken x)) ⟨[atomToken x, ⟨TokenType.EndOfFile, "#"⟩], 1⟩ :=
    Run.atomUnary (p := ⟨_, 0⟩) rfl
  have r1 := run_sign "-" _ _ _ (by decide) r0
  have hend : isAtEnd ⟨[⟨TokenType.BinaryOperator, "-"⟩, atomToken x,
      ⟨TokenType.EndOfFile, "#"⟩], 1 + 1⟩ = true := by
    simp [isAtEnd, peek]
  exact ⟨_, _, hl, Run.unary_expression r1 (isAtEnd_not_binary hend), hend⟩

/-- The source `0 - x` for an atom `x`. -/
theorem parse_zero_minus_atom (x : String) (hx : isAtom x = true) :
    parse ("0 - " ++ x)
      = Outcome.ok (NodePtr.node ⟨TokenType.BinaryOperator, "-"⟩
          (AST.createLeaf ⟨TokenType.Number, "0"⟩) (AST.createLeaf (atomToken x))) := by
  rw [parse_eq_ok]
  have hl : Lex ("0 - " ++ x).data
      [atomToken "0", ⟨TokenType.BinaryOperator, "-"⟩, atomToken x,
        ⟨TokenType.EndOfFile, "#"⟩] := by
    have e : ("0 - " ++ x).data = "0".data ++ ' ' :: ("-".data ++ ' ' :: (x.data ++ [])) := by
      simp [String.data_append]
    rw [e]
    exact Lex.atom (by decide) (isSeparator_space _) (Lex.space (by decide)
      (Lex.operator (by decide) (Lex.space (by decide) (Lex.atom hx isSeparator_nil Lex.nil))))
  have hend : isAtEnd ⟨[atomToken "0", ⟨TokenType.BinaryOperator, "-"⟩, atomToken x,
      ⟨TokenType.EndOfFile, "#"⟩], 3⟩ = true := by
    simp [isAtEnd, peek]
  refine ⟨_, _, hl, ?_, hend⟩
  refine Run.expression (Run.addition (q := ⟨_, 1⟩)
    (Run.atomMultiplication (p := ⟨_, 0⟩) (x := "0") rfl ?_ ?_)
    (Run.additionStep (p := ⟨_, 1⟩) (q := ⟨_, 3⟩) ?_
      (Run.atomMultiplication (p := ⟨_, 2⟩) (x := x) rfl ?_ ?_) ?_ ?_
      (Run.additionExit ?_)))
  · simp [isOp, check_eq, peek, next]
  · simp [isOp, check_eq, peek, next]
  · simp [isOp, check_eq, peek]
  · simp [isOp, check_eq, peek, next]
  · simp [isOp, check_eq, peek, next]
  · simp [AST.createLeaf]
  · simp [AST.createLeaf]
  · simp [isOp, check_eq, peek]

/-! ### The exceptions thrown -/

theorem Outcome.bind_thrown_of {α β : Type} {x : Outcome α} {f : α → Outcome β}
    {P : ParserException → Prop} (hx : ∀ e, x = Outcome.thrown e → P e)
    (hf : ∀ a e, x = Outcome.ok a → f a = Outcome.thrown e → P e) :
    ∀ e, x.bind f = Outcome.thrown e → P e := by
  intro e h
  cases x with
  | ok a => exact hf a e rfl (by simpa using h)
  | thrown e1 =>
    simp only [Outcome.bind_thrown, Outcome.thrown.injEq] at h
    subst h
    exact hx _ rfl
  | outOfFuel => simp at h

/-- The parsing functions throw only `SyntaxError`, `UnexpectedTokenError` and
the base class. -/
theorem Parser.parseAt_thrown (fuel : Nat) :
    ∀ (l : Level) (p : Parser) (e : ParserException),
      parseAt l fuel p = Outcome.thrown e → isGrammarError e = true := by
  induction fuel with
  | zero =>
    intro l p e h
    rw [parseAt_zero] at h
    simp at h
  | succ n ih =>
    intro l p
    cases l with
    | expression =>
      simp only [parseAt, parseExpression_succ]
      exact ih Level.addition p
    | addition =>
      simp only [parseAt, parseAddition_succ]
      refine Outcome.bind_thrown_of (ih Level.multiplication p) ?_
      rintro ⟨node, q⟩ e - h
      exact ih (Level.additionLoop node) q e h
    | additionLoop node =>
      simp only [parseAt, parseAdditionLoop_succ]
      split
      · refine Outcome.bind_thrown_of (ih Level.multiplication p.next) ?_
        rintro ⟨right, q⟩ e - h
        split at h
        · simp only [Outcome.thrown.injEq] at h
          subst h
          rfl
        · exact ih (Level.additionLoop _) q e h
      · simp
    | multiplication =>
      simp only [parseAt, parseMultiplication_succ]
      refine Outcome.bind_thrown_of (ih Level.exponentiation p) ?_
      rintro ⟨node, q⟩ e - h
      exact ih (Level.multiplicationLoop node) q e h
    | multiplicationLoop node =>
      simp only [parseAt, parseMultiplicationLoop_succ]
      split
      · refine Outcome.bind_thrown_of (ih Level.exponentiation p.next) ?_
        rintro ⟨right, q⟩ e - h
        split at h
        · simp only [Outcome.thrown.injEq] at h
          subst h
          rfl
        · exact ih (Level.multiplicationLoop _) q e h
      · simp
    | exponentiation =>
      simp only [parseAt, parseExponentiation_succ]
      refine Outcome.bind_thrown_of (ih Level.unary p) ?_
      rintro ⟨node, q⟩ e - h
      split at h
      · revert e
        refine Outcome.bind_thrown_of (ih Level.exponentiation q.next) ?_
        rintro ⟨right, q1⟩ e - h
        split at h
        · simp only [Outcome.thrown.injEq] at h
          subst h
          rfl
        · simp at h
      · simp at h
    | unary =>
      simp only [parseAt, parseUnary_succ]
      split
      · split
        · refine Outcome.bind_thrown_of (ih Level.expression p.next.next) ?_
          rintro ⟨operand, q⟩ e - h
          split at h
          · split at h
            · simp only [Outcome.thrown.injEq] at h
              subst h
              rfl
            · simp at h
          · simp only [Outcome.thrown.injEq] at h
            subst h
            rfl
        · intro e h
          simp only [Outcome.thrown.injEq] at h
          subst h
          rfl
      · split
        · refine Outcome.bind_thrown_of (ih Level.unary p.next) ?_
          rintro ⟨operand, q⟩ e - h
          split at h
          · simp only [Outcome.thrown.injEq] at h
            subst h
            rfl
          · simp at h
        · split
          · split
            · split
              · refine Outcome.bind_thrown_of (ih Level.expression p.next.next.next) ?_
                rintro ⟨body, q⟩ e - h
                simp at h
              · intro e h
                simp only [Outcome.thrown.injEq] at h
                subst h
                rfl
            · intro e h
              simp only [Outcome.thrown.injEq] at h
              subst h
              rfl
          · exact ih Level.primary p
    | primary =>
      simp only [parseAt, parsePrimary_succ]
      split
      · simp
      · split
        · simp
        · split
          · refine Outcome.bind_thrown_of (ih Level.expression p.next) ?_
            rintro ⟨expr, q⟩ e - h
            split at h
            · simp at h
            · simp only [Outcome.thrown.injEq] at h
              subst h
              rfl
          · intro e h
            simp only [Outcome.thrown.injEq] at h
            subst h
            rfl

/-- `tokenizeAll` throws only `SyntaxError`, with the text of the offending
lexeme. -/
theorem Tokenizer.tokenizeAllLoop_thrown (fuel : Nat) :
    ∀ (t : Tokenizer) (acc : List Token) (e : ParserException),
      tokenizeAllLoop fuel t acc = Outcome.thrown e →
      ∃ v, e = ParserException.SyntaxError ("Unrecognized token: " ++ v) := by
  induction fuel with
  | zero => intro t acc e h; simp [tokenizeAllLoop] at h
  | succ n ih =>
    intro t acc e h
    obtain ⟨inp, i⟩ := t
    rw [tokenizeAllLoop_succ] at h
    split at h
    · simp only [Outcome.thrown.injEq] at h
      exact ⟨_, h.symm⟩
    · split at h
      · simp at h
      · exact ih _ _ e h

/-- The exceptions of `Parser::buildAST`. -/
theorem Parser.buildAST_thrown (p : Parser) (e : ParserException)
    (h : p.buildAST = Outcome.thrown e) :
    isGrammarError e = true ∨ ∃ v, e = ParserException.UnprocessedTokensError v := by
  simp only [buildAST] at h
  cases hx : parseExpression (fuelFor { p with current_index_ := 0 })
      { p with current_index_ := 0 } with
  | ok r =>
    rw [hx] at h
    simp only [Outcome.bind_ok] at h
    split at h
    · simp only [Outcome.thrown.injEq] at h
      exact Or.inr ⟨_, h.symm⟩
    · simp at h
  | thrown e1 =>
    rw [hx] at h
    simp only [Outcome.bind_thrown, Outcome.thrown.injEq] at h
    subst h
    exact Or.inl (parseAt_thrown _ Level.expression _ _ (by simpa only [parseAt] using hx))
  | outOfFuel =>
    rw [hx] at h
    simp at h

/-- The token vector of a successful `tokenizeAll` is not empty, so the guard
of `Parser::Parser` does not fire; the constructor throws what `tokenizeAll`
throws. -/
theorem Parser.new_thrown (input : String) (e : ParserException)
    (h : Parser.new input = Outcome.thrown e) :
    (Tokenizer.new input).tokenizeAll = Outcome.thrown e
      ∧ ∃ v, e = ParserException.SyntaxError ("Unrecognized token: " ++ v) := by
  simp only [Parser.new] at h
  cases hx : (Tokenizer.new input).tokenizeAll with
  | ok r =>
    exfalso
    rw [hx] at h
    simp only [Outcome.bind_ok] at h
    have hl : Lex input.data r.1 := (tokenizeAll_eq_ok (Tokenizer.new input) r.1).1 ⟨r.2, hx⟩
    have hne := hl.ne_nil
    have hlast := hl.getLast
    simp [hne, hlast] at h
  | thrown e1 =>
    rw [hx] at h
    simp only [Outcome.bind_thrown, Outcome.thrown.injEq] at h
    subst h
    exact ⟨rfl, tokenizeAllLoop_thrown _ _ _ _ hx⟩
  | outOfFuel =>
    rw [hx] at h
    simp at h

/-- The exceptions of the pipeline `Parser parser(input); parser.buildAST();`. -/
theorem parse_thrown (input : String) (e : ParserException)
    (h : parse input = Outcome.thrown e) :
    isGrammarError e = true ∨ ∃ v, e = ParserException.UnprocessedTokensError v := by
  simp only [parse] at h
  cases hx : Parser.new input with
  | ok p =>
    rw [hx] at h
    exact buildAST_thrown p e (by simpa using h)
  | thrown e1 =>
    rw [hx] at h
    simp only [Outcome.bind_thrown, Outcome.thrown.injEq] at h
    subst h
    obtain ⟨-, v, hv⟩ := new_thrown input _ hx
    subst hv
    exact Or.inl rfl
  | outOfFuel =>
    rw [hx] at h
    simp at h

/-! ### Exceptions on the way up; the end of the token vector -/

/-- An exception of `parseUnary` passes through `parseExponentiation`,
`parseMultiplication`, `parseAddition` and `parseExpression`. -/
theorem Parser.thrown_of_parseUnary {n : Nat} {p : Parser} {e : ParserException}
    (h : parseUnary n p = Outcome.thrown e) :
    parseExponentiation (n + 1) p = Outcome.thrown e
      ∧ parseMultiplication (n + 2) p = Outcome.thrown e
      ∧ parseAddition (n + 3) p = Outcome.thrown e
      ∧ parseExpression (n + 4) p = Outcome.thrown e := by
  have h1 : parseExponentiation (n + 1) p = Outcome.thrown e := by
    rw [parseExponentiation_succ, h]; rfl
  have h2 : parseMultiplication (n + 2) p = Outcome.thrown e := by
    rw [parseMultiplication_succ, h1]; rfl
  have h3 : parseAddition (n + 3) p = Outcome.thrown e := by
    rw [parseAddition_succ, h2]; rfl
  exact ⟨h1, h2, h3, by rw [parseExpression_succ, h3]⟩

/-- More fuel does not change a thrown exception. -/
theorem Parser.parseAt_mono_thrown {l : Level} {p : Parser} {n m : Nat} {e : ParserException}
    (hnm : n ≤ m) (h : parseAt l n p = Outcome.thrown e) : parseAt l m p = Outcome.thrown e := by
  rw [parseAt_mono hnm (by rw [h]; simp), h]

theorem Parser.check_of_isAtEnd {p : Parser} (h : p.isAtEnd = true) (type : TokenType) :
    check type p = false := by
  simp [check, h]

theorem Parser.isSign_of_isAtEnd {p : Parser} (h : p.isAtEnd = true) : isSign p = false := by
  simp [isSign, check_of_isAtEnd h]

/-- At the end-of-file token `parsePrimary` finds no operand. -/
theorem Parser.parsePrimary_isAtEnd {p : Parser} (h : p.isAtEnd = true) (fuel : Nat) :
    parsePrimary (fuel + 1) p
      = Outcome.thrown (ParserException.SyntaxError ("Unexpected token: " ++ p.peek.value)) := by
  rw [parsePrimary_succ]
  simp [check_of_isAtEnd h]

theorem Parser.parseUnary_isAtEnd {p : Parser} (h : p.isAtEnd = true) (fuel : Nat) :
    parseUnary (fuel + 2) p
      = Outcome.thrown (ParserException.SyntaxError ("Unexpected token: " ++ p.peek.value)) := by
  rw [parseUnary_succ]
  simp [check_of_isAtEnd h, isSign_of_isAtEnd h, parsePrimary_isAtEnd h]

/-- White space alone lexes to the end-of-file token. -/
theorem Lex.spaces {s : List Char} (h : ∀ c ∈ s, isspace c = true) :
    Lex s [⟨TokenType.EndOfFile, "#"⟩] := by
  induction s with
  | nil => exact Lex.nil
  | cons c r ih =>
    exact Lex.space (h c (List.mem_cons_self _ _)) (ih fun d hd => h d (List.mem_cons_of_mem _ hd))

/-! ### The token vector of `tokenizeAll`; `reset` -/

theorem Lex.no_error {s : List Char} {ts : List Token} (h : Lex s ts) :
    ∀ tok ∈ ts, tok.type ≠ TokenType.Error := by
  induction h with
  | eof heof =>
    intro tok htok
    simp only [List.mem_singleton] at htok
    subst htok
    rw [heof]
    simp
  | token _ herr _ ih =>
    intro tok htok
    rcases List.mem_cons.1 htok with h1 | h1
    · subst h1; exact herr
    · exact ih tok h1

theorem Tokenizer.afterCalls_input (n : Nat) :
    ∀ t : Tokenizer, (afterCalls n t).input_ = t.input_ := by
  induction n with
  | zero => intro t; rfl
  | succ n ih =>
    intro t
    simp only [afterCalls]
    rw [ih, nextToken_input]

/-- The loop of `tokenizeAll` leaves the input as it is. -/
theorem Tokenizer.tokenizeAllLoop_input (fuel : Nat) :
    ∀ (t : Tokenizer) (acc ts : List Token) (t1 : Tokenizer),
      tokenizeAllLoop fuel t acc = Outcome.ok (ts, t1) → t1.input_ = t.input_ := by
  induction fuel with
  | zero => intro t acc ts t1 h; simp [tokenizeAllLoop] at h
  | succ n ih =>
    intro t acc ts t1 h
    obtain ⟨inp, i⟩ := t
    rw [tokenizeAllLoop_succ] at h
    split at h
    · simp at h
    · split at h
      · simp only [Outcome.ok.injEq, Prod.mk.injEq] at h
        rw [← h.2]
      · have := ih _ _ _ _ h
        exact this

/-- `tokenizeAll` depends on the input only, not on the scan position. -/
theorem Tokenizer.tokenizeAll_congr {t t1 : Tokenizer} (h : t.input_ = t1.input_) :
    t.tokenizeAll = t1.tokenizeAll := by
  simp only [tokenizeAll, reset, h]

/-! ### Traversals -/

theorem NodeRef.below_nil (r : NodeRef) : r.below [] = r := by
  simp [NodeRef.below]

theorem NodeRef.below_under (turn : Bool) (path : List Bool) (r : NodeRef) :
    (r.under turn).below path = r.below (turn :: path) := by
  simp [NodeRef.below, NodeRef.under]

theorem NodeRef.map_below_under (turn : Bool) (path : List Bool) (l : List NodeRef) :
    (l.map (NodeRef.under turn)).map (NodeRef.below path) = l.map (NodeRef.below (turn :: path)) := by
  rw [List.map_map]
  congr 1
  funext r
  exact NodeRef.below_under turn path r

theorem NodeRef.map_below_nil (l : List NodeRef) : l.map (NodeRef.below []) = l := by
  rw [show NodeRef.below [] = id from funext NodeRef.below_nil]
  simp

theorem AST.LCRTraversalRec_eq (node : NodePtr) :
    ∀ (path : List Bool) (out : List NodeRef),
      LCRTraversalRec node path out = out ++ (inOrder node).map (NodeRef.below path) := by
  induction node with
  | null => intro path out; simp [LCRTraversalRec, inOrder]
  | node token left right ihl ihr =>
    intro path out
    simp only [LCRTraversalRec, inOrder, ihl, ihr, List.map_append, NodeRef.map_below_under,
      List.map_cons, List.map_nil, List.append_assoc]
    simp [NodeRef.below]

theorem AST.LRCTraversalRec_eq (node : NodePtr) :
    ∀ (path : List Bool) (out : List NodeRef),
      LRCTraversalRec node path out = out ++ (postOrder node).map (NodeRef.below path) := by
  induction node with
  | null => intro path out; simp [LRCTraversalRec, postOrder]
  | node token left right ihl ihr =>
    intro path out
    simp only [LRCTraversalRec, postOrder, ihl, ihr, List.map_append, NodeRef.map_below_under,
      List.map_cons, List.map_nil, List.append_assoc]
    simp [NodeRef.below]

theorem AST.CRLTraversalRec_eq (node : NodePtr) :
    ∀ (path : List Bool) (out : List NodeRef),
      CRLTraversalRec node path out = out ++ (preOrder node).map (NodeRef.below path) := by
  induction node with
  | null => intro path out; simp [CRLTraversalRec, preOrder]
  | node token left right ihl ihr =>
    intro path out
    simp only [CRLTraversalRec, preOrder, ihl, ihr, List.map_append, NodeRef.map_below_under,
      List.map_cons, List.map_nil, List.append_assoc]
    simp [NodeRef.below]

theorem util.CollectNodesPreOrder_eq (node : NodePtr) :
    ∀ (path : List Bool) (out : List NodeRef),
      CollectNodesPreOrder node path out = out ++ (preOrder node).map (NodeRef.below path) := by
  induction node with
  | null => intro path out; simp [CollectNodesPreOrder, preOrder]
  | node token left right ihl ihr =>
    intro path out
    simp only [CollectNodesPreOrder, preOrder, ihl, ihr, List.map_append,
      NodeRef.map_below_under, List.map_cons, List.map_nil, List.append_assoc]
    simp [NodeRef.below]

theorem AST.LCRTraversal_eq (root : NodePtr) : AST.LCRTraversal ⟨root⟩ = inOrder root := by
  cases root with
  | null => rfl
  | node token left right =>
    simp [AST.LCRTraversal, AST.LCRTraversalRec_eq, NodeRef.map_below_nil]

theorem AST.LRCTraversal_eq (root : NodePtr) : AST.LRCTraversal ⟨root⟩ = postOrder root := by
  cases root with
  | null => rfl
  | node token left right =>
    simp [AST.LRCTraversal, AST.LRCTraversalRec_eq, NodeRef.map_below_nil]

theorem AST.CRLTraversal_eq (root : NodePtr) : AST.CRLTraversal ⟨root⟩ = preOrder root := by
  cases root with
  | null => rfl
  | node token left right =>
    simp [AST.CRLTraversal, AST.CRLTraversalRec_eq, NodeRef.map_below_nil]

theorem NodePtr.nodeAt_null (path : List Bool) : NodePtr.null.nodeAt path = NodePtr.null := by
  induction path with
  | nil => rfl
  | cons turn path ih => simp [NodePtr.nodeAt, ih, NodePtr.child]

theorem NodePtr.nodeAt_append (root : NodePtr) (p q : List Bool) :
    root.nodeAt (p ++ q) = (root.nodeAt q).nodeAt p := by
  induction p with
  | nil => rfl
  | cons turn p ih => simp [NodePtr.nodeAt, ih]

theorem NodePtr.nodeAt_snoc (token : Token) (left right : NodePtr) (p : List Bool)
    (turn : Bool) :
    (NodePtr.node token left right).nodeAt (p ++ [turn])
      = (if turn then right else left).nodeAt p := by
  rw [NodePtr.nodeAt_append]
  cases turn <;> rfl

/-- The references of the pre-order sequence are the references to the nodes
of the tree. -/
theorem preOrder_mem (root : NodePtr) : ∀ r : NodeRef, r ∈ preOrder root ↔ r.isNodeOf root := by
  induction root with
  | null =>
    intro r
    simp only [preOrder, List.not_mem_nil, NodeRef.isNodeOf, NodePtr.nodeAt_null, false_iff]
    rintro ⟨h1, h2⟩
    exact h1 h2.symm
  | node token left right ihl ihr =>
    intro r
    simp only [preOrder, List.mem_append, List.mem_singleton, List.mem_map, ihl, ihr,
      NodeRef.isNodeOf]
    constructor
    · rintro ((h | ⟨a, ⟨h1, h2⟩, rfl⟩) | ⟨a, ⟨h1, h2⟩, rfl⟩)
      · subst h
        exact ⟨by simp, rfl⟩
      · exact ⟨h1, by simpa [NodeRef.under, NodePtr.nodeAt_snoc] using h2⟩
      · exact ⟨h1, by simpa [NodeRef.under, NodePtr.nodeAt_snoc] using h2⟩
    · rintro ⟨h1, h2⟩
      obtain ⟨path, nd⟩ := r
      simp only at h1 h2
      rcases List.eq_nil_or_concat path with hp | ⟨p, turn, hp⟩
      · subst hp
        left; left
        simp only [NodePtr.nodeAt] at h2
        rw [h2]
      · subst hp
        rw [List.concat_eq_append, NodePtr.nodeAt_snoc] at h2
        cases turn with
        | false =>
          left; right
          exact ⟨⟨p, nd⟩, ⟨h1, by simpa using h2⟩, by simp [NodeRef.under]⟩
        | true =>
          right
          exact ⟨⟨p, nd⟩, ⟨h1, by simpa using h2⟩, by simp [NodeRef.under]⟩

theorem NodeRef.under_injective (turn : Bool) : Function.Injective (NodeRef.under turn) := by
  intro a b h
  obtain ⟨pa, na⟩ := a
  obtain ⟨pb, nb⟩ := b
  simp only [NodeRef.under, NodeRef.mk.injEq] at h
  obtain ⟨h1, h2⟩ := h
  have := List.append_cancel_right h1
  subst this h2
  rfl

theorem preOrder_nodup (root : NodePtr) : (preOrder root).Nodup := by
  induction root with
  | null => simp [preOrder]
  | node token left right ihl ihr =>
    simp only [preOrder]
    rw [List.nodup_append, List.nodup_append]
    refine ⟨⟨by simp, ihl.map (NodeRef.under_injective false), ?_⟩,
      ihr.map (NodeRef.under_injective true), ?_⟩
    · intro a ha hb
      simp only [List.mem_singleton] at ha
      subst ha
      simp [NodeRef.under] at hb
    · intro a ha hb
      simp only [List.mem_map] at hb
      obtain ⟨b, -, rfl⟩ := hb
      simp only [List.mem_append, List.mem_singleton, List.mem_map] at ha
      rcases ha with ha | ⟨c, -, hc⟩
      · simp [NodeRef.under] at ha
      · simp only [NodeRef.under, NodeRef.mk.injEq] at hc
        have := List.append_inj' hc.1 rfl
        simp at this

theorem inOrder_perm (root : NodePtr) : (inOrder root).Perm (preOrder root) := by
  induction root with
  | null => simp [inOrder, preOrder]
  | node token left right ihl ihr =>
    simp only [inOrder, preOrder]
    refine List.Perm.append ?_ (ihr.map _)
    exact (List.perm_append_comm).trans (List.Perm.append_left _ (ihl.map _))

theorem postOrder_perm (root : NodePtr) : (postOrder root).Perm (preOrder root) := by
  induction root with
  | null => simp [postOrder, preOrder]
  | node token left right ihl ihr =>
    simp only [postOrder, preOrder]
    refine (List.perm_append_comm).trans ?_
    rw [List.append_assoc]
    exact List.Perm.append_left _ (List.Perm.append (ihl.map _) (ihr.map _))

theorem preOrder_length (root : NodePtr) : (preOrder root).length = util.NodeCount root := by
  induction root with
  | null => rfl
  | node token left right ihl ihr =>
    simp only [preOrder, List.length_append, List.length_map, ihl, ihr, util.NodeCount,
      List.length_singleton]

/-! ### Closed subtrees -/

theorem ShapeOK_children {token : Token} {left right : NodePtr}
    (h : ShapeOK (NodePtr.node token left right) = true) :
    ShapeOK left = true ∧ ShapeOK right = true := by
  simp only [ShapeOK, Bool.and_eq_true] at h
  exact ⟨h.1.2, h.2⟩

theorem ShapeOK_lambda {token : Token} {left right : NodePtr}
    (h : ShapeOK (NodePtr.node token left right) = true) (ht : token.type = TokenType.Lambda) :
    ∃ x, left = NodePtr.node ⟨TokenType.ID, x⟩ NodePtr.null NodePtr.null := by
  simp only [ShapeOK, ht, Bool.and_eq_true] at h
  obtain ⟨⟨⟨h1, -⟩, -⟩, -⟩ := h
  split at h1
  · rename_i t
    obtain ⟨ty, x⟩ := t
    simp only [decide_eq_true_eq] at h1
    subst h1
    exact ⟨x, rfl⟩
  · simp at h1

/-- On a well-formed tree `IsClosedSubtree` decides whether the free variables
are among the bound identifiers. -/
theorem util.IsClosedSubtree_iff (t : NodePtr) :
    ∀ bound : List String, ShapeOK t = true →
      (util.IsClosedSubtree t bound = true ↔ ∀ x ∈ freeVariables t, x ∈ bound) := by
  induction t with
  | null => intro bound _; simp [util.IsClosedSubtree, freeVariables]
  | node token left right ihl ihr =>
    intro bound h
    obtain ⟨hl, hr⟩ := ShapeOK_children h
    cases ht : token.type with
    | Number => simp [util.IsClosedSubtree, freeVariables, ht]
    | ID => simp [util.IsClosedSubtree, freeVariables, ht]
    | UnaryOperator => simpa [util.IsClosedSubtree, freeVariables, ht] using ihl bound hl
    | BinaryOperator =>
      simp only [util.IsClosedSubtree, freeVariables, ht, Bool.and_eq_true, ihl bound hl,
        ihr bound hr, List.mem_append]
      constructor
      · rintro ⟨a, b⟩ x (hx | hx)
        · exact a x hx
        · exact b x hx
      · intro a
        exact ⟨fun x hx => a x (Or.inl hx), fun x hx => a x (Or.inr hx)⟩
    | Lambda =>
      obtain ⟨p, rfl⟩ := ShapeOK_lambda h ht
      simp only [util.IsClosedSubtree, freeVariables, ht, if_true, ihr _ hr, parameterText,
        List.mem_filter, List.mem_cons, decide_eq_true_eq, and_imp]
      constructor
      · intro a x hx hne
        rcases a x hx with h1 | h1
        · exact absurd h1 hne
        · exact h1
      · intro a x hx
        by_cases hne : x = p
        · exact Or.inl hne
        · exact Or.inr (a x hx hne)
    | Dot => simp [ShapeOK, ht] at h
    | OpenScope => simp [ShapeOK, ht] at h
    | CloseScope => simp [ShapeOK, ht] at h
    | EndOfFile => simp [ShapeOK, ht] at h
    | Error => simp [ShapeOK, ht] at h

/-! ### Maximal closed subtrees -/

theorem List.append_cons_ne_self {α : Type} (s path : List α) (a : α) :
    s ++ a :: path ≠ path := by
  intro h
  have := congrArg List.length h
  simp at this
  omega

theorem List.append_true_ne_append_false (s s1 path : List Bool) :
    s ++ true :: path ≠ s1 ++ false :: path := by
  intro h
  have := (List.append_inj' h rfl).2
  simp at this

theorem lookup_cons_ne {q k : List Bool} {v : Bool} {m : List (List Bool × Bool)} (h : q ≠ k) :
    List.lookup q ((k, v) :: m) = List.lookup q m := by
  rw [List.lookup_cons]
  have : (q == k) = false := by simpa using h
  rw [this]

theorem lookup_cons_self {k : List Bool} {v : Bool} {m : List (List Bool × Bool)} :
    List.lookup k ((k, v) :: m) = some v := by
  rw [List.lookup_cons]
  simp

theorem NodePtr.nodeAt_snoc_left (token : Token) (left right : NodePtr) (p : List Bool) :
    (NodePtr.node token left right).nodeAt (p ++ [false]) = left.nodeAt p := by
  rw [NodePtr.nodeAt_snoc]; rfl

theorem NodePtr.nodeAt_snoc_right (token : Token) (left right : NodePtr) (p : List Bool) :
    (NodePtr.node token left right).nodeAt (p ++ [true]) = right.nodeAt p := by
  rw [NodePtr.nodeAt_snoc]; rfl

theorem bindingsAt_snoc (token : Token) (left right : NodePtr) (bound : List String)
    (turn : Bool) (p : List Bool) :
    bindingsAt (NodePtr.node token left right) bound (p ++ [turn])
      = bindingsAt (if turn then right else left)
          (lambdaBinding (NodePtr.node token left right) bound) p := by
  induction p with
  | nil => rfl
  | cons t p ih =>
    show lambdaBinding ((NodePtr.node token left right).nodeAt (p ++ [turn]))
        (bindingsAt (NodePtr.node token left right) bound (p ++ [turn])) = _
    rw [ih, NodePtr.nodeAt_snoc]
    rfl

theorem NodePtr.child_ne_null {n : NodePtr} {turn : Bool} (h : n.child turn ≠ NodePtr.null) :
    n ≠ NodePtr.null := by
  intro hn
  subst hn
  exact h rfl

theorem NodePtr.nodeAt_leaf {token : Token} {s : List Bool}
    (h : (NodePtr.node token NodePtr.null NodePtr.null).nodeAt s ≠ NodePtr.null) : s = [] := by
  rcases List.eq_nil_or_concat s with hs | ⟨p, turn, hs⟩
  · exact hs
  · subst hs
    rw [List.concat_eq_append, NodePtr.nodeAt_snoc] at h
    cases turn <;> exact absurd (NodePtr.nodeAt_null p) h

/-- The last step of `EvaluateClosed`: the entry of the node is stored in front
of the entries of its subtree. -/
theorem EvaluateClosed_store {token : Token} {left right : NodePtr} {path : List Bool}
    {bound : List String} {memo : List (List Bool × Bool)} {r : Bool × List (List Bool × Bool)}
    (h1 : r.1 = util.IsClosedSubtree (NodePtr.node token left right) bound)
    (h2l : ∀ s, left.nodeAt s ≠ NodePtr.null →
      r.2.lookup (s ++ false :: path) = some (util.IsClosedSubtree (left.nodeAt s)
        (bindingsAt left (lambdaBinding (NodePtr.node token left right) bound) s)))
    (h2r : ∀ s, right.nodeAt s ≠ NodePtr.null →
      r.2.lookup (s ++ true :: path) = some (util.IsClosedSubtree (right.nodeAt s)
        (bindingsAt right (lambdaBinding (NodePtr.node token left right) bound) s)))
    (h3 : ∀ q, (∀ s turn, q ≠ s ++ turn :: path) → r.2.lookup q = memo.lookup q) :
    (∀ s, (NodePtr.node token left right).nodeAt s ≠ NodePtr.null →
        List.lookup (s ++ path) ((path, r.1) :: r.2)
          = some (util.IsClosedSubtree ((NodePtr.node token left right).nodeAt s)
              (bindingsAt (NodePtr.node token left right) bound s)))
    ∧ (∀ q, (∀ s, q ≠ s ++ path) →
        List.lookup q ((path, r.1) :: r.2) = memo.lookup q) := by
  constructor
  · intro s hs
    rcases List.eq_nil_or_concat s with he | ⟨p, turn, he⟩
    · subst he
      simp only [List.nil_append, lookup_cons_self, h1]
      rfl
    · subst he
      rw [List.concat_eq_append] at hs ⊢
      rw [List.append_assoc, List.singleton_append,
        lookup_cons_ne (List.append_cons_ne_self p path turn), bindingsAt_snoc]
      rw [NodePtr.nodeAt_snoc] at hs ⊢
      cases turn with
      | false => exact h2l p hs
      | true => exact h2r p hs
  · intro q hq
    have hne : q ≠ path := by simpa using hq []
    rw [lookup_cons_ne hne]
    refine h3 q ?_
    intro s turn he
    exact hq (s ++ [turn]) (by simpa using he)

/-- On a well-formed tree whose nodes have no entry yet, `EvaluateClosed`
returns the value of `IsClosedSubtree` and stores, for every node of the
subtree, whether it is closed under the bindings of its enclosing lambdas; the
other entries stay as they are. -/
theorem EvaluateClosed_spec (node : NodePtr) :
    ∀ (path : List Bool) (bound : List String) (memo : List (List Bool × Bool)),
      ShapeOK node = true → (∀ s, memo.lookup (s ++ path) = none) →
      (EvaluateClosed node path bound memo).1 = util.IsClosedSubtree node bound
      ∧ (∀ s, node.nodeAt s ≠ NodePtr.null →
          (EvaluateClosed node path bound memo).2.lookup (s ++ path)
            = some (util.IsClosedSubtree (node.nodeAt s) (bindingsAt node bound s)))
      ∧ (∀ q, (∀ s, q ≠ s ++ path) →
          (EvaluateClosed node path bound memo).2.lookup q = memo.lookup q) := by
  induction node with
  | null =>
    intro path bound memo _ _
    refine ⟨rfl, ?_, fun _ _ => rfl⟩
    intro s hs
    exact absurd (NodePtr.nodeAt_null s) hs
  | node token left right ihl ihr =>
    intro path bound memo hshape hmemo
    obtain ⟨hsl, hsr⟩ := ShapeOK_children hshape
    have h0 : memo.lookup path = none := by simpa using hmemo []
    have hml : ∀ s, memo.lookup (s ++ false :: path) = none := fun s => by
      simpa using hmemo (s ++ [false])
    have hmr : ∀ s, memo.lookup (s ++ true :: path) = none := fun s => by
      simpa using hmemo (s ++ [true])
    have key : ∀ r : Bool × List (List Bool × Bool),
        r.1 = util.IsClosedSubtree (NodePtr.node token left right) bound →
        (∀ s, left.nodeAt s ≠ NodePtr.null →
          r.2.lookup (s ++ false :: path) = some (util.IsClosedSubtree (left.nodeAt s)
            (bindingsAt left (lambdaBinding (NodePtr.node token left right) bound) s))) →
        (∀ s, right.nodeAt s ≠ NodePtr.null →
          r.2.lookup (s ++ true :: path) = some (util.IsClosedSubtree (right.nodeAt s)
            (bindingsAt right (lambdaBinding (NodePtr.node token left right) bound) s))) →
        (∀ q, (∀ s turn, q ≠ s ++ turn :: path) → r.2.lookup q = memo.lookup q) →
        (r.1, (path, r.1) :: r.2).1 = util.IsClosedSubtree (NodePtr.node token left right) bound
        ∧ (∀ s, (NodePtr.node token left right).nodeAt s ≠ NodePtr.null →
            List.lookup (s ++ path) (r.1, (path, r.1) :: r.2).2
              = some (util.IsClosedSubtree ((NodePtr.node token left right).nodeAt s)
                  (bindingsAt (NodePtr.node token left right) bound s)))
        ∧ (∀ q, (∀ s, q ≠ s ++ path) →
            List.lookup q (r.1, (path, r.1) :: r.2).2 = memo.lookup q) :=
      fun r h1 h2l h2r h3 => ⟨h1, EvaluateClosed_store h1 h2l h2r h3⟩
    cases ht : token.type with
    | Number =>
      have hc : left = NodePtr.null ∧ right = NodePtr.null := by
        have := hshape
        simp only [ShapeOK, ht, Bool.and_eq_true, decide_eq_true_eq] at this
        exact this.1.1
      obtain ⟨rfl, rfl⟩ := hc
      have e : EvaluateClosed (NodePtr.node token NodePtr.null NodePtr.null) path bound memo
          = ((true, memo).1, (path, (true, memo).1) :: (true, memo).2) := by
        simp only [EvaluateClosed, h0, ht]
      rw [e]
      refine key (true, memo) (by simp [util.IsClosedSubtree, ht]) ?_ ?_ (fun _ _ => rfl)
      · intro s hs; exact absurd (NodePtr.nodeAt_null s) hs
      · intro s hs; exact absurd (NodePtr.nodeAt_null s) hs
    | ID =>
      have hc : left = NodePtr.null ∧ right = NodePtr.null := by
        have := hshape
        simp only [ShapeOK, ht, Bool.and_eq_true, decide_eq_true_eq] at this
        exact this.1.1
      obtain ⟨rfl, rfl⟩ := hc
      have e : EvaluateClosed (NodePtr.node token NodePtr.null NodePtr.null) path bound memo
          = ((decide (token.value ∈ bound), memo).1,
              (path, (decide (token.value ∈ bound), memo).1)
                :: (decide (token.value ∈ bound), memo).2) := by
        simp only [EvaluateClosed, h0, ht]
      rw [e]
      refine key (decide (token.value ∈ bound), memo) (by simp [util.IsClosedSubtree, ht]) ?_ ?_
        (fun _ _ => rfl)
      · intro s hs; exact absurd (NodePtr.nodeAt_null s) hs
      · intro s hs; exact absurd (NodePtr.nodeAt_null s) hs
    | UnaryOperator =>
      have hc : right = NodePtr.null := by
        have := hshape
        simp only [ShapeOK, ht, Bool.and_eq_true, decide_eq_true_eq] at this
        exact this.1.1.2
      subst hc
      obtain ⟨a1, a2, a3⟩ := ihl (false :: path) bound memo hsl hml
      have e : EvaluateClosed (NodePtr.node token left NodePtr.null) path bound memo
          = ((EvaluateClosed left (false :: path) bound memo).1,
              (path, (EvaluateClosed left (false :: path) bound memo).1)
                :: (EvaluateClosed left (false :: path) bound memo).2) := by
        simp only [EvaluateClosed, h0, ht]
      rw [e]
      have hb : lambdaBinding (NodePtr.node token left NodePtr.null) bound = bound := by
        simp [lambdaBinding, ht]
      refine key _ (by simpa [util.IsClosedSubtree, ht] using a1) ?_ ?_ ?_
      · intro s hs
        rw [hb]
        exact a2 s hs
      · intro s hs; exact absurd (NodePtr.nodeAt_null s) hs
      · intro q hq
        exact a3 q fun s => hq s false
    | BinaryOperator =>
      obtain ⟨a1, a2, a3⟩ := ihl (false :: path) bound memo hsl hml
      have hpre : ∀ s, (EvaluateClosed left (false :: path) bound memo).2.lookup
          (s ++ true :: path) = none := by
        intro s
        rw [a3 _ (fun s1 => List.append_true_ne_append_false s s1 path)]
        exact hmr s
      obtain ⟨b1, b2, b3⟩ := ihr (true :: path) bound
        (EvaluateClosed left (false :: path) bound memo).2 hsr hpre
      have e : EvaluateClosed (NodePtr.node token left right) path bound memo
          = (((EvaluateClosed left (false :: path) bound memo).1
                && (EvaluateClosed right (true :: path) bound
                    (EvaluateClosed left (false :: path) bound memo).2).1,
              (EvaluateClosed right (true :: path) bound
                (EvaluateClosed left (false :: path) bound memo).2).2).1,
              (path, ((EvaluateClosed left (false :: path) bound memo).1
                && (EvaluateClosed right (true :: path) bound
                    (EvaluateClosed left (false :: path) bound memo).2).1,
              (EvaluateClosed right (true :: path) bound
                (EvaluateClosed left (false :: path) bound memo).2).2).1)
                :: ((EvaluateClosed left (false :: path) bound memo).1
                && (EvaluateClosed right (true :: path) bound
                    (EvaluateClosed left (false :: path) bound memo).2).1,
              (EvaluateClosed right (true :: path) bound
                (EvaluateClosed left (false :: path) bound memo).2).2).2) := by
        simp only [EvaluateClosed, h0, ht]
      rw [e]
      have hb : lambdaBinding (NodePtr.node token left right) bound = bound := by
        simp [lambdaBinding, ht]
      refine key _ (by simp [util.IsClosedSubtree, ht, a1, b1]) ?_ ?_ ?_
      · intro s hs
        rw [hb]
        simp only
        rw [b3 _ (fun s1 he => List.append_true_ne_append_false s1 s path he.symm)]
        exact a2 s hs
      · intro s hs
        rw [hb]
        exact b2 s hs
      · intro q hq
        simp only
        rw [b3 q fun s => hq s true]
        exact a3 q fun s => hq s false
    | Lambda =>
      obtain ⟨x, rfl⟩ := ShapeOK_lambda hshape ht
      have hpre : ∀ s, List.lookup (s ++ true :: path) ((false :: path, true) :: memo) = none := by
        intro s
        rw [lookup_cons_ne (by simpa using List.append_true_ne_append_false s [] path)]
        exact hmr s
      obtain ⟨b1, b2, b3⟩ := ihr (true :: path) (x :: bound) ((false :: path, true) :: memo)
        hsr hpre
      have e : EvaluateClosed (NodePtr.node token
            (NodePtr.node ⟨TokenType.ID, x⟩ NodePtr.null NodePtr.null) right) path bound memo
          = ((EvaluateClosed right (true :: path) (x :: bound)
                ((false :: path, true) :: memo)).1,
              (path, (EvaluateClosed right (true :: path) (x :: bound)
                ((false :: path, true) :: memo)).1)
                :: (EvaluateClosed right (true :: path) (x :: bound)
                ((false :: path, true) :: memo)).2) := by
        simp only [EvaluateClosed, h0, ht, if_true]
      rw [e]
      have hb : lambdaBinding (NodePtr.node token
          (NodePtr.node ⟨TokenType.ID, x⟩ NodePtr.null NodePtr.null) right) bound
            = x :: bound := by
        simp [lambdaBinding, ht, parameterText]
      refine key _ (by simpa [util.IsClosedSubtree, ht] using b1) ?_ ?_ ?_
      · intro s hs
        have hs0 := NodePtr.nodeAt_leaf hs
        subst hs0
        rw [hb, b3 _ (fun s1 he => List.append_true_ne_append_false s1 [] path he.symm)]
        simp [lookup_cons_self, NodePtr.nodeAt, bindingsAt, util.IsClosedSubtree]
      · intro s hs
        rw [hb]
        exact b2 s hs
      · intro q hq
        rw [b3 q fun s => hq s true]
        exact lookup_cons_ne (by simpa using hq [] false)
    | Dot => simp [ShapeOK, ht] at hshape
    | OpenScope => simp [ShapeOK, ht] at hshape
    | CloseScope => simp [ShapeOK, ht] at hshape
    | EndOfFile => simp [ShapeOK, ht] at hshape
    | Error => simp [ShapeOK, ht] at hshape

theorem ShapeOK_child {n : NodePtr} (h : ShapeOK n = true) (turn : Bool) :
    ShapeOK (n.child turn) = true := by
  cases n with
  | null => rfl
  | node token left right =>
    obtain ⟨hl, hr⟩ := ShapeOK_children h
    cases turn
    · exact hl
    · exact hr

theorem ShapeOK_nodeAt {root : NodePtr} (h : ShapeOK root = true) (path : List Bool) :
    ShapeOK (root.nodeAt path) = true := by
  induction path with
  | nil => exact h
  | cons turn path ih => exact ShapeOK_child ih turn

/-- The children of a closed node of a well-formed tree are closed under the
bindings the node passes to them. -/
theorem closed_child {n : NodePtr} {bound : List String} (h : ShapeOK n = true)
    (hc : util.IsClosedSubtree n bound = true) (turn : Bool) :
    util.IsClosedSubtree (n.child turn) (lambdaBinding n bound) = true := by
  cases n with
  | null => rfl
  | node token left right =>
    cases ht : token.type with
    | Number =>
      have hn : left = NodePtr.null ∧ right = NodePtr.null := by
        have := h
        simp only [ShapeOK, ht, Bool.and_eq_true, decide_eq_true_eq] at this
        exact this.1.1
      obtain ⟨rfl, rfl⟩ := hn
      cases turn <;> rfl
    | ID =>
      have hn : left = NodePtr.null ∧ right = NodePtr.null := by
        have := h
        simp only [ShapeOK, ht, Bool.and_eq_true, decide_eq_true_eq] at this
        exact this.1.1
      obtain ⟨rfl, rfl⟩ := hn
      cases turn <;> rfl
    | UnaryOperator =>
      have hn : right = NodePtr.null := by
        have := h
        simp only [ShapeOK, ht, Bool.and_eq_true, decide_eq_true_eq] at this
        exact this.1.1.2
      subst hn
      cases turn
      · simpa [util.IsClosedSubtree, ht, lambdaBinding, NodePtr.child] using hc
      · rfl
    | BinaryOperator =>
      simp only [util.IsClosedSubtree, ht, Bool.and_eq_true] at hc
      cases turn
      · simpa [lambdaBinding, ht, NodePtr.child] using hc.1
      · simpa [lambdaBinding, ht, NodePtr.child] using hc.2
    | Lambda =>
      obtain ⟨x, rfl⟩ := ShapeOK_lambda h ht
      cases turn
      · simp [lambdaBinding, ht, NodePtr.child, parameterText, util.IsClosedSubtree]
      · simpa [util.IsClosedSubtree, ht, lambdaBinding, NodePtr.child, parameterText] using hc
    | Dot => simp [ShapeOK, ht] at h
    | OpenScope => simp [ShapeOK, ht] at h
    | CloseScope => simp [ShapeOK, ht] at h
    | EndOfFile => simp [ShapeOK, ht] at h
    | Error => simp [ShapeOK, ht] at h

/-- Below a closed node of a well-formed tree every node is closed. -/
theorem closedInContext_below {root : NodePtr} (h : ShapeOK root = true) {a : List Bool}
    (ha : closedInContext root a = true) (s : List Bool) :
    closedInContext root (s ++ a) = true := by
  induction s with
  | nil => exact ha
  | cons turn s ih => exact closed_child (ShapeOK_nodeAt h (s ++ a)) ih turn

theorem MSPChecker.foldl_visit (memo : List (List Bool × Bool)) (pred : NodeRef → Bool) :
    ∀ (l : List NodeRef) (result : List NodeRef),
      (∀ r ∈ l, ∀ res, visit memo res r = if pred r then res ++ [r] else res) →
      l.foldl (visit memo) result = result ++ l.filter pred := by
  intro l
  induction l with
  | nil => intro result _; simp
  | cons r l ih =>
    intro result h
    rw [List.foldl_cons, ih _ (fun r1 hr1 => h r1 (List.mem_cons_of_mem _ hr1)),
      h r (List.mem_cons_self _ _)]
    by_cases hp : pred r = true
    · simp [hp, List.filter_cons]
    · simp [hp, List.filter_cons]

/-- On a well-formed tree `FindMaximallyClosed` is the filter of the
specification. -/
theorem MSPChecker.FindMaximallyClosed_eq (root : NodePtr) (h : ShapeOK root = true) :
    FindMaximallyClosed ⟨root⟩ = maximallyClosed root := by
  by_cases hn : root = NodePtr.null
  · subst hn; rfl
  simp only [FindMaximallyClosed, AST.getRoot, hn, if_false, maximallyClosed]
  obtain ⟨-, a2, -⟩ := EvaluateClosed_spec root [] [] [] h (fun _ => rfl)
  rw [util.CollectNodesPreOrder_eq, NodeRef.map_below_nil, List.nil_append]
  rw [foldl_visit _ _ _ _ ?_, List.nil_append]
  intro r hr res
  obtain ⟨hr1, hr2⟩ := (preOrder_mem root r).1 hr
  have e1 := a2 r.path (by rw [hr2]; exact hr1)
  rw [List.append_nil] at e1
  have c1 : closedInContext root r.path
      = util.IsClosedSubtree (root.nodeAt r.path) (bindingsAt root [] r.path) := rfl
  cases hp : r.path with
  | nil =>
    rw [hp] at e1 c1
    simp only [visit, hp, e1, ← c1]
    rcases Bool.eq_false_or_eq_true (closedInContext root []) with hb | hb <;>
      simp only [hb] <;> simp
  | cons turn parent =>
    have hpar : root.nodeAt parent ≠ NodePtr.null := by
      have : (root.nodeAt parent).child turn ≠ NodePtr.null := by
        have := hr2 ▸ hr1
        rw [hp] at this
        exact this
      exact NodePtr.child_ne_null this
    have e2 := a2 parent hpar
    rw [List.append_nil] at e2
    have c2 : closedInContext root parent
        = util.IsClosedSubtree (root.nodeAt parent) (bindingsAt root [] parent) := rfl
    rw [hp] at e1 c1
    simp only [visit, hp, e1, e2, ← c1, ← c2]
    rcases Bool.eq_false_or_eq_true (closedInContext root (turn :: parent)) with hb | hb <;>
      rcases Bool.eq_false_or_eq_true (closedInContext root parent) with hb1 | hb1 <;>
      simp only [hb, hb1] <;> simp

theorem maximallyClosed_mem {root : NodePtr} {r : NodeRef} :
    r ∈ maximallyClosed root ↔
      r.isNodeOf root ∧ closedInContext root r.path = true
        ∧ (r.path = [] ∨ closedInContext root r.path.tail = false) := by
  simp only [maximallyClosed, List.mem_filter, preOrder_mem, Bool.and_eq_true]
  cases hp : r.path with
  | nil => simp
  | cons turn parent => simp

/-- A reported node of a well-formed tree has no closed proper ancestor. -/
theorem maximallyClosed_ancestor {root : NodePtr} (h : ShapeOK root = true) {r : NodeRef}
    (hr : r ∈ maximallyClosed root) {s a : List Bool} (hp : r.path = s ++ a) (hs : s ≠ []) :
    closedInContext root a = false := by
  obtain ⟨-, -, h3⟩ := maximallyClosed_mem.1 hr
  cases s with
  | nil => exact absurd rfl hs
  | cons turn s1 =>
    rw [hp] at h3
    rcases h3 with h3 | h3
    · simp at h3
    · by_contra hc
      rw [Bool.not_eq_false] at hc
      have := closedInContext_below h hc s1
      simp only [List.cons_append, List.tail_cons] at h3
      rw [this] at h3
      simp at h3

/-! ### Repeated subexpressions -/

open SubexpressionFinder in
theorem SubexpressionFinder.lookup_store (k : String) (h c : Nat) (nd : NodeRef) (k1 : String) :
    ∀ agg : List (String × AggregateInfo),
      (store k h c nd agg).lookup k1
        = if k1 = k then some ⟨h, c, bucket agg k ++ [nd]⟩ else agg.lookup k1 := by
  intro agg
  induction agg with
  | nil =>
    simp only [store, List.lookup_cons, List.lookup_nil, bucket, List.nil_append]
    by_cases hk : k1 = k
    · simp [hk]
    · have : (k1 == k) = false := by simpa using hk
      simp [hk, this]
  | cons e rest ih =>
    obtain ⟨key, info⟩ := e
    by_cases hkey : key = k
    · subst hkey
      simp only [store, if_true, List.lookup_cons, bucket]
      by_cases hk : k1 = key
      · subst hk
        simp
      · have : (k1 == key) = false := by simpa using hk
        simp [hk, this]
    · simp only [store, hkey, if_false, List.lookup_cons, ih, bucket]
      by_cases hk : k1 = k
      · subst hk
        have : (k1 == key) = false := by simpa using fun h => hkey h.symm
        simp [this]
      · simp only [hk, if_false]

open SubexpressionFinder in
theorem SubexpressionFinder.bucket_store (k : String) (h c : Nat) (nd : NodeRef) (k1 : String)
    (agg : List (String × AggregateInfo)) :
    bucket (store k h c nd agg) k1
      = if k1 = k then bucket agg k ++ [nd] else bucket agg k1 := by
  simp only [bucket, lookup_store]
  by_cases hk : k1 = k
  · simp [hk]
  · simp [hk]

open SubexpressionFinder in
theorem SubexpressionFinder.keys_store (k : String) (h c : Nat) (nd : NodeRef) :
    ∀ agg : List (String × AggregateInfo),
      (store k h c nd agg).map Prod.fst
        = if k ∈ agg.map Prod.fst then agg.map Prod.fst else agg.map Prod.fst ++ [k] := by
  intro agg
  induction agg with
  | nil => simp [store]
  | cons e rest ih =>
    obtain ⟨key, info⟩ := e
    by_cases hkey : key = k
    · subst hkey
      simp [store]
    · have hne : ¬ k = key := fun h => hkey h.symm
      simp only [store, hkey, if_false, List.map_cons, ih, List.mem_cons, hne, false_or]
      split <;> simp

open SubexpressionFinder in
theorem SubexpressionFinder.mem_store {k : String} {h c : Nat} {nd : NodeRef}
    {e : String × AggregateInfo} :
    ∀ {agg : List (String × AggregateInfo)}, e ∈ store k h c nd agg →
      e ∈ agg ∨ ∃ nodes, e = (k, ⟨h, c, nodes ++ [nd]⟩) := by
  intro agg
  induction agg with
  | nil =>
    intro he
    simp only [store, List.mem_singleton] at he
    exact Or.inr ⟨[], by simpa using he⟩
  | cons e1 rest ih =>
    obtain ⟨key, info⟩ := e1
    intro he
    by_cases hkey : key = k
    · subst hkey
      simp only [store, if_true, List.mem_cons] at he
      rcases he with he | he
      · exact Or.inr ⟨info.nodes, he⟩
      · exact Or.inl (List.mem_cons_of_mem _ he)
    · simp only [store, hkey, if_false, List.mem_cons] at he
      rcases he with he | he
      · exact Or.inl (by rw [he]; exact List.mem_cons_self _ _)
      · rcases ih he with h1 | h1
        · exact Or.inl (List.mem_cons_of_mem _ h1)
        · exact Or.inr h1

open SubexpressionFinder in
/-- `dfs` returns the height and the node count of the subtree, and adds every
node of the subtree to the bucket of its canonical form, in post-order. -/
theorem SubexpressionFinder.dfs_spec (node : NodePtr) :
    ∀ (path : List Bool) (agg : List (String × AggregateInfo)),
      (dfs node path agg).1 = (util.Height node, util.NodeCount node)
      ∧ (∀ k, bucket (dfs node path agg).2 k
          = bucket agg k ++ (((postOrder node).map (NodeRef.below path)).filter
              fun r => util.CanonicalForm r.node = k))
      ∧ ((agg.map Prod.fst).Nodup → ((dfs node path agg).2.map Prod.fst).Nodup)
      ∧ (GoodInfo agg → GoodInfo (dfs node path agg).2) := by
  induction node with
  | null =>
    intro path agg
    simp [dfs, util.Height, util.NodeCount, postOrder]
  | node token left right ihl ihr =>
    intro path agg
    obtain ⟨l1, l2, l3, l4⟩ := ihl (false :: path) agg
    obtain ⟨r1, r2, r3, r4⟩ := ihr (true :: path) (dfs left (false :: path) agg).2
    refine ⟨?_, ?_, ?_, ?_⟩
    · simp only [dfs, l1, r1, util.Height, util.NodeCount]
    · intro k
      simp only [dfs, bucket_store, r2, l2, postOrder, List.map_append, NodeRef.map_below_under,
        List.filter_append, List.map_cons, List.map_nil, List.append_assoc]
      by_cases hk : k = util.CanonicalForm (NodePtr.node token left right)
      · subst hk
        simp [NodeRef.below, List.filter_cons]
      · have hk1 : ¬ util.CanonicalForm (NodePtr.node token left right) = k := fun h => hk h.symm
        simp [NodeRef.below, List.filter_cons, hk, hk1]
    · intro hn
      simp only [dfs, keys_store]
      have := r3 (l3 hn)
      split
      · exact this
      · rename_i hmem
        exact List.Nodup.append this (by simp) (by simpa using hmem)
    · intro hg e he
      simp only [dfs] at he
      rcases mem_store he with h1 | ⟨nodes, h1⟩
      · exact r4 (l4 hg) e h1
      · subst h1
        refine ⟨⟨path, NodePtr.node token left right⟩, by simp, ?_, ?_⟩
        · simp only [l1, r1, util.Height]
        · simp only [l1, r1, util.NodeCount]

open SubexpressionFinder in
theorem SubexpressionFinder.precedes_iff (a b : RepeatedSubexpression) :
    precedes a b = true ↔ reportKey a < reportKey b := by
  simp only [precedes, reportKey, Prod.Lex.lt_iff, ne_eq, ite_not, gt_iff_lt,
    OrderDual.toDual_lt_toDual, EmbeddingLike.apply_eq_iff_eq, String.lt_iff_toList_lt]
  split_ifs <;> simp_all

open SubexpressionFinder in
theorem SubexpressionFinder.precedes_iff_reportOrder (a b : RepeatedSubexpression) :
    precedes a b = true ↔ reportOrder a b := by
  simp only [precedes, reportOrder, ne_eq, ite_not, gt_iff_lt, String.lt_iff_toList_lt]
  split_ifs <;> simp_all

open SubexpressionFinder in
theorem SubexpressionFinder.precedes_false_iff (a b : RepeatedSubexpression) :
    precedes b a = false ↔ reportKey a ≤ reportKey b := by
  rw [← not_lt, ← precedes_iff]
  simp

theorem reportKey_canonical {a b : RepeatedSubexpression} (h : reportKey a = reportKey b) :
    a.canonical = b.canonical := by
  simp only [reportKey, EmbeddingLike.apply_eq_iff_eq, Prod.mk.injEq] at h
  exact h.2.2.2

open SubexpressionFinder in
theorem SubexpressionFinder.sort_perm (l : List RepeatedSubexpression) : (sort l).Perm l :=
  List.perm_insertionSort _ l

open SubexpressionFinder in
theorem SubexpressionFinder.sort_sorted (l : List RepeatedSubexpression) :
    (sort l).Pairwise fun a b => reportKey a ≤ reportKey b := by
  haveI : IsTotal RepeatedSubexpression (fun lhs rhs => precedes rhs lhs = false) :=
    ⟨fun a b => by simp only [precedes_false_iff]; exact le_total _ _⟩
  haveI : IsTrans RepeatedSubexpression (fun lhs rhs => precedes rhs lhs = false) :=
    ⟨fun a b c h1 h2 => by
      simp only [precedes_false_iff] at h1 h2 ⊢
      exact le_trans h1 h2⟩
  have h := List.sorted_insertionSort (fun lhs rhs => precedes rhs lhs = false) l
  exact List.Pairwise.imp (fun {a b} hab => (precedes_false_iff a b).1 hab) h

/-- A sorted list of reports with pairwise different canonical strings is
strictly ordered. -/
theorem SubexpressionFinder.strict_of_sorted {l : List RepeatedSubexpression}
    (h1 : l.Pairwise fun a b => reportKey a ≤ reportKey b)
    (h2 : (l.map RepeatedSubexpression.canonical).Nodup) :
    l.Pairwise fun a b => precedes a b = true := by
  rw [List.Nodup, List.pairwise_map] at h2
  refine List.Pairwise.imp ?_ (h1.and h2)
  rintro a b ⟨hle, hne⟩
  rw [precedes_iff]
  exact lt_of_le_of_ne hle fun he => hne (reportKey_canonical he)

open SubexpressionFinder in
theorem SubexpressionFinder.mem_candidatesOf {agg : List (String × AggregateInfo)}
    {c : RepeatedSubexpression} :
    c ∈ candidatesOf agg ↔
      ∃ e ∈ agg, 2 ≤ e.2.nodes.length ∧
        c = ⟨e.1, e.2.nodes.length, e.2.height, e.2.node_count, e.2.nodes⟩ := by
  simp only [candidatesOf, List.mem_filterMap]
  constructor
  · rintro ⟨e, he, h⟩
    split at h
    · simp at h
    · rename_i hlen
      simp only [Option.some.injEq] at h
      exact ⟨e, he, by omega, h.symm⟩
  · rintro ⟨e, he, hlen, rfl⟩
    refine ⟨e, he, ?_⟩
    rw [if_neg (by omega)]

open SubexpressionFinder in
theorem SubexpressionFinder.candidatesOf_canonical (agg : List (String × AggregateInfo)) :
    ((candidatesOf agg).map RepeatedSubexpression.canonical).Sublist (agg.map Prod.fst) := by
  induction agg with
  | nil => simp [candidatesOf]
  | cons e rest ih =>
    simp only [candidatesOf, List.filterMap_cons, List.map_cons]
    split
    · rename_i h
      split at h
      · exact List.Sublist.cons _ ih
      · simp at h
    · rename_i c h
      split at h
      · simp at h
      · simp only [Option.some.injEq] at h
        subst h
        exact List.Sublist.cons₂ _ ih

theorem SubexpressionFinder.lookup_of_mem {agg : List (String × AggregateInfo)}
    (hn : (agg.map Prod.fst).Nodup) {e : String × AggregateInfo} (he : e ∈ agg) :
    agg.lookup e.1 = some e.2 := by
  induction agg with
  | nil => simp at he
  | cons e1 rest ih =>
    obtain ⟨k1, i1⟩ := e1
    simp only [List.map_cons, List.nodup_cons] at hn
    rw [List.lookup_cons]
    rcases List.mem_cons.1 he with h | h
    · subst h
      simp
    · have hne : e.1 ≠ k1 := by
        intro hk
        exact hn.1 (by rw [← hk]; exact List.mem_map_of_mem _ h)
      have : (e.1 == k1) = false := by simpa using hne
      rw [this]
      exact ih hn.2 h

theorem SubexpressionFinder.mem_of_lookup {agg : List (String × AggregateInfo)} {k : String}
    {info : AggregateInfo} (h : agg.lookup k = some info) : (k, info) ∈ agg := by
  induction agg with
  | nil => simp at h
  | cons e1 rest ih =>
    obtain ⟨k1, i1⟩ := e1
    rw [List.lookup_cons] at h
    by_cases hk : k = k1
    · subst hk
      simp only [beq_self_eq_true, Option.some.injEq] at h
      subst h
      exact List.mem_cons_self _ _
    · have : (k == k1) = false := by simpa using hk
      rw [this] at h
      exact List.mem_cons_of_mem _ (ih h)

open SubexpressionFinder in
/-- The map after `dfs(root)`: one entry for every canonical form of the tree,
with the nodes of that form in post-order. -/
theorem SubexpressionFinder.aggregates_spec (root : NodePtr) :
    ((dfs root [] []).2.map Prod.fst).Nodup
    ∧ GoodInfo (dfs root [] []).2
    ∧ (∀ e ∈ (dfs root [] []).2, e.2.nodes = occurrencesOf root e.1)
    ∧ (∀ k, occurrencesOf root k ≠ [] →
        ∃ info, (k, info) ∈ (dfs root [] []).2 ∧ info.nodes = occurrencesOf root k) := by
  obtain ⟨-, h2, h3, h4⟩ := dfs_spec root [] []
  have hn := h3 (by simp)
  have hb : ∀ k, bucket (dfs root [] []).2 k = occurrencesOf root k := by
    intro k
    rw [h2 k, NodeRef.map_below_nil]
    simp [bucket, occurrencesOf]
  refine ⟨hn, h4 (fun e he => by simp at he), ?_, ?_⟩
  · intro e he
    have := hb e.1
    simp only [bucket, lookup_of_mem hn he] at this
    exact this
  · intro k hk
    have := hb k
    simp only [bucket] at this
    cases hl : List.lookup k (dfs root [] []).2 with
    | none =>
      rw [hl] at this
      exact absurd this.symm hk
    | some info =>
      rw [hl] at this
      exact ⟨info, mem_of_lookup hl, this⟩

open SubexpressionFinder in
theorem SubexpressionFinder.foldl_accept (l : List RepeatedSubexpression) :
    ∀ st : List (List Bool) × List RepeatedSubexpression,
      ∃ l1, l1.Sublist l ∧ (l.foldl accept st).2 = st.2 ++ l1 := by
  induction l with
  | nil => intro st; exact ⟨[], List.Sublist.refl _, by simp⟩
  | cons c l ih =>
    intro st
    obtain ⟨l1, h1, h2⟩ := ih (accept st c)
    rw [List.foldl_cons, h2]
    simp only [accept]
    split
    · exact ⟨l1, List.Sublist.cons _ h1, rfl⟩
    · exact ⟨c :: l1, List.Sublist.cons₂ _ h1, by simp⟩

open SubexpressionFinder in
theorem SubexpressionFinder.HasCoveredAncestorLoop_iff (covered : List (List Bool)) :
    ∀ p : List Bool, HasCoveredAncestorLoop covered p = true ↔ ∃ s a, a ∈ covered ∧ p = s ++ a := by
  intro p
  induction p with
  | nil =>
    simp only [HasCoveredAncestorLoop, decide_eq_true_eq]
    constructor
    · intro h; exact ⟨[], [], h, rfl⟩
    · rintro ⟨s, a, ha, h⟩
      have := List.append_eq_nil.1 h.symm
      rw [this.2] at ha
      exact ha
  | cons turn parent ih =>
    simp only [HasCoveredAncestorLoop]
    split
    · rename_i hm
      simp only [true_iff]
      exact ⟨[], _, hm, rfl⟩
    · rename_i hm
      rw [ih]
      constructor
      · rintro ⟨s, a, ha, h⟩
        exact ⟨turn :: s, a, ha, by rw [h]; rfl⟩
      · rintro ⟨s, a, ha, h⟩
        cases s with
        | nil =>
          simp only [List.nil_append] at h
          rw [← h] at ha
          exact absurd ha hm
        | cons t s1 =>
          simp only [List.cons_append, List.cons.injEq] at h
          exact ⟨s1, a, ha, h.2⟩

open SubexpressionFinder in
theorem SubexpressionFinder.HasCoveredAncestor_iff (nd : NodeRef) (covered : List (List Bool)) :
    HasCoveredAncestor nd covered = true ↔
      ∃ s a, a ∈ covered ∧ nd.path = s ++ a ∧ s ≠ [] := by
  simp only [HasCoveredAncestor]
  cases hp : nd.path with
  | nil =>
    simp only [Bool.false_eq_true, false_iff]
    rintro ⟨s, a, -, h, hs⟩
    exact hs (List.append_eq_nil.1 h.symm).1
  | cons turn parent =>
    simp only [HasCoveredAncestorLoop_iff]
    constructor
    · rintro ⟨s, a, ha, h⟩
      exact ⟨turn :: s, a, ha, by rw [h]; rfl, by simp⟩
    · rintro ⟨s, a, ha, h, hs⟩
      cases s with
      | nil => exact absurd rfl hs
      | cons t s1 =>
        simp only [List.cons_append, List.cons.injEq] at h
        exact ⟨s1, a, ha, h.2⟩

open SubexpressionFinder in
theorem SubexpressionFinder.accept_accepted {st : List (List Bool) × List RepeatedSubexpression}
    (h : Accepted st) (c : RepeatedSubexpression) : Accepted (accept st c) := by
  simp only [accept]
  split
  · exact h
  · rename_i hskip
    obtain ⟨h1, h2⟩ := h
    have hskip1 : ∃ occurrence ∈ c.occurrences, HasCoveredAncestor occurrence st.1 = false := by
      by_contra hc
      apply hskip
      rw [List.all_eq_true]
      intro x hx
      by_contra hx1
      exact hc ⟨x, hx, by simpa using hx1⟩
    constructor
    · intro a
      simp only [List.mem_append, List.mem_map, h1, List.mem_singleton]
      constructor
      · rintro (⟨r, hr, occ, ho, he⟩ | ⟨occ, ho, he⟩)
        · exact ⟨r, Or.inl hr, occ, ho, he⟩
        · exact ⟨c, Or.inr rfl, occ, ho, he⟩
      · rintro ⟨r, hr | hr, occ, ho, he⟩
        · exact Or.inl ⟨r, hr, occ, ho, he⟩
        · subst hr
          exact Or.inr ⟨occ, ho, he⟩
    · intro front r back he
      rcases List.eq_nil_or_concat back with hb | ⟨back1, c1, hb⟩
      · subst hb
        have he1 : st.2 ++ [c] = front ++ [r] := he
        have := List.append_inj' he1 rfl
        obtain ⟨e1, e2⟩ := this
        simp only [List.cons.injEq, and_true] at e2
        subst e1 e2
        obtain ⟨occ, ho, hcov⟩ := hskip1
        refine ⟨occ, ho, ?_⟩
        intro r1 hr1 anc hanc s hs
        by_contra hne
        have : HasCoveredAncestor occ st.1 = true := by
          rw [HasCoveredAncestor_iff]
          exact ⟨s, anc.path, (h1 _).2 ⟨r1, hr1, anc, hanc, rfl⟩, hs, hne⟩
        rw [this] at hcov
        simp at hcov
      · subst hb
        rw [List.concat_eq_append] at he
        have he1 : st.2 ++ [c] = (front ++ r :: back1) ++ [c1] := by
          simpa using he
        have := (List.append_inj' he1 rfl).1
        exact h2 front r back1 this

open SubexpressionFinder in
theorem SubexpressionFinder.foldl_accepted (l : List RepeatedSubexpression) :
    ∀ st, Accepted st → Accepted (l.foldl accept st) := by
  induction l with
  | nil => intro st h; exact h
  | cons c l ih => intro st h; exact ih _ (accept_accepted h c)

open SubexpressionFinder in
theorem SubexpressionFinder.find_eq {root : NodePtr} (hn : root ≠ NodePtr.null) :
    find ⟨root⟩ = ((sort (candidatesOf (dfs root [] []).2)).foldl accept ([], [])).2 := by
  simp [find, AST.getRoot, hn]

open SubexpressionFinder in
/-- The reports are candidates: a sublist of the sorted candidates. -/
theorem SubexpressionFinder.find_sublist (root : NodePtr) :
    (find ⟨root⟩).Sublist (sort (candidatesOf (dfs root [] []).2)) := by
  by_cases hn : root = NodePtr.null
  · subst hn
    exact List.nil_sublist _
  · rw [find_eq hn]
    obtain ⟨l1, h1, h2⟩ := foldl_accept (sort (candidatesOf (dfs root [] []).2)) ([], [])
    rw [h2]
    simpa using h1

open SubexpressionFinder in
theorem SubexpressionFinder.sorted_candidates (root : NodePtr) :
    (sort (candidatesOf (dfs root [] []).2)).Pairwise fun a b => precedes a b = true := by
  refine strict_of_sorted (sort_sorted _) ?_
  have hp := (sort_perm (candidatesOf (dfs root [] []).2)).map RepeatedSubexpression.canonical
  rw [hp.nodup_iff]
  exact (candidatesOf_canonical _).nodup (aggregates_spec root).1

open SubexpressionFinder in
theorem SubexpressionFinder.mem_sorted_candidates {root : NodePtr} {c : RepeatedSubexpression} :
    c ∈ sort (candidatesOf (dfs root [] []).2) ↔
      2 ≤ (occurrencesOf root c.canonical).length
      ∧ c.count = (occurrencesOf root c.canonical).length
      ∧ c.occurrences = occurrencesOf root c.canonical
      ∧ ∃ nd, c.occurrences.getLast? = some nd ∧ c.height = util.Height nd.node
          ∧ c.node_count = util.NodeCount nd.node := by
  obtain ⟨a1, a2, a3, a4⟩ := aggregates_spec root
  rw [(sort_perm _).mem_iff, mem_candidatesOf]
  constructor
  · rintro ⟨e, he, hlen, rfl⟩
    simp only
    rw [← a3 e he]
    exact ⟨hlen, rfl, rfl, a2 e he⟩
  · rintro ⟨h1, h2, h3, nd, h4, h5, h6⟩
    have hne : occurrencesOf root c.canonical ≠ [] := by
      intro h0
      rw [h0] at h1
      simp at h1
    obtain ⟨info, hi, hinfo⟩ := a4 c.canonical hne
    refine ⟨(c.canonical, info), hi, by simp only [hinfo]; exact h1, ?_⟩
    obtain ⟨nd1, g1, g2, g3⟩ := a2 _ hi
    simp only at g1 g2 g3
    obtain ⟨cc, cn, ch, cnc, co⟩ := c
    simp only at h1 h2 h3 h4 h5 h6 hinfo hi ⊢
    subst h3
    rw [hinfo] at g1
    rw [h4] at g1
    simp only [Option.some.injEq] at g1
    subst g1
    simp only [RepeatedSubexpression.mk.injEq, true_and, hinfo, h2, h5, g2, h6, g3, and_self]

/-! ### Number literals -/

theorem Tokenizer.matchFraction_cons (c : Char) (cs : List Char) :
    matchFraction (c :: cs) = (decide (c = '.') && !cs.isEmpty && cs.all isdigit) := rfl

/-- A string matched by `number_re` has the form of the specification. -/
theorem Tokenizer.numberForm_of_matchNumberRe {l : List Char} (h : matchNumberRe l = true) :
    numberForm l = true := by
  cases l with
  | nil => simp [matchNumberRe] at h
  | cons c cs =>
    simp only [matchNumberRe] at h
    have hdot : isdigit '.' = false := by decide
    split at h
    · rename_i h0
      subst h0
      have h0 : isdigit '0' = true := by decide
      cases cs with
      | nil => simp [numberForm, h0]
      | cons d g =>
        simp only [matchFraction_cons, Bool.and_eq_true, decide_eq_true_eq] at h
        obtain ⟨⟨rfl, h1⟩, h2⟩ := h
        simp [numberForm, h0, hdot, h1, h2]
    · rename_i h0
      split at h
      · rename_i h1
        have hd : isdigit c = true := by
          simp only [Bool.and_eq_true, decide_eq_true_eq] at h1
          simp only [isdigit, Bool.and_eq_true, decide_eq_true_eq]
          exact ⟨le_trans (by decide) h1.1, h1.2⟩
        simp only [numberForm, List.takeWhile_cons, hd, if_true, List.dropWhile_cons,
          List.head?_cons, List.isEmpty_cons, Bool.not_false, Bool.true_and]
        have hne : (some c ≠ some '0') := by simpa using h0
        have hne1 : decide (some c ≠ some '0') = true := by simpa using h0
        rw [hne1, Bool.or_true, Bool.true_and]
        cases hr : List.dropWhile isdigit cs with
        | nil => rfl
        | cons d g =>
          rw [hr, matchFraction_cons] at h
          exact h
      · exact absurd h (by decide)

theorem Tokenizer.lookup_ne_number (w : String) :
    List.lookup w kTokenMap ≠ some TokenType.Number := by
  intro h
  have key : (kTokenMap.all fun q => decide (q.2 ≠ TokenType.Number)) = true := by decide
  rw [List.all_eq_true] at key
  have hmem : (w, TokenType.Number) ∈ kTokenMap := by
    revert h
    generalize kTokenMap = m
    intro h
    induction m with
    | nil => simp at h
    | cons e rest ih =>
      obtain ⟨k1, v1⟩ := e
      rw [List.lookup_cons] at h
      by_cases hk : w = k1
      · subst hk
        simp only [beq_self_eq_true, Option.some.injEq] at h
        subst h
        exact List.mem_cons_self _ _
      · have : (w == k1) = false := by simpa using hk
        rw [this] at h
        exact List.mem_cons_of_mem _ (ih h)
  simpa using key _ hmem

/-- A `Number` token returned by `nextToken` carries a string matched by
`number_re`. -/
theorem Tokenizer.nextToken_number_value (t : Tokenizer)
    (h : t.nextToken.1.type = TokenType.Number) :
    matchNumberRe t.nextToken.1.value.data = true := by
  revert h
  simp only [nextToken]
  split
  · simp
  · rename_i ch hch
    split
    · simp only [readSingleCharToken]
      intro h
      exfalso
      cases hl : List.lookup (String.singleton ch) kTokenMap with
      | none => rw [hl] at h; simp at h
      | some ty =>
        rw [hl] at h
        simp only [Option.getD_some] at h
        subst h
        exact lookup_ne_number _ hl
    · split
      · simp only [readIdentifierOrKeyword]
        split
        · simp
        · split
          · rename_i ty hty
            intro h
            simp only at h
            subst h
            exact absurd hty (lookup_ne_number _)
          · split <;> simp
      · split
        · simp only [readNumber]
          split
          · simp
          · rename_i hty
            intro _
            simp only [ne_eq, Decidable.not_not] at hty
            simp only [getType] at hty
            split at hty
            · simp at hty
            · split at hty
              · rename_i ty hl
                subst hty
                exact absurd hl (lookup_ne_number _)
              · split at hty
                · assumption
                · split at hty <;> simp at hty
        · simp

theorem Lex.number_value {s : List Char} {ts : List Token} (h : Lex s ts) :
    ∀ tok ∈ ts, tok.type = TokenType.Number → matchNumberRe tok.value.data = true := by
  induction h with
  | eof heof =>
    intro tok htok hty
    simp only [List.mem_singleton] at htok
    subst htok
    rw [heof] at hty
    simp at hty
  | token _ _ _ ih =>
    intro tok htok hty
    rcases List.mem_cons.1 htok with h1 | h1
    · subst h1
      exact nextToken_number_value _ hty
    · exact ih tok h1 hty

theorem Tokenizer.getType_eq_number {w : String} (h : getType w = TokenType.Number) :
    matchNumberRe w.data = true := by
  simp only [getType] at h
  split at h
  · simp at h
  · split at h
    · rename_i ty hl
      subst h
      exact absurd hl (lookup_ne_number _)
    · split at h
      · assumption
      · split at h <;> simp at h

theorem Tokenizer.take_readNumberLoop_true (s : List Char) :
    s.take (readNumberLoop s true 0) = s.takeWhile isdigit := by
  induction s with
  | nil => rfl
  | cons c r ih =>
    by_cases hc : isdigit c = true
    · simp only [readNumberLoop, hc, if_true, List.takeWhile_cons]
      rw [readNumberLoop_shift, Nat.add_comm, List.take_succ_cons, ih]
    · simp [readNumberLoop, hc, List.takeWhile_cons]

/-- The characters read by the loop of `readNumber` are the lexeme of the
specification. -/
theorem Tokenizer.take_readNumberLoop (s : List Char) :
    s.take (readNumberLoop s false 0) = numberLexeme s := by
  induction s with
  | nil => rfl
  | cons c r ih =>
    by_cases hc : isdigit c = true
    · simp only [readNumberLoop, hc, if_true]
      rw [readNumberLoop_shift, Nat.add_comm, List.take_succ_cons, ih]
      simp only [numberLexeme, List.takeWhile_cons, hc, if_true, List.dropWhile_cons]
      split <;> rfl
    · by_cases hd : c = '.'
      · subst hd
        simp only [readNumberLoop, hc, if_false, Bool.false_eq_true, decide_True, Bool.not_false,
          Bool.and_self, if_true]
        rw [readNumberLoop_shift, Nat.add_comm, List.take_succ_cons, take_readNumberLoop_true]
        simp [numberLexeme, List.takeWhile_cons, List.dropWhile_cons, hc]
      · simp only [readNumberLoop, hc, if_false, Bool.false_eq_true, hd, decide_False,
          Bool.false_and, List.take_zero]
        simp only [numberLexeme, List.takeWhile_cons, List.dropWhile_cons, hc, if_false,
          Bool.false_eq_true]
        split
        · rename_i rest heq
          simp only [List.cons.injEq] at heq
          exact absurd heq.1 hd
        · rfl

/-- At a digit `nextToken` reads the lexeme of the specification; the token is
a `Number` when `number_re` matches the lexeme and an `Error` otherwise. -/
theorem Tokenizer.nextToken_digit (c : Char) (r : List Char) (hc : isdigit c = true) :
    nextToken ⟨c :: r, 0⟩
      = (⟨if matchNumberRe (numberLexeme (c :: r)) then TokenType.Number else TokenType.Error,
            String.mk (numberLexeme (c :: r))⟩,
          ⟨c :: r, (numberLexeme (c :: r)).length⟩) := by
  have hsp := isdigit_not_space hc
  have hsi := isdigit_not_single hc
  have hal := isdigit_not_alpha hc
  have hle := readNumberLoop_le (c :: r) false
  have hsub : substr (c :: r) 0 (readNumberLoop (c :: r) false 0)
      = String.mk (numberLexeme (c :: r)) := by
    simp only [substr, List.drop_zero, Nat.sub_zero, take_readNumberLoop]
  have hlen : (numberLexeme (c :: r)).length = readNumberLoop (c :: r) false 0 := by
    rw [← take_readNumberLoop, List.length_take]
    omega
  have hhead : (numberLexeme (c :: r)).head? = some c := by
    simp only [numberLexeme, List.takeWhile_cons, hc, if_true, List.dropWhile_cons]
    split <;> rfl
  have hty : getType (String.mk (numberLexeme (c :: r)))
      = if matchNumberRe (numberLexeme (c :: r)) then TokenType.Number else TokenType.Error := by
    have hl : List.lookup (String.mk (numberLexeme (c :: r))) kTokenMap = none :=
      lookup_digit _ c hhead hc
    have hne : String.mk (numberLexeme (c :: r)) ≠ "#" := by
      intro h
      have := congrArg String.data h
      simp only at this
      rw [this] at hhead
      simp only [String.data, List.head?_cons, Option.some.injEq] at hhead
      rw [← hhead] at hc
      exact absurd hc (by decide)
    simp only [getType, hne, if_false, hl]
    by_cases hm : matchNumberRe (numberLexeme (c :: r)) = true
    · simp [hm]
    · have hid : matchIdRe (numberLexeme (c :: r)) = false := by
        cases hx : numberLexeme (c :: r) with
        | nil => rfl
        | cons d g =>
          rw [hx] at hhead
          simp only [List.head?_cons, Option.some.injEq] at hhead
          subst hhead
          simp [matchIdRe, hal]
      simp [hm, hid]
  simp only [nextToken, skipWhitespace, List.drop_zero, skipWhitespaceLoop, hsp,
    Bool.false_eq_true, if_false, List.getElem?_cons_zero, hsi, hal, hc, if_true, readNumber,
    hsub, hty, hlen]
  by_cases hm : matchNumberRe (numberLexeme (c :: r)) = true
  · simp [hm]
  · simp [hm]

theorem Tokenizer.nextToken_spaces {ws : List Char} (h : ∀ c ∈ ws, isspace c = true) :
    (nextToken ⟨ws, 0⟩).1.type = TokenType.EndOfFile := by
  have hk : ∀ (s : List Char), (∀ c ∈ s, isspace c = true) → skipWhitespaceLoop s 0 = s.length := by
    intro s
    induction s with
    | nil => intro _; rfl
    | cons c r ih =>
      intro hs
      simp only [skipWhitespaceLoop, hs c (List.mem_cons_self _ _), if_true]
      rw [skipWhitespaceLoop_shift, ih fun d hd => hs d (List.mem_cons_of_mem _ hd)]
      simp; omega
  simp [nextToken, skipWhitespace, hk ws h]

/-! ### Words -/

theorem Tokenizer.readWordLoop_all (w : List Char) (h : ∀ c ∈ w, isalpha c = true) :
    readWordLoop w 0 = w.length := by
  induction w with
  | nil => rfl
  | cons c r ih =>
    simp only [readWordLoop, h c (List.mem_cons_self _ _), if_true]
    rw [readWordLoop_shift, ih fun d hd => h d (List.mem_cons_of_mem _ hd)]
    simp; omega

/-- The keyword table on alphabetic words other than `lambda`: the unary
function names. -/
theorem Tokenizer.lookup_word (w : List Char) (h : ∀ c ∈ w, isalpha c = true)
    (hl : String.mk w ≠ "lambda") :
    List.lookup (String.mk w) kTokenMap
      = if String.mk w ∈ unaryNames then some TokenType.UnaryOperator else none := by
  split
  · rename_i hm
    rw [unaryNames_eq] at hm
    simp only [List.mem_cons, List.mem_singleton, List.not_mem_nil, or_false] at hm
    rcases hm with h1 | h1 | h1 | h1 | h1 | h1 | h1 | h1 | h1 | h1 | h1 | h1 | h1 <;>
      rw [h1] <;> decide
  · rename_i hm
    rw [List.lookup_eq_none_iff]
    intro p hp
    have key : (kTokenMap.all fun q =>
        decide (q.1 ∈ unaryNames) || decide (q.1 = "lambda") || !(q.1.data.all isalpha)) = true := by
      decide
    rw [List.all_eq_true] at key
    have := key p hp
    simp only [bne_iff_ne, ne_eq]
    intro he
    rw [← he] at this
    simp only [hm, decide_False, hl, Bool.or_self, Bool.false_or, Bool.not_eq_true',
      List.all_eq_false] at this
    obtain ⟨x, hx, hx1⟩ := this
    exact hx1 (h x hx)

/-- A word followed by a character that is not a letter is read as one
token, of the class of the word. -/
theorem Tokenizer.nextToken_word (w r : List Char) (hw : w ≠ [])
    (h : ∀ c ∈ w, isalpha c = true) (hr : ∀ c, r.head? = some c → isalpha c = false) :
    nextToken ⟨w ++ r, 0⟩ = (⟨wordClass (String.mk w), String.mk w⟩, ⟨w ++ r, w.length⟩) := by
  cases w with
  | nil => exact absurd rfl hw
  | cons c w1 =>
    have hc := h c (List.mem_cons_self _ _)
    have hsp := isalpha_not_space hc
    have hsi := isalpha_not_single hc
    have e : readWordLoop (c :: w1 ++ r) 0 = (c :: w1).length := by
      rw [readWordLoop_append _ _ hr, readWordLoop_all _ h]
    have hsub : substr (c :: (w1 ++ r)) 0 (c :: w1).length = String.mk (c :: w1) := by
      simp [substr, List.take_append_eq_append_take]
    simp only [List.cons_append] at e ⊢
    simp only [nextToken, skipWhitespace, List.drop_zero, skipWhitespaceLoop, hsp,
      Bool.false_eq_true, if_false, List.getElem?_cons_zero, hsi, hc, if_true,
      readIdentifierOrKeyword, e, hsub, wordClass]
    by_cases hl : String.mk (c :: w1) = "lambda"
    · simp [hl]
    · simp only [hl, if_false, lookup_word _ h hl]
      by_cases hu : String.mk (c :: w1) ∈ unaryNames
      · simp [hu]
      · simp only [hu, if_false]
        split <;> rfl

theorem Tokenizer.spaces_of_skipWhitespaceLoop (s : List Char)
    (h : skipWhitespaceLoop s 0 = s.length) : ∀ c ∈ s, isspace c = true := by
  induction s with
  | nil => simp
  | cons c r ih =>
    by_cases hc : isspace c = true
    · simp only [skipWhitespaceLoop, hc, if_true] at h
      rw [skipWhitespaceLoop_shift] at h
      intro d hd
      rcases List.mem_cons.1 hd with h1 | h1
      · subst h1; exact hc
      · exact ih (by simp at h; omega) d h1
    · simp [skipWhitespaceLoop, hc] at h

theorem Tokenizer.readWordLoop_le_of_last (l r : List Char) (hl : l ≠ [])
    (h : ∀ c, l.getLast? = some c → isalpha c = false) : readWordLoop (l ++ r) 0 ≤ l.length := by
  induction l with
  | nil => exact absurd rfl hl
  | cons a l1 ih =>
    by_cases ha : isalpha a = true
    · cases l1 with
      | nil =>
        have := h a (by simp)
        rw [ha] at this
        simp at this
      | cons b l2 =>
        have := ih (by simp) (fun c hc => h c (by simpa using hc))
        show readWordLoop (a :: ((b :: l2) ++ r)) 0 ≤ _
        rw [readWordLoop, if_pos ha, readWordLoop_shift]
        simp only [List.length_cons] at this ⊢
        omega
    · simp [readWordLoop, ha]

/-- When the input `s` has a token that is not white space, its last character
is not a letter, and `r` does not start with a digit or a dot, the first token
of `s ++ r` ends inside `s`. -/
theorem Tokenizer.nextToken_index_le_left (s r : List Char)
    (hlt : skipWhitespaceLoop s 0 < s.length)
    (hlast : ∀ c, s.getLast? = some c → isalpha c = false)
    (hr : ∀ c, r.head? = some c → isdigit c = false ∧ c ≠ '.') :
    (nextToken ⟨s ++ r, 0⟩).2.index_ ≤ s.length := by
  simp only [nextToken, skipWhitespace, List.drop_zero]
  rw [skipWhitespaceLoop_append_of_lt s r hlt]
  generalize skipWhitespaceLoop s 0 = k at *
  rw [List.getElem?_append_left hlt, List.getElem?_eq_getElem hlt]
  simp only
  have hdrop : (s ++ r).drop k = s.drop k ++ r := List.drop_append_of_le_length (by omega)
  split
  · simp only [readSingleCharToken]; omega
  · split
    · have e : (readIdentifierOrKeyword ⟨s ++ r, k⟩).2.index_ = readWordLoop ((s ++ r).drop k) k := by
        simp only [readIdentifierOrKeyword]
        split <;> [rfl; (split <;> [rfl; (split <;> rfl)])]
      rw [e, readWordLoop_shift, hdrop]
      have hne : s.drop k ≠ [] := by
        intro h0
        have := congrArg List.length h0
        simp at this
        omega
      have := readWordLoop_le_of_last (s.drop k) r hne (by
        intro c hc
        rw [List.getLast?_drop] at hc
        split at hc
        · simp at hc
        · exact hlast c hc)
      simp only [List.length_drop] at this
      omega
    · split
      · have e : (readNumber ⟨s ++ r, k⟩).2.index_ = readNumberLoop ((s ++ r).drop k) false k := by
          simp only [readNumber]
          split <;> rfl
        rw [e, readNumberLoop_shift, hdrop, readNumberLoop_append _ _ _ hr]
        have := readNumberLoop_le (s.drop k) false
        simp only [List.length_drop] at this
        omega
      · simp only; omega

theorem Tokenizer.isalpha_not_digit {c : Char} (h : isalpha c = true) :
    isdigit c = false ∧ c ≠ '.' := by
  constructor
  · by_contra hd
    rw [Bool.not_eq_false] at hd
    rw [isdigit_not_alpha hd] at h
    simp at h
  · intro hc
    subst hc
    exact absurd h (by decide)

/-- In a successful scan, a maximal run of letters of the input is one token,
of the class of the word. -/
theorem Lex.word {s : List Char} {ts : List Token} (h : Lex s ts) :
    ∀ (pre w post : List Char), s = pre ++ w ++ post → w ≠ [] →
      (∀ c ∈ w, isalpha c = true) → (∀ c, pre.getLast? = some c → isalpha c = false) →
      (∀ c, post.head? = some c → isalpha c = false) →
      (⟨wordClass (String.mk w), String.mk w⟩ : Token) ∈ ts := by
  induction h with
  | @eof s heof =>
    intro pre w post hs hw hall _ _
    exfalso
    have hsp := spaces_of_skipWhitespaceLoop s (nextToken_eof s heof)
    obtain ⟨c, hc⟩ := List.exists_mem_of_ne_nil w hw
    have := hsp c (by rw [hs]; simp [hc])
    rw [isalpha_not_space (hall c hc)] at this
    simp at this
  | @token s ts hne herr hl ih =>
    intro pre w post hs hw hall hpre hpost
    by_cases hsp : ∀ c ∈ pre, isspace c = true
    · have e : (nextToken ⟨s, 0⟩).1 = ⟨wordClass (String.mk w), String.mk w⟩ := by
        rw [hs, List.append_assoc, nextToken_blank pre (w ++ post) (nextToken_spaces hsp),
          nextToken_word w post hw hall hpost]
      rw [e]
      exact List.mem_cons_self _ _
    · have hlt : skipWhitespaceLoop pre 0 < pre.length := by
        by_contra hc
        have hle := skipWhitespaceLoop_le pre
        exact hsp (spaces_of_skipWhitespaceLoop pre (by omega))
      have hhead : ∀ c, (w ++ post).head? = some c → isdigit c = false ∧ c ≠ '.' := by
        intro c hc
        cases w with
        | nil => exact absurd rfl hw
        | cons d w1 =>
          simp only [List.cons_append, List.head?_cons, Option.some.injEq] at hc
          subst hc
          exact isalpha_not_digit (hall _ (List.mem_cons_self _ _))
      have hk : (nextToken ⟨s, 0⟩).2.index_ ≤ pre.length := by
        rw [hs, List.append_assoc]
        exact nextToken_index_le_left pre (w ++ post) hlt hpre hhead
      refine List.mem_cons_of_mem _
        (ih (pre.drop (nextToken ⟨s, 0⟩).2.index_) w post ?_ hw hall ?_ hpost)
      · have hdrop : ∀ k, k ≤ pre.length → s.drop k = pre.drop k ++ w ++ post := by
          intro k hk1
          rw [hs, List.append_assoc, List.drop_append_of_le_length hk1, List.append_assoc]
        exact hdrop _ hk
      · intro c hc
        rw [List.getLast?_drop] at hc
        split at hc
        · simp at hc
        · exact hpre c hc

/-! ### Parent links -/

namespace Heap

theorem cell_allocate (h : Heap) (n : HeapNode) (b : Nat) :
    (h.allocate n).2.cell b = if b = h.size then some n else h.cell b := rfl

theorem size_allocate (h : Heap) (n : HeapNode) : (h.allocate n).2.size = h.size + 1 := rfl

theorem cell_assignParent (h : Heap) (a : Nat) (p : Option Nat) (b : Nat) :
    (h.assignParent a p).cell b
      = if b = a then (h.cell b).map fun n => { n with parent := p } else h.cell b := rfl

theorem size_SetParent (h : Heap) (node p : Option Nat) : (h.SetParent node p).size = h.size := by
  cases node <;> rfl

theorem cell_SetParent (h : Heap) (node p : Option Nat) (b : Nat) :
    (h.SetParent node p).cell b
      = if node = some b then (h.cell b).map fun n => { n with parent := p } else h.cell b := by
  cases node with
  | none => simp [SetParent]
  | some a =>
    simp only [SetParent, cell_assignParent, Option.some.injEq]
    by_cases hb : b = a
    · subst hb; simp
    · have : ¬ a = b := fun h => hb h.symm
      simp [hb, this]

theorem createLeaf_eq (h : Heap) (token : Token) :
    h.createLeaf token = h.createNode token none none := rfl

theorem Extends.refl (h : Heap) : Extends h h :=
  fun _ n hn => ⟨n, hn, rfl, rfl, rfl⟩

theorem Extends.trans {h1 h2 h3 : Heap} (a : Extends h1 h2) (b : Extends h2 h3) :
    Extends h1 h3 := by
  intro c n hn
  obtain ⟨n1, h1n, t1, l1, r1⟩ := a c n hn
  obtain ⟨n2, h2n, t2, l2, r2⟩ := b c n1 h1n
  exact ⟨n2, h2n, t2.trans t1, l2.trans l1, r2.trans r1⟩

theorem Extends.SetParent (h : Heap) (node p : Option Nat) : Extends h (h.SetParent node p) := by
  intro b n hn
  rw [cell_SetParent]
  split
  · exact ⟨{ n with parent := p }, by rw [hn]; rfl, rfl, rfl, rfl⟩
  · exact ⟨n, hn, rfl, rfl, rfl⟩

theorem Extends.allocate (h : Heap) (hw : WF h) (n : HeapNode) : Extends h (h.allocate n).2 := by
  intro b m hm
  rw [cell_allocate]
  split
  · rename_i hb
    subst hb
    rw [hw _ (Nat.le_refl _)] at hm
    simp at hm
  · exact ⟨m, hm, rfl, rfl, rfl⟩

theorem Represents.mono {h h1 : Heap} (e : Extends h h1) :
    ∀ (t : NodePtr) (ptr : Option Nat), Represents h ptr t → Represents h1 ptr t := by
  intro t
  induction t with
  | null =>
    intro ptr hr
    cases ptr with
    | none => trivial
    | some a => simp [Represents] at hr
  | node token left right ihl ihr =>
    intro ptr hr
    cases ptr with
    | none => simp [Represents] at hr
    | some a =>
      simp only [Represents] at hr ⊢
      obtain ⟨n, hn, ht, hl, hr1⟩ := hr
      obtain ⟨n1, hn1, t1, l1, r1⟩ := e a n hn
      exact ⟨n1, hn1, t1.trans ht, by rw [l1]; exact ihl _ hl, by rw [r1]; exact ihr _ hr1⟩

end Heap

namespace Heap

theorem leftOf_createNode (h : Heap) (token : Token) (lp rp : Option Nat) (q : Nat) :
    (h.createNode token lp rp).2.leftOf q = if q = h.size then lp else h.leftOf q := by
  simp only [createNode, leftOf, cell_SetParent, cell_allocate]
  by_cases hq : q = h.size
  · subst hq
    split <;> split <;> simp
  · simp only [hq, if_false]
    split <;> split <;> cases h.cell q <;> simp

theorem rightOf_createNode (h : Heap) (token : Token) (lp rp : Option Nat) (q : Nat) :
    (h.createNode token lp rp).2.rightOf q = if q = h.size then rp else h.rightOf q := by
  simp only [createNode, rightOf, cell_SetParent, cell_allocate]
  by_cases hq : q = h.size
  · subst hq
    split <;> split <;> simp
  · simp only [hq, if_false]
    split <;> split <;> cases h.cell q <;> simp

theorem isChildOf_createNode (h : Heap) (token : Token) (lp rp : Option Nat) (c q : Nat) :
    (h.createNode token lp rp).2.isChildOf c q
      ↔ if q = h.size then lp = some c ∨ rp = some c else h.isChildOf c q := by
  simp only [isChildOf, leftOf_createNode, rightOf_createNode]
  split <;> rfl

theorem parentOf_createNode (h : Heap) (token : Token) (lp rp : Option Nat) (b : Nat)
    (hl : lp ≠ some h.size) (hr : rp ≠ some h.size) :
    (h.createNode token lp rp).2.parentOf b
      = if b = h.size then none
        else if lp = some b ∨ rp = some b then (h.cell b).map fun _ => h.size
        else h.parentOf b := by
  simp only [createNode, parentOf, cell_SetParent, cell_allocate]
  by_cases hb : b = h.size
  · subst hb
    simp [hl, hr]
  · simp only [hb, if_false]
    by_cases h1 : lp = some b
    · simp only [h1, true_or, if_true]
      split <;> cases h.cell b <;> simp [allocate]
    · simp only [h1, if_false, false_or]
      by_cases h2 : rp = some b
      · simp only [h2, if_true]
        cases h.cell b <;> simp [allocate]
      · simp [h2]

theorem cell_createNode_old (h : Heap) (token : Token) (lp rp : Option Nat) (b : Nat)
    (hb : b ≠ h.size) (hl : lp ≠ some b) (hr : rp ≠ some b) :
    (h.createNode token lp rp).2.cell b = h.cell b := by
  simp [createNode, cell_SetParent, cell_allocate, hb, hl, hr]

theorem cell_createNode_new (h : Heap) (token : Token) (lp rp : Option Nat)
    (hl : lp ≠ some h.size) (hr : rp ≠ some h.size) :
    (h.createNode token lp rp).2.cell h.size = some ⟨token, lp, rp, none⟩ := by
  simp [createNode, cell_SetParent, cell_allocate, hl, hr]

theorem size_createNode (h : Heap) (token : Token) (lp rp : Option Nat) :
    (h.createNode token lp rp).2.size = h.size + 1 := by
  simp [createNode, size_SetParent, size_allocate]

theorem fst_createNode (h : Heap) (token : Token) (lp rp : Option Nat) :
    (h.createNode token lp rp).1 = h.size := rfl

theorem wf_createNode (h : Heap) (hw : WF h) (token : Token) (lp rp : Option Nat) :
    WF (h.createNode token lp rp).2 := by
  intro b hb
  rw [size_createNode] at hb
  have h1 : h.cell b = none := hw b (by omega)
  have h2 : b ≠ h.size := by omega
  simp only [createNode, cell_SetParent, cell_allocate, h2, if_false, h1]
  split <;> split <;> rfl

theorem extends_createNode (h : Heap) (hw : WF h) (token : Token) (lp rp : Option Nat) :
    Extends h (h.createNode token lp rp).2 :=
  ((Extends.allocate h hw _).trans (Extends.SetParent _ _ _)).trans (Extends.SetParent _ _ _)

theorem isChildOf_of_cell_eq {h h1 : Heap} {q : Nat} (e : h1.cell q = h.cell q) (c : Nat) :
    h1.isChildOf c q ↔ h.isChildOf c q := by
  simp only [isChildOf, leftOf, rightOf, e]

theorem parentOf_of_cell_eq {h h1 : Heap} {b : Nat} (e : h1.cell b = h.cell b) :
    h1.parentOf b = h.parentOf b := by
  simp only [parentOf, e]

theorem not_isChildOf_of_wf {h : Heap} (hw : WF h) {c q : Nat} (hq : h.size ≤ q) :
    ¬ h.isChildOf c q := by
  simp [isChildOf, leftOf, rightOf, hw q hq]

theorem Built.extends {h0 h1 : Heap} {ptr : Option Nat} {t : NodePtr} (b : Built h0 h1 ptr t)
    (hw : WF h0) : Extends h0 h1 := by
  intro c n hn
  have hc : c < h0.size := by
    by_contra hc
    rw [hw c (by omega)] at hn
    simp at hn
  exact ⟨n, by rw [b.old c hc, hn], rfl, rfl, rfl⟩

end Heap

namespace Heap

theorem Represents.cell {h : Heap} {a : Nat} {t : NodePtr} (hr : Represents h (some a) t) :
    ∃ n, h.cell a = some n := by
  cases t with
  | null => simp [Represents] at hr
  | node token left right =>
    simp only [Represents] at hr
    obtain ⟨n, hn, -⟩ := hr
    exact ⟨n, hn⟩

theorem lt_size_of_isChildOf {h : Heap} (hw : WF h) {c q : Nat} (hc : h.isChildOf c q) :
    q < h.size := by
  by_contra hq
  exact not_isChildOf_of_wf hw (by omega) hc

/-- The pointer returned for a subtree: a new object without parent that is
not a child of a new object. -/
theorem Built.pointer {h0 h1 : Heap} {ptr : Option Nat} {t : NodePtr} (b : Built h0 h1 ptr t)
    {c : Nat} (hc : ptr = some c) :
    h0.size ≤ c ∧ c < h1.size ∧ (∃ n, h1.cell c = some n)
      ∧ ∀ q, h0.size ≤ q → ¬ h1.isChildOf c q := by
  have hn : t ≠ NodePtr.null := by
    intro h
    rw [b.null h] at hc
    simp at hc
  obtain ⟨a, ha, h1a, h2a, -, h4a⟩ := b.root hn
  rw [hc] at ha
  simp only [Option.some.injEq] at ha
  subst ha
  have hr := b.represents
  rw [hc] at hr
  exact ⟨h1a, h2a, hr.cell, h4a⟩

theorem built_null (h0 : Heap) (hw : WF h0) : Built h0 h0 none NodePtr.null where
  size_le := le_refl _
  wf := hw
  old := fun _ _ => rfl
  null := fun _ => rfl
  root := fun h => absurd rfl h
  represents := trivial
  children := fun q c hq hc => absurd hc (not_isChildOf_of_wf hw hq)
  parent := fun b h1 h2 _ => by omega

theorem built_node {h0 h1 h2 : Heap} {lp rp : Option Nat} {token : Token}
    {left right : NodePtr} (B1 : Built h0 h1 lp left) (B2 : Built h1 h2 rp right) :
    Built h0 (h2.createNode token lp rp).2 (some h2.size) (NodePtr.node token left right) := by
  have s1 := B1.size_le
  have s2 := B2.size_le
  have hlne : lp ≠ some h2.size := by
    intro h
    have := (B1.pointer h).2.1
    omega
  have hrne : rp ≠ some h2.size := by
    intro h
    have := (B2.pointer h).2.1
    omega
  have hchild : ∀ c q, q ≠ h2.size → h0.size ≤ q →
      (h2.createNode token lp rp).2.isChildOf c q →
      (q < h1.size ∧ h1.isChildOf c q ∧ h0.size ≤ c ∧ c < h1.size)
        ∨ (h1.size ≤ q ∧ h2.isChildOf c q ∧ h1.size ≤ c ∧ c < h2.size) := by
    intro c q hq hq0 hc
    rw [isChildOf_createNode, if_neg hq] at hc
    by_cases hq1 : q < h1.size
    · have hc1 := (isChildOf_of_cell_eq (B2.old q hq1) c).1 hc
      have := B1.children q c hq0 hc1
      exact Or.inl ⟨hq1, hc1, this.1, this.2⟩
    · have := B2.children q c (by omega) hc
      exact Or.inr ⟨by omega, hc, this.1, this.2⟩
  have hchild_old : ∀ c q, q ≠ h2.size → q < h1.size → h1.isChildOf c q →
      (h2.createNode token lp rp).2.isChildOf c q := by
    intro c q hq hq1 hc
    rw [isChildOf_createNode, if_neg hq]
    exact (isChildOf_of_cell_eq (B2.old q hq1) c).2 hc
  have hchild_new : ∀ c q, q ≠ h2.size → h2.isChildOf c q →
      (h2.createNode token lp rp).2.isChildOf c q := by
    intro c q hq hc
    rw [isChildOf_createNode, if_neg hq]
    exact hc
  refine
    { size_le := by rw [size_createNode]; omega
      wf := wf_createNode h2 B2.wf token lp rp
      old := ?_
      null := fun h => by cases h
      root := ?_
      represents := ?_
      children := ?_
      parent := ?_ }
  · intro b hb
    rw [cell_createNode_old h2 token lp rp b (by omega) ?_ ?_, B2.old b (by omega), B1.old b hb]
    · intro h
      have := (B1.pointer h).1
      omega
    · intro h
      have := (B2.pointer h).1
      omega
  · intro _
    refine ⟨h2.size, rfl, by omega, by rw [size_createNode]; omega, ?_, ?_⟩
    · rw [parentOf_createNode h2 token lp rp _ hlne hrne, if_pos rfl]
    · intro q hq hc
      by_cases hq2 : q = h2.size
      · rw [isChildOf_createNode, if_pos hq2] at hc
        rcases hc with hc | hc
        · exact hlne hc
        · exact hrne hc
      · rcases hchild _ q hq2 hq hc with ⟨-, -, -, h4⟩ | ⟨-, -, -, h4⟩ <;> omega
  · simp only [Represents]
    refine ⟨_, cell_createNode_new h2 token lp rp hlne hrne, rfl, ?_, ?_⟩
    · exact Represents.mono ((B2.extends B1.wf).trans (extends_createNode h2 B2.wf token lp rp))
        left lp B1.represents
    · exact Represents.mono (extends_createNode h2 B2.wf token lp rp) right rp B2.represents
  · intro q c hq hc
    rw [size_createNode]
    by_cases hq2 : q = h2.size
    · rw [isChildOf_createNode, if_pos hq2] at hc
      rcases hc with hc | hc
      · have := B1.pointer hc
        omega
      · have := B2.pointer hc
        omega
    · rcases hchild c q hq2 hq hc with ⟨-, -, h3, h4⟩ | ⟨-, -, h3, h4⟩ <;> omega
  · intro b hb0 hb3 hbne
    rw [size_createNode] at hb3
    have hb2 : b ≠ h2.size := fun h => hbne (by rw [h])
    by_cases hbl : lp = some b
    · obtain ⟨p1, p2, ⟨n, hn⟩, p4⟩ := B1.pointer hbl
      refine ⟨h2.size, by omega, ?_, ?_, ?_⟩
      · rw [parentOf_createNode h2 token lp rp _ hlne hrne, if_neg hb2, if_pos (Or.inl hbl),
          B2.old b p2, hn]
        rfl
      · rw [isChildOf_createNode, if_pos rfl]
        exact Or.inl hbl
      · intro q1 hq1 hc
        by_contra hne
        rcases hchild b q1 hne hq1 hc with ⟨-, h2c, -, -⟩ | ⟨-, -, h3, -⟩
        · exact p4 q1 hq1 h2c
        · omega
    · by_cases hbr : rp = some b
      · obtain ⟨p1, p2, ⟨n, hn⟩, p4⟩ := B2.pointer hbr
        refine ⟨h2.size, by omega, ?_, ?_, ?_⟩
        · rw [parentOf_createNode h2 token lp rp _ hlne hrne, if_neg hb2, if_pos (Or.inr hbr),
            hn]
          rfl
        · rw [isChildOf_createNode, if_pos rfl]
          exact Or.inr hbr
        · intro q1 hq1 hc
          by_contra hne
          rcases hchild b q1 hne hq1 hc with ⟨-, -, -, h4⟩ | ⟨h1q, h2c, -, -⟩
          · omega
          · exact p4 q1 h1q h2c
      · have hpar : (h2.createNode token lp rp).2.parentOf b = h2.parentOf b := by
          rw [parentOf_createNode h2 token lp rp _ hlne hrne, if_neg hb2,
            if_neg (by simp [hbl, hbr])]
        by_cases hb1 : b < h1.size
        · obtain ⟨q, hq0, hqp, hqc, hqu⟩ := B1.parent b hb0 hb1 hbl
          have hq1 : q < h1.size := lt_size_of_isChildOf B1.wf hqc
          refine ⟨q, hq0, ?_, hchild_old b q (by omega) hq1 hqc, ?_⟩
          · rw [hpar, parentOf_of_cell_eq (B2.old b hb1), hqp]
          · intro q1 hq10 hc
            by_cases hq2 : q1 = h2.size
            · rw [isChildOf_createNode, if_pos hq2] at hc
              rcases hc with hc | hc
              · exact absurd hc hbl
              · exact absurd hc hbr
            · rcases hchild b q1 hq2 hq10 hc with ⟨-, h2c, -, -⟩ | ⟨-, -, h3, -⟩
              · exact hqu q1 hq10 h2c
              · omega
        · obtain ⟨q, hq0, hqp, hqc, hqu⟩ := B2.parent b (by omega) (by omega) hbr
          have hq1 : q < h2.size := lt_size_of_isChildOf B2.wf hqc
          refine ⟨q, by omega, ?_, hchild_new b q (by omega) hqc, ?_⟩
          · rw [hpar, hqp]
          · intro q1 hq10 hc
            by_cases hq2 : q1 = h2.size
            · rw [isChildOf_createNode, if_pos hq2] at hc
              rcases hc with hc | hc
              · exact absurd hc hbl
              · exact absurd hc hbr
            · rcases hchild b q1 hq2 hq10 hc with ⟨-, -, -, h4⟩ | ⟨h1q, h2c, -, -⟩
              · omega
              · exact hqu q1 h1q h2c

end Heap

namespace Heap

theorem wf_empty : WF empty :=
  fun _ _ => rfl

theorem parentOf_setRoot (h : Heap) (a b : Nat) :
    (h.setRoot (some a)).parentOf b = if b = a then none else h.parentOf b := by
  simp only [setRoot, parentOf, cell_assignParent]
  split
  · cases h.cell b <;> rfl
  · rfl

theorem isChildOf_setRoot (h : Heap) (root : Option Nat) (c q : Nat) :
    (h.setRoot root).isChildOf c q ↔ h.isChildOf c q := by
  cases root with
  | none => rfl
  | some a =>
    simp only [setRoot, isChildOf, leftOf, rightOf, cell_assignParent]
    split <;> cases h.cell q <;> simp

end Heap

/-! ### Repeated subexpressions: the traversal order of the map -/

/-- The result of sorting does not depend on the order in which the map is
traversed: two arrangements of candidates with pairwise different canonical
strings have the same sorted sequence. -/
theorem SubexpressionFinder.sort_eq_of_perm {l1 l2 : List RepeatedSubexpression}
    (hp : l1.Perm l2) (hn : (l1.map RepeatedSubexpression.canonical).Nodup) :
    SubexpressionFinder.sort l1 = SubexpressionFinder.sort l2 := by
  have hn2 : (l2.map RepeatedSubexpression.canonical).Nodup :=
    (hp.map RepeatedSubexpression.canonical).nodup_iff.1 hn
  have s1 := strict_of_sorted (sort_sorted l1)
    (((sort_perm l1).map RepeatedSubexpression.canonical).nodup_iff.2 hn)
  have s2 := strict_of_sorted (sort_sorted l2)
    (((sort_perm l2).map RepeatedSubexpression.canonical).nodup_iff.2 hn2)
  haveI : IsAntisymm RepeatedSubexpression (fun a b => precedes a b = true) :=
    ⟨fun a b h1 h2 => by
      rw [precedes_iff] at h1 h2
      exact absurd h1 (lt_asymm h2)⟩
  exact List.eq_of_perm_of_sorted (((sort_perm l1).trans hp).trans (sort_perm l2).symm) s1 s2

/-! ### Closedness and the bound set -/

/-- A tree returned by `Parser::buildAST` is a node of the data model. -/
theorem Parser.buildAST_shape {p : Parser} {t : NodePtr} (h : p.buildAST = Outcome.ok t) :
    t ≠ NodePtr.null ∧ ShapeOK t = true := by
  rw [buildAST_eq_ok] at h
  obtain ⟨q, hr, -⟩ := h
  exact ⟨hr.basic.2.2.2.2 trivial, hr.shape rfl⟩

/-- The function `util::IsClosedSubtree` is monotone in the bound set. -/
theorem util.IsClosedSubtree_mono (t : NodePtr) :
    ∀ bound bound1 : List String, (∀ x ∈ bound, x ∈ bound1) →
      util.IsClosedSubtree t bound = true → util.IsClosedSubtree t bound1 = true := by
  induction t with
  | null => intro _ _ _ _; rfl
  | node token left right ihl ihr =>
    intro bound bound1 hsub hc
    cases ht : token.type with
    | Number => simp [util.IsClosedSubtree, ht]
    | ID =>
      simp only [util.IsClosedSubtree, ht, decide_eq_true_eq] at hc ⊢
      exact hsub _ hc
    | UnaryOperator =>
      simp only [util.IsClosedSubtree, ht] at hc ⊢
      exact ihl _ _ hsub hc
    | BinaryOperator =>
      simp only [util.IsClosedSubtree, ht, Bool.and_eq_true] at hc ⊢
      exact ⟨ihl _ _ hsub hc.1, ihr _ _ hsub hc.2⟩
    | Lambda =>
      simp only [util.IsClosedSubtree, ht] at hc ⊢
      cases left with
      | null => exact ihr _ _ hsub hc
      | node left_token ll lr =>
        by_cases hid : left_token.type = TokenType.ID
        · simp only [hid, if_true] at hc ⊢
          refine ihr _ _ ?_ hc
          intro x hx
          rcases List.mem_cons.1 hx with hx | hx
          · exact List.mem_cons.2 (Or.inl hx)
          · exact List.mem_cons.2 (Or.inr (hsub x hx))
        · simp only [hid, if_false] at hc ⊢
          exact ihr _ _ hsub hc
    | _ => simp [util.IsClosedSubtree, ht] at hc

/-- Adding the parameter of a `Lambda` node to the bound set does not change
whether the node is closed. -/
theorem util.IsClosedSubtree_lambdaBinding {n : NodePtr} (h : ShapeOK n = true)
    (bound : List String) :
    util.IsClosedSubtree n (lambdaBinding n bound) = util.IsClosedSubtree n bound := by
  cases n with
  | null => rfl
  | node token left right =>
    by_cases ht : token.type = TokenType.Lambda
    · rw [Bool.eq_iff_iff, util.IsClosedSubtree_iff _ _ h, util.IsClosedSubtree_iff _ _ h]
      simp only [lambdaBinding, ht, if_true, freeVariables, List.mem_filter, decide_eq_true_eq,
        List.mem_cons]
      constructor
      · intro hx x hm
        rcases hx x hm with e | e
        · exact absurd e hm.2
        · exact e
      · intro hx x hm
        exact Or.inr (hx x hm)
    · simp only [lambdaBinding, ht, if_false]

/-- A closed node of a well-formed tree lies at or below exactly one node of
the maximal closed ones. -/
theorem maximallyClosed_cover {root : NodePtr} :
    ∀ path : List Bool, root.nodeAt path ≠ NodePtr.null → closedInContext root path = true →
      ∃ s a, path = s ++ a ∧ (⟨a, root.nodeAt a⟩ : NodeRef) ∈ maximallyClosed root := by
  intro path
  induction path with
  | nil =>
    intro hn hc
    exact ⟨[], [], rfl, maximallyClosed_mem.2 ⟨⟨hn, rfl⟩, hc, Or.inl rfl⟩⟩
  | cons turn parent ih =>
    intro hn hc
    have hpn : root.nodeAt parent ≠ NodePtr.null := by
      intro e
      apply hn
      show (root.nodeAt parent).child turn = NodePtr.null
      rw [e]
      rfl
    rcases Bool.eq_false_or_eq_true (closedInContext root parent) with hp | hp
    · obtain ⟨s, a, e, hm⟩ := ih hpn hp
      exact ⟨turn :: s, a, by rw [e]; rfl, hm⟩
    · exact ⟨[], turn :: parent, rfl, maximallyClosed_mem.2 ⟨⟨hn, rfl⟩, hc, Or.inr hp⟩⟩

/-! ### Repeated subexpressions: the greedy rule -/

open SubexpressionFinder in
/-- A candidate is the record of its canonical form. -/
theorem SubexpressionFinder.eq_recordOf {root : NodePtr} {c : RepeatedSubexpression}
    (h : c ∈ sort (candidatesOf (dfs root [] []).2)) : c = recordOf root c.canonical := by
  obtain ⟨-, h2, h3, nd, h4, h5, h6⟩ := mem_sorted_candidates.1 h
  obtain ⟨cc, cn, ch, cnc, co⟩ := c
  simp only at h2 h3 h4 h5 h6
  subst h3
  simp only [recordOf, h4, h2, h5, h6]

open SubexpressionFinder in
/-- The record of a canonical form with two occurrences is a candidate. -/
theorem SubexpressionFinder.recordOf_mem {root : NodePtr} {k : String}
    (h : 2 ≤ (occurrencesOf root k).length) :
    recordOf root k ∈ sort (candidatesOf (dfs root [] []).2) := by
  rw [mem_sorted_candidates]
  refine ⟨h, rfl, rfl, ?_⟩
  show ∃ nd, (occurrencesOf root k).getLast? = some nd ∧ _
  cases hl : (occurrencesOf root k).getLast? with
  | none =>
    rw [List.getLast?_eq_none_iff] at hl
    rw [hl] at h
    simp at h
  | some nd =>
    refine ⟨nd, rfl, ?_, ?_⟩
    · simp only [recordOf, hl]
    · simp only [recordOf, hl]

open SubexpressionFinder in
/-- The last loop of `find` at one candidate: the reports are those accepted
before the candidate, then the candidate unless it is skipped, then reports that
come after it. -/
theorem SubexpressionFinder.find_split {root : NodePtr} (hn : root ≠ NodePtr.null)
    {front back : List RepeatedSubexpression} {c : RepeatedSubexpression}
    (hs : sort (candidatesOf (dfs root [] []).2) = front ++ c :: back) :
    ∃ (st : List (List Bool) × List RepeatedSubexpression) (l2 : List RepeatedSubexpression),
      Accepted st ∧ st.2.Sublist front ∧ l2.Sublist back
      ∧ find ⟨root⟩ = st.2
          ++ (if (c.occurrences.all fun occurrence => HasCoveredAncestor occurrence st.1) = true
              then [] else [c]) ++ l2 := by
  rw [find_eq hn, hs, List.foldl_append, List.foldl_cons]
  have hacc : Accepted (front.foldl accept ([], [])) :=
    foldl_accepted front ([], []) ⟨by simp, by intro front r back he; simp at he⟩
  obtain ⟨l1, h1, e1⟩ := foldl_accept front ([], [])
  obtain ⟨l2, h2, e2⟩ := foldl_accept back (accept (front.foldl accept ([], [])) c)
  refine ⟨front.foldl accept ([], []), l2, hacc, ?_, h2, ?_⟩
  · rw [e1]
    simpa using h1
  · rw [e2]
    congr 1
    simp only [accept]
    split
    · simp
    · rfl

open SubexpressionFinder in
/-- The greedy rule of `find` for one candidate. -/
theorem SubexpressionFinder.mem_find_iff {root : NodePtr} {c : RepeatedSubexpression}
    (hc : c ∈ sort (candidatesOf (dfs root [] []).2)) :
    c ∈ find ⟨root⟩ ↔ ¬ coveredByEarlier (find ⟨root⟩) c := by
  have hn : root ≠ NodePtr.null := by
    rintro rfl
    have : sort (candidatesOf (dfs NodePtr.null [] []).2) = [] := rfl
    rw [this] at hc
    simp at hc
  obtain ⟨front, back, hs⟩ := List.append_of_mem hc
  obtain ⟨st, l2, hacc, hf, hb, hfind⟩ := find_split hn hs
  have hsorted := sorted_candidates root
  rw [hs, List.pairwise_append] at hsorted
  obtain ⟨-, hpb, hfc⟩ := hsorted
  rw [List.pairwise_cons] at hpb
  have hirr : ∀ a : RepeatedSubexpression, precedes a a = true → False := by
    intro a ha
    rw [precedes_iff] at ha
    exact lt_irrefl _ ha
  have hasym : ∀ a b : RepeatedSubexpression, precedes a b = true → precedes b a = true →
      False := by
    intro a b ha hb
    rw [precedes_iff] at ha hb
    exact lt_asymm ha hb
  have hearlier : ∀ r, (r ∈ find ⟨root⟩ ∧ reportOrder r c) ↔ r ∈ st.2 := by
    intro r
    rw [← precedes_iff_reportOrder]
    constructor
    · rintro ⟨hr, hp⟩
      rw [hfind, List.mem_append, List.mem_append] at hr
      rcases hr with (hr | hr) | hr
      · exact hr
      · split at hr
        · simp at hr
        · rw [List.mem_singleton] at hr
          subst hr
          exact absurd hp (fun h => hirr _ h)
      · exact absurd hp (fun h => hasym _ _ h (hpb.1 r (hb.subset hr)))
    · intro hr
      refine ⟨?_, hfc r (hf.subset hr) c (List.mem_cons_self _ _)⟩
      rw [hfind, List.mem_append, List.mem_append]
      exact Or.inl (Or.inl hr)
  have hskip : (c.occurrences.all fun occurrence => HasCoveredAncestor occurrence st.1) = true
      ↔ coveredByEarlier (find ⟨root⟩) c := by
    rw [List.all_eq_true, coveredByEarlier]
    refine forall_congr' fun occ => forall_congr' fun _ => ?_
    rw [HasCoveredAncestor_iff]
    constructor
    · rintro ⟨s, a, ha, hp, hne⟩
      obtain ⟨r, hr, anc, hanc, he⟩ := (hacc.1 a).1 ha
      obtain ⟨hr1, hr2⟩ := (hearlier r).2 hr
      exact ⟨r, hr1, hr2, anc, hanc, s, hne, by rw [he]; exact hp⟩
    · rintro ⟨r, hr1, hr2, anc, hanc, s, hne, hp⟩
      exact ⟨s, anc.path, (hacc.1 _).2 ⟨r, (hearlier r).1 ⟨hr1, hr2⟩, anc, hanc, rfl⟩, hp, hne⟩
  rw [← hskip]
  constructor
  · intro hm
    rw [hfind, List.mem_append, List.mem_append] at hm
    rcases hm with (hm | hm) | hm
    · exact absurd (hfc c (hf.subset hm) c (List.mem_cons_self _ _)) (fun h => hirr _ h)
    · intro hsk
      rw [if_pos hsk] at hm
      simp at hm
    · exact absurd (hpb.1 c (hb.subset hm)) (fun h => hirr _ h)
  · intro hsk
    rw [hfind, if_neg hsk]
    simp

/-! ### A sign in front of a power; parentheses -/

/-- The tokens of a sign, an atom, `^` and an atom: the sign takes the first
atom as its operand, and the result is the base of the power. -/
theorem run_sign_power (s x y : String) (hs : s ∈ ["+", "-"]) :
    Run Level.expression
      ⟨[⟨TokenType.BinaryOperator, s⟩, atomToken x, ⟨TokenType.BinaryOperator, "^"⟩,
        atomToken y, ⟨TokenType.EndOfFile, "#"⟩], 0⟩
      (NodePtr.node ⟨TokenType.BinaryOperator, "^"⟩
        (NodePtr.node ⟨TokenType.BinaryOperator, s⟩ (AST.createLeaf ⟨TokenType.Number, "0"⟩)
          (AST.createLeaf (atomToken x)))
        (AST.createLeaf (atomToken y)))
      ⟨[⟨TokenType.BinaryOperator, s⟩, atomToken x, ⟨TokenType.BinaryOperator, "^"⟩,
        atomToken y, ⟨TokenType.EndOfFile, "#"⟩], 4⟩ := by
  have r0 : Run Level.unary
      ⟨[atomToken x, ⟨TokenType.BinaryOperator, "^"⟩, atomToken y, ⟨TokenType.EndOfFile, "#"⟩], 0⟩
      (AST.createLeaf (atomToken x))
      ⟨[atomToken x, ⟨TokenType.BinaryOperator, "^"⟩, atomToken y, ⟨TokenType.EndOfFile, "#"⟩],
        1⟩ :=
    Run.atomUnary (p := ⟨_, 0⟩) rfl
  have r1 := run_sign s _ _ _ hs r0
  refine Run.expression (Run.addition (q := ⟨_, 4⟩)
    (Run.multiplication (q := ⟨_, 4⟩)
      (Run.exponentiationPower (q := ⟨_, 1 + 1⟩) r1 ?_
        (Run.atomExponentiation (p := ⟨_, 3⟩) (x := y) rfl ?_) ?_ ?_)
      (Run.multiplicationExit ?_))
    (Run.additionExit ?_))
  · simp [isOp, check_eq, peek]
  · simp [isOp, check_eq, peek, next]
  · simp
  · simp [AST.createLeaf]
  · simp [isOp, check_eq, peek]
  · simp [isOp, check_eq, peek]

/-- The tokens of `(e)`. -/
theorem lex_parenthesized (e : String) (ts : List Token) (h : Lex e.data ts) :
    Lex ("(" ++ e ++ ")").data
      (⟨TokenType.OpenScope, "("⟩ ::
        (ts.dropLast ++ [⟨TokenType.CloseScope, ")"⟩, ⟨TokenType.EndOfFile, "#"⟩])) := by
  have e1 : ("(" ++ e ++ ")").data = '(' :: (e.data ++ [')']) := by
    simp [String.data_append]
  rw [e1]
  exact Lex.single (c := '(') rfl
    (Lex.append h (isSeparator_close _) (Lex.single (c := ')') rfl Lex.nil))

/-! ### The text of the tokens -/

theorem concatTexts_data (ts : List Token) :
    (concatTexts ts).data = (ts.map fun token => token.value.data).flatten := by
  have key : ∀ (l : List Token) (acc : String),
      (l.foldl (fun text token => text ++ token.value) acc).data
        = acc.data ++ (l.map fun token => token.value.data).flatten := by
    intro l
    induction l with
    | nil => intro acc; simp
    | cons tok l ih =>
      intro acc
      rw [List.foldl_cons, ih, String.data_append]
      simp
  simpa [concatTexts] using key ts ""

theorem Tokenizer.readWordLoop_take (s : List Char) :
    ∀ c ∈ s.take (readWordLoop s 0), isalpha c = true := by
  induction s with
  | nil => simp [readWordLoop]
  | cons a r ih =>
    by_cases ha : isalpha a = true
    · simp only [readWordLoop, ha, if_true]
      rw [readWordLoop_shift, Nat.add_comm, List.take_succ_cons]
      intro c hc
      rcases List.mem_cons.1 hc with h | h
      · rw [h]; exact ha
      · exact ih c h
    · simp [readWordLoop, ha]

theorem Tokenizer.readNumberLoop_take (s : List Char) :
    ∀ (d : Bool), ∀ c ∈ s.take (readNumberLoop s d 0), isdigit c = true ∨ c = '.' := by
  induction s with
  | nil => simp [readNumberLoop]
  | cons a r ih =>
    intro d
    by_cases ha : isdigit a = true
    · simp only [readNumberLoop, ha, if_true]
      rw [readNumberLoop_shift, Nat.add_comm, List.take_succ_cons]
      intro c hc
      rcases List.mem_cons.1 hc with h | h
      · rw [h]; exact Or.inl ha
      · exact ih d c h
    · by_cases hd : (a = '.' && !d) = true
      · rw [readNumberLoop, if_neg ha, if_pos hd]
        rw [readNumberLoop_shift, Nat.add_comm, List.take_succ_cons]
        intro c hc
        rcases List.mem_cons.1 hc with h | h
        · rw [h]
          simp only [Bool.and_eq_true, decide_eq_true_eq] at hd
          exact Or.inr hd.1
        · exact ih true c h
      · rw [readNumberLoop, if_neg ha, if_neg hd]
        simp

/-- The text of a token is what `nextToken` reads, without the white space in
front of it. -/
theorem Tokenizer.nextToken_text (s : List Char) :
    (nextToken ⟨s, 0⟩).1.type ≠ TokenType.EndOfFile →
      (s.take (nextToken ⟨s, 0⟩).2.index_).filter (fun c => !isspace c)
        = (nextToken ⟨s, 0⟩).1.value.data := by
  induction s with
  | nil =>
    intro h
    exact absurd (by simp [nextToken, skipWhitespace, skipWhitespaceLoop]) h
  | cons a r ih =>
    intro h
    by_cases ha : isspace a = true
    · have hb : (nextToken ⟨[a], 0⟩).1.type = TokenType.EndOfFile := by
        simp [nextToken, skipWhitespace, skipWhitespaceLoop, ha]
      have e := nextToken_blank [a] r hb
      simp only [List.singleton_append, List.length_singleton] at e
      rw [e] at h ⊢
      simp only at h ⊢
      rw [Nat.add_comm, List.take_succ_cons, List.filter_cons, ha]
      simpa using ih h
    · have hsk : skipWhitespaceLoop (a :: r) 0 = 0 := by
        simp [skipWhitespaceLoop, ha]
      simp only [nextToken, skipWhitespace, List.drop_zero, hsk, List.getElem?_cons_zero]
      have ha1 : (!isspace a) = true := by simpa using ha
      split
      · simp [readSingleCharToken, ha1]
      · split
        · have hall := readWordLoop_take (a :: r)
          have hval : (readIdentifierOrKeyword ⟨a :: r, 0⟩).1.value
              = String.mk ((a :: r).take (readWordLoop (a :: r) 0)) := by
            simp only [readIdentifierOrKeyword, substr, List.drop_zero, Nat.sub_zero]
            split
            · rfl
            · split
              · rfl
              · split <;> rfl
          have hidx : (readIdentifierOrKeyword ⟨a :: r, 0⟩).2.index_ = readWordLoop (a :: r) 0 := by
            simp only [readIdentifierOrKeyword, List.drop_zero]
            split
            · rfl
            · split
              · rfl
              · split <;> rfl
          rw [hval, hidx]
          simp only
          rw [List.filter_eq_self]
          intro c hc
          rw [isalpha_not_space (hall c hc)]
          rfl
        · split
          · have hall := readNumberLoop_take (a :: r) false
            have hval : (readNumber ⟨a :: r, 0⟩).1.value
                = String.mk ((a :: r).take (readNumberLoop (a :: r) false 0)) := by
              simp only [readNumber, substr, List.drop_zero, Nat.sub_zero]
              split <;> rfl
            have hidx : (readNumber ⟨a :: r, 0⟩).2.index_ = readNumberLoop (a :: r) false 0 := by
              simp only [readNumber, List.drop_zero]
              split <;> rfl
            rw [hval, hidx]
            simp only
            rw [List.filter_eq_self]
            intro c hc
            rcases hall c hc with h1 | h1
            · rw [isdigit_not_space h1]
              rfl
            · rw [h1]
              rfl
          · simp [ha1]

/-- The texts of the tokens of a scan, the end-of-file token apart, make up the
input without its white space. -/
theorem Lex.text {s : List Char} {ts : List Token} (h : Lex s ts) :
    (ts.dropLast.map fun token => token.value.data).flatten = s.filter fun c => !isspace c := by
  induction h with
  | @eof s heof =>
    have hsp := spaces_of_skipWhitespaceLoop s (nextToken_eof s heof)
    simp only [List.dropLast_single, List.map_nil, List.flatten_nil]
    symm
    rw [List.filter_eq_nil_iff]
    intro c hc
    simp [hsp c hc]
  | @token s ts hne herr hl ih =>
    have hts := hl.ne_nil
    rw [List.dropLast_cons_of_ne_nil hts, List.map_cons, List.flatten_cons, ih,
      ← nextToken_text s hne, ← List.filter_append, List.take_append_drop]

/-! ### The pushdown automaton -/

namespace PDA

/-- The rules that `SelectRule` returns: no rule holds the terminal
`EndOfFile`; a rule is empty, or starts with a nonterminal and weighs less than
the nonterminal it replaces, or starts with a terminal when a token is left. -/
theorem SelectRule_ok {pda : PDA} {nt : NonTerminal} {rule : List StackSymbol}
    (h : pda.SelectRule nt pda.GetCurrentToken = Outcome.ok rule) :
    NoEOF rule
    ∧ (rule = []
      ∨ ((∃ s rest, rule = StackSymbol.nonTerminal s :: rest)
          ∧ (rule.map weight).sum < weight (StackSymbol.nonTerminal nt))
      ∨ ((∃ ty rest, rule = StackSymbol.terminal ty :: rest)
          ∧ (rule.map weight).sum ≤ 7 ∧ pda.current_index_ < pda.tokens_.length)) := by
  have hlt : ∀ ty, pda.GetCurrentToken = ty → ty ≠ TokenType.EndOfFile →
      pda.current_index_ < pda.tokens_.length := by
    intro ty hty hne
    by_contra hc
    simp only [GetCurrentToken, hc, if_false] at hty
    exact hne hty.symm
  cases nt with
  | E =>
    simp only [SelectRule, grammar_, List.getD_cons_zero, Outcome.ok.injEq] at h
    subst h
    refine ⟨by simp [NoEOF], Or.inr (Or.inl ⟨⟨_, _, rfl⟩, by decide⟩)⟩
  | T =>
    simp only [SelectRule, grammar_, List.getD_cons_zero, Outcome.ok.injEq] at h
    subst h
    refine ⟨by simp [NoEOF], Or.inr (Or.inl ⟨⟨_, _, rfl⟩, by decide⟩)⟩
  | E_ =>
    simp only [SelectRule, grammar_] at h
    split at h
    · rename_i hc
      simp only [List.getD_cons_zero, Outcome.ok.injEq] at h
      subst h
      exact ⟨by simp [NoEOF], Or.inr (Or.inr ⟨⟨_, _, rfl⟩, by decide, hc.2.1⟩)⟩
    · simp only [List.getD_cons_succ, List.getD_cons_zero, Outcome.ok.injEq] at h
      subst h
      exact ⟨by simp [NoEOF], Or.inl rfl⟩
  | T_ =>
    simp only [SelectRule, grammar_] at h
    split at h
    · rename_i hc
      simp only [List.getD_cons_zero, Outcome.ok.injEq] at h
      subst h
      exact ⟨by simp [NoEOF], Or.inr (Or.inr ⟨⟨_, _, rfl⟩, by decide, hc.2.1⟩)⟩
    · simp only [List.getD_cons_succ, List.getD_cons_zero, Outcome.ok.injEq] at h
      subst h
      exact ⟨by simp [NoEOF], Or.inl rfl⟩
  | F =>
    simp only [SelectRule, grammar_] at h
    split at h
    · rename_i hc
      simp only [List.getD_cons_zero, Outcome.ok.injEq] at h
      subst h
      exact ⟨by simp [NoEOF],
        Or.inr (Or.inr ⟨⟨_, _, rfl⟩, by decide, hlt _ hc (by decide)⟩)⟩
    · split at h
      · rename_i hc
        simp only [List.getD_cons_succ, List.getD_cons_zero, Outcome.ok.injEq] at h
        subst h
        exact ⟨by simp [NoEOF],
          Or.inr (Or.inr ⟨⟨_, _, rfl⟩, by decide, hlt _ hc (by decide)⟩)⟩
      · split at h
        · rename_i hc
          simp only [List.getD_cons_succ, List.getD_cons_zero, Outcome.ok.injEq] at h
          subst h
          exact ⟨by simp [NoEOF],
            Or.inr (Or.inr ⟨⟨_, _, rfl⟩, by decide, hlt _ hc (by decide)⟩)⟩
        · split at h
          · rename_i hc
            split at h
            · exact absurd h (by simp)
            · simp only [List.getD_cons_succ, List.getD_cons_zero, Outcome.ok.injEq] at h
              subst h
              exact ⟨by simp [NoEOF],
                Or.inr (Or.inr ⟨⟨_, _, rfl⟩, by decide, hlt _ hc (by decide)⟩)⟩
          · split at h
            · rename_i hc
              simp only [List.getD_cons_succ, List.getD_cons_zero, Outcome.ok.injEq] at h
              subst h
              exact ⟨by simp [NoEOF],
                Or.inr (Or.inr ⟨⟨_, _, rfl⟩, by decide, hlt _ hc (by decide)⟩)⟩
            · split at h
              · split at h
                · exact absurd h (by simp)
                · simp only [Outcome.ok.injEq] at h
                  subst h
                  exact ⟨by simp [NoEOF], Or.inl rfl⟩
              · simp only [Outcome.ok.injEq] at h
                subst h
                exact ⟨by simp [NoEOF], Or.inl rfl⟩

theorem SelectRule_ne_outOfFuel (pda : PDA) (nt : NonTerminal) (lookahead : TokenType) :
    pda.SelectRule nt lookahead ≠ Outcome.outOfFuel := by
  cases nt <;> simp only [SelectRule] <;> (try split_ifs) <;> simp

/-- The loop of `PDA::Parse` ends within the fuel of the model. -/
theorem ParseLoop_ne_outOfFuel :
    ∀ (fuel : Nat) (pda : PDA), pda.potential < fuel → ParseLoop fuel pda ≠ Outcome.outOfFuel := by
  intro fuel
  induction fuel with
  | zero => intro pda h; exact absurd h (Nat.not_lt_zero _)
  | succ fuel ih =>
    intro pda hp
    obtain ⟨stack, tokens, idx⟩ := pda
    cases stack with
    | nil => simp [ParseLoop]
    | cons top rest =>
      cases top with
      | terminal expected =>
        simp only [ParseLoop, Match]
        split
        · simp [Outcome.bind]
        · rename_i hidx
          split
          · simp only [Outcome.bind, Bool.not_true, Bool.false_eq_true, if_false]
            apply ih
            simp only [potential, List.map_cons, List.sum_cons, weight] at hp ⊢
            have : (match rest with
                | StackSymbol.terminal _ :: _ => 7
                | _ => 0) ≥ 0 := Nat.zero_le _
            omega
          · simp [Outcome.bind]
      | nonTerminal nt =>
        simp only [ParseLoop]
        cases hsel : SelectRule ⟨rest, tokens, idx⟩ nt (GetCurrentToken ⟨rest, tokens, idx⟩) with
        | thrown e => simp [Outcome.bind]
        | outOfFuel => exact absurd hsel (SelectRule_ne_outOfFuel _ _ _)
        | ok rule =>
          obtain ⟨-, hrule⟩ := SelectRule_ok hsel
          simp only [Outcome.bind]
          have hw : 1 ≤ weight (StackSymbol.nonTerminal nt) := by cases nt <;> decide
          rcases hrule with hr | ⟨⟨s, rest1, hr⟩, hlt⟩ | ⟨⟨ty, rest1, hr⟩, hle, hidx⟩
          · subst hr
            simp only [List.isEmpty_nil, if_true]
            split
            · apply ih
              simp only [potential, List.map_cons, List.sum_cons] at hp ⊢
              omega
            · simp
          · subst hr
            simp only [List.isEmpty_cons, Bool.false_eq_true, if_false]
            apply ih
            simp only [potential, List.map_cons, List.sum_cons, List.cons_append, List.map_append,
              List.sum_append] at hp hlt ⊢
            omega
          · subst hr
            simp only [List.isEmpty_cons, Bool.false_eq_true, if_false]
            apply ih
            simp only at hidx
            simp only [potential, List.map_cons, List.sum_cons, List.cons_append, List.map_append,
              List.sum_append] at hp hle ⊢
            omega

/-- While the last token is `EndOfFile`, the loop of `PDA::Parse` does not
return from inside and does not read the last token. -/
theorem ParseLoop_inv :
    ∀ (fuel : Nat) (pda : PDA) (r : Option Bool × PDA), NoEOF pda.stack_ →
      pda.current_index_ + 1 ≤ pda.tokens_.length →
      (pda.tokens_.getD (pda.tokens_.length - 1) ⟨TokenType.EndOfFile, "#"⟩).type
        = TokenType.EndOfFile →
      ParseLoop fuel pda = Outcome.ok r →
      r.1 = none ∧ r.2.tokens_ = pda.tokens_ ∧ r.2.current_index_ + 1 ≤ pda.tokens_.length := by
  intro fuel
  induction fuel with
  | zero => intro pda r _ _ _ h; simp [ParseLoop] at h
  | succ fuel ih =>
    intro pda r hno hidx hlast h
    obtain ⟨stack, tokens, idx⟩ := pda
    simp only at hno hidx hlast
    cases stack with
    | nil =>
      simp only [ParseLoop, Outcome.ok.injEq] at h
      subst h
      exact ⟨rfl, rfl, hidx⟩
    | cons top rest =>
      have hno1 : NoEOF rest := fun s hs => hno s (List.mem_cons_of_mem _ hs)
      cases top with
      | terminal expected =>
        have hexp : expected ≠ TokenType.EndOfFile := by
          intro e
          exact hno (StackSymbol.terminal expected) (List.mem_cons_self _ _) (by rw [e])
        simp only [ParseLoop, Match] at h
        split at h
        · simp [Outcome.bind] at h
        · split at h
          · rename_i heq
            simp only [Outcome.bind, Bool.not_true, Bool.false_eq_true, if_false] at h
            have hne : idx ≠ tokens.length - 1 := by
              intro e
              simp only [tokenAt] at heq
              rw [e, hlast] at heq
              exact hexp heq
            have := ih _ r hno1 (by simp only; omega) hlast h
            exact ⟨this.1, this.2.1, this.2.2⟩
          · simp [Outcome.bind] at h
      | nonTerminal nt =>
        simp only [ParseLoop] at h
        cases hsel : SelectRule ⟨rest, tokens, idx⟩ nt (GetCurrentToken ⟨rest, tokens, idx⟩) with
        | thrown e => rw [hsel] at h; simp [Outcome.bind] at h
        | outOfFuel => rw [hsel] at h; simp [Outcome.bind] at h
        | ok rule =>
          rw [hsel] at h
          obtain ⟨hnr, -⟩ := SelectRule_ok hsel
          simp only [Outcome.bind] at h
          split at h
          · split at h
            · exact ih ⟨rest, tokens, idx⟩ r hno1 hidx hlast h
            · simp at h
          · refine ih ⟨rule ++ rest, tokens, idx⟩ r ?_ hidx hlast h
            intro s hs
            rcases List.mem_append.1 hs with h1 | h1
            · exact hnr s h1
            · exact hno1 s h1

/-- `PDA::Parse` ends within the fuel of the model. -/
theorem Parse_ne_outOfFuel (pda : PDA) : pda.Parse ≠ Outcome.outOfFuel := by
  simp only [Parse]
  split
  · simp
  · have := ParseLoop_ne_outOfFuel
      (fuelFor { pda with
        stack_ := StackSymbol.nonTerminal NonTerminal.E :: pda.stack_
        current_index_ := 0 })
      { pda with
        stack_ := StackSymbol.nonTerminal NonTerminal.E :: pda.stack_
        current_index_ := 0 }
      (by simp only [potential, fuelFor]; omega)
    cases hl : ParseLoop _ _ with
    | outOfFuel => exact absurd hl this
    | thrown e => simp [Outcome.bind]
    | ok r =>
      simp only [Outcome.bind]
      split
      · simp
      · split <;> simp

/-- On a token vector that ends with `EndOfFile`, `PDA::Parse` of a new
automaton throws. -/
theorem Parse_thrown (ts : List Token) (hne : ts ≠ [])
    (hlast : (ts.getD (ts.length - 1) ⟨TokenType.EndOfFile, "#"⟩).type = TokenType.EndOfFile) :
    ∃ e, (PDA.new ts).Parse = Outcome.thrown e := by
  have hlen := List.length_pos.2 hne
  have htot := Parse_ne_outOfFuel (PDA.new ts)
  cases hp : (PDA.new ts).Parse with
  | thrown e => exact ⟨e, rfl⟩
  | outOfFuel => exact absurd hp htot
  | ok v =>
    exfalso
    simp only [Parse, PDA.new, List.isEmpty_iff, hne, if_false] at hp
    cases hl : ParseLoop (fuelFor ⟨[StackSymbol.nonTerminal NonTerminal.E], ts, 0⟩)
        ⟨[StackSymbol.nonTerminal NonTerminal.E], ts, 0⟩ with
    | outOfFuel => rw [hl] at hp; simp [Outcome.bind] at hp
    | thrown e => rw [hl] at hp; simp [Outcome.bind] at hp
    | ok r =>
      rw [hl] at hp
      obtain ⟨h1, h2, h3⟩ := ParseLoop_inv _ _ r (by simp [NoEOF]) (by simp only; omega) hlast hl
      simp only at h2 h3
      simp only [Outcome.bind, h1, h2] at hp
      rw [if_pos (by omega)] at hp
      simp at hp

end PDA

/-! ### The texts of the tokens of a tree -/

/-- The token that `nextToken` reads has a text of its kind. -/
theorem Tokenizer.nextToken_tokenOK (s : List Char) : tokenOK (nextToken ⟨s, 0⟩).1 = true := by
  induction s with
  | nil => simp [nextToken, skipWhitespace, skipWhitespaceLoop, tokenOK]
  | cons a r ih =>
    by_cases ha : isspace a = true
    · have hb : (nextToken ⟨[a], 0⟩).1.type = TokenType.EndOfFile := by
        simp [nextToken, skipWhitespace, skipWhitespaceLoop, ha]
      have e := nextToken_blank [a] r hb
      simp only [List.singleton_append, List.length_singleton] at e
      rw [e]
      exact ih
    · have hsk : skipWhitespaceLoop (a :: r) 0 = 0 := by
        simp [skipWhitespaceLoop, ha]
      simp only [nextToken, skipWhitespace, List.drop_zero, hsk, List.getElem?_cons_zero]
      split
      · rename_i hs
        simp only [isSingleCharToken, Bool.or_eq_true, decide_eq_true_eq] at hs
        rcases hs with ((((((h | h) | h) | h) | h) | h) | h) | h <;> subst h <;>
          simp only [readSingleCharToken] <;> decide
      · split
        · rename_i hal
          have hall := readWordLoop_take (a :: r)
          have hpos := readWordLoop_pos r hal
          generalize hw : (a :: r).take (readWordLoop (a :: r) 0) = w at hall
          have hwne : w ≠ [] := by
            rw [← hw]
            intro h0
            have := congrArg List.length h0
            simp only [List.length_take, List.length_cons, List.length_nil] at this
            omega
          have hsub : substr (a :: r) 0 (readWordLoop (a :: r) 0) = String.mk w := by
            simp only [substr, List.drop_zero, Nat.sub_zero, hw]
          simp only [readIdentifierOrKeyword, List.drop_zero, hsub]
          split
          · rename_i hl
            simp [tokenOK, hl]
          · rename_i hl
            rw [lookup_word w hall hl]
            by_cases hm : String.mk w ∈ unaryNames
            · rw [if_pos hm]
              simp only [tokenOK, List.isEmpty_eq_true, hwne, Bool.not_false, Bool.true_and,
                Bool.and_eq_true, List.all_eq_true, decide_eq_true_eq, ne_eq, hl,
                not_false_eq_true, and_true]
              exact ⟨by simp [hwne], hall⟩
            · rw [if_neg hm]
              simp only
              split
              · rename_i hlen
                simp only [String.length] at hlen
                match w, hlen, hall with
                | [c], _, hall =>
                  simp only [tokenOK]
                  exact hall c (List.mem_singleton.2 rfl)
              · simp [tokenOK]
        · split
          · rename_i hd
            have hall := readNumberLoop_take (a :: r) false
            have hpos := readNumberLoop_pos r false hd
            generalize hw : (a :: r).take (readNumberLoop (a :: r) false 0) = w at hall
            have hwne : w ≠ [] := by
              rw [← hw]
              intro h0
              have := congrArg List.length h0
              simp only [List.length_take, List.length_cons, List.length_nil] at this
              omega
            have hsub : substr (a :: r) 0 (readNumberLoop (a :: r) false 0) = String.mk w := by
              simp only [substr, List.drop_zero, Nat.sub_zero, hw]
            simp only [readNumber, List.drop_zero, hsub]
            split
            · simp [tokenOK]
            · simp only [tokenOK, Bool.and_eq_true, List.all_eq_true, Bool.or_eq_true,
                decide_eq_true_eq]
              exact ⟨by simp [hwne], hall⟩
          · simp [tokenOK]

/-- Every token of a scan has a text of its kind. -/
theorem Lex.tokenOK {s : List Char} {ts : List Token} (h : Lex s ts) :
    ∀ tok ∈ ts, tokenOK tok = true := by
  induction h with
  | @eof s _ =>
    intro tok htok
    rw [List.mem_singleton] at htok
    rw [htok]
    exact nextToken_tokenOK s
  | @token s ts _ _ _ ih =>
    intro tok htok
    rcases List.mem_cons.1 htok with h1 | h1
    · rw [h1]
      exact nextToken_tokenOK s
    · exact ih tok h1

theorem Parser.peek_tokenOK {p : Parser} (h : ∀ tok ∈ p.tokens_, tokenOK tok = true) :
    tokenOK p.peek = true := by
  unfold peek
  split
  · rename_i hlt
    rw [List.getD_eq_getElem _ _ hlt]
    exact h _ (List.getElem_mem _)
  · rfl

/-- The tokens of the tree of a run are tokens of the vector, or the
synthesized zero. -/
theorem Run.tokensOK {l : Level} {p q : Parser} {t : NodePtr} (h : Run l p t q) :
    (∀ tok ∈ p.tokens_, tokenOK tok = true) → TokensOK l.entry = true → TokensOK t = true := by
  induction h with
  | expression _ ih => exact fun hp _ => ih hp rfl
  | @addition p q q1 node t h1 _ ih1 ih2 =>
    intro hp _
    exact ih2 (by rw [h1.basic.1]; exact hp) (ih1 hp rfl)
  | additionExit _ => exact fun _ h => h
  | @additionStep p q q1 node right t _ h1 _ _ _ ih1 ih2 =>
    intro hp he
    refine ih2 (by rw [h1.basic.1]; exact hp) ?_
    simp only [Level.entry, TokensOK, Bool.and_eq_true] at he ⊢
    exact ⟨⟨peek_tokenOK hp, he⟩, ih1 hp rfl⟩
  | @multiplication p q q1 node t h1 _ ih1 ih2 =>
    intro hp _
    exact ih2 (by rw [h1.basic.1]; exact hp) (ih1 hp rfl)
  | multiplicationExit _ => exact fun _ h => h
  | @multiplicationStep p q q1 node right t _ h1 _ _ _ ih1 ih2 =>
    intro hp he
    refine ih2 (by rw [h1.basic.1]; exact hp) ?_
    simp only [Level.entry, TokensOK, Bool.and_eq_true] at he ⊢
    exact ⟨⟨peek_tokenOK hp, he⟩, ih1 hp rfl⟩
  | exponentiationSingle _ _ ih => exact ih
  | @exponentiationPower p q q1 node right h1 _ _ _ _ ih1 ih2 =>
    intro hp _
    have hq : ∀ tok ∈ q.tokens_, tokenOK tok = true := by rw [h1.basic.1]; exact hp
    simp only [TokensOK, Bool.and_eq_true]
    exact ⟨⟨peek_tokenOK hq, ih1 hp rfl⟩, ih2 hq rfl⟩
  | unaryCall _ _ _ _ _ ih =>
    intro hp _
    simp only [TokensOK, Bool.and_eq_true, and_true]
    exact ⟨peek_tokenOK hp, ih hp rfl⟩
  | unarySign _ _ _ _ ih =>
    intro hp _
    simp only [TokensOK, Bool.and_eq_true]
    exact ⟨⟨peek_tokenOK hp, by decide⟩, ih hp rfl⟩
  | @unaryLambda p q body _ _ _ _ _ _ ih =>
    intro hp _
    simp only [TokensOK, AST.createLeaf, Bool.and_eq_true, and_true]
    exact ⟨⟨peek_tokenOK hp, peek_tokenOK (p := p.next) hp⟩, ih hp rfl⟩
  | unaryPrimary _ _ _ _ ih => exact ih
  | primaryNumber _ =>
    intro hp _
    simp only [TokensOK, AST.createLeaf, Bool.and_eq_true, and_true]
    exact peek_tokenOK hp
  | primaryID _ _ =>
    intro hp _
    simp only [TokensOK, AST.createLeaf, Bool.and_eq_true, and_true]
    exact peek_tokenOK hp
  | primaryParen _ _ _ _ _ ih => exact fun hp _ => ih hp rfl

/-- The tree of a source is a tree of the data model whose tokens have the
texts of the lexer. -/
theorem parse_valid {input : String} {t : NodePtr} (h : parse input = Outcome.ok t) :
    t ≠ NodePtr.null ∧ ShapeOK t = true ∧ TokensOK t = true := by
  rw [parse_eq_ok] at h
  obtain ⟨ts, q, hl, hr, -⟩ := h
  exact ⟨hr.basic.2.2.2.2 trivial, hr.shape rfl, hr.tokensOK hl.tokenOK rfl⟩

theorem TokensOK_child {n : NodePtr} (h : TokensOK n = true) (turn : Bool) :
    TokensOK (n.child turn) = true := by
  cases n with
  | null => rfl
  | node token left right =>
    simp only [TokensOK, Bool.and_eq_true] at h
    cases turn
    · exact h.1.2
    · exact h.2

theorem TokensOK_nodeAt {root : NodePtr} (h : TokensOK root = true) (path : List Bool) :
    TokensOK (root.nodeAt path) = true := by
  induction path with
  | nil => exact h
  | cons turn path ih => exact TokensOK_child ih turn

/-! ### Trees with the same canonical form -/

theorem sameUpToSwap_height (t1 : NodePtr) :
    ∀ t2 : NodePtr, sameUpToSwap t1 t2 = true →
      util.Height t1 = util.Height t2 ∧ util.NodeCount t1 = util.NodeCount t2 := by
  induction t1 with
  | null =>
    intro t2 h
    cases t2 with
    | null => exact ⟨rfl, rfl⟩
    | node _ _ _ => simp [sameUpToSwap] at h
  | node tok1 l1 r1 ihl ihr =>
    intro t2 h
    cases t2 with
    | null => simp [sameUpToSwap] at h
    | node tok2 l2 r2 =>
      simp only [sameUpToSwap, Bool.and_eq_true, Bool.or_eq_true, decide_eq_true_eq] at h
      obtain ⟨-, h⟩ := h
      simp only [util.Height, util.NodeCount]
      rcases h with ⟨a, b⟩ | ⟨⟨-, a⟩, b⟩
      · obtain ⟨a1, a2⟩ := ihl _ a
        obtain ⟨b1, b2⟩ := ihr _ b
        omega
      · obtain ⟨a1, a2⟩ := ihl _ a
        obtain ⟨b1, b2⟩ := ihr _ b
        rw [a1, a2, b1, b2, max_comm]
        omega

/-- A run of characters of one class in front of a character outside the class
is determined by the whole. -/
theorem List.run_unique {α : Type} (P : α → Bool) :
    ∀ (w1 w2 t1 t2 : List α), (∀ c ∈ w1, P c = true) → (∀ c ∈ w2, P c = true) →
      (∀ c, t1.head? = some c → P c = false) → (∀ c, t2.head? = some c → P c = false) →
      w1 ++ t1 = w2 ++ t2 → w1 = w2 ∧ t1 = t2 := by
  intro w1
  induction w1 with
  | nil =>
    intro w2 t1 t2 _ h2 ht1 _ he
    cases w2 with
    | nil => exact ⟨rfl, he⟩
    | cons b w2 =>
      exfalso
      simp only [List.nil_append, List.cons_append] at he
      have := ht1 b (by rw [he]; rfl)
      rw [h2 b (List.mem_cons_self _ _)] at this
      exact absurd this (by simp)
  | cons a w1 ih =>
    intro w2 t1 t2 h1 h2 ht1 ht2 he
    cases w2 with
    | nil =>
      exfalso
      simp only [List.nil_append, List.cons_append] at he
      have := ht2 a (by rw [← he]; rfl)
      rw [h1 a (List.mem_cons_self _ _)] at this
      exact absurd this (by simp)
    | cons b w2 =>
      simp only [List.cons_append, List.cons.injEq] at he
      obtain ⟨hab, he⟩ := he
      obtain ⟨e1, e2⟩ := ih w2 t1 t2 (fun c hc => h1 c (List.mem_cons_of_mem _ hc))
        (fun c hc => h2 c (List.mem_cons_of_mem _ hc)) ht1 ht2 he
      exact ⟨by rw [hab, e1], e2⟩

theorem Delimited.not_nameChar {r : List Char} (h : Delimited r) :
    ∀ c, r.head? = some c → nameChar c = false := by
  intro c hc
  rcases h c hc with e | e <;> subst e <;> decide

theorem Delimited.close (r : List Char) : Delimited (')' :: r) := by
  intro c hc
  simp only [List.head?_cons, Option.some.injEq] at hc
  exact Or.inr hc.symm

theorem Delimited.comma (r : List Char) : Delimited (',' :: r) := by
  intro c hc
  simp only [List.head?_cons, Option.some.injEq] at hc
  exact Or.inl hc.symm

theorem Delimited.empty : Delimited [] := by
  intro c hc
  simp at hc

/-- The kind of the token of a node of a tree of the parser is determined by
its text and by whether the node is a leaf; the text is not empty and consists
of characters of token texts. -/
theorem kind_of_node {tok : Token} {l r : NodePtr}
    (hs : ShapeOK (NodePtr.node tok l r) = true) (ht : tokenOK tok = true) :
    tok.type = kindOf tok.value (decide (l = NodePtr.null))
    ∧ tok.value.data ≠ [] ∧ ∀ c ∈ tok.value.data, nameChar c = true := by
  obtain ⟨ty, v⟩ := tok
  cases ty with
  | Number =>
    simp only [ShapeOK, Bool.and_eq_true, decide_eq_true_eq] at hs
    simp only [tokenOK, Bool.and_eq_true, List.all_eq_true, Bool.or_eq_true,
      decide_eq_true_eq, Bool.not_eq_true', List.isEmpty_eq_false] at ht
    refine ⟨?_, ?_, ?_⟩
    · simp only [kindOf, hs.1.1.1, decide_True, if_true]
      rw [if_pos]
      rw [List.all_eq_true]
      intro c hc
      simpa using ht.2 c hc
    · exact ht.1
    · intro c hc
      rcases ht.2 c hc with h | h
      · simp [nameChar, h]
      · simp [nameChar, h]
  | ID =>
    simp only [ShapeOK, Bool.and_eq_true, decide_eq_true_eq] at hs
    simp only [tokenOK] at ht
    split at ht
    · rename_i c hv
      obtain ⟨hd, hdot⟩ := isalpha_not_digit ht
      refine ⟨?_, ?_, ?_⟩
      · simp only [kindOf, hs.1.1.1, decide_True, if_true, hv]
        rw [if_neg]
        simp [hd, hdot]
      · rw [hv]
        simp
      · intro x hx
        rw [hv, List.mem_singleton] at hx
        subst hx
        simp [nameChar, ht]
    · simp at ht
  | UnaryOperator =>
    simp only [ShapeOK, Bool.and_eq_true, decide_eq_true_eq] at hs
    simp only [tokenOK, Bool.and_eq_true, List.all_eq_true, decide_eq_true_eq,
      Bool.not_eq_true', List.isEmpty_eq_false] at ht
    obtain ⟨⟨hne, hall⟩, hl⟩ := ht
    have hne1 : v.data ≠ [] := by
      intro h0
      simp [h0] at hne
    refine ⟨?_, hne1, ?_⟩
    · have hln : l ≠ NodePtr.null := by
        have := hs.1.1.1
        simpa using this
      simp only [kindOf, hln, decide_False, Bool.false_eq_true, if_false, hl]
      rw [if_neg]
      intro hm
      simp only [List.mem_cons, List.mem_singleton, List.not_mem_nil, or_false] at hm
      rcases hm with h | h | h | h | h <;> subst h <;>
        exact absurd (hall _ (List.mem_singleton.2 rfl)) (by decide)
    · intro c hc
      simp [nameChar, hall c hc]
  | BinaryOperator =>
    simp only [ShapeOK, Bool.and_eq_true, decide_eq_true_eq] at hs
    simp only [tokenOK, decide_eq_true_eq] at ht
    have hln : l ≠ NodePtr.null := by
      have := hs.1.1.1
      simpa using this
    simp only [List.mem_cons, List.mem_singleton, List.not_mem_nil, or_false] at ht
    rcases ht with h | h | h | h | h <;> subst h <;>
      simp only [kindOf, hln, decide_False, Bool.false_eq_true, if_false] <;>
      refine ⟨by decide, by decide, by decide⟩
  | Lambda =>
    obtain ⟨x, hx⟩ := ShapeOK_lambda hs rfl
    simp only [tokenOK, decide_eq_true_eq] at ht
    subst ht
    subst hx
    exact ⟨by simp [kindOf], by decide, by decide⟩
  | Dot => simp [ShapeOK] at hs
  | OpenScope => simp [ShapeOK] at hs
  | CloseScope => simp [ShapeOK] at hs
  | EndOfFile => simp [ShapeOK] at hs
  | Error => simp [ShapeOK] at hs

/-- The canonical form of a node of a tree of the parser: the text of the
token, then nothing for a leaf, and a parenthesized part for the other nodes. -/
theorem canonical_split {tok : Token} {l r : NodePtr}
    (hs : ShapeOK (NodePtr.node tok l r) = true) (ht : tokenOK tok = true) :
    ∃ tl, (util.CanonicalForm (NodePtr.node tok l r)).data = tok.value.data ++ tl
      ∧ ((l = NodePtr.null ∧ tl = []) ∨ (l ≠ NodePtr.null ∧ ∃ rest, tl = '(' :: rest)) := by
  obtain ⟨ty, v⟩ := tok
  cases ty with
  | Number =>
    simp only [ShapeOK, Bool.and_eq_true, decide_eq_true_eq] at hs
    exact ⟨[], by simp [util.CanonicalForm], Or.inl ⟨hs.1.1.1, rfl⟩⟩
  | ID =>
    simp only [ShapeOK, Bool.and_eq_true, decide_eq_true_eq] at hs
    exact ⟨[], by simp [util.CanonicalForm], Or.inl ⟨hs.1.1.1, rfl⟩⟩
  | UnaryOperator =>
    simp only [ShapeOK, Bool.and_eq_true, decide_eq_true_eq] at hs
    have hln : l ≠ NodePtr.null := by
      have := hs.1.1.1
      simpa using this
    exact ⟨'(' :: ((util.CanonicalForm l).data ++ [')']),
      by simp [util.CanonicalForm, String.data_append], Or.inr ⟨hln, _, rfl⟩⟩
  | BinaryOperator =>
    simp only [ShapeOK, Bool.and_eq_true, decide_eq_true_eq] at hs
    have hln : l ≠ NodePtr.null := by
      have := hs.1.1.1
      simpa using this
    simp only [util.CanonicalForm, util.CanonicalBinary]
    split
    · split
      · exact ⟨'(' :: ((util.CanonicalForm r).data ++ ',' :: ((util.CanonicalForm l).data ++ [')'])),
          by simp [String.data_append], Or.inr ⟨hln, _, rfl⟩⟩
      · exact ⟨'(' :: ((util.CanonicalForm l).data ++ ',' :: ((util.CanonicalForm r).data ++ [')'])),
          by simp [String.data_append], Or.inr ⟨hln, _, rfl⟩⟩
    · exact ⟨'(' :: ((util.CanonicalForm l).data ++ ',' :: ((util.CanonicalForm r).data ++ [')'])),
        by simp [String.data_append], Or.inr ⟨hln, _, rfl⟩⟩
  | Lambda =>
    obtain ⟨x, hx⟩ := ShapeOK_lambda hs rfl
    simp only [tokenOK, decide_eq_true_eq] at ht
    subst ht
    subst hx
    refine ⟨'(' :: (x.data ++ '.' :: ((util.CanonicalForm r).data ++ [')'])), ?_,
      Or.inr ⟨by simp, _, rfl⟩⟩
    simp [util.CanonicalForm, String.data_append]
  | Dot => simp [ShapeOK] at hs
  | OpenScope => simp [ShapeOK] at hs
  | CloseScope => simp [ShapeOK] at hs
  | EndOfFile => simp [ShapeOK] at hs
  | Error => simp [ShapeOK] at hs

/-- The canonical form of a node of a tree of the parser is not empty. -/
theorem canonical_ne_nil {tok : Token} {l r : NodePtr}
    (hs : ShapeOK (NodePtr.node tok l r) = true) (ht : tokenOK tok = true) :
    (util.CanonicalForm (NodePtr.node tok l r)).data ≠ [] := by
  obtain ⟨tl, e, -⟩ := canonical_split hs ht
  rw [e]
  intro h0
  exact (kind_of_node hs ht).2.1 (List.append_eq_nil.1 h0).1

/-- Two nodes of trees of the parser whose canonical forms agree, each in front
of a delimiter, have the same token. -/
theorem canonical_token {tok1 tok2 : Token} {l1 r1 l2 r2 : NodePtr} {a b : List Char}
    (hs1 : ShapeOK (NodePtr.node tok1 l1 r1) = true) (ht1 : tokenOK tok1 = true)
    (hs2 : ShapeOK (NodePtr.node tok2 l2 r2) = true) (ht2 : tokenOK tok2 = true)
    (ha : Delimited a) (hb : Delimited b)
    (he : (util.CanonicalForm (NodePtr.node tok1 l1 r1)).data ++ a
      = (util.CanonicalForm (NodePtr.node tok2 l2 r2)).data ++ b) : tok1 = tok2 := by
  obtain ⟨tl1, e1, c1⟩ := canonical_split hs1 ht1
  obtain ⟨tl2, e2, c2⟩ := canonical_split hs2 ht2
  obtain ⟨k1, -, n1⟩ := kind_of_node hs1 ht1
  obtain ⟨k2, -, n2⟩ := kind_of_node hs2 ht2
  rw [e1, e2, List.append_assoc, List.append_assoc] at he
  have hd1 : ∀ c, (tl1 ++ a).head? = some c → nameChar c = false := by
    rcases c1 with ⟨-, h⟩ | ⟨-, rest, h⟩
    · rw [h]
      exact ha.not_nameChar
    · rw [h]
      intro c hc
      simp only [List.cons_append, List.head?_cons, Option.some.injEq] at hc
      subst hc
      decide
  have hd2 : ∀ c, (tl2 ++ b).head? = some c → nameChar c = false := by
    rcases c2 with ⟨-, h⟩ | ⟨-, rest, h⟩
    · rw [h]
      exact hb.not_nameChar
    · rw [h]
      intro c hc
      simp only [List.cons_append, List.head?_cons, Option.some.injEq] at hc
      subst hc
      decide
  obtain ⟨hv, htl⟩ := List.run_unique nameChar _ _ _ _ n1 n2 hd1 hd2 he
  have hval : tok1.value = tok2.value := String.ext hv
  have hleaf : decide (l1 = NodePtr.null) = decide (l2 = NodePtr.null) := by
    rcases c1 with ⟨p1, h1⟩ | ⟨p1, rest1, h1⟩ <;> rcases c2 with ⟨p2, h2⟩ | ⟨p2, rest2, h2⟩
    · simp [p1, p2]
    · exfalso
      rw [h1, h2] at htl
      have := ha '(' (by rw [List.nil_append] at htl; rw [htl]; rfl)
      simp at this
    · exfalso
      rw [h1, h2] at htl
      have := hb '(' (by rw [List.nil_append] at htl; rw [← htl]; rfl)
      simp at this
    · simp [p1, p2]
  obtain ⟨ty1, v1⟩ := tok1
  obtain ⟨ty2, v2⟩ := tok2
  simp only at hval k1 k2
  subst hval
  rw [hleaf] at k1
  rw [k1, k2]

/-- Unique reading of the canonical form: when the canonical forms of two nodes
of trees of the parser agree, each in front of a delimiter, the nodes are
identical up to swapping the operands of `+` and `*`, and what follows the two
forms is the same. -/
theorem canonical_injective (t1 : NodePtr) :
    ∀ (t2 : NodePtr) (a b : List Char), t1 ≠ NodePtr.null → t2 ≠ NodePtr.null →
      ShapeOK t1 = true → TokensOK t1 = true → ShapeOK t2 = true → TokensOK t2 = true →
      Delimited a → Delimited b →
      (util.CanonicalForm t1).data ++ a = (util.CanonicalForm t2).data ++ b →
      sameUpToSwap t1 t2 = true ∧ a = b := by
  induction t1 with
  | null => intro t2 a b h; exact absurd rfl h
  | node tok1 l1 r1 ihl ihr =>
    intro t2 a b _ hn2 hs1 ht1 hs2 ht2 ha hb he
    cases t2 with
    | null => exact absurd rfl hn2
    | node tok2 l2 r2 =>
      have hk1 : tokenOK tok1 = true := by
        simp only [TokensOK, Bool.and_eq_true] at ht1
        exact ht1.1.1
      have hk2 : tokenOK tok2 = true := by
        simp only [TokensOK, Bool.and_eq_true] at ht2
        exact ht2.1.1
      have htok := canonical_token hs1 hk1 hs2 hk2 ha hb he
      subst htok
      obtain ⟨sl1, sr1⟩ := ShapeOK_children hs1
      obtain ⟨sl2, sr2⟩ := ShapeOK_children hs2
      have tl1 : TokensOK l1 = true := by
        simp only [TokensOK, Bool.and_eq_true] at ht1
        exact ht1.1.2
      have tr1 : TokensOK r1 = true := by
        simp only [TokensOK, Bool.and_eq_true] at ht1
        exact ht1.2
      have tl2 : TokensOK l2 = true := by
        simp only [TokensOK, Bool.and_eq_true] at ht2
        exact ht2.1.2
      have tr2 : TokensOK r2 = true := by
        simp only [TokensOK, Bool.and_eq_true] at ht2
        exact ht2.2
      obtain ⟨ty, v⟩ := tok1
      cases ty with
      | Number =>
        simp only [ShapeOK, Bool.and_eq_true, decide_eq_true_eq] at hs1 hs2
        obtain ⟨⟨⟨e1, e2⟩, -⟩, -⟩ := hs1
        obtain ⟨⟨⟨e3, e4⟩, -⟩, -⟩ := hs2
        subst e1 e2 e3 e4
        simp only [util.CanonicalForm, List.append_cancel_left_eq] at he
        exact ⟨by simp [sameUpToSwap], he⟩
      | ID =>
        simp only [ShapeOK, Bool.and_eq_true, decide_eq_true_eq] at hs1 hs2
        obtain ⟨⟨⟨e1, e2⟩, -⟩, -⟩ := hs1
        obtain ⟨⟨⟨e3, e4⟩, -⟩, -⟩ := hs2
        subst e1 e2 e3 e4
        simp only [util.CanonicalForm, List.append_cancel_left_eq] at he
        exact ⟨by simp [sameUpToSwap], he⟩
      | UnaryOperator =>
        simp only [ShapeOK, Bool.and_eq_true, decide_eq_true_eq] at hs1 hs2
        obtain ⟨⟨⟨n1, e2⟩, -⟩, -⟩ := hs1
        obtain ⟨⟨⟨n3, e4⟩, -⟩, -⟩ := hs2
        subst e2 e4
        have n1a : l1 ≠ NodePtr.null := by simpa using n1
        have n3a : l2 ≠ NodePtr.null := by simpa using n3
        simp only [util.CanonicalForm, String.data_append, List.append_assoc,
          List.append_cancel_left_eq] at he
        have he1 : (util.CanonicalForm l1).data ++ ')' :: a
            = (util.CanonicalForm l2).data ++ ')' :: b := by
          simpa using he
        obtain ⟨g1, g2⟩ := ihl l2 _ _ n1a n3a sl1 tl1 sl2 tl2 (Delimited.close a)
          (Delimited.close b) he1
        simp only [List.cons.injEq, true_and] at g2
        exact ⟨by simp [sameUpToSwap, g1], g2⟩
      | BinaryOperator =>
        simp only [ShapeOK, Bool.and_eq_true, decide_eq_true_eq] at hs1 hs2
        obtain ⟨⟨⟨n1, n2⟩, -⟩, -⟩ := hs1
        obtain ⟨⟨⟨n3, n4⟩, -⟩, -⟩ := hs2
        have n1a : l1 ≠ NodePtr.null := by simpa using n1
        have n2a : r1 ≠ NodePtr.null := by simpa using n2
        have n3a : l2 ≠ NodePtr.null := by simpa using n3
        have n4a : r2 ≠ NodePtr.null := by simpa using n4
        have form : ∀ l r : NodePtr, ∃ x y,
            ((x = l ∧ y = r) ∨ ((v = "+" ∨ v = "*") ∧ x = r ∧ y = l))
            ∧ (util.CanonicalForm (NodePtr.node ⟨TokenType.BinaryOperator, v⟩ l r)).data
              = v.data ++ '(' :: ((util.CanonicalForm x).data
                  ++ ',' :: ((util.CanonicalForm y).data ++ [')'])) := by
          intro l r
          simp only [util.CanonicalForm, util.CanonicalBinary]
          split
          · rename_i hc
            split
            · exact ⟨r, l, Or.inr ⟨hc, rfl, rfl⟩, by simp [String.data_append]⟩
            · exact ⟨l, r, Or.inl ⟨rfl, rfl⟩, by simp [String.data_append]⟩
          · exact ⟨l, r, Or.inl ⟨rfl, rfl⟩, by simp [String.data_append]⟩
        obtain ⟨x1, y1, c1, f1⟩ := form l1 r1
        obtain ⟨x2, y2, c2, f2⟩ := form l2 r2
        rw [f1, f2] at he
        simp only [List.append_assoc, List.cons_append, List.append_cancel_left_eq,
          List.cons.injEq, true_and, List.nil_append] at he
        have ihx : ∀ (t2 : NodePtr) (a b : List Char), x1 ≠ NodePtr.null → t2 ≠ NodePtr.null →
            ShapeOK x1 = true → TokensOK x1 = true → ShapeOK t2 = true → TokensOK t2 = true →
            Delimited a → Delimited b →
            (util.CanonicalForm x1).data ++ a = (util.CanonicalForm t2).data ++ b →
            sameUpToSwap x1 t2 = true ∧ a = b := by
          rcases c1 with ⟨e, -⟩ | ⟨-, e, -⟩ <;> rw [e]
          · exact ihl
          · exact ihr
        have ihy : ∀ (t2 : NodePtr) (a b : List Char), y1 ≠ NodePtr.null → t2 ≠ NodePtr.null →
            ShapeOK y1 = true → TokensOK y1 = true → ShapeOK t2 = true → TokensOK t2 = true →
            Delimited a → Delimited b →
            (util.CanonicalForm y1).data ++ a = (util.CanonicalForm t2).data ++ b →
            sameUpToSwap y1 t2 = true ∧ a = b := by
          rcases c1 with ⟨-, e⟩ | ⟨-, -, e⟩ <;> rw [e]
          · exact ihr
          · exact ihl
        have vx1 : x1 ≠ NodePtr.null ∧ ShapeOK x1 = true ∧ TokensOK x1 = true := by
          rcases c1 with ⟨e, -⟩ | ⟨-, e, -⟩ <;> rw [e]
          · exact ⟨n1a, sl1, tl1⟩
          · exact ⟨n2a, sr1, tr1⟩
        have vy1 : y1 ≠ NodePtr.null ∧ ShapeOK y1 = true ∧ TokensOK y1 = true := by
          rcases c1 with ⟨-, e⟩ | ⟨-, -, e⟩ <;> rw [e]
          · exact ⟨n2a, sr1, tr1⟩
          · exact ⟨n1a, sl1, tl1⟩
        have vx2 : x2 ≠ NodePtr.null ∧ ShapeOK x2 = true ∧ TokensOK x2 = true := by
          rcases c2 with ⟨e, -⟩ | ⟨-, e, -⟩ <;> rw [e]
          · exact ⟨n3a, sl2, tl2⟩
          · exact ⟨n4a, sr2, tr2⟩
        have vy2 : y2 ≠ NodePtr.null ∧ ShapeOK y2 = true ∧ TokensOK y2 = true := by
          rcases c2 with ⟨-, e⟩ | ⟨-, -, e⟩ <;> rw [e]
          · exact ⟨n4a, sr2, tr2⟩
          · exact ⟨n3a, sl2, tl2⟩
        obtain ⟨g1, g2⟩ := ihx x2 _ _ vx1.1 vx2.1 vx1.2.1 vx1.2.2 vx2.2.1 vx2.2.2
          (Delimited.comma _) (Delimited.comma _) he
        simp only [List.cons.injEq, true_and] at g2
        obtain ⟨g3, g4⟩ := ihy y2 _ _ vy1.1 vy2.1 vy1.2.1 vy1.2.2 vy2.2.1 vy2.2.2
          (Delimited.close _) (Delimited.close _) g2
        simp only [List.cons.injEq, true_and] at g4
        refine ⟨?_, g4⟩
        simp only [sameUpToSwap, decide_True, Bool.true_and, Bool.or_eq_true, Bool.and_eq_true,
          decide_eq_true_eq, true_and]
        rcases c1 with ⟨e1, e2⟩ | ⟨hc, e1, e2⟩ <;> rcases c2 with ⟨e3, e4⟩ | ⟨hc2, e3, e4⟩ <;>
          subst e1 e2 e3 e4
        · exact Or.inl ⟨g1, g3⟩
        · exact Or.inr ⟨⟨hc2, g1⟩, g3⟩
        · exact Or.inr ⟨⟨hc, g3⟩, g1⟩
        · exact Or.inl ⟨g3, g1⟩
      | Lambda =>
        obtain ⟨p1, hp1⟩ := ShapeOK_lambda hs1 rfl
        obtain ⟨p2, hp2⟩ := ShapeOK_lambda hs2 rfl
        subst hp1 hp2
        simp only [ShapeOK, Bool.and_eq_true, decide_eq_true_eq] at hs1 hs2
        have n2a : r1 ≠ NodePtr.null := by simpa using hs1.1.1.2
        have n4a : r2 ≠ NodePtr.null := by simpa using hs2.1.1.2
        simp only [TokensOK, tokenOK, Bool.and_eq_true, Bool.and_true] at tl1 tl2
        have q1 : ∃ c, p1.data = [c] := by
          have := tl1
          split at this
          · rename_i c hv
            exact ⟨c, hv⟩
          · simp at this
        have q2 : ∃ c, p2.data = [c] := by
          have := tl2
          split at this
          · rename_i c hv
            exact ⟨c, hv⟩
          · simp at this
        obtain ⟨c1, hc1⟩ := q1
        obtain ⟨c2, hc2⟩ := q2
        simp only [util.CanonicalForm, String.data_append, List.append_assoc,
          List.append_cancel_left_eq, hc1, hc2] at he
        have he1 : c1 = c2 ∧ (util.CanonicalForm r1).data ++ ')' :: a
            = (util.CanonicalForm r2).data ++ ')' :: b := by
          simpa using he
        obtain ⟨g1, g2⟩ := ihr r2 _ _ n2a n4a sr1 tr1 sr2 tr2 (Delimited.close a)
          (Delimited.close b) he1.2
        simp only [List.cons.injEq, true_and] at g2
        have hp : p1 = p2 := String.ext (by rw [hc1, hc2, he1.1])
        subst hp
        exact ⟨by simp [sameUpToSwap, g1], g2⟩
      | Dot => simp [ShapeOK] at hs1
      | OpenScope => simp [ShapeOK] at hs1
      | CloseScope => simp [ShapeOK] at hs1
      | EndOfFile => simp [ShapeOK] at hs1
      | Error => simp [ShapeOK] at hs1

/-- Trees of the parser, or subtrees of them (possibly absent), with the same
canonical form are identical up to swapping the operands of `+` and `*`. -/
theorem canonical_same {t1 t2 : NodePtr} (hs1 : ShapeOK t1 = true) (ht1 : TokensOK t1 = true)
    (hs2 : ShapeOK t2 = true) (ht2 : TokensOK t2 = true)
    (he : util.CanonicalForm t1 = util.CanonicalForm t2) : sameUpToSwap t1 t2 = true := by
  cases t1 with
  | null =>
    cases t2 with
    | null => rfl
    | node tok2 l2 r2 =>
      exfalso
      have hk2 : tokenOK tok2 = true := by
        simp only [TokensOK, Bool.and_eq_true] at ht2
        exact ht2.1.1
      apply canonical_ne_nil hs2 hk2
      rw [← he]
      rfl
  | node tok1 l1 r1 =>
    cases t2 with
    | null =>
      exfalso
      have hk1 : tokenOK tok1 = true := by
        simp only [TokensOK, Bool.and_eq_true] at ht1
        exact ht1.1.1
      apply canonical_ne_nil hs1 hk1
      rw [he]
      rfl
    | node tok2 l2 r2 =>
      exact (canonical_injective _ _ [] [] (by simp) (by simp) hs1 ht1 hs2 ht2 Delimited.empty
        Delimited.empty (by rw [he])).1

/-! ### The parser on node objects -/

namespace Heap

/-- A node made from two subtrees of which the right one was made first. -/
theorem built_node_swap {h0 h1 h2 : Heap} {lp rp : Option Nat} {token : Token}
    {left right : NodePtr} (B1 : Built h0 h1 rp right) (B2 : Built h1 h2 lp left) :
    Built h0 (h2.createNode token lp rp).2 (some h2.size) (NodePtr.node token left right) := by
  have s1 := B1.size_le
  have s2 := B2.size_le
  have hlne : lp ≠ some h2.size := by
    intro h
    have := (B2.pointer h).2.1
    omega
  have hrne : rp ≠ some h2.size := by
    intro h
    have := (B1.pointer h).2.1
    omega
  have hchild : ∀ c q, q ≠ h2.size → h0.size ≤ q →
      (h2.createNode token lp rp).2.isChildOf c q →
      (q < h1.size ∧ h1.isChildOf c q ∧ h0.size ≤ c ∧ c < h1.size)
        ∨ (h1.size ≤ q ∧ h2.isChildOf c q ∧ h1.size ≤ c ∧ c < h2.size) := by
    intro c q hq hq0 hc
    rw [isChildOf_createNode, if_neg hq] at hc
    by_cases hq1 : q < h1.size
    · have hc1 := (isChildOf_of_cell_eq (B2.old q hq1) c).1 hc
      have := B1.children q c hq0 hc1
      exact Or.inl ⟨hq1, hc1, this.1, this.2⟩
    · have := B2.children q c (by omega) hc
      exact Or.inr ⟨by omega, hc, this.1, this.2⟩
  have hchild_old : ∀ c q, q ≠ h2.size → q < h1.size → h1.isChildOf c q →
      (h2.createNode token lp rp).2.isChildOf c q := by
    intro c q hq hq1 hc
    rw [isChildOf_createNode, if_neg hq]
    exact (isChildOf_of_cell_eq (B2.old q hq1) c).2 hc
  have hchild_new : ∀ c q, q ≠ h2.size → h2.isChildOf c q →
      (h2.createNode token lp rp).2.isChildOf c q := by
    intro c q hq hc
    rw [isChildOf_createNode, if_neg hq]
    exact hc
  refine
    { size_le := by rw [size_createNode]; omega
      wf := wf_createNode h2 B2.wf token lp rp
      old := ?_
      null := fun h => by cases h
      root := ?_
      represents := ?_
      children := ?_
      parent := ?_ }
  · intro b hb
    rw [cell_createNode_old h2 token lp rp b (by omega) ?_ ?_, B2.old b (by omega), B1.old b hb]
    · intro h
      have := (B2.pointer h).1
      omega
    · intro h
      have := (B1.pointer h).1
      omega
  · intro _
    refine ⟨h2.size, rfl, by omega, by rw [size_createNode]; omega, ?_, ?_⟩
    · rw [parentOf_createNode h2 token lp rp _ hlne hrne, if_pos rfl]
    · intro q hq hc
      by_cases hq2 : q = h2.size
      · rw [isChildOf_createNode, if_pos hq2] at hc
        rcases hc with hc | hc
        · exact hlne hc
        · exact hrne hc
      · rcases hchild _ q hq2 hq hc with ⟨-, -, -, h4⟩ | ⟨-, -, -, h4⟩ <;> omega
  · simp only [Represents]
    refine ⟨_, cell_createNode_new h2 token lp rp hlne hrne, rfl, ?_, ?_⟩
    · exact Represents.mono (extends_createNode h2 B2.wf token lp rp) left lp B2.represents
    · exact Represents.mono ((B2.extends B1.wf).trans (extends_createNode h2 B2.wf token lp rp))
        right rp B1.represents
  · intro q c hq hc
    rw [size_createNode]
    by_cases hq2 : q = h2.size
    · rw [isChildOf_createNode, if_pos hq2] at hc
      rcases hc with hc | hc
      · have := B2.pointer hc
        omega
      · have := B1.pointer hc
        omega
    · rcases hchild c q hq2 hq hc with ⟨-, -, h3, h4⟩ | ⟨-, -, h3, h4⟩ <;> omega
  · intro b hb0 hb3 hbne
    rw [size_createNode] at hb3
    have hb2 : b ≠ h2.size := fun h => hbne (by rw [h])
    by_cases hbr : rp = some b
    · obtain ⟨p1, p2, ⟨n, hn⟩, p4⟩ := B1.pointer hbr
      refine ⟨h2.size, by omega, ?_, ?_, ?_⟩
      · rw [parentOf_createNode h2 token lp rp _ hlne hrne, if_neg hb2, if_pos (Or.inr hbr),
          B2.old b p2, hn]
        rfl
      · rw [isChildOf_createNode, if_pos rfl]
        exact Or.inr hbr
      · intro q1 hq1 hc
        by_contra hne
        rcases hchild b q1 hne hq1 hc with ⟨-, h2c, -, -⟩ | ⟨-, -, h3, -⟩
        · exact p4 q1 hq1 h2c
        · omega
    · by_cases hbl : lp = some b
      · obtain ⟨p1, p2, ⟨n, hn⟩, p4⟩ := B2.pointer hbl
        refine ⟨h2.size, by omega, ?_, ?_, ?_⟩
        · rw [parentOf_createNode h2 token lp rp _ hlne hrne, if_neg hb2, if_pos (Or.inl hbl),
            hn]
          rfl
        · rw [isChildOf_createNode, if_pos rfl]
          exact Or.inl hbl
        · intro q1 hq1 hc
          by_contra hne
          rcases hchild b q1 hne hq1 hc with ⟨-, -, -, h4⟩ | ⟨h1q, h2c, -, -⟩
          · omega
          · exact p4 q1 h1q h2c
      · have hpar : (h2.createNode token lp rp).2.parentOf b = h2.parentOf b := by
          rw [parentOf_createNode h2 token lp rp _ hlne hrne, if_neg hb2,
            if_neg (by simp [hbl, hbr])]
        by_cases hb1 : b < h1.size
        · obtain ⟨q, hq0, hqp, hqc, hqu⟩ := B1.parent b hb0 hb1 hbr
          have hq1 : q < h1.size := lt_size_of_isChildOf B1.wf hqc
          refine ⟨q, hq0, ?_, hchild_old b q (by omega) hq1 hqc, ?_⟩
          · rw [hpar, parentOf_of_cell_eq (B2.old b hb1), hqp]
          · intro q1 hq10 hc
            by_cases hq2 : q1 = h2.size
            · rw [isChildOf_createNode, if_pos hq2] at hc
              rcases hc with hc | hc
              · exact absurd hc hbl
              · exact absurd hc hbr
            · rcases hchild b q1 hq2 hq10 hc with ⟨-, h2c, -, -⟩ | ⟨-, -, h3, -⟩
              · exact hqu q1 hq10 h2c
              · omega
        · obtain ⟨q, hq0, hqp, hqc, hqu⟩ := B2.parent b (by omega) (by omega) hbl
          have hq1 : q < h2.size := lt_size_of_isChildOf B2.wf hqc
          refine ⟨q, by omega, ?_, hchild_new b q (by omega) hqc, ?_⟩
          · rw [hpar, hqp]
          · intro q1 hq10 hc
            by_cases hq2 : q1 = h2.size
            · rw [isChildOf_createNode, if_pos hq2] at hc
              rcases hc with hc | hc
              · exact absurd hc hbl
              · exact absurd hc hbr
            · rcases hchild b q1 hq2 hq10 hc with ⟨-, -, -, h4⟩ | ⟨h1q, h2c, -, -⟩
              · omega
              · exact hqu q1 h1q h2c

/-- A leaf made by `AST::createLeaf`. -/
theorem built_leaf (h0 : Heap) (hw : WF h0) (token : Token) :
    Built h0 (h0.createLeaf token).2 (some h0.size)
      (NodePtr.node token NodePtr.null NodePtr.null) :=
  built_node (built_null h0 hw) (built_null h0 hw)

/-- The pointer to the objects of a tree is null exactly when the tree is. -/
theorem Built.none_iff {h0 h1 : Heap} {ptr : Option Nat} {t : NodePtr} (b : Built h0 h1 ptr t) :
    ptr = none ↔ t = NodePtr.null := by
  constructor
  · intro hp
    by_contra hn
    obtain ⟨a, ha, -⟩ := b.root hn
    rw [hp] at ha
    simp at ha
  · exact b.null

end Heap


namespace ObjectParser

theorem simulates_bind {h0 hs : Heap} {x : Outcome (NodePtr × Parser)}
    {y : Outcome (Option Nat × Parser × Heap)}
    {f : NodePtr × Parser → Outcome (NodePtr × Parser)}
    {g : Option Nat × Parser × Heap → Outcome (Option Nat × Parser × Heap)}
    (hxy : Simulates h0 x y)
    (hfg : ∀ t q ptr h1, Heap.Built h0 h1 ptr t → Simulates hs (f (t, q)) (g (ptr, q, h1))) :
    Simulates hs (x.bind f) (y.bind g) := by
  cases x with
  | ok r =>
    obtain ⟨ptr, h1, hy, hB⟩ := hxy
    rw [hy]
    exact hfg r.1 r.2 ptr h1 hB
  | thrown e =>
    have hy : y = Outcome.thrown e := hxy
    rw [hy]
    exact rfl
  | outOfFuel =>
    have hy : y = Outcome.outOfFuel := hxy
    rw [hy]
    exact rfl

/-- `makeBinaryNode` on pointers to the objects of two trees. -/
theorem makeBinaryNode_of {lp rp : Option Nat} {left right : NodePtr}
    (hl : lp = none ↔ left = NodePtr.null) (hr : rp = none ↔ right = NodePtr.null)
    (op : Token) (h : Heap) :
    makeBinaryNode op lp rp h
      = if left = NodePtr.null ∨ right = NodePtr.null then
          Outcome.thrown (ParserException.ParserException
            ("Binary operator missing operand: " ++ op.value))
        else Outcome.ok (some h.size, (h.createNode op lp rp).2) := by
  unfold makeBinaryNode
  by_cases hn : left = NodePtr.null ∨ right = NodePtr.null
  · rw [if_pos hn, if_pos (hn.imp hl.2 hr.2)]
  · rw [if_neg hn, if_neg (fun hp => hn (hp.imp hl.1 hr.1))]
    rfl

/-- `makeUnaryNode` on a pointer to the objects of a tree. -/
theorem makeUnaryNode_of {cp : Option Nat} {child : NodePtr}
    (hc : cp = none ↔ child = NodePtr.null) (op : Token) (h : Heap) :
    makeUnaryNode op cp h
      = if child = NodePtr.null then
          Outcome.thrown (ParserException.ParserException
            ("Unary operator missing operand: " ++ op.value))
        else Outcome.ok (some h.size, (h.createNode op cp none).2) := by
  unfold makeUnaryNode
  by_cases hn : child = NodePtr.null
  · rw [if_pos hn, if_pos (hc.2 hn)]
  · rw [if_neg hn, if_neg (fun hp => hn (hc.1 hp))]
    rfl

/-- The parsing functions on node objects follow the parsing functions on tree
values: the same exceptions and cursors, and on success the objects of the
returned tree, each made once, with the parent links of `AST::createNode`. -/
theorem simulates (fuel : Nat) :
    (∀ p h0, Heap.WF h0 →
      Simulates h0 (Parser.parseExpression fuel p) (ObjectParser.parseExpression fuel p h0))
    ∧ (∀ p h0, Heap.WF h0 →
      Simulates h0 (Parser.parseAddition fuel p) (ObjectParser.parseAddition fuel p h0))
    ∧ (∀ node eptr p hs h0, Heap.Built hs h0 eptr node →
      Simulates hs (Parser.parseAdditionLoop fuel node p)
        (ObjectParser.parseAdditionLoop fuel eptr p h0))
    ∧ (∀ p h0, Heap.WF h0 →
      Simulates h0 (Parser.parseMultiplication fuel p)
        (ObjectParser.parseMultiplication fuel p h0))
    ∧ (∀ node eptr p hs h0, Heap.Built hs h0 eptr node →
      Simulates hs (Parser.parseMultiplicationLoop fuel node p)
        (ObjectParser.parseMultiplicationLoop fuel eptr p h0))
    ∧ (∀ p h0, Heap.WF h0 →
      Simulates h0 (Parser.parseExponentiation fuel p)
        (ObjectParser.parseExponentiation fuel p h0))
    ∧ (∀ p h0, Heap.WF h0 →
      Simulates h0 (Parser.parseUnary fuel p) (ObjectParser.parseUnary fuel p h0))
    ∧ (∀ p h0, Heap.WF h0 →
      Simulates h0 (Parser.parsePrimary fuel p) (ObjectParser.parsePrimary fuel p h0)) := by
  induction fuel with
  | zero =>
    refine ⟨?_, ?_, ?_, ?_, ?_, ?_, ?_, ?_⟩ <;> intros <;> exact rfl
  | succ n ih =>
    obtain ⟨ihe, iha, ihal, ihm, ihml, ihx, ihu, ihp⟩ := ih
    refine ⟨?_, ?_, ?_, ?_, ?_, ?_, ?_, ?_⟩
    · intro p h0 hw
      rw [Parser.parseExpression_succ]
      simp only [ObjectParser.parseExpression]
      exact iha p h0 hw
    · intro p h0 hw
      rw [Parser.parseAddition_succ]
      simp only [ObjectParser.parseAddition]
      refine simulates_bind (ihm p h0 hw) ?_
      intro t q ptr h1 B
      exact ihal t ptr q h0 h1 B
    · intro node eptr p hs h0 B
      rw [Parser.parseAdditionLoop_succ]
      simp only [ObjectParser.parseAdditionLoop, Parser.matchBinaryOperator_eq]
      by_cases hop : Parser.isOp ["+", "-"] p = true
      · simp only [hop, if_true, Outcome.bind_ok, Parser.previous_next]
        refine simulates_bind (ihm p.next h0 B.wf) ?_
        intro t q ptr h1 B1
        simp only [makeBinaryNode_of B.none_iff B1.none_iff]
        by_cases hn : node = NodePtr.null ∨ t = NodePtr.null
        · simp only [if_pos hn, Outcome.bind_thrown]
          exact rfl
        · simp only [if_neg hn, Outcome.bind_ok]
          exact ihal _ _ q hs _ (Heap.built_node B B1)
      · simp only [hop, Bool.false_eq_true, if_false, Outcome.bind_ok]
        exact ⟨eptr, h0, rfl, B⟩
    · intro p h0 hw
      rw [Parser.parseMultiplication_succ]
      simp only [ObjectParser.parseMultiplication]
      refine simulates_bind (ihx p h0 hw) ?_
      intro t q ptr h1 B
      exact ihml t ptr q h0 h1 B
    · intro node eptr p hs h0 B
      rw [Parser.parseMultiplicationLoop_succ]
      simp only [ObjectParser.parseMultiplicationLoop, Parser.matchBinaryOperator_eq]
      by_cases hop : Parser.isOp ["*", "/"] p = true
      · simp only [hop, if_true, Outcome.bind_ok, Parser.previous_next]
        refine simulates_bind (ihx p.next h0 B.wf) ?_
        intro t q ptr h1 B1
        simp only [makeBinaryNode_of B.none_iff B1.none_iff]
        by_cases hn : node = NodePtr.null ∨ t = NodePtr.null
        · simp only [if_pos hn, Outcome.bind_thrown]
          exact rfl
        · simp only [if_neg hn, Outcome.bind_ok]
          exact ihml _ _ q hs _ (Heap.built_node B B1)
      · simp only [hop, Bool.false_eq_true, if_false, Outcome.bind_ok]
        exact ⟨eptr, h0, rfl, B⟩
    · intro p h0 hw
      rw [Parser.parseExponentiation_succ]
      simp only [ObjectParser.parseExponentiation, Parser.matchBinaryOperator_eq]
      refine simulates_bind (ihu p h0 hw) ?_
      intro t q ptr h1 B
      by_cases hop : Parser.isOp ["^"] q = true
      · simp only [hop, if_true, Outcome.bind_ok, Parser.previous_next]
        refine simulates_bind (ihx q.next h1 B.wf) ?_
        intro t1 q1 ptr1 h2 B1
        simp only [makeBinaryNode_of B.none_iff B1.none_iff]
        by_cases hn : t = NodePtr.null ∨ t1 = NodePtr.null
        · simp only [if_pos hn, Outcome.bind_thrown]
          exact rfl
        · simp only [if_neg hn, Outcome.bind_ok]
          exact ⟨_, _, rfl, Heap.built_node B B1⟩
      · simp only [hop, Bool.false_eq_true, if_false, Outcome.bind_ok]
        exact ⟨ptr, h1, rfl, B⟩
    · intro p h0 hw
      rw [Parser.parseUnary_succ]
      simp only [ObjectParser.parseUnary]
      by_cases h1 : Parser.check TokenType.UnaryOperator p = true
      · simp only [h1, if_true, Parser.advance_eq p (Parser.check_isAtEnd h1), Outcome.bind_ok,
          Parser.consume_eq]
        by_cases h2 : Parser.check TokenType.OpenScope p.next = true
        · simp only [h2, if_true, Outcome.bind_ok]
          refine simulates_bind (ihe p.next.next h0 hw) ?_
          intro t q ptr hh B
          by_cases h3 : Parser.check TokenType.CloseScope q = true
          · simp only [h3, if_true, Outcome.bind_ok, makeUnaryNode_of B.none_iff]
            by_cases hn : t = NodePtr.null
            · simp only [if_pos hn, Outcome.bind_thrown]
              exact rfl
            · simp only [if_neg hn, Outcome.bind_ok]
              exact ⟨_, _, rfl, Heap.built_node B (Heap.built_null hh B.wf)⟩
          · simp only [h3, Bool.false_eq_true, if_false, Outcome.bind_thrown]
            exact rfl
        · simp only [h2, Bool.false_eq_true, if_false, Outcome.bind_thrown]
          exact rfl
      by_cases h2 : Parser.isSign p = true
      · have h2a : Parser.check TokenType.BinaryOperator p = true := by
          simp only [Parser.isSign, Bool.and_eq_true] at h2
          exact h2.1
        have h2b : (Parser.check TokenType.BinaryOperator p
            && (p.peek.value = "-" || p.peek.value = "+")) = true := h2
        simp only [h1, Bool.false_eq_true, if_false, h2, h2b, if_true,
          Parser.advance_eq p (Parser.check_isAtEnd h2a), Outcome.bind_ok]
        refine simulates_bind (ihu p.next h0 hw) ?_
        intro t q ptr hh B
        have Bz := Heap.built_leaf hh B.wf ⟨TokenType.Number, "0"⟩
        have e := makeBinaryNode_of Bz.none_iff B.none_iff p.peek
          (hh.createLeaf ⟨TokenType.Number, "0"⟩).2
        simp only [Heap.allocate, Heap.createLeaf] at e ⊢
        simp only [e]
        by_cases hn : t = NodePtr.null
        · simp only [hn, or_true, if_true, Outcome.bind_thrown]
          exact rfl
        · simp only [hn, or_false, reduceCtorEq, if_false, Outcome.bind_ok]
          exact ⟨_, _, rfl, Heap.built_node_swap B Bz⟩
      by_cases h3 : Parser.check TokenType.Lambda p = true
      · have h2b : ¬ (Parser.check TokenType.BinaryOperator p
            && (p.peek.value = "-" || p.peek.value = "+")) = true := h2
        simp only [h1, Bool.false_eq_true, if_false, h2, h2b, h3, if_true, Parser.match_eq,
          Outcome.bind_ok, Parser.consume_eq, Parser.previous_next]
        by_cases h4 : Parser.check TokenType.ID p.next = true
        · simp only [h4, if_true, Outcome.bind_ok]
          by_cases h5 : Parser.check TokenType.Dot p.next.next = true
          · simp only [h5, if_true, Outcome.bind_ok]
            refine simulates_bind (ihe p.next.next.next h0 hw) ?_
            intro t q ptr hh B
            exact ⟨_, _, rfl, Heap.built_node_swap B (Heap.built_leaf hh B.wf p.next.peek)⟩
          · simp only [h5, Bool.false_eq_true, if_false, Outcome.bind_thrown]
            exact rfl
        · simp only [h4, Bool.false_eq_true, if_false, Outcome.bind_thrown]
          exact rfl
      · have h2b : ¬ (Parser.check TokenType.BinaryOperator p
            && (p.peek.value = "-" || p.peek.value = "+")) = true := h2
        simp only [h1, Bool.false_eq_true, if_false, h2, h2b, h3, Parser.match_eq,
          Outcome.bind_ok]
        exact ihp p h0 hw
    · intro p h0 hw
      rw [Parser.parsePrimary_succ]
      simp only [ObjectParser.parsePrimary, Parser.match_eq]
      by_cases h1 : Parser.check TokenType.Number p = true
      · simp only [h1, if_true, Outcome.bind_ok, Parser.previous_next]
        exact ⟨_, _, rfl, Heap.built_leaf h0 hw p.peek⟩
      by_cases h2 : Parser.check TokenType.ID p = true
      · simp only [h1, Bool.false_eq_true, if_false, h2, if_true, Outcome.bind_ok,
          Parser.previous_next]
        exact ⟨_, _, rfl, Heap.built_leaf h0 hw p.peek⟩
      by_cases h3 : Parser.check TokenType.OpenScope p = true
      · simp only [h1, h2, Bool.false_eq_true, if_false, h3, if_true, Outcome.bind_ok,
          Parser.consume_eq]
        refine simulates_bind (ihe p.next h0 hw) ?_
        intro t q ptr hh B
        by_cases h4 : Parser.check TokenType.CloseScope q = true
        · simp only [h4, if_true, Outcome.bind_ok]
          exact ⟨ptr, hh, rfl, B⟩
        · simp only [h4, Bool.false_eq_true, if_false, Outcome.bind_thrown]
          exact rfl
      · simp only [h1, h2, h3, Bool.false_eq_true, if_false, Outcome.bind_ok]
        exact rfl

/-- When `Parser::buildAST` returns a tree, `buildAST` on node objects returns
a pointer to the objects of that tree, made in the memory of the call, after
`setRoot`. -/
theorem buildAST_built {p : Parser} {t : NodePtr} (hb : p.buildAST = Outcome.ok t)
    (h0 : Heap) (hw : Heap.WF h0) :
    ∃ ptr h1, ObjectParser.buildAST p h0 = Outcome.ok (ptr, h1.setRoot ptr)
      ∧ Heap.Built h0 h1 ptr t := by
  simp only [Parser.buildAST, Outcome.bind_eq_ok] at hb
  obtain ⟨⟨t1, q⟩, hp, hq⟩ := hb
  have S := (simulates (Parser.fuelFor { p with current_index_ := 0 })).1
    { p with current_index_ := 0 } h0 hw
  rw [hp] at S
  obtain ⟨ptr, h1, hy, B⟩ := S
  by_cases he : q.isAtEnd = true
  · simp only [he, Bool.not_true, Bool.false_eq_true, if_false, Outcome.ok.injEq] at hq
    subst hq
    refine ⟨ptr, h1, ?_, B⟩
    simp only [ObjectParser.buildAST, hy, Outcome.bind_ok, he, Bool.not_true,
      Bool.false_eq_true, if_false]
  · simp [he] at hq

/-- An exception of `Parser::buildAST` is the exception of `buildAST` on node
objects. -/
theorem buildAST_exception {p : Parser} {e : ParserException}
    (hb : p.buildAST = Outcome.thrown e) (h0 : Heap) (hw : Heap.WF h0) :
    ObjectParser.buildAST p h0 = Outcome.thrown e := by
  have S := (simulates (Parser.fuelFor { p with current_index_ := 0 })).1
    { p with current_index_ := 0 } h0 hw
  simp only [Parser.buildAST] at hb
  simp only [ObjectParser.buildAST]
  cases hp : Parser.parseExpression (Parser.fuelFor { p with current_index_ := 0 })
      { p with current_index_ := 0 } with
  | ok r =>
    rw [hp] at S hb
    obtain ⟨ptr, h1, hy, -⟩ := S
    rw [hy]
    simp only [Outcome.bind_ok] at hb ⊢
    by_cases he : r.2.isAtEnd = true
    · simp [he] at hb
    · simpa [he] using hb
  | thrown e1 =>
    rw [hp] at S hb
    have hy : ObjectParser.parseExpression _ _ _ = Outcome.thrown e1 := S
    rw [hy]
    simp only [Outcome.bind_thrown, Outcome.thrown.injEq] at hb ⊢
    exact hb
  | outOfFuel =>
    rw [hp] at hb
    simp at hb

end ObjectParser

/-! ## Properties of the specification -/

/-! ### Canonical form -/

/-- C1: for every pair of subtrees `a`, `b` and every `op` in `{+, *}`, the
canonical form of the `BinaryOperator` node `(op, a, b)` equals the canonical
form of the node `(op, b, a)`. -/
theorem C1_canonical_commutative (op : String) (a b : NodePtr)
    (hop : op = "+" ∨ op = "*") :
    util.CanonicalForm (NodePtr.node ⟨TokenType.BinaryOperator, op⟩ a b)
      = util.CanonicalForm (NodePtr.node ⟨TokenType.BinaryOperator, op⟩ b a) := by
  simp only [util.CanonicalForm, hop, if_true]
  rcases lt_trichotomy (util.CanonicalForm a) (util.CanonicalForm b) with h | h | h
  · have h1 : util.stringGt (util.CanonicalForm b) (util.CanonicalForm a) = true :=
      (util.stringGt_iff _ _).2 h
    have h2 : util.stringGt (util.CanonicalForm a) (util.CanonicalForm b) = false := by
      rw [Bool.eq_false_iff, Ne, util.stringGt_iff]
      exact lt_asymm h
    simp [h1, h2]
  · simp [h]
  · have h1 : util.stringGt (util.CanonicalForm a) (util.CanonicalForm b) = true :=
      (util.stringGt_iff _ _).2 h
    have h2 : util.stringGt (util.CanonicalForm b) (util.CanonicalForm a) = false := by
      rw [Bool.eq_false_iff, Ne, util.stringGt_iff]
      exact lt_asymm h
    simp [h1, h2]

/-- Instance of C1 on the trees `a + b` and `b + a`. -/
theorem C1_canonical_commutative_witness :
    util.CanonicalForm (NodePtr.node ⟨TokenType.BinaryOperator, "+"⟩
        (AST.createLeaf ⟨TokenType.ID, "a"⟩) (AST.createLeaf ⟨TokenType.ID, "b"⟩))
      = util.CanonicalForm (NodePtr.node ⟨TokenType.BinaryOperator, "+"⟩
        (AST.createLeaf ⟨TokenType.ID, "b"⟩) (AST.createLeaf ⟨TokenType.ID, "a"⟩)) :=
  C1_canonical_commutative "+" _ _ (Or.inl rfl)

/-- C2: on every tree of the data model (shape invariants, operators among the
five arithmetic symbols) `util::CanonicalForm` equals the reference rendering
written from the specification. -/
theorem C2_canonical_eq_reference (t : NodePtr)
    (hshape : ShapeOK t = true) (hops : OperatorsKnown t = true) :
    util.CanonicalForm t = referenceRendering t := by
  induction t with
  | null => rfl
  | node token left right ihl ihr =>
    obtain ⟨ty, v⟩ := token
    simp only [ShapeOK, OperatorsKnown, Bool.and_eq_true] at hshape hops
    obtain ⟨⟨hnode, hsl⟩, hsr⟩ := hshape
    obtain ⟨⟨hop, hol⟩, hor⟩ := hops
    have el := ihl hsl hol
    have er := ihr hsr hor
    cases ty <;> simp only [util.CanonicalForm, referenceRendering] <;>
      simp at hnode
    · -- Lambda
      rw [er]
      cases left with
      | null => simp at hnode
      | node t l r =>
        have hl : l = NodePtr.null ∧ r = NodePtr.null := by
          cases l <;> cases r <;> simp_all
        obtain ⟨rfl, rfl⟩ := hl
        have ht : t.type = TokenType.ID := by simpa using hnode.1
        simp [util.CanonicalForm, parameterText, ht]
    · -- BinaryOperator
      rw [el, er]
      simp only [ne_eq, not_true_eq_false, decide_False, Bool.false_or, decide_eq_true_eq] at hop
      simp only [util.CanonicalBinary, util.stringGt]
      simp only [List.mem_cons, List.mem_singleton, List.not_mem_nil, or_false] at hop ⊢
      rcases hop with rfl | rfl | rfl | rfl | rfl <;> simp [not_lt]
      all_goals
        by_cases h : (referenceRendering left).data ≤ (referenceRendering right).data
        · simp [h, not_lt.2 h]
        · simp [h, not_le.1 h]
    · rw [el]

/-- Instance of C2: the tree of `lambda x. cos(b + a)`. -/
theorem C2_canonical_eq_reference_witness :
    util.CanonicalForm
        (NodePtr.node ⟨TokenType.Lambda, "lambda"⟩ (AST.createLeaf ⟨TokenType.ID, "x"⟩)
          (NodePtr.node ⟨TokenType.UnaryOperator, "cos"⟩
            (NodePtr.node ⟨TokenType.BinaryOperator, "+"⟩ (AST.createLeaf ⟨TokenType.ID, "b"⟩)
              (AST.createLeaf ⟨TokenType.ID, "a"⟩))
            NodePtr.null))
      = referenceRendering
        (NodePtr.node ⟨TokenType.Lambda, "lambda"⟩ (AST.createLeaf ⟨TokenType.ID, "x"⟩)
          (NodePtr.node ⟨TokenType.UnaryOperator, "cos"⟩
            (NodePtr.node ⟨TokenType.BinaryOperator, "+"⟩ (AST.createLeaf ⟨TokenType.ID, "b"⟩)
              (AST.createLeaf ⟨TokenType.ID, "a"⟩))
            NodePtr.null)) :=
  C2_canonical_eq_reference _ (by decide) (by decide)

/-! ### Parser -/

/-- C3: multiplicative operators bind tighter than additive ones.  For atoms
`x`, `y`, `z`, `a` in `{+, -}` and `m` in `{*, /}`, the source `x a y m z` parses
to `a(x, m(y, z))` and the source `x m y a z` parses to `a(m(x, y), z)`. -/
theorem C3_multiplicative_binds_tighter (x y z a m : String)
    (hx : isAtom x = true) (hy : isAtom y = true) (hz : isAtom z = true)
    (ha : a ∈ ["+", "-"]) (hm : m ∈ ["*", "/"]) :
    parse (x ++ " " ++ a ++ " " ++ y ++ " " ++ m ++ " " ++ z)
      = Outcome.ok (NodePtr.node ⟨TokenType.BinaryOperator, a⟩ (AST.createLeaf (atomToken x))
          (NodePtr.node ⟨TokenType.BinaryOperator, m⟩ (AST.createLeaf (atomToken y))
            (AST.createLeaf (atomToken z))))
    ∧ parse (x ++ " " ++ m ++ " " ++ y ++ " " ++ a ++ " " ++ z)
      = Outcome.ok (NodePtr.node ⟨TokenType.BinaryOperator, a⟩
          (NodePtr.node ⟨TokenType.BinaryOperator, m⟩ (AST.createLeaf (atomToken x))
            (AST.createLeaf (atomToken y)))
          (AST.createLeaf (atomToken z))) := by
  have ha5 : a ∈ ["+", "-", "*", "/", "^"] := by
    simp only [List.mem_cons, List.mem_singleton, List.not_mem_nil, or_false] at ha ⊢
    rcases ha with h | h <;> simp [h]
  have hm5 : m ∈ ["+", "-", "*", "/", "^"] := by
    simp only [List.mem_cons, List.mem_singleton, List.not_mem_nil, or_false] at hm ⊢
    rcases hm with h | h <;> simp [h]
  constructor
  · rw [parse_eq_ok]
    exact ⟨_, _, lex_infixTokens x a y m z hx hy hz ha5 hm5, run_infix_add_mul x a y m z ha hm,
      isAtEnd_infixTokens x a y m z⟩
  · rw [parse_eq_ok]
    exact ⟨_, _, lex_infixTokens x m y a z hx hy hz hm5 ha5, run_infix_mul_add x m y a z hm ha,
      isAtEnd_infixTokens x m y a z⟩

/-- Instance of C3: `2 + 3 * 4` and `2 * 3 + 4`. -/
theorem C3_multiplicative_binds_tighter_witness :
    parse "2 + 3 * 4"
      = Outcome.ok (NodePtr.node ⟨TokenType.BinaryOperator, "+"⟩
          (AST.createLeaf ⟨TokenType.Number, "2"⟩)
          (NodePtr.node ⟨TokenType.BinaryOperator, "*"⟩ (AST.createLeaf ⟨TokenType.Number, "3"⟩)
            (AST.createLeaf ⟨TokenType.Number, "4"⟩)))
    ∧ parse "2 * 3 + 4"
      = Outcome.ok (NodePtr.node ⟨TokenType.BinaryOperator, "+"⟩
          (NodePtr.node ⟨TokenType.BinaryOperator, "*"⟩ (AST.createLeaf ⟨TokenType.Number, "2"⟩)
            (AST.createLeaf ⟨TokenType.Number, "3"⟩))
          (AST.createLeaf ⟨TokenType.Number, "4"⟩)) :=
  C3_multiplicative_binds_tighter "2" "3" "4" "+" "*" (by decide) (by decide) (by decide)
    (by decide) (by decide)

/-- C4: exponentiation is right-associative.  For atoms `x`, `y`, `z` the source
`x ^ y ^ z` parses to `^(x, ^(y, z))`. -/
theorem C4_exponentiation_right_associative (x y z : String)
    (hx : isAtom x = true) (hy : isAtom y = true) (hz : isAtom z = true) :
    parse (x ++ " " ++ "^" ++ " " ++ y ++ " " ++ "^" ++ " " ++ z)
      = Outcome.ok (NodePtr.node ⟨TokenType.BinaryOperator, "^"⟩ (AST.createLeaf (atomToken x))
          (NodePtr.node ⟨TokenType.BinaryOperator, "^"⟩ (AST.createLeaf (atomToken y))
            (AST.createLeaf (atomToken z)))) := by
  rw [parse_eq_ok]
  exact ⟨_, _, lex_infixTokens x "^" y "^" z hx hy hz (by decide) (by decide),
    run_infix_pow_pow x y z, isAtEnd_infixTokens x "^" y "^" z⟩

/-- Instance of C4: `2 ^ 3 ^ 2`. -/
theorem C4_exponentiation_right_associative_witness :
    parse "2 ^ 3 ^ 2"
      = Outcome.ok (NodePtr.node ⟨TokenType.BinaryOperator, "^"⟩
          (AST.createLeaf ⟨TokenType.Number, "2"⟩)
          (NodePtr.node ⟨TokenType.BinaryOperator, "^"⟩ (AST.createLeaf ⟨TokenType.Number, "3"⟩)
            (AST.createLeaf ⟨TokenType.Number, "2"⟩))) :=
  C4_exponentiation_right_associative "2" "3" "2" (by decide) (by decide) (by decide)

/-- C5: additive and multiplicative operators are left-associative.  For atoms
`x`, `y`, `z` and operators `p`, `q` both in `{+, -}` or both in `{*, /}`, the
source `x p y q z` parses to `q(p(x, y), z)`. -/
theorem C5_left_associative (x y z p q : String)
    (hx : isAtom x = true) (hy : isAtom y = true) (hz : isAtom z = true)
    (hpq : (p ∈ ["+", "-"] ∧ q ∈ ["+", "-"]) ∨ (p ∈ ["*", "/"] ∧ q ∈ ["*", "/"])) :
    parse (x ++ " " ++ p ++ " " ++ y ++ " " ++ q ++ " " ++ z)
      = Outcome.ok (NodePtr.node ⟨TokenType.BinaryOperator, q⟩
          (NodePtr.node ⟨TokenType.BinaryOperator, p⟩ (AST.createLeaf (atomToken x))
            (AST.createLeaf (atomToken y)))
          (AST.createLeaf (atomToken z))) := by
  have h5 : ∀ o : String, o ∈ ["+", "-"] ∨ o ∈ ["*", "/"] → o ∈ ["+", "-", "*", "/", "^"] := by
    intro o ho
    simp only [List.mem_cons, List.mem_singleton, List.not_mem_nil, or_false] at ho ⊢
    rcases ho with (h | h) | (h | h) <;> simp [h]
  rw [parse_eq_ok]
  rcases hpq with ⟨hp, hq⟩ | ⟨hp, hq⟩
  · exact ⟨_, _, lex_infixTokens x p y q z hx hy hz (h5 p (Or.inl hp)) (h5 q (Or.inl hq)),
      run_infix_add_add x p y q z hp hq, isAtEnd_infixTokens x p y q z⟩
  · exact ⟨_, _, lex_infixTokens x p y q z hx hy hz (h5 p (Or.inr hp)) (h5 q (Or.inr hq)),
      run_infix_mul_mul x p y q z hp hq, isAtEnd_infixTokens x p y q z⟩

/-- Instance of C5: `a - b + c`. -/
theorem C5_left_associative_witness :
    parse "a - b + c"
      = Outcome.ok (NodePtr.node ⟨TokenType.BinaryOperator, "+"⟩
          (NodePtr.node ⟨TokenType.BinaryOperator, "-"⟩ (AST.createLeaf ⟨TokenType.ID, "a"⟩)
            (AST.createLeaf ⟨TokenType.ID, "b"⟩))
          (AST.createLeaf ⟨TokenType.ID, "c"⟩)) :=
  C5_left_associative "a" "b" "c" "-" "+" (by decide) (by decide) (by decide)
    (Or.inl ⟨by decide, by decide⟩)

/-- C6: a prefix sign is desugared to a binary operation on a synthesized zero.
For a sign `s` and an operand source `e` that `parseUnary` parses to the tree
`t`, the sources `se` and `s e` are parsed by `parseUnary` to the
`BinaryOperator` node `(s, 0, t)`; `-x + +y` parses to `+(-(0,x), +(0,y))`; and
for an atom `x` the sources `-x` and `0 - x` parse to the same tree. -/
theorem C6_prefix_sign (s e x : String) (t : NodePtr) (q : Parser)
    (hs : s ∈ ["+", "-"]) (hx : isAtom x = true) (he : parseOperand e = Outcome.ok (t, q)) :
    parseOperand (s ++ e)
      = Outcome.ok (NodePtr.node ⟨TokenType.BinaryOperator, s⟩
          (AST.createLeaf ⟨TokenType.Number, "0"⟩) t,
          ⟨⟨TokenType.BinaryOperator, s⟩ :: q.tokens_, q.current_index_ + 1⟩)
    ∧ parseOperand (s ++ " " ++ e)
      = Outcome.ok (NodePtr.node ⟨TokenType.BinaryOperator, s⟩
          (AST.createLeaf ⟨TokenType.Number, "0"⟩) t,
          ⟨⟨TokenType.BinaryOperator, s⟩ :: q.tokens_, q.current_index_ + 1⟩)
    ∧ parse "-x + +y"
      = Outcome.ok (NodePtr.node ⟨TokenType.BinaryOperator, "+"⟩
          (NodePtr.node ⟨TokenType.BinaryOperator, "-"⟩ (AST.createLeaf ⟨TokenType.Number, "0"⟩)
            (AST.createLeaf ⟨TokenType.ID, "x"⟩))
          (NodePtr.node ⟨TokenType.BinaryOperator, "+"⟩ (AST.createLeaf ⟨TokenType.Number, "0"⟩)
            (AST.createLeaf ⟨TokenType.ID, "y"⟩)))
    ∧ parse ("-" ++ x)
      = Outcome.ok (NodePtr.node ⟨TokenType.BinaryOperator, "-"⟩
          (AST.createLeaf ⟨TokenType.Number, "0"⟩) (AST.createLeaf (atomToken x)))
    ∧ parse ("0 - " ++ x) = parse ("-" ++ x) := by
  rw [parseOperand_eq_ok] at he
  obtain ⟨hl, hr⟩ := he
  have hq := hr.target
  have hs5 : s ∈ ["+", "-", "*", "/", "^"] := by
    simp only [List.mem_cons, List.mem_singleton, List.not_mem_nil, or_false] at hs ⊢
    rcases hs with h | h <;> simp [h]
  have r1 : Run Level.unary ⟨⟨TokenType.BinaryOperator, s⟩ :: q.tokens_, 0⟩
      (NodePtr.node ⟨TokenType.BinaryOperator, s⟩ (AST.createLeaf ⟨TokenType.Number, "0"⟩) t)
      ⟨⟨TokenType.BinaryOperator, s⟩ :: q.tokens_, q.current_index_ + 1⟩ :=
    run_sign s q.tokens_ t q.current_index_ hs (by rw [← hq]; exact hr)
  refine ⟨?_, ?_, by decide!, parse_minus_atom x hx, ?_⟩
  · rw [parseOperand_eq_ok]
    refine ⟨?_, r1⟩
    simp only [String.data_append]
    exact Lex.operator hs5 hl
  · rw [parseOperand_eq_ok]
    refine ⟨?_, r1⟩
    have e1 : (s ++ " " ++ e).data = s.data ++ ' ' :: e.data := by simp [String.data_append]
    rw [e1]
    exact Lex.operator hs5 (Lex.space (by decide) hl)
  · rw [parse_zero_minus_atom x hx, parse_minus_atom x hx]

/-- Instance of C6: the sign `-`, the operand `x`, the atom `x`. -/
theorem C6_prefix_sign_witness :
    parseOperand ("-" ++ "x")
      = Outcome.ok (NodePtr.node ⟨TokenType.BinaryOperator, "-"⟩
          (AST.createLeaf ⟨TokenType.Number, "0"⟩) (AST.createLeaf ⟨TokenType.ID, "x"⟩),
          ⟨[⟨TokenType.BinaryOperator, "-"⟩, ⟨TokenType.ID, "x"⟩, ⟨TokenType.EndOfFile, "#"⟩],
            2⟩)
    ∧ parse ("0 - " ++ "x") = parse ("-" ++ "x") :=
  have h := C6_prefix_sign "-" "x" "x" (AST.createLeaf ⟨TokenType.ID, "x"⟩)
    ⟨[⟨TokenType.ID, "x"⟩, ⟨TokenType.EndOfFile, "#"⟩], 1⟩ (by decide) (by decide) (by decide!)
  ⟨h.1, h.2.2.2.2⟩

/-- C7: when the token sequence of a source contains a unary function name
immediately followed by a token other than `(`, `Parser::buildAST` throws a
parser exception and returns no tree. -/
theorem C7_unary_name_needs_parenthesis (input f : String) (p : Parser) (i : Nat) (tk : Token)
    (hnew : Parser.new input = Outcome.ok p)
    (hf : p.tokens_[i]? = some ⟨TokenType.UnaryOperator, f⟩)
    (hnext : p.tokens_[i + 1]? = some tk) (hne : tk.type ≠ TokenType.OpenScope) :
    ∃ e, p.buildAST = Outcome.thrown e ∧ parse input = Outcome.thrown e := by
  have hp : parse input = p.buildAST := by simp [parse, hnew]
  rw [hp]
  obtain ⟨hl, h0⟩ := (new_eq_ok input p).1 hnew
  cases hb : p.buildAST with
  | thrown e => exact ⟨e, rfl, rfl⟩
  | outOfFuel => exact absurd hb (buildAST_ne_outOfFuel p)
  | ok t =>
    exfalso
    rw [buildAST_eq_ok] at hb
    obtain ⟨q, hr, he⟩ := hb
    have hstop := hr.stops_at_last hl (Nat.zero_le _) he
    simp only at hstop
    have hi : i + 1 < p.tokens_.length := by
      by_contra hc
      rw [List.getElem?_eq_none (by omega)] at hnext
      exact absurd hnext (by simp)
    have hc := (hr.consumed i (Nat.zero_le _) (by omega)).2
    simp only [tokenAt, List.getD_eq_getElem?_getD, hf, hnext, Option.getD_some] at hc
    exact hne (hc trivial)

/-- Instance of C7: `cos x + 1`. -/
theorem C7_unary_name_needs_parenthesis_witness :
    ∃ e, Parser.buildAST
        ⟨[⟨TokenType.UnaryOperator, "cos"⟩, ⟨TokenType.ID, "x"⟩, ⟨TokenType.BinaryOperator, "+"⟩,
          ⟨TokenType.Number, "1"⟩, ⟨TokenType.EndOfFile, "#"⟩], 0⟩ = Outcome.thrown e
      ∧ parse "cos x + 1" = Outcome.thrown e :=
  C7_unary_name_needs_parenthesis "cos x + 1" "cos" _ 0 ⟨TokenType.ID, "x"⟩ (by decide!) rfl rfl
    (by decide)

/-- C8: for a unary function name `f` of the keyword table and a source `e`
that parses on its own to the tree `t`, the source `f(e)` parses to the
`UnaryOperator` node with text `f`, left child `t` and no right child. -/
theorem C8_unary_function_call (f e : String) (t : NodePtr) (hf : f ∈ Tokenizer.unaryNames)
    (h : parse e = Outcome.ok t) :
    parse (f ++ "(" ++ e ++ ")")
      = Outcome.ok (NodePtr.node ⟨TokenType.UnaryOperator, f⟩ t NodePtr.null) := by
  rw [parse_eq_ok] at h ⊢
  obtain ⟨ts, q, hl, hr, he⟩ := h
  have hstop := hr.stops_at_last hl (Nat.zero_le _) he
  simp only at hstop
  have hnn := hr.basic.2.2.2.2 trivial
  have hlen := List.length_pos.2 hl.ne_nil
  have hag : Agree ⟨ts, 0⟩
      ⟨⟨TokenType.UnaryOperator, f⟩ :: ⟨TokenType.OpenScope, "("⟩ ::
        (ts.dropLast ++ [⟨TokenType.CloseScope, ")"⟩, ⟨TokenType.EndOfFile, "#"⟩]), 2⟩
      (ts.length - 1) := by
    constructor
    · intro k hk
      simp only [peek_eq, shift, Nat.zero_add]
      rw [show 2 + k = k + 1 + 1 by omega, List.getD_cons_succ, List.getD_cons_succ]
      exact List.getD_dropLast_append ts _ k _ (by omega)
    · right
      simp only [peek_eq, shift]
      rw [show 2 + (ts.length - 1) = (ts.length - 1) + 1 + 1 by omega, List.getD_cons_succ,
        List.getD_cons_succ, List.getD_append_right _ _ _ _ (by simp)]
      simp
  have r := hr.frame _ (ts.length - 1) (by simp only [hstop]; omega) hag
  simp only [shift] at r
  have hclose : check TokenType.CloseScope
      ⟨⟨TokenType.UnaryOperator, f⟩ :: ⟨TokenType.OpenScope, "("⟩ ::
        (ts.dropLast ++ [⟨TokenType.CloseScope, ")"⟩, ⟨TokenType.EndOfFile, "#"⟩]),
        2 + (ts.length - 1)⟩ = true := by
    simp only [check_eq, peek_eq]
    rw [show 2 + (ts.length - 1) = (ts.length - 1) + 1 + 1 by omega, List.getD_cons_succ,
      List.getD_cons_succ, List.getD_append_right _ _ _ _ (by simp)]
    simp
  have hend : isAtEnd (Parser.next
      ⟨⟨TokenType.UnaryOperator, f⟩ :: ⟨TokenType.OpenScope, "("⟩ ::
        (ts.dropLast ++ [⟨TokenType.CloseScope, ")"⟩, ⟨TokenType.EndOfFile, "#"⟩]),
        2 + (ts.length - 1)⟩) = true := by
    simp only [isAtEnd, peek_eq, next, decide_eq_true_eq]
    rw [show 2 + (ts.length - 1) + 1 = (ts.length - 1 + 1) + 1 + 1 by omega, List.getD_cons_succ,
      List.getD_cons_succ, List.getD_append_right _ _ _ _ (by simp)]
    simp
  refine ⟨_, _, lex_call f e ts hf hl, Run.unary_expression ?_ (isAtEnd_not_binary hend), hend⟩
  exact Run.unaryCall (p := ⟨_, 0⟩) (by simp [check_eq, peek]) (by simp [check_eq, peek, next])
    r hclose hnn

/-- Instance of C8: `cos(x + 1)`. -/
theorem C8_unary_function_call_witness :
    parse "x + 1"
      = Outcome.ok (NodePtr.node ⟨TokenType.BinaryOperator, "+"⟩
          (AST.createLeaf ⟨TokenType.ID, "x"⟩) (AST.createLeaf ⟨TokenType.Number, "1"⟩))
    ∧ parse "cos(x + 1)"
      = Outcome.ok (NodePtr.node ⟨TokenType.UnaryOperator, "cos"⟩
          (NodePtr.node ⟨TokenType.BinaryOperator, "+"⟩
            (AST.createLeaf ⟨TokenType.ID, "x"⟩) (AST.createLeaf ⟨TokenType.Number, "1"⟩))
          NodePtr.null) :=
  ⟨by decide!, C8_unary_function_call "cos" "x + 1" _ (by decide) (by decide!)⟩

/-- C9: a lambda body extends to the end of the enclosing expression.  For a
single-letter identifier `x` and a source `e` that parses on its own to the tree
`t`, the source `lambda x. e` parses to the `Lambda` node whose left child is
the `ID` leaf `x` and whose right child is `t`. -/
theorem C9_lambda_body_extends (x e : String) (t : NodePtr) (hx : isLetter x = true)
    (h : parse e = Outcome.ok t) :
    parse ("lambda " ++ x ++ ". " ++ e)
      = Outcome.ok (NodePtr.node ⟨TokenType.Lambda, "lambda"⟩
          (AST.createLeaf ⟨TokenType.ID, x⟩) t) := by
  rw [parse_eq_ok] at h ⊢
  obtain ⟨ts, q, hl, hr, he⟩ := h
  have hq := hr.target
  rw [hq] at hr he
  generalize q.current_index_ = j at hr he
  have r3 := hr.append_left
    [⟨TokenType.Lambda, "lambda"⟩, ⟨TokenType.ID, x⟩, ⟨TokenType.Dot, "."⟩]
  simp only [List.length_cons, List.length_nil, List.cons_append, List.nil_append] at r3
  have hend : isAtEnd ⟨⟨TokenType.Lambda, "lambda"⟩ :: ⟨TokenType.ID, x⟩ ::
      ⟨TokenType.Dot, "."⟩ :: ts, 0 + 1 + 1 + 1 + j⟩ = true := by
    simp only [isAtEnd, peek_eq, decide_eq_true_eq] at he ⊢
    simpa [Nat.add_comm] using he
  refine ⟨_, _, lex_lambda x e ts hx hl, Run.unary_expression ?_ (isAtEnd_not_binary hend), hend⟩
  exact Run.unaryLambda (p := ⟨_, 0⟩) (by simp [check_eq, peek]) (by simp [isSign, check_eq, peek])
    (by simp [check_eq, peek]) (by simp [check_eq, peek, next])
    (by simp [check_eq, peek, next]) r3

/-- Instance of C9: `lambda x. (x * x) + 1`. -/
theorem C9_lambda_body_extends_witness :
    parse "(x * x) + 1"
      = Outcome.ok (NodePtr.node ⟨TokenType.BinaryOperator, "+"⟩
          (NodePtr.node ⟨TokenType.BinaryOperator, "*"⟩ (AST.createLeaf ⟨TokenType.ID, "x"⟩)
            (AST.createLeaf ⟨TokenType.ID, "x"⟩))
          (AST.createLeaf ⟨TokenType.Number, "1"⟩))
    ∧ parse "lambda x. (x * x) + 1"
      = Outcome.ok (NodePtr.node ⟨TokenType.Lambda, "lambda"⟩
          (AST.createLeaf ⟨TokenType.ID, "x"⟩)
          (NodePtr.node ⟨TokenType.BinaryOperator, "+"⟩
            (NodePtr.node ⟨TokenType.BinaryOperator, "*"⟩ (AST.createLeaf ⟨TokenType.ID, "x"⟩)
              (AST.createLeaf ⟨TokenType.ID, "x"⟩))
            (AST.createLeaf ⟨TokenType.Number, "1"⟩))) :=
  ⟨by decide!, C9_lambda_body_extends "x" "(x * x) + 1" _ (by decide) (by decide!)⟩

/-- C10: every tree returned by `Parser::buildAST` is a node and satisfies the
shape invariants of the data model at every node. -/
theorem C10_shape_invariants (p : Parser) (t : NodePtr) (h : p.buildAST = Outcome.ok t) :
    t ≠ NodePtr.null ∧ ShapeOK t = true := by
  rw [buildAST_eq_ok] at h
  obtain ⟨q, hr, -⟩ := h
  exact ⟨hr.basic.2.2.2.2 trivial, hr.shape rfl⟩

/-- Instance of C10: the tree of `cos(x) + 1`. -/
theorem C10_shape_invariants_witness :
    Parser.buildAST
        ⟨[⟨TokenType.UnaryOperator, "cos"⟩, ⟨TokenType.OpenScope, "("⟩, ⟨TokenType.ID, "x"⟩,
          ⟨TokenType.CloseScope, ")"⟩, ⟨TokenType.BinaryOperator, "+"⟩,
          ⟨TokenType.Number, "1"⟩, ⟨TokenType.EndOfFile, "#"⟩], 0⟩
      = Outcome.ok (NodePtr.node ⟨TokenType.BinaryOperator, "+"⟩
          (NodePtr.node ⟨TokenType.UnaryOperator, "cos"⟩ (AST.createLeaf ⟨TokenType.ID, "x"⟩)
            NodePtr.null)
          (AST.createLeaf ⟨TokenType.Number, "1"⟩))
    ∧ ShapeOK (NodePtr.node ⟨TokenType.BinaryOperator, "+"⟩
          (NodePtr.node ⟨TokenType.UnaryOperator, "cos"⟩ (AST.createLeaf ⟨TokenType.ID, "x"⟩)
            NodePtr.null)
          (AST.createLeaf ⟨TokenType.Number, "1"⟩)) = true :=
  ⟨by decide!,
    (C10_shape_invariants
      ⟨[⟨TokenType.UnaryOperator, "cos"⟩, ⟨TokenType.OpenScope, "("⟩, ⟨TokenType.ID, "x"⟩,
        ⟨TokenType.CloseScope, ")"⟩, ⟨TokenType.BinaryOperator, "+"⟩,
        ⟨TokenType.Number, "1"⟩, ⟨TokenType.EndOfFile, "#"⟩], 0⟩ _ (by decide!)).2⟩

/-! ### Failures -/

/-- C11: when `parseExpression` returns with the cursor at a token other than
`EndOfFile`, `Parser::buildAST` throws `UnprocessedTokensError` with the text of
that token and returns no tree; when `buildAST` returns a tree, the top-level
expression ended at an `EndOfFile` token and no token before that position is
`EndOfFile`, so all tokens before it were consumed.  The sources `x )` and `1 2`
fail with `UnprocessedTokensError`. -/
theorem C11_unprocessed_tokens (p : Parser) :
    (∀ fuel t q, parseExpression fuel { p with current_index_ := 0 } = Outcome.ok (t, q) →
        q.isAtEnd = false →
        p.buildAST = Outcome.thrown (ParserException.UnprocessedTokensError q.peek.value))
    ∧ (∀ t, p.buildAST = Outcome.ok t →
        ∃ q, parseExpression (fuelFor { p with current_index_ := 0 })
              { p with current_index_ := 0 } = Outcome.ok (t, q)
          ∧ q.tokens_ = p.tokens_ ∧ q.peek.type = TokenType.EndOfFile
          ∧ ∀ k, k < q.current_index_ → (p.tokenAt k).type ≠ TokenType.EndOfFile)
    ∧ parse "x )" = Outcome.thrown (ParserException.UnprocessedTokensError ")")
    ∧ parse "1 2" = Outcome.thrown (ParserException.UnprocessedTokensError "2") := by
  refine ⟨?_, ?_, by decide!, by decide!⟩
  · intro fuel t q h hq
    have hr := run_of_parseAt fuel Level.expression _ t q h
    have h1 := (parseExpression_fuelFor_eq_ok _ t q).2 hr
    simp only [buildAST, h1, Outcome.bind_ok, hq]
    rfl
  · intro t h
    rw [buildAST_eq_ok] at h
    obtain ⟨q, hr, he⟩ := h
    refine ⟨q, (parseExpression_fuelFor_eq_ok _ t q).2 hr, hr.basic.1, ?_, ?_⟩
    · simpa [isAtEnd] using he
    · intro k hk
      exact (hr.consumed k (Nat.zero_le _) hk).1

/-- C12 (the code diverges): for a source of white space only, the empty
source included, `tokenizeAll` returns the single token `EndOfFile`, so the
guard `tokens_.empty()` of the constructor does not fire; `buildAST` then throws
`SyntaxError("Unexpected token: #")` from `parsePrimary`.  No source makes the
pipeline throw `EmptyInputError`. -/
theorem C12_empty_input (input : String) (h : ∀ c ∈ input.data, isspace c = true) :
    Parser.new input = Outcome.ok ⟨[⟨TokenType.EndOfFile, "#"⟩], 0⟩
    ∧ parse input = Outcome.thrown (ParserException.SyntaxError "Unexpected token: #")
    ∧ ∀ s : String, Parser.new s ≠ Outcome.thrown ParserException.EmptyInputError
        ∧ parse s ≠ Outcome.thrown ParserException.EmptyInputError := by
  have hnew : Parser.new input = Outcome.ok ⟨[⟨TokenType.EndOfFile, "#"⟩], 0⟩ :=
    (new_eq_ok input _).2 ⟨Lex.spaces h, rfl⟩
  refine ⟨hnew, ?_, ?_⟩
  · simp only [parse, hnew, Outcome.bind_ok]
    decide!
  · intro s
    constructor
    · intro hc
      obtain ⟨-, v, hv⟩ := new_thrown s _ hc
      exact absurd hv (by simp)
    · intro hc
      rcases parse_thrown s _ hc with h1 | ⟨v, hv⟩
      · exact absurd h1 (by decide)
      · exact absurd hv (by simp)

/-- Instances of C12: the empty source and a source of blanks. -/
theorem C12_empty_input_witness :
    parse "" = Outcome.thrown (ParserException.SyntaxError "Unexpected token: #")
    ∧ parse " \t " = Outcome.thrown (ParserException.SyntaxError "Unexpected token: #") :=
  ⟨(C12_empty_input "" (by decide)).2.1, (C12_empty_input " \t " (by decide)).2.1⟩

/-- C13 (as stated, refuted): `1 +` fails with `SyntaxError` and the unclosed
`(x + 1` with `UnexpectedTokenError`, neither with `UnexpectedEOFError`. -/
theorem C13_not_unexpected_eof :
    parse "1 +" = Outcome.thrown (ParserException.SyntaxError "Unexpected token: #")
    ∧ parse "(x + 1"
        = Outcome.thrown (ParserException.UnexpectedTokenError "closing parenthesis" "#")
    ∧ parse "1 +" ≠ Outcome.thrown ParserException.UnexpectedEOFError
    ∧ parse "(x + 1" ≠ Outcome.thrown ParserException.UnexpectedEOFError := by
  have h1 : parse "1 +"
      = Outcome.thrown (ParserException.SyntaxError "Unexpected token: #") := by decide!
  have h2 : parse "(x + 1"
      = Outcome.thrown (ParserException.UnexpectedTokenError "closing parenthesis" "#") := by
    decide!
  refine ⟨h1, h2, ?_, ?_⟩
  · rw [h1]; simp
  · rw [h2]; simp

/-- C13 (amended): when only `EndOfFile` remains, a parsing function that needs
an operand throws `SyntaxError` with the text `Unexpected token: ` followed by
the text of the end-of-file token, and `consume` throws `UnexpectedTokenError`
with the expected text and the text of the end-of-file token; `buildAST` and the
pipeline never throw `UnexpectedEOFError`. -/
theorem C13_end_of_input (p : Parser) (h : p.isAtEnd = true) :
    (∀ fuel, parsePrimary (fuel + 1) p
        = Outcome.thrown (ParserException.SyntaxError ("Unexpected token: " ++ p.peek.value)))
    ∧ (∀ l : Level, l.isLoop = false → ∀ fuel, l.rank ≤ fuel →
        parseAt l fuel p
          = Outcome.thrown (ParserException.SyntaxError ("Unexpected token: " ++ p.peek.value)))
    ∧ (∀ type message, consume type message p
        = Outcome.thrown (ParserException.UnexpectedTokenError message p.peek.value))
    ∧ (∀ q : Parser, q.buildAST ≠ Outcome.thrown ParserException.UnexpectedEOFError)
    ∧ (∀ input : String, parse input ≠ Outcome.thrown ParserException.UnexpectedEOFError) := by
  refine ⟨parsePrimary_isAtEnd h, ?_, ?_, ?_, ?_⟩
  · intro l hl fuel hf
    have hu := parseUnary_isAtEnd h 0
    obtain ⟨a, b, c, d⟩ := thrown_of_parseUnary hu
    cases l with
    | expression => exact parseAt_mono_thrown (l := Level.expression) hf d
    | addition => exact parseAt_mono_thrown (l := Level.addition) hf c
    | additionLoop node => simp [Level.isLoop] at hl
    | multiplication => exact parseAt_mono_thrown (l := Level.multiplication) hf b
    | multiplicationLoop node => simp [Level.isLoop] at hl
    | exponentiation => exact parseAt_mono_thrown (l := Level.exponentiation) hf a
    | unary => exact parseAt_mono_thrown (l := Level.unary) hf hu
    | primary => exact parseAt_mono_thrown (l := Level.primary) hf (parsePrimary_isAtEnd h 0)
  · intro type message
    rw [consume_eq]
    simp [check_of_isAtEnd h]
  · intro q hc
    rcases buildAST_thrown q _ hc with h1 | ⟨v, hv⟩
    · exact absurd h1 (by decide)
    · exact absurd hv (by simp)
  · intro input hc
    rcases parse_thrown input _ hc with h1 | ⟨v, hv⟩
    · exact absurd h1 (by decide)
    · exact absurd hv (by simp)

/-- Instance of C13: the state after `1 +`. -/
theorem C13_end_of_input_witness :
    parseExpression 6
        ⟨[⟨TokenType.Number, "1"⟩, ⟨TokenType.BinaryOperator, "+"⟩, ⟨TokenType.EndOfFile, "#"⟩], 2⟩
      = Outcome.thrown (ParserException.SyntaxError "Unexpected token: #") :=
  (C13_end_of_input
    ⟨[⟨TokenType.Number, "1"⟩, ⟨TokenType.BinaryOperator, "+"⟩, ⟨TokenType.EndOfFile, "#"⟩], 2⟩
    (by decide)).2.1 Level.expression rfl 6 (by decide)

/-- C17: when `Tokenizer::tokenizeAll` returns, the token vector is not empty,
its last token is `EndOfFile`, no earlier token is `EndOfFile`, and no token
has the kind `Error`. -/
theorem C17_token_vector (t : Tokenizer) (ts : List Token) (t1 : Tokenizer)
    (h : t.tokenizeAll = Outcome.ok (ts, t1)) :
    ts ≠ []
    ∧ ts.getLast?.map Token.type = some TokenType.EndOfFile
    ∧ (∀ k tok, ts[k]? = some tok → k + 1 < ts.length → tok.type ≠ TokenType.EndOfFile)
    ∧ ∀ tok ∈ ts, tok.type ≠ TokenType.Error := by
  have hl : Lex t.input_ ts := (tokenizeAll_eq_ok t ts).1 ⟨t1, h⟩
  refine ⟨hl.ne_nil, hl.getLast, ?_, hl.no_error⟩
  intro k tok hk hlt
  have := hl.not_eof k hlt
  rwa [List.getD_eq_getElem?_getD, hk] at this

/-- Instance of C17: the tokens of `2 + 3`. -/
theorem C17_token_vector_witness :
    (Tokenizer.new "2 + 3").tokenizeAll
        = Outcome.ok ([⟨TokenType.Number, "2"⟩, ⟨TokenType.BinaryOperator, "+"⟩,
            ⟨TokenType.Number, "3"⟩, ⟨TokenType.EndOfFile, "#"⟩], ⟨"2 + 3".data, 5⟩)
    ∧ [⟨TokenType.Number, "2"⟩, ⟨TokenType.BinaryOperator, "+"⟩,
        ⟨TokenType.Number, "3"⟩, (⟨TokenType.EndOfFile, "#"⟩ : Token)] ≠ [] :=
  have h : (Tokenizer.new "2 + 3").tokenizeAll
      = Outcome.ok ([⟨TokenType.Number, "2"⟩, ⟨TokenType.BinaryOperator, "+"⟩,
          ⟨TokenType.Number, "3"⟩, ⟨TokenType.EndOfFile, "#"⟩], ⟨"2 + 3".data, 5⟩) := by decide!
  ⟨h, (C17_token_vector _ _ _ h).1⟩

/-- C18: after any number of `nextToken` calls on a tokenizer of a source,
`reset` restores the state of a fresh tokenizer of that source, so every scan
after it returns what the fresh tokenizer returns; `tokenizeAll` returns the
same result (tokens or exception) from every scan position, and a second call
of `tokenizeAll` returns what the first call returned. -/
theorem C18_reset_idempotent (input : String) (n : Nat) :
    ((Tokenizer.new input).afterCalls n).reset = Tokenizer.new input
    ∧ (∀ m, (((Tokenizer.new input).afterCalls n).reset.afterCalls m).nextToken
        = ((Tokenizer.new input).afterCalls m).nextToken)
    ∧ ((Tokenizer.new input).afterCalls n).tokenizeAll = (Tokenizer.new input).tokenizeAll
    ∧ (∀ t : Tokenizer, t.input_ = input.data →
        t.tokenizeAll = (Tokenizer.new input).tokenizeAll)
    ∧ (∀ ts t1, (Tokenizer.new input).tokenizeAll = Outcome.ok (ts, t1) →
        t1.tokenizeAll = Outcome.ok (ts, t1)) := by
  have h1 : ((Tokenizer.new input).afterCalls n).reset = Tokenizer.new input := by
    simp only [reset, afterCalls_input]
    rfl
  refine ⟨h1, fun m => by rw [h1], ?_, ?_, ?_⟩
  · exact tokenizeAll_congr (afterCalls_input n _)
  · intro t ht
    exact tokenizeAll_congr ht
  · intro ts t1 h
    have hi : t1.input_ = (Tokenizer.new input).input_ := by
      have := tokenizeAllLoop_input _ _ _ _ _ h
      simpa [reset] using this
    rw [tokenizeAll_congr hi, h]

/-! ### Tree -/

/-- C19: for every tree, `LCRTraversal` is the in-order sequence
`LCR(left) ++ [node] ++ LCR(right)`, `LRCTraversal` the post-order sequence
`LRC(left) ++ LRC(right) ++ [node]` and `CRLTraversal` the pre-order sequence
`[node] ++ CRL(left) ++ CRL(right)`; each is empty for the empty tree; and
`util::CollectNodesPreOrder` appends to its output exactly the sequence of
`CRLTraversal` (with the positions seen from where the node stands). -/
theorem C19_traversal_orders (root : NodePtr) :
    AST.LCRTraversal ⟨root⟩ = inOrder root
    ∧ AST.LRCTraversal ⟨root⟩ = postOrder root
    ∧ AST.CRLTraversal ⟨root⟩ = preOrder root
    ∧ (∀ token left right,
        AST.LCRTraversal ⟨NodePtr.node token left right⟩
          = (AST.LCRTraversal ⟨left⟩).map (NodeRef.under false)
            ++ [⟨[], NodePtr.node token left right⟩]
            ++ (AST.LCRTraversal ⟨right⟩).map (NodeRef.under true)
        ∧ AST.LRCTraversal ⟨NodePtr.node token left right⟩
          = (AST.LRCTraversal ⟨left⟩).map (NodeRef.under false)
            ++ (AST.LRCTraversal ⟨right⟩).map (NodeRef.under true)
            ++ [⟨[], NodePtr.node token left right⟩]
        ∧ AST.CRLTraversal ⟨NodePtr.node token left right⟩
          = [⟨[], NodePtr.node token left right⟩]
            ++ (AST.CRLTraversal ⟨left⟩).map (NodeRef.under false)
            ++ (AST.CRLTraversal ⟨right⟩).map (NodeRef.under true))
    ∧ AST.LCRTraversal ⟨NodePtr.null⟩ = []
    ∧ AST.LRCTraversal ⟨NodePtr.null⟩ = []
    ∧ AST.CRLTraversal ⟨NodePtr.null⟩ = []
    ∧ (∀ path out, util.CollectNodesPreOrder root path out
        = out ++ (AST.CRLTraversal ⟨root⟩).map (NodeRef.below path))
    ∧ util.CollectNodesPreOrder root [] [] = AST.CRLTraversal ⟨root⟩ := by
  refine ⟨AST.LCRTraversal_eq root, AST.LRCTraversal_eq root, AST.CRLTraversal_eq root, ?_,
    rfl, rfl, rfl, ?_, ?_⟩
  · intro token left right
    simp only [AST.LCRTraversal_eq, AST.LRCTraversal_eq, AST.CRLTraversal_eq, inOrder,
      postOrder, preOrder, and_self]
  · intro path out
    rw [AST.CRLTraversal_eq, util.CollectNodesPreOrder_eq]
  · rw [AST.CRLTraversal_eq, util.CollectNodesPreOrder_eq, NodeRef.map_below_nil]
    rfl

/-- C20: for every tree, each of the three traversals consists of references
to nodes of the tree and contains the reference to every node exactly once; the
three results are permutations of one another; and their common length is
`util::NodeCount(root)`, which is 0 for the empty tree and
`1 + NodeCount(left) + NodeCount(right)` for a node. -/
theorem C20_traversals_cover (root : NodePtr) :
    (∀ r : NodeRef, (r ∈ AST.LCRTraversal ⟨root⟩ ↔ r.isNodeOf root)
      ∧ (r ∈ AST.LRCTraversal ⟨root⟩ ↔ r.isNodeOf root)
      ∧ (r ∈ AST.CRLTraversal ⟨root⟩ ↔ r.isNodeOf root))
    ∧ (∀ r : NodeRef, r.isNodeOf root →
        (AST.LCRTraversal ⟨root⟩).count r = 1 ∧ (AST.LRCTraversal ⟨root⟩).count r = 1
        ∧ (AST.CRLTraversal ⟨root⟩).count r = 1)
    ∧ (AST.LCRTraversal ⟨root⟩).Perm (AST.LRCTraversal ⟨root⟩)
    ∧ (AST.LRCTraversal ⟨root⟩).Perm (AST.CRLTraversal ⟨root⟩)
    ∧ (AST.LCRTraversal ⟨root⟩).length = util.NodeCount root
    ∧ (AST.LRCTraversal ⟨root⟩).length = util.NodeCount root
    ∧ (AST.CRLTraversal ⟨root⟩).length = util.NodeCount root
    ∧ util.NodeCount NodePtr.null = 0
    ∧ ∀ token left right, util.NodeCount (NodePtr.node token left right)
        = 1 + util.NodeCount left + util.NodeCount right := by
  rw [AST.LCRTraversal_eq, AST.LRCTraversal_eq, AST.CRLTraversal_eq]
  have hin := inOrder_perm root
  have hpost := postOrder_perm root
  have hmem : ∀ r : NodeRef, (r ∈ inOrder root ↔ r.isNodeOf root)
      ∧ (r ∈ postOrder root ↔ r.isNodeOf root) ∧ (r ∈ preOrder root ↔ r.isNodeOf root) :=
    fun r => ⟨by rw [hin.mem_iff, preOrder_mem], by rw [hpost.mem_iff, preOrder_mem],
      preOrder_mem root r⟩
  refine ⟨hmem, ?_, hin.trans hpost.symm, hpost, ?_, ?_, preOrder_length root, rfl,
    fun _ _ _ => rfl⟩
  · intro r hr
    have h3 : (preOrder root).count r = 1 :=
      List.count_eq_one_of_mem (preOrder_nodup root) ((preOrder_mem root r).2 hr)
    exact ⟨by rw [hin.count_eq, h3], by rw [hpost.count_eq, h3], h3⟩
  · rw [hin.length_eq, preOrder_length]
  · rw [hpost.length_eq, preOrder_length]

/-- C21: `AST::height()` is 0 for the empty tree and
`1 + max(height(left), height(right))` for a tree with a root node, and it
equals `util::Height(root)` for every tree. -/
theorem C21_height (root : NodePtr) :
    AST.height ⟨NodePtr.null⟩ = 0
    ∧ (∀ token left right, AST.height ⟨NodePtr.node token left right⟩
        = 1 + max (AST.height ⟨left⟩) (AST.height ⟨right⟩))
    ∧ AST.height ⟨root⟩ = util.Height root := by
  refine ⟨rfl, fun _ _ _ => rfl, ?_⟩
  simp only [AST.height]
  induction root with
  | null => rfl
  | node token left right ihl ihr => simp only [AST.heightRec, util.Height, ihl, ihr]

/-! ### Closed subtrees -/

/-- C27: for every well-formed tree `t` and bound set `B`,
`util::IsClosedSubtree(t, B)` holds iff every free variable of `t` (an `ID`
occurrence that is not a parameter leaf and does not lie in the body of a
`Lambda` of `t` with that parameter name) is in `B`; a `Number` node is closed
under every `B`; and a `BinaryOperator` node is closed iff both children are
closed under the same `B`. -/
theorem C27_closed_subtree (t : NodePtr) (B : List String) (h : ShapeOK t = true) :
    (util.IsClosedSubtree t B = true ↔ ∀ x ∈ freeVariables t, x ∈ B)
    ∧ (∀ token left right, token.type = TokenType.Number →
        util.IsClosedSubtree (NodePtr.node token left right) B = true)
    ∧ (∀ token left right, token.type = TokenType.BinaryOperator →
        util.IsClosedSubtree (NodePtr.node token left right) B
          = (util.IsClosedSubtree left B && util.IsClosedSubtree right B)) := by
  refine ⟨util.IsClosedSubtree_iff t B h, ?_, ?_⟩
  · intro token left right ht
    simp [util.IsClosedSubtree, ht]
  · intro token left right ht
    simp [util.IsClosedSubtree, ht]

/-- Instance of C27: `lambda x. y + 1` is closed under `{y}` and not under the
empty set. -/
theorem C27_closed_subtree_witness :
    (util.IsClosedSubtree
        (NodePtr.node ⟨TokenType.Lambda, "lambda"⟩ (AST.createLeaf ⟨TokenType.ID, "x"⟩)
          (NodePtr.node ⟨TokenType.BinaryOperator, "+"⟩ (AST.createLeaf ⟨TokenType.ID, "y"⟩)
            (AST.createLeaf ⟨TokenType.Number, "1"⟩))) ["y"] = true
      ↔ ∀ x ∈ freeVariables
          (NodePtr.node ⟨TokenType.Lambda, "lambda"⟩ (AST.createLeaf ⟨TokenType.ID, "x"⟩)
            (NodePtr.node ⟨TokenType.BinaryOperator, "+"⟩ (AST.createLeaf ⟨TokenType.ID, "y"⟩)
              (AST.createLeaf ⟨TokenType.Number, "1"⟩))), x ∈ ["y"])
    ∧ util.IsClosedSubtree
        (NodePtr.node ⟨TokenType.Lambda, "lambda"⟩ (AST.createLeaf ⟨TokenType.ID, "x"⟩)
          (NodePtr.node ⟨TokenType.BinaryOperator, "+"⟩ (AST.createLeaf ⟨TokenType.ID, "y"⟩)
            (AST.createLeaf ⟨TokenType.Number, "1"⟩))) ["y"] = true
    ∧ util.IsClosedSubtree
        (NodePtr.node ⟨TokenType.Lambda, "lambda"⟩ (AST.createLeaf ⟨TokenType.ID, "x"⟩)
          (NodePtr.node ⟨TokenType.BinaryOperator, "+"⟩ (AST.createLeaf ⟨TokenType.ID, "y"⟩)
            (AST.createLeaf ⟨TokenType.Number, "1"⟩))) [] = false :=
  ⟨(C27_closed_subtree _ ["y"] (by decide)).1, by decide, by decide⟩

/-! ### Maximal closed subtrees -/

/-- C28: on a well-formed tree `MSPChecker::FindMaximallyClosed` returns the
pre-order subsequence of the nodes that are closed under the bindings of their
enclosing lambdas and whose parent is absent or not closed; a node that is not
closed is never reported. -/
theorem C28_maximally_closed (root : NodePtr) (h : ShapeOK root = true) :
    MSPChecker.FindMaximallyClosed ⟨root⟩ = maximallyClosed root
    ∧ (MSPChecker.FindMaximallyClosed ⟨root⟩).Sublist (AST.CRLTraversal ⟨root⟩)
    ∧ (∀ r : NodeRef, r ∈ MSPChecker.FindMaximallyClosed ⟨root⟩ ↔
        r.isNodeOf root ∧ closedInContext root r.path = true
          ∧ (r.path = [] ∨ closedInContext root r.path.tail = false))
    ∧ ∀ r ∈ MSPChecker.FindMaximallyClosed ⟨root⟩,
        util.IsClosedSubtree r.node (bindingsAt root [] r.path) = true := by
  rw [MSPChecker.FindMaximallyClosed_eq root h, AST.CRLTraversal_eq]
  refine ⟨rfl, List.filter_sublist _, fun r => maximallyClosed_mem, ?_⟩
  intro r hr
  obtain ⟨h1, h2, -⟩ := maximallyClosed_mem.1 hr
  rw [← h1.2]
  exact h2

/-- Instance of C28: in the tree of `lambda x. y + 2` the parameter leaf and
the literal are reported, the `Lambda` node is not. -/
theorem C28_maximally_closed_witness :
    MSPChecker.FindMaximallyClosed
        ⟨NodePtr.node ⟨TokenType.Lambda, "lambda"⟩ (AST.createLeaf ⟨TokenType.ID, "x"⟩)
          (NodePtr.node ⟨TokenType.BinaryOperator, "+"⟩ (AST.createLeaf ⟨TokenType.ID, "y"⟩)
            (AST.createLeaf ⟨TokenType.Number, "2"⟩))⟩
      = maximallyClosed
          (NodePtr.node ⟨TokenType.Lambda, "lambda"⟩ (AST.createLeaf ⟨TokenType.ID, "x"⟩)
            (NodePtr.node ⟨TokenType.BinaryOperator, "+"⟩ (AST.createLeaf ⟨TokenType.ID, "y"⟩)
              (AST.createLeaf ⟨TokenType.Number, "2"⟩)))
    ∧ parse "lambda x. y + 2"
      = Outcome.ok (NodePtr.node ⟨TokenType.Lambda, "lambda"⟩ (AST.createLeaf ⟨TokenType.ID, "x"⟩)
          (NodePtr.node ⟨TokenType.BinaryOperator, "+"⟩ (AST.createLeaf ⟨TokenType.ID, "y"⟩)
            (AST.createLeaf ⟨TokenType.Number, "2"⟩)))
    ∧ MSPChecker.FindMaximallyClosed
        ⟨NodePtr.node ⟨TokenType.Lambda, "lambda"⟩ (AST.createLeaf ⟨TokenType.ID, "x"⟩)
          (NodePtr.node ⟨TokenType.BinaryOperator, "+"⟩ (AST.createLeaf ⟨TokenType.ID, "y"⟩)
            (AST.createLeaf ⟨TokenType.Number, "2"⟩))⟩
      = [⟨[false], AST.createLeaf ⟨TokenType.ID, "x"⟩⟩,
         ⟨[true, true], AST.createLeaf ⟨TokenType.Number, "2"⟩⟩] :=
  ⟨(C28_maximally_closed _ (by decide)).1, by decide!, by decide!⟩

/-- C29: on a well-formed tree (every tree of the parser is one), no node
returned by `MSPChecker::FindMaximallyClosed` is a proper descendant of a closed
node; no returned node lies below another returned node; and two returned nodes
on one root-to-leaf path are the same node. -/
theorem C29_no_nesting (root : NodePtr) (h : ShapeOK root = true) :
    (∀ r ∈ MSPChecker.FindMaximallyClosed ⟨root⟩, ∀ s a : List Bool,
        r.path = s ++ a → s ≠ [] → closedInContext root a = false)
    ∧ (∀ r1 ∈ MSPChecker.FindMaximallyClosed ⟨root⟩,
        ∀ r2 ∈ MSPChecker.FindMaximallyClosed ⟨root⟩,
        ∀ s : List Bool, r2.path = s ++ r1.path → s = [])
    ∧ (∀ r1 ∈ MSPChecker.FindMaximallyClosed ⟨root⟩,
        ∀ r2 ∈ MSPChecker.FindMaximallyClosed ⟨root⟩,
        ∀ leaf s1 s2 : List Bool, leaf = s1 ++ r1.path → leaf = s2 ++ r2.path → r1 = r2) := by
  rw [MSPChecker.FindMaximallyClosed_eq root h]
  have h1 : ∀ r ∈ maximallyClosed root, ∀ s a : List Bool,
      r.path = s ++ a → s ≠ [] → closedInContext root a = false :=
    fun r hr s a hp hs => maximallyClosed_ancestor h hr hp hs
  have h2 : ∀ r1 ∈ maximallyClosed root, ∀ r2 ∈ maximallyClosed root,
      ∀ s : List Bool, r2.path = s ++ r1.path → s = [] := by
    intro r1 hr1 r2 hr2 s hp
    by_contra hs
    have := h1 r2 hr2 s r1.path hp hs
    rw [(maximallyClosed_mem.1 hr1).2.1] at this
    simp at this
  refine ⟨h1, h2, ?_⟩
  intro r1 hr1 r2 hr2 leaf s1 s2 e1 e2
  have hpath : r1.path = r2.path := by
    rw [e1] at e2
    rcases List.append_eq_append_iff.1 e2 with ⟨a, -, ha⟩ | ⟨c, -, hc⟩
    · have := h2 r2 hr2 r1 hr1 a ha
      subst this
      simpa using ha
    · have := h2 r1 hr1 r2 hr2 c hc
      subst this
      simpa using hc.symm
  obtain ⟨⟨-, n1⟩, -⟩ := maximallyClosed_mem.1 hr1
  obtain ⟨⟨-, n2⟩, -⟩ := maximallyClosed_mem.1 hr2
  obtain ⟨p1, nd1⟩ := r1
  obtain ⟨p2, nd2⟩ := r2
  simp only at hpath n1 n2
  subst hpath
  rw [← n1, ← n2]

/-- Instance of C29: in the tree of `lambda x. y + 2` the parameter leaf is
returned, and the root above it is not closed. -/
theorem C29_no_nesting_witness :
    (⟨[false], AST.createLeaf ⟨TokenType.ID, "x"⟩⟩ : NodeRef) ∈ MSPChecker.FindMaximallyClosed
        ⟨NodePtr.node ⟨TokenType.Lambda, "lambda"⟩ (AST.createLeaf ⟨TokenType.ID, "x"⟩)
          (NodePtr.node ⟨TokenType.BinaryOperator, "+"⟩ (AST.createLeaf ⟨TokenType.ID, "y"⟩)
            (AST.createLeaf ⟨TokenType.Number, "2"⟩))⟩
    ∧ closedInContext
        (NodePtr.node ⟨TokenType.Lambda, "lambda"⟩ (AST.createLeaf ⟨TokenType.ID, "x"⟩)
          (NodePtr.node ⟨TokenType.BinaryOperator, "+"⟩ (AST.createLeaf ⟨TokenType.ID, "y"⟩)
            (AST.createLeaf ⟨TokenType.Number, "2"⟩))) [] = false :=
  have h : (⟨[false], AST.createLeaf ⟨TokenType.ID, "x"⟩⟩ : NodeRef)
      ∈ MSPChecker.FindMaximallyClosed
        ⟨NodePtr.node ⟨TokenType.Lambda, "lambda"⟩ (AST.createLeaf ⟨TokenType.ID, "x"⟩)
          (NodePtr.node ⟨TokenType.BinaryOperator, "+"⟩ (AST.createLeaf ⟨TokenType.ID, "y"⟩)
            (AST.createLeaf ⟨TokenType.Number, "2"⟩))⟩ := by decide!
  ⟨h, (C29_no_nesting _ (by decide)).1 _ h [false] [] rfl (by decide)⟩

/-- C30: when the root of a well-formed tree is closed
(`util::IsClosedSubtree(root)` holds), `MSPChecker::FindMaximallyClosed`
returns the root alone; for the empty tree it returns the empty sequence. -/
theorem C30_closed_root (root : NodePtr) (h : ShapeOK root = true) (hn : root ≠ NodePtr.null)
    (hc : util.IsClosedSubtreeRoot root = true) :
    MSPChecker.FindMaximallyClosed ⟨root⟩ = [⟨[], root⟩]
    ∧ MSPChecker.FindMaximallyClosed ⟨NodePtr.null⟩ = [] := by
  refine ⟨?_, rfl⟩
  rw [MSPChecker.FindMaximallyClosed_eq root h]
  have hroot : closedInContext root [] = true := hc
  cases root with
  | null => exact absurd rfl hn
  | node token left right =>
    have e : preOrder (NodePtr.node token left right)
        = ⟨[], NodePtr.node token left right⟩
          :: ((preOrder left).map (NodeRef.under false)
              ++ (preOrder right).map (NodeRef.under true)) := by
      simp [preOrder]
    simp only [maximallyClosed]
    rw [e, List.filter_cons_of_pos (by simpa using hroot)]
    congr 1
    rw [List.filter_eq_nil_iff]
    intro r hr
    have hne : ∃ turn parent, r.path = turn :: parent := by
      simp only [List.mem_append, List.mem_map] at hr
      rcases hr with ⟨a, -, rfl⟩ | ⟨a, -, rfl⟩
      · cases hp : a.path with
        | nil => exact ⟨false, [], by simp [NodeRef.under, hp]⟩
        | cons t p => exact ⟨t, p ++ [false], by simp [NodeRef.under, hp]⟩
      · cases hp : a.path with
        | nil => exact ⟨true, [], by simp [NodeRef.under, hp]⟩
        | cons t p => exact ⟨t, p ++ [true], by simp [NodeRef.under, hp]⟩
    obtain ⟨turn, parent, hp⟩ := hne
    have hpar : closedInContext (NodePtr.node token left right) parent = true := by
      have := closedInContext_below h hroot parent
      rwa [List.append_nil] at this
    simp [hp, hpar]

/-- Instance of C30: the tree of `42`. -/
theorem C30_closed_root_witness :
    parse "42" = Outcome.ok (AST.createLeaf ⟨TokenType.Number, "42"⟩)
    ∧ MSPChecker.FindMaximallyClosed ⟨AST.createLeaf ⟨TokenType.Number, "42"⟩⟩
      = [⟨[], AST.createLeaf ⟨TokenType.Number, "42"⟩⟩] :=
  ⟨by decide!, (C30_closed_root _ (by decide) (by decide) (by decide)).1⟩

/-! ### Repeated subexpressions -/

/-- C23: the sequence returned by `SubexpressionFinder::find` is strictly
ordered by height descending, then count descending, then node count
descending, then canonical string ascending: for `i < j`, record `i` precedes
record `j` in that order, which is the order of the comparator of `find`. -/
theorem C23_strict_order (ast : AST) :
    (SubexpressionFinder.find ast).Pairwise reportOrder
    ∧ (∀ (i j : Nat) (hj : j < (SubexpressionFinder.find ast).length) (hij : i < j),
        reportOrder ((SubexpressionFinder.find ast)[i]) ((SubexpressionFinder.find ast)[j]))
    ∧ ∀ a b, SubexpressionFinder.precedes a b = true ↔ reportOrder a b := by
  have h : (SubexpressionFinder.find ast).Pairwise reportOrder := by
    obtain ⟨root⟩ := ast
    refine List.Pairwise.imp ?_
      ((SubexpressionFinder.sorted_candidates root).sublist
        (SubexpressionFinder.find_sublist root))
    intro a b hab
    exact (SubexpressionFinder.precedes_iff_reportOrder a b).1 hab
  refine ⟨h, ?_, SubexpressionFinder.precedes_iff_reportOrder⟩
  intro i j hj hij
  exact (List.pairwise_iff_getElem.1 h) i j (by omega) hj hij

/-- C24: every record returned by `SubexpressionFinder::find` has a count of
at least 2 that is the length of its list of occurrences, and its occurrences
are exactly the nodes of the tree whose `util::CanonicalForm` is the canonical
string of the record (in post-order); different records have different
canonical strings.  In the tree of `(a + b) + (b + a) + (a + b)` the three sums
of `a` and `b` are counted in one record. -/
theorem C24_records (ast : AST) :
    (∀ r ∈ SubexpressionFinder.find ast,
        2 ≤ r.count ∧ r.count = r.occurrences.length
        ∧ r.occurrences = occurrencesOf ast.root_ r.canonical
        ∧ ∀ nd : NodeRef, nd ∈ r.occurrences ↔
            nd.isNodeOf ast.root_ ∧ util.CanonicalForm nd.node = r.canonical)
    ∧ ((SubexpressionFinder.find ast).map RepeatedSubexpression.canonical).Nodup
    ∧ (parse "(a + b) + (b + a) + (a + b)" = Outcome.ok
        (NodePtr.node ⟨TokenType.BinaryOperator, "+"⟩
          (NodePtr.node ⟨TokenType.BinaryOperator, "+"⟩
            (NodePtr.node ⟨TokenType.BinaryOperator, "+"⟩ (AST.createLeaf ⟨TokenType.ID, "a"⟩)
              (AST.createLeaf ⟨TokenType.ID, "b"⟩))
            (NodePtr.node ⟨TokenType.BinaryOperator, "+"⟩ (AST.createLeaf ⟨TokenType.ID, "b"⟩)
              (AST.createLeaf ⟨TokenType.ID, "a"⟩)))
          (NodePtr.node ⟨TokenType.BinaryOperator, "+"⟩ (AST.createLeaf ⟨TokenType.ID, "a"⟩)
            (AST.createLeaf ⟨TokenType.ID, "b"⟩)))
      ∧ ∃ r ∈ SubexpressionFinder.find
          ⟨NodePtr.node ⟨TokenType.BinaryOperator, "+"⟩
            (NodePtr.node ⟨TokenType.BinaryOperator, "+"⟩
              (NodePtr.node ⟨TokenType.BinaryOperator, "+"⟩ (AST.createLeaf ⟨TokenType.ID, "a"⟩)
                (AST.createLeaf ⟨TokenType.ID, "b"⟩))
              (NodePtr.node ⟨TokenType.BinaryOperator, "+"⟩ (AST.createLeaf ⟨TokenType.ID, "b"⟩)
                (AST.createLeaf ⟨TokenType.ID, "a"⟩)))
            (NodePtr.node ⟨TokenType.BinaryOperator, "+"⟩ (AST.createLeaf ⟨TokenType.ID, "a"⟩)
              (AST.createLeaf ⟨TokenType.ID, "b"⟩))⟩,
          r.canonical = "+(a,b)" ∧ r.count = 3) := by
  obtain ⟨root⟩ := ast
  refine ⟨?_, ?_, by decide!, by decide!⟩
  · intro r hr
    have hm := (SubexpressionFinder.find_sublist root).subset hr
    obtain ⟨h1, h2, h3, -⟩ := SubexpressionFinder.mem_sorted_candidates.1 hm
    refine ⟨by omega, by rw [h2, h3], h3, ?_⟩
    intro nd
    rw [h3]
    simp only [occurrencesOf, List.mem_filter, decide_eq_true_eq,
      (postOrder_perm root).mem_iff, preOrder_mem]
  · have hs := ((SubexpressionFinder.find_sublist root).map RepeatedSubexpression.canonical)
    refine hs.nodup ?_
    have hp := (SubexpressionFinder.sort_perm
      (SubexpressionFinder.candidatesOf (SubexpressionFinder.dfs root [] []).2)).map
        RepeatedSubexpression.canonical
    rw [hp.nodup_iff]
    exact (SubexpressionFinder.candidatesOf_canonical _).nodup
      (SubexpressionFinder.aggregates_spec root).1

/-- C25: when some canonical form occurs at least twice in the tree,
`SubexpressionFinder::find` returns a non-empty sequence whose first record is
the bucket of a repeated form that precedes, in the order of the reports, the
bucket of every other repeated form, so that no bucket has a greater height;
when no canonical form occurs twice the result is empty. -/
theorem C25_first_report (ast : AST) :
    (∀ k, 2 ≤ (occurrencesOf ast.root_ k).length →
      ∃ first rest, SubexpressionFinder.find ast = first :: rest
        ∧ 2 ≤ (occurrencesOf ast.root_ first.canonical).length
        ∧ first.occurrences = occurrencesOf ast.root_ first.canonical
        ∧ ∀ k1, 2 ≤ (occurrencesOf ast.root_ k1).length →
            ∃ c : RepeatedSubexpression, c.canonical = k1
              ∧ c.occurrences = occurrencesOf ast.root_ k1
              ∧ c.count = (occurrencesOf ast.root_ k1).length
              ∧ (∃ nd, c.occurrences.getLast? = some nd ∧ c.height = util.Height nd.node
                  ∧ c.node_count = util.NodeCount nd.node)
              ∧ (c = first ∨ reportOrder first c) ∧ c.height ≤ first.height)
    ∧ ((∀ k, (occurrencesOf ast.root_ k).length < 2) → SubexpressionFinder.find ast = []) := by
  obtain ⟨root⟩ := ast
  simp only
  have hbucket : ∀ k1, 2 ≤ (occurrencesOf root k1).length →
      ∃ c : RepeatedSubexpression, c.canonical = k1
        ∧ c ∈ SubexpressionFinder.sort
            (SubexpressionFinder.candidatesOf (SubexpressionFinder.dfs root [] []).2) := by
    intro k1 hk1
    have hne : occurrencesOf root k1 ≠ [] := by
      intro h0
      rw [h0] at hk1
      simp at hk1
    obtain ⟨a1, a2, a3, a4⟩ := SubexpressionFinder.aggregates_spec root
    obtain ⟨info, hi, hinfo⟩ := a4 k1 hne
    refine ⟨⟨k1, info.nodes.length, info.height, info.node_count, info.nodes⟩, rfl, ?_⟩
    rw [(SubexpressionFinder.sort_perm _).mem_iff, SubexpressionFinder.mem_candidatesOf]
    exact ⟨(k1, info), hi, by simp only [hinfo]; exact hk1, rfl⟩
  constructor
  · intro k hk
    have hn : root ≠ NodePtr.null := by
      intro h0
      subst h0
      simp [occurrencesOf, postOrder] at hk
    obtain ⟨c0, -, hc0⟩ := hbucket k hk
    have hsorted := SubexpressionFinder.sorted_candidates root
    cases hl : SubexpressionFinder.sort
        (SubexpressionFinder.candidatesOf (SubexpressionFinder.dfs root [] []).2) with
    | nil =>
      rw [hl] at hc0
      simp at hc0
    | cons first tl =>
      have hfirst : first ∈ SubexpressionFinder.sort
          (SubexpressionFinder.candidatesOf (SubexpressionFinder.dfs root [] []).2) := by
        rw [hl]; exact List.mem_cons_self _ _
      obtain ⟨f1, f2, f3, f4⟩ := SubexpressionFinder.mem_sorted_candidates.1 hfirst
      have hacc : SubexpressionFinder.accept ([], []) first
          = (first.occurrences.map NodeRef.path, [first]) := by
        have hocc : first.occurrences ≠ [] := by
          intro h0
          rw [f3] at h0
          rw [h0] at f1
          simp at f1
        simp only [SubexpressionFinder.accept]
        rw [if_neg]
        · simp
        · rw [List.all_eq_true]
          intro hall
          obtain ⟨x, hx⟩ := List.exists_mem_of_ne_nil _ hocc
          have := hall x hx
          rw [SubexpressionFinder.HasCoveredAncestor_iff] at this
          obtain ⟨s, a, ha, -⟩ := this
          simp at ha
      obtain ⟨l1, -, h2⟩ := SubexpressionFinder.foldl_accept tl
        (first.occurrences.map NodeRef.path, [first])
      refine ⟨first, l1, ?_, f1, f3, ?_⟩
      · rw [SubexpressionFinder.find_eq hn, hl, List.foldl_cons, hacc, h2]
        rfl
      · intro k1 hk1
        obtain ⟨c, hc1, hc2⟩ := hbucket k1 hk1
        obtain ⟨g1, g2, g3, g4⟩ := SubexpressionFinder.mem_sorted_candidates.1 hc2
        rw [hc1] at g2 g3
        have hord : c = first ∨ reportOrder first c := by
          rw [hl] at hc2 hsorted
          rcases List.mem_cons.1 hc2 with h | h
          · exact Or.inl h
          · right
            rw [← SubexpressionFinder.precedes_iff_reportOrder]
            exact (List.pairwise_cons.1 hsorted).1 c h
        refine ⟨c, hc1, g3, g2, g4, hord, ?_⟩
        rcases hord with h | h
        · rw [h]
        · simp only [reportOrder] at h
          rcases h with h | h
          · exact Nat.le_of_lt h
          · exact Nat.le_of_eq h.1.symm
  · intro hall
    by_cases hn : root = NodePtr.null
    · subst hn; rfl
    have hsub := SubexpressionFinder.find_sublist root
    cases hf : SubexpressionFinder.find ⟨root⟩ with
    | nil => rfl
    | cons r rest =>
      exfalso
      have hr : r ∈ SubexpressionFinder.find ⟨root⟩ := by rw [hf]; exact List.mem_cons_self _ _
      obtain ⟨h1, -⟩ := SubexpressionFinder.mem_sorted_candidates.1 (hsub.subset hr)
      have := hall r.canonical
      omega

/-- C26 (as stated, refuted): in the tree of `(a + b) * (a + b) + a` the
report of `a` is returned with its three occurrences, two of which lie below
the occurrences of the report of `a + b`. -/
theorem C26_overlapping_reports :
    parse "(a + b) * (a + b) + a" = Outcome.ok
      (NodePtr.node ⟨TokenType.BinaryOperator, "+"⟩
        (NodePtr.node ⟨TokenType.BinaryOperator, "*"⟩
          (NodePtr.node ⟨TokenType.BinaryOperator, "+"⟩ (AST.createLeaf ⟨TokenType.ID, "a"⟩)
            (AST.createLeaf ⟨TokenType.ID, "b"⟩))
          (NodePtr.node ⟨TokenType.BinaryOperator, "+"⟩ (AST.createLeaf ⟨TokenType.ID, "a"⟩)
            (AST.createLeaf ⟨TokenType.ID, "b"⟩)))
        (AST.createLeaf ⟨TokenType.ID, "a"⟩))
    ∧ SubexpressionFinder.find
      ⟨NodePtr.node ⟨TokenType.BinaryOperator, "+"⟩
        (NodePtr.node ⟨TokenType.BinaryOperator, "*"⟩
          (NodePtr.node ⟨TokenType.BinaryOperator, "+"⟩ (AST.createLeaf ⟨TokenType.ID, "a"⟩)
            (AST.createLeaf ⟨TokenType.ID, "b"⟩))
          (NodePtr.node ⟨TokenType.BinaryOperator, "+"⟩ (AST.createLeaf ⟨TokenType.ID, "a"⟩)
            (AST.createLeaf ⟨TokenType.ID, "b"⟩)))
        (AST.createLeaf ⟨TokenType.ID, "a"⟩)⟩
      = [⟨"+(a,b)", 2, 2, 3,
          [⟨[false, false], NodePtr.node ⟨TokenType.BinaryOperator, "+"⟩
              (AST.createLeaf ⟨TokenType.ID, "a"⟩) (AST.createLeaf ⟨TokenType.ID, "b"⟩)⟩,
           ⟨[true, false], NodePtr.node ⟨TokenType.BinaryOperator, "+"⟩
              (AST.createLeaf ⟨TokenType.ID, "a"⟩) (AST.createLeaf ⟨TokenType.ID, "b"⟩)⟩]⟩,
         ⟨"a", 3, 1, 1,
          [⟨[false, false, false], AST.createLeaf ⟨TokenType.ID, "a"⟩⟩,
           ⟨[false, true, false], AST.createLeaf ⟨TokenType.ID, "a"⟩⟩,
           ⟨[true], AST.createLeaf ⟨TokenType.ID, "a"⟩⟩]⟩]
    ∧ ¬ nonOverlapping (SubexpressionFinder.find
      ⟨NodePtr.node ⟨TokenType.BinaryOperator, "+"⟩
        (NodePtr.node ⟨TokenType.BinaryOperator, "*"⟩
          (NodePtr.node ⟨TokenType.BinaryOperator, "+"⟩ (AST.createLeaf ⟨TokenType.ID, "a"⟩)
            (AST.createLeaf ⟨TokenType.ID, "b"⟩))
          (NodePtr.node ⟨TokenType.BinaryOperator, "+"⟩ (AST.createLeaf ⟨TokenType.ID, "a"⟩)
            (AST.createLeaf ⟨TokenType.ID, "b"⟩)))
        (AST.createLeaf ⟨TokenType.ID, "a"⟩)⟩) := by
  have e : SubexpressionFinder.find
      ⟨NodePtr.node ⟨TokenType.BinaryOperator, "+"⟩
        (NodePtr.node ⟨TokenType.BinaryOperator, "*"⟩
          (NodePtr.node ⟨TokenType.BinaryOperator, "+"⟩ (AST.createLeaf ⟨TokenType.ID, "a"⟩)
            (AST.createLeaf ⟨TokenType.ID, "b"⟩))
          (NodePtr.node ⟨TokenType.BinaryOperator, "+"⟩ (AST.createLeaf ⟨TokenType.ID, "a"⟩)
            (AST.createLeaf ⟨TokenType.ID, "b"⟩)))
        (AST.createLeaf ⟨TokenType.ID, "a"⟩)⟩
      = [⟨"+(a,b)", 2, 2, 3,
          [⟨[false, false], NodePtr.node ⟨TokenType.BinaryOperator, "+"⟩
              (AST.createLeaf ⟨TokenType.ID, "a"⟩) (AST.createLeaf ⟨TokenType.ID, "b"⟩)⟩,
           ⟨[true, false], NodePtr.node ⟨TokenType.BinaryOperator, "+"⟩
              (AST.createLeaf ⟨TokenType.ID, "a"⟩) (AST.createLeaf ⟨TokenType.ID, "b"⟩)⟩]⟩,
         ⟨"a", 3, 1, 1,
          [⟨[false, false, false], AST.createLeaf ⟨TokenType.ID, "a"⟩⟩,
           ⟨[false, true, false], AST.createLeaf ⟨TokenType.ID, "a"⟩⟩,
           ⟨[true], AST.createLeaf ⟨TokenType.ID, "a"⟩⟩]⟩] := by decide!
  refine ⟨by decide!, e, ?_⟩
  rw [e]
  intro h
  have := h _ (List.mem_cons_of_mem _ (List.mem_cons_self _ _))
    ⟨[false, false, false], AST.createLeaf ⟨TokenType.ID, "a"⟩⟩ (List.mem_cons_self _ _)
    _ (List.mem_cons_self _ _)
    ⟨[false, false], NodePtr.node ⟨TokenType.BinaryOperator, "+"⟩
      (AST.createLeaf ⟨TokenType.ID, "a"⟩) (AST.createLeaf ⟨TokenType.ID, "b"⟩)⟩
    (List.mem_cons_self _ _) [false] rfl
  simp at this

/-- C26 (amended): every record returned by `SubexpressionFinder::find` has at
least one occurrence without a proper ancestor among the occurrences of the
records returned before it. -/
theorem C26_one_uncovered_occurrence (ast : AST) (front : List RepeatedSubexpression)
    (r : RepeatedSubexpression) (back : List RepeatedSubexpression)
    (h : SubexpressionFinder.find ast = front ++ r :: back) :
    ∃ occurrence ∈ r.occurrences, ∀ r1 ∈ front, ∀ ancestor ∈ r1.occurrences,
      ∀ s : List Bool, occurrence.path = s ++ ancestor.path → s = [] := by
  obtain ⟨root⟩ := ast
  by_cases hn : root = NodePtr.null
  · subst hn
    have : SubexpressionFinder.find ⟨NodePtr.null⟩ = [] := rfl
    rw [this] at h
    simp at h
  · rw [SubexpressionFinder.find_eq hn] at h
    have hacc := SubexpressionFinder.foldl_accepted
      (SubexpressionFinder.sort
        (SubexpressionFinder.candidatesOf (SubexpressionFinder.dfs root [] []).2)) ([], [])
      ⟨by simp, by intro front r back he; simp at he⟩
    exact hacc.2 front r back h

/-- Instance of C26: the record of `a` in the tree of `(a + b) * (a + b) + a`,
with its occurrence at the right of the root. -/
theorem C26_one_uncovered_occurrence_witness :
    ∃ occurrence ∈ [(⟨[false, false, false], AST.createLeaf ⟨TokenType.ID, "a"⟩⟩ : NodeRef),
        ⟨[false, true, false], AST.createLeaf ⟨TokenType.ID, "a"⟩⟩,
        ⟨[true], AST.createLeaf ⟨TokenType.ID, "a"⟩⟩],
      ∀ r1 ∈ [(⟨"+(a,b)", 2, 2, 3,
          [⟨[false, false], NodePtr.node ⟨TokenType.BinaryOperator, "+"⟩
              (AST.createLeaf ⟨TokenType.ID, "a"⟩) (AST.createLeaf ⟨TokenType.ID, "b"⟩)⟩,
           ⟨[true, false], NodePtr.node ⟨TokenType.BinaryOperator, "+"⟩
              (AST.createLeaf ⟨TokenType.ID, "a"⟩) (AST.createLeaf ⟨TokenType.ID, "b"⟩)⟩]⟩ :
          RepeatedSubexpression)],
        ∀ ancestor ∈ r1.occurrences,
          ∀ s : List Bool, occurrence.path = s ++ ancestor.path → s = [] :=
  C26_one_uncovered_occurrence
    ⟨NodePtr.node ⟨TokenType.BinaryOperator, "+"⟩
      (NodePtr.node ⟨TokenType.BinaryOperator, "*"⟩
        (NodePtr.node ⟨TokenType.BinaryOperator, "+"⟩ (AST.createLeaf ⟨TokenType.ID, "a"⟩)
          (AST.createLeaf ⟨TokenType.ID, "b"⟩))
        (NodePtr.node ⟨TokenType.BinaryOperator, "+"⟩ (AST.createLeaf ⟨TokenType.ID, "a"⟩)
          (AST.createLeaf ⟨TokenType.ID, "b"⟩)))
      (AST.createLeaf ⟨TokenType.ID, "a"⟩)⟩
    [⟨"+(a,b)", 2, 2, 3,
      [⟨[false, false], NodePtr.node ⟨TokenType.BinaryOperator, "+"⟩
          (AST.createLeaf ⟨TokenType.ID, "a"⟩) (AST.createLeaf ⟨TokenType.ID, "b"⟩)⟩,
       ⟨[true, false], NodePtr.node ⟨TokenType.BinaryOperator, "+"⟩
          (AST.createLeaf ⟨TokenType.ID, "a"⟩) (AST.createLeaf ⟨TokenType.ID, "b"⟩)⟩]⟩]
    ⟨"a", 3, 1, 1,
      [⟨[false, false, false], AST.createLeaf ⟨TokenType.ID, "a"⟩⟩,
       ⟨[false, true, false], AST.createLeaf ⟨TokenType.ID, "a"⟩⟩,
       ⟨[true], AST.createLeaf ⟨TokenType.ID, "a"⟩⟩]⟩
    [] (by decide!)

/-! ### Lexer: lexemes -/

/-- C16: in every token vector returned by `Tokenizer::tokenizeAll`, the text
of every `Number` token is a digit run that is `0` or has no leading zero,
optionally followed by one `.` and at least one digit.  When the unread input
is, after white space, at a digit and the lexeme that starts there (the digits,
and a following `.` with the digits after it) has not that form,
`tokenizeAll` throws `SyntaxError` with the text of the lexeme; `007`, `00` and
`1.` are such lexemes. -/
theorem C16_number_literals (t : Tokenizer) :
    (∀ ts t1, t.tokenizeAll = Outcome.ok (ts, t1) →
        ∀ tok ∈ ts, tok.type = TokenType.Number → numberForm tok.value.data = true)
    ∧ (∀ (fuel : Nat) (acc : List Token) (ws rest : List Char) (c : Char),
        t.input_.drop t.index_ = ws ++ rest → (∀ d ∈ ws, isspace d = true) →
        rest.head? = some c → isdigit c = true → numberForm (numberLexeme rest) = false →
        tokenizeAllLoop (fuel + 1) t acc
          = Outcome.thrown (ParserException.SyntaxError
              ("Unrecognized token: " ++ String.mk (numberLexeme rest))))
    ∧ (∀ (ws rest : List Char) (c : Char),
        t.input_ = ws ++ rest → (∀ d ∈ ws, isspace d = true) →
        rest.head? = some c → isdigit c = true → numberForm (numberLexeme rest) = false →
        t.tokenizeAll
          = Outcome.thrown (ParserException.SyntaxError
              ("Unrecognized token: " ++ String.mk (numberLexeme rest))))
    ∧ (Tokenizer.new "007").tokenizeAll
        = Outcome.thrown (ParserException.SyntaxError "Unrecognized token: 007")
    ∧ (Tokenizer.new "00").tokenizeAll
        = Outcome.thrown (ParserException.SyntaxError "Unrecognized token: 00")
    ∧ (Tokenizer.new "1.").tokenizeAll
        = Outcome.thrown (ParserException.SyntaxError "Unrecognized token: 1.")
    ∧ (Tokenizer.new "x + 1. ").tokenizeAll
        = Outcome.thrown (ParserException.SyntaxError "Unrecognized token: 1.") := by
  have hloop : ∀ (t : Tokenizer) (fuel : Nat) (acc : List Token) (ws rest : List Char) (c : Char),
      t.input_.drop t.index_ = ws ++ rest → (∀ d ∈ ws, isspace d = true) →
      rest.head? = some c → isdigit c = true → numberForm (numberLexeme rest) = false →
      tokenizeAllLoop (fuel + 1) t acc
        = Outcome.thrown (ParserException.SyntaxError
            ("Unrecognized token: " ++ String.mk (numberLexeme rest))) := by
    intro t fuel acc ws rest c hin hws hhead hc hform
    obtain ⟨inp, i⟩ := t
    simp only at hin
    cases rest with
    | nil => simp at hhead
    | cons c1 r =>
      simp only [List.head?_cons, Option.some.injEq] at hhead
      subst hhead
      have hm : matchNumberRe (numberLexeme (c1 :: r)) = false := by
        by_contra hm
        rw [Bool.not_eq_false] at hm
        rw [numberForm_of_matchNumberRe hm] at hform
        simp at hform
      have hn : (nextToken ⟨inp.drop i, 0⟩).1
          = ⟨TokenType.Error, String.mk (numberLexeme (c1 :: r))⟩ := by
        rw [hin, nextToken_blank ws (c1 :: r) (nextToken_spaces hws), nextToken_digit c1 r hc]
        simp [hm]
      rw [tokenizeAllLoop_succ, hn]
      simp
  refine ⟨?_, hloop t, ?_, by decide!, by decide!, by decide!, by decide!⟩
  · intro ts t1 h tok htok hty
    have hl : Lex t.input_ ts := (tokenizeAll_eq_ok t ts).1 ⟨t1, h⟩
    exact numberForm_of_matchNumberRe (hl.number_value tok htok hty)
  · intro ws rest c hin hws hhead hc hform
    simp only [tokenizeAll]
    exact hloop t.reset t.input_.length [] ws rest c (by simpa [reset] using hin) hws hhead hc
      hform

/-- C15: every maximal run of letters `w` of the source is read as one word:
in a token vector returned by `Tokenizer::tokenizeAll` there is a token with the
text `w` whose kind is `Lambda` if `w` is `lambda`, `UnaryOperator` if `w` is one
of the 13 keyword names, and `ID` if `w` has length one; for any other word
`tokenizeAll` throws `SyntaxError` and so does the constructor of `Parser`, so
that no tokens are returned.  The sources `vavava + 1` and `foo(x)` are
rejected. -/
theorem C15_word_classification (input : String) (pre w post : List Char)
    (hs : input.data = pre ++ w ++ post) (hw : w ≠ []) (hall : ∀ c ∈ w, isalpha c = true)
    (hpre : ∀ c, pre.getLast? = some c → isalpha c = false)
    (hpost : ∀ c, post.head? = some c → isalpha c = false) :
    (∀ ts t1, (Tokenizer.new input).tokenizeAll = Outcome.ok (ts, t1) →
        ∃ tok ∈ ts, tok.value = String.mk w ∧ tok.type = wordClass (String.mk w)
          ∧ ((String.mk w = "lambda" ∧ tok.type = TokenType.Lambda)
            ∨ (String.mk w ∈ unaryNames ∧ tok.type = TokenType.UnaryOperator)
            ∨ (w.length = 1 ∧ tok.type = TokenType.ID)))
    ∧ (String.mk w ≠ "lambda" → String.mk w ∉ unaryNames → w.length ≠ 1 →
        ∃ m, (Tokenizer.new input).tokenizeAll
              = Outcome.thrown (ParserException.SyntaxError m)
          ∧ Parser.new input = Outcome.thrown (ParserException.SyntaxError m)
          ∧ parse input = Outcome.thrown (ParserException.SyntaxError m))
    ∧ (Tokenizer.new "vavava + 1").tokenizeAll
        = Outcome.thrown (ParserException.SyntaxError "Unrecognized token: vavava")
    ∧ parse "foo(x)" = Outcome.thrown (ParserException.SyntaxError "Unrecognized token: foo") := by
  have hmem : ∀ ts t1, (Tokenizer.new input).tokenizeAll = Outcome.ok (ts, t1) →
      (⟨wordClass (String.mk w), String.mk w⟩ : Token) ∈ ts
        ∧ wordClass (String.mk w) ≠ TokenType.Error := by
    intro ts t1 h
    have hl : Lex input.data ts := (tokenizeAll_eq_ok (Tokenizer.new input) ts).1 ⟨t1, h⟩
    have hm := hl.word pre w post hs hw hall hpre hpost
    exact ⟨hm, hl.no_error _ hm⟩
  refine ⟨?_, ?_, by decide!, by decide!⟩
  · intro ts t1 h
    obtain ⟨hm, hne⟩ := hmem ts t1 h
    refine ⟨_, hm, rfl, rfl, ?_⟩
    simp only [wordClass] at hne ⊢
    by_cases h1 : String.mk w = "lambda"
    · exact Or.inl ⟨h1, by simp [h1]⟩
    · by_cases h2 : String.mk w ∈ unaryNames
      · exact Or.inr (Or.inl ⟨h2, by simp [h1, h2]⟩)
      · by_cases h3 : w.length = 1
        · exact Or.inr (Or.inr ⟨h3, by simp [h1, h2, String.length, h3]⟩)
        · simp [h1, h2, String.length, h3] at hne
  · intro h1 h2 h3
    have hcls : wordClass (String.mk w) = TokenType.Error := by
      simp [wordClass, h1, h2, String.length, h3]
    cases hx : (Tokenizer.new input).tokenizeAll with
    | ok r =>
      exact absurd hcls (hmem r.1 r.2 hx).2
    | outOfFuel => exact absurd hx (tokenizeAll_ne_outOfFuel _)
    | thrown e =>
      obtain ⟨v, hv⟩ := tokenizeAllLoop_thrown _ _ _ _ hx
      subst hv
      refine ⟨_, rfl, ?_, ?_⟩
      · simp [Parser.new, hx]
      · simp [parse, Parser.new, hx]

/-- Instance of C15: the word `cos` in `2 * cos(x)`. -/
theorem C15_word_classification_witness :
    (Tokenizer.new "2 * cos(x)").tokenizeAll
      = Outcome.ok ([⟨TokenType.Number, "2"⟩, ⟨TokenType.BinaryOperator, "*"⟩,
          ⟨TokenType.UnaryOperator, "cos"⟩, ⟨TokenType.OpenScope, "("⟩, ⟨TokenType.ID, "x"⟩,
          ⟨TokenType.CloseScope, ")"⟩, ⟨TokenType.EndOfFile, "#"⟩], ⟨"2 * cos(x)".data, 10⟩)
    ∧ ∃ tok ∈ [(⟨TokenType.Number, "2"⟩ : Token), ⟨TokenType.BinaryOperator, "*"⟩,
          ⟨TokenType.UnaryOperator, "cos"⟩, ⟨TokenType.OpenScope, "("⟩, ⟨TokenType.ID, "x"⟩,
          ⟨TokenType.CloseScope, ")"⟩, ⟨TokenType.EndOfFile, "#"⟩],
        tok.value = "cos" ∧ tok.type = wordClass "cos"
        ∧ (("cos" = "lambda" ∧ tok.type = TokenType.Lambda)
          ∨ ("cos" ∈ unaryNames ∧ tok.type = TokenType.UnaryOperator)
          ∨ (['c', 'o', 's'].length = 1 ∧ tok.type = TokenType.ID)) :=
  have h : (Tokenizer.new "2 * cos(x)").tokenizeAll
      = Outcome.ok ([⟨TokenType.Number, "2"⟩, ⟨TokenType.BinaryOperator, "*"⟩,
          ⟨TokenType.UnaryOperator, "cos"⟩, ⟨TokenType.OpenScope, "("⟩, ⟨TokenType.ID, "x"⟩,
          ⟨TokenType.CloseScope, ")"⟩, ⟨TokenType.EndOfFile, "#"⟩], ⟨"2 * cos(x)".data, 10⟩) := by
    decide!
  ⟨h, (C15_word_classification "2 * cos(x)" ['2', ' ', '*', ' '] ['c', 'o', 's'] ['(', 'x', ')']
    (by decide) (by decide) (by decide) (by decide) (by decide)).1 _ _ h⟩

/-! ### Parent links -/

/-- C22: `Parser::buildAST`, run on node objects in a fresh memory, returns a
pointer to the objects of the tree it returns on values; among the objects of
the memory after the call the root has no parent, and every other object `n`
has as parent the one object `p` with `p.left = n` or `p.right = n`;
`AST::createNode` sets the parent of the children to the new object, and
`AST::setRoot` clears the parent of the root. -/
theorem C22_parent_links (p : Parser) (t : NodePtr) (hb : p.buildAST = Outcome.ok t) :
    (∃ root h, ObjectParser.buildAST p Heap.empty = Outcome.ok (some root, h)
      ∧ Heap.Represents h (some root) t
      ∧ Heap.WF h
      ∧ h.parentOf root = none
      ∧ ∀ n, n < h.size → n ≠ root →
          ∃ q, h.parentOf n = some q ∧ h.isChildOf n q ∧ ∀ q1, h.isChildOf n q1 → q1 = q)
    ∧ (∀ (h : Heap) (token : Token) (left right : Option Nat) (c : Nat) (n : HeapNode),
        h.cell c = some n → c ≠ h.size → left = some c ∨ right = some c →
        (h.createNode token left right).2.parentOf c = some (h.createNode token left right).1)
    ∧ (∀ (h : Heap) (root : Nat), (h.setRoot (some root)).parentOf root = none) := by
  refine ⟨?_, ?_, ?_⟩
  · obtain ⟨ptr, h1, hy, B⟩ := ObjectParser.buildAST_built hb Heap.empty Heap.wf_empty
    obtain ⟨a, ha, -, -, -, -⟩ := B.root (Parser.buildAST_shape hb).1
    have hrep := B.represents
    subst ha
    refine ⟨a, h1.setRoot (some a), hy, ?_, ?_, ?_, ?_⟩
    · exact Heap.Represents.mono (Heap.Extends.SetParent _ (some a) none) t _ hrep
    · intro b hb
      have hc : h1.cell b = none := B.wf b hb
      simp only [Heap.setRoot, Heap.cell_assignParent, hc]
      split <;> rfl
    · rw [Heap.parentOf_setRoot, if_pos rfl]
    · intro n hlt hne
      have hlt1 : n < h1.size := hlt
      obtain ⟨q, -, hq1, hq2, hq3⟩ := B.parent n (Nat.zero_le _) hlt1
        (by simpa using Ne.symm hne)
      refine ⟨q, ?_, (Heap.isChildOf_setRoot _ _ _ _).2 hq2, ?_⟩
      · rw [Heap.parentOf_setRoot, if_neg hne, hq1]
      · intro q1 hc
        exact hq3 q1 (Nat.zero_le _) ((Heap.isChildOf_setRoot _ _ _ _).1 hc)
  · intro h token left right c n hn hc hlr
    simp only [Heap.createNode, Heap.parentOf, Heap.cell_SetParent, Heap.cell_allocate, hc,
      if_false, hn]
    by_cases hl : left = some c <;> by_cases hr : right = some c
    · simp [hl, hr, Heap.allocate]
    · simp [hl, hr, Heap.allocate]
    · simp [hl, hr, Heap.allocate]
    · exact absurd hlr (by simp [hl, hr])
  · intro h root
    rw [Heap.parentOf_setRoot, if_pos rfl]

/-- Instance of C22: the objects of the tree of `a + b`, where the root is the
object 2, the parent of the leaves 0 and 1; and the objects of the tree of
`-x`, where the operand is the object 0, made before the leaf of the zero, the
object 1. -/
theorem C22_parent_links_witness :
    ((∃ root h, ObjectParser.buildAST
          ⟨[⟨TokenType.ID, "a"⟩, ⟨TokenType.BinaryOperator, "+"⟩, ⟨TokenType.ID, "b"⟩,
            ⟨TokenType.EndOfFile, "#"⟩], 0⟩ Heap.empty = Outcome.ok (some root, h)
        ∧ Heap.Represents h (some root) (NodePtr.node ⟨TokenType.BinaryOperator, "+"⟩
            (AST.createLeaf ⟨TokenType.ID, "a"⟩) (AST.createLeaf ⟨TokenType.ID, "b"⟩))
        ∧ Heap.WF h
        ∧ h.parentOf root = none
        ∧ ∀ n, n < h.size → n ≠ root →
            ∃ q, h.parentOf n = some q ∧ h.isChildOf n q ∧ ∀ q1, h.isChildOf n q1 → q1 = q)
      ∧ (∀ (h : Heap) (token : Token) (left right : Option Nat) (c : Nat) (n : HeapNode),
          h.cell c = some n → c ≠ h.size → left = some c ∨ right = some c →
          (h.createNode token left right).2.parentOf c
            = some (h.createNode token left right).1)
      ∧ (∀ (h : Heap) (root : Nat), (h.setRoot (some root)).parentOf root = none))
    ∧ (ObjectParser.buildAST
          ⟨[⟨TokenType.ID, "a"⟩, ⟨TokenType.BinaryOperator, "+"⟩, ⟨TokenType.ID, "b"⟩,
            ⟨TokenType.EndOfFile, "#"⟩], 0⟩ Heap.empty).bind
        (fun r => Outcome.ok (r.1, r.2.size, r.2.leftOf 2, r.2.rightOf 2))
        = Outcome.ok (some 2, 3, some 0, some 1)
    ∧ (ObjectParser.buildAST
          ⟨[⟨TokenType.ID, "a"⟩, ⟨TokenType.BinaryOperator, "+"⟩, ⟨TokenType.ID, "b"⟩,
            ⟨TokenType.EndOfFile, "#"⟩], 0⟩ Heap.empty).bind
        (fun r => Outcome.ok (r.2.parentOf 0, r.2.parentOf 1, r.2.parentOf 2))
        = Outcome.ok (some 2, some 2, none)
    ∧ (ObjectParser.buildAST
          ⟨[⟨TokenType.BinaryOperator, "-"⟩, ⟨TokenType.ID, "x"⟩,
            ⟨TokenType.EndOfFile, "#"⟩], 0⟩ Heap.empty).bind
        (fun r => Outcome.ok (r.1, r.2.size, r.2.leftOf 2, r.2.rightOf 2))
        = Outcome.ok (some 2, 3, some 1, some 0)
    ∧ (ObjectParser.buildAST
          ⟨[⟨TokenType.BinaryOperator, "-"⟩, ⟨TokenType.ID, "x"⟩,
            ⟨TokenType.EndOfFile, "#"⟩], 0⟩ Heap.empty).bind
        (fun r => Outcome.ok (r.2.parentOf 0, r.2.parentOf 1, r.2.parentOf 2))
        = Outcome.ok (some 2, some 2, none) :=
  ⟨C22_parent_links
      ⟨[⟨TokenType.ID, "a"⟩, ⟨TokenType.BinaryOperator, "+"⟩, ⟨TokenType.ID, "b"⟩,
        ⟨TokenType.EndOfFile, "#"⟩], 0⟩
      (NodePtr.node ⟨TokenType.BinaryOperator, "+"⟩
        (AST.createLeaf ⟨TokenType.ID, "a"⟩) (AST.createLeaf ⟨TokenType.ID, "b"⟩))
      (by decide!),
    by decide!, by decide!, by decide!, by decide!⟩

/-! ### Closedness of the reported nodes -/

/-- C31 (as stated, refuted): in the tree of `lambda x. y + x` the function
`MSPChecker::FindMaximallyClosed` returns the parameter leaf and the occurrence
of `x` in the body, and for both `util::IsClosedSubtree` with the empty bound
set is false. -/
theorem C31_returned_node_with_free_variable :
    parse "lambda x. y + x"
      = Outcome.ok (NodePtr.node ⟨TokenType.Lambda, "lambda"⟩ (AST.createLeaf ⟨TokenType.ID, "x"⟩)
          (NodePtr.node ⟨TokenType.BinaryOperator, "+"⟩ (AST.createLeaf ⟨TokenType.ID, "y"⟩)
            (AST.createLeaf ⟨TokenType.ID, "x"⟩)))
    ∧ MSPChecker.FindMaximallyClosed
        ⟨NodePtr.node ⟨TokenType.Lambda, "lambda"⟩ (AST.createLeaf ⟨TokenType.ID, "x"⟩)
          (NodePtr.node ⟨TokenType.BinaryOperator, "+"⟩ (AST.createLeaf ⟨TokenType.ID, "y"⟩)
            (AST.createLeaf ⟨TokenType.ID, "x"⟩))⟩
      = [⟨[false], AST.createLeaf ⟨TokenType.ID, "x"⟩⟩,
         ⟨[true, true], AST.createLeaf ⟨TokenType.ID, "x"⟩⟩]
    ∧ util.IsClosedSubtree (AST.createLeaf ⟨TokenType.ID, "x"⟩) [] = false
    ∧ util.IsClosedSubtreeRoot (AST.createLeaf ⟨TokenType.ID, "x"⟩) = false :=
  ⟨by decide!, by decide!, by decide!, by decide!⟩

/-- C31 (amended): every node that `MSPChecker::FindMaximallyClosed` returns for
a tree of the parser is closed under the bindings of its enclosing lambdas: each
of its free variables is the parameter of a `Lambda` node above it; with the
empty bound set the node is closed when no `Lambda` node above it binds a
name. -/
theorem C31_closed_in_context (p : Parser) (root : NodePtr)
    (h : p.buildAST = Outcome.ok root) :
    ∀ r ∈ MSPChecker.FindMaximallyClosed ⟨root⟩,
      util.IsClosedSubtree r.node (bindingsAt root [] r.path) = true
      ∧ (∀ x ∈ freeVariables r.node, x ∈ bindingsAt root [] r.path)
      ∧ (bindingsAt root [] r.path = [] → util.IsClosedSubtreeRoot r.node = true) := by
  have hs := (Parser.buildAST_shape h).2
  rw [MSPChecker.FindMaximallyClosed_eq root hs]
  intro r hr
  obtain ⟨h1, h2, -⟩ := maximallyClosed_mem.1 hr
  have hc : util.IsClosedSubtree r.node (bindingsAt root [] r.path) = true := by
    rw [← h1.2]
    exact h2
  refine ⟨hc, ?_, ?_⟩
  · have hsn : ShapeOK r.node = true := by
      rw [← h1.2]
      exact ShapeOK_nodeAt hs _
    exact (util.IsClosedSubtree_iff _ _ hsn).1 hc
  · intro e
    rw [e] at hc
    exact hc

/-- Instance of C31: the tokens of `lambda x. y + x`. -/
theorem C31_closed_in_context_witness :
    Parser.buildAST
        ⟨[⟨TokenType.Lambda, "lambda"⟩, ⟨TokenType.ID, "x"⟩, ⟨TokenType.Dot, "."⟩,
          ⟨TokenType.ID, "y"⟩, ⟨TokenType.BinaryOperator, "+"⟩, ⟨TokenType.ID, "x"⟩,
          ⟨TokenType.EndOfFile, "#"⟩], 0⟩
      = Outcome.ok (NodePtr.node ⟨TokenType.Lambda, "lambda"⟩ (AST.createLeaf ⟨TokenType.ID, "x"⟩)
          (NodePtr.node ⟨TokenType.BinaryOperator, "+"⟩ (AST.createLeaf ⟨TokenType.ID, "y"⟩)
            (AST.createLeaf ⟨TokenType.ID, "x"⟩)))
    ∧ util.IsClosedSubtree (AST.createLeaf ⟨TokenType.ID, "x"⟩)
        (bindingsAt (NodePtr.node ⟨TokenType.Lambda, "lambda"⟩
          (AST.createLeaf ⟨TokenType.ID, "x"⟩)
          (NodePtr.node ⟨TokenType.BinaryOperator, "+"⟩ (AST.createLeaf ⟨TokenType.ID, "y"⟩)
            (AST.createLeaf ⟨TokenType.ID, "x"⟩))) [] [true, true]) = true :=
  ⟨by decide!,
    (C31_closed_in_context
      ⟨[⟨TokenType.Lambda, "lambda"⟩, ⟨TokenType.ID, "x"⟩, ⟨TokenType.Dot, "."⟩,
        ⟨TokenType.ID, "y"⟩, ⟨TokenType.BinaryOperator, "+"⟩, ⟨TokenType.ID, "x"⟩,
        ⟨TokenType.EndOfFile, "#"⟩], 0⟩ _ (by decide!)
      ⟨[true, true], AST.createLeaf ⟨TokenType.ID, "x"⟩⟩ (by decide!)).1⟩

/-- C34: for a tree of the parser, the memo left by `EvaluateClosed(root, {})`
holds for every node an entry whose value is `util::IsClosedSubtree` of the
node under the parameter names of the `Lambda` nodes on the path from the root
to it (with or without the node itself); the value returned for the root is
`util::IsClosedSubtree(root)`, and the root is reported exactly when it
holds. -/
theorem C34_memo_agrees (p : Parser) (root : NodePtr) (h : p.buildAST = Outcome.ok root) :
    (∀ path : List Bool, root.nodeAt path ≠ NodePtr.null →
        (EvaluateClosed root [] [] []).2.lookup path
          = some (util.IsClosedSubtree (root.nodeAt path) (parametersOnPath root path))
        ∧ (EvaluateClosed root [] [] []).2.lookup path
          = some (util.IsClosedSubtree (root.nodeAt path) (bindingsAt root [] path)))
    ∧ (EvaluateClosed root [] [] []).1 = util.IsClosedSubtreeRoot root
    ∧ ((EvaluateClosed root [] [] []).2.lookup [] = some (util.IsClosedSubtreeRoot root))
    ∧ ((⟨[], root⟩ : NodeRef) ∈ MSPChecker.FindMaximallyClosed ⟨root⟩
        ↔ util.IsClosedSubtreeRoot root = true) := by
  obtain ⟨hn, hs⟩ := Parser.buildAST_shape h
  obtain ⟨a1, a2, -⟩ := EvaluateClosed_spec root [] [] [] hs (fun _ => rfl)
  refine ⟨?_, a1, ?_, ?_⟩
  · intro path hp
    have := a2 path hp
    rw [List.append_nil] at this
    refine ⟨?_, this⟩
    rw [this, parametersOnPath, util.IsClosedSubtree_lambdaBinding (ShapeOK_nodeAt hs path)]
  · have := a2 [] hn
    simpa using this
  · rw [MSPChecker.FindMaximallyClosed_eq root hs, maximallyClosed_mem]
    constructor
    · intro hm
      exact hm.2.1
    · intro hc
      exact ⟨⟨hn, rfl⟩, hc, Or.inl rfl⟩

/-- Instance of C34: the memo of the tree of `lambda x. y + x`. -/
theorem C34_memo_agrees_witness :
    Parser.buildAST
        ⟨[⟨TokenType.Lambda, "lambda"⟩, ⟨TokenType.ID, "x"⟩, ⟨TokenType.Dot, "."⟩,
          ⟨TokenType.ID, "y"⟩, ⟨TokenType.BinaryOperator, "+"⟩, ⟨TokenType.ID, "x"⟩,
          ⟨TokenType.EndOfFile, "#"⟩], 0⟩
      = Outcome.ok (NodePtr.node ⟨TokenType.Lambda, "lambda"⟩ (AST.createLeaf ⟨TokenType.ID, "x"⟩)
          (NodePtr.node ⟨TokenType.BinaryOperator, "+"⟩ (AST.createLeaf ⟨TokenType.ID, "y"⟩)
            (AST.createLeaf ⟨TokenType.ID, "x"⟩)))
    ∧ (EvaluateClosed (NodePtr.node ⟨TokenType.Lambda, "lambda"⟩
          (AST.createLeaf ⟨TokenType.ID, "x"⟩)
          (NodePtr.node ⟨TokenType.BinaryOperator, "+"⟩ (AST.createLeaf ⟨TokenType.ID, "y"⟩)
            (AST.createLeaf ⟨TokenType.ID, "x"⟩))) [] [] []).1
        = util.IsClosedSubtreeRoot (NodePtr.node ⟨TokenType.Lambda, "lambda"⟩
          (AST.createLeaf ⟨TokenType.ID, "x"⟩)
          (NodePtr.node ⟨TokenType.BinaryOperator, "+"⟩ (AST.createLeaf ⟨TokenType.ID, "y"⟩)
            (AST.createLeaf ⟨TokenType.ID, "x"⟩)))
    ∧ (EvaluateClosed (NodePtr.node ⟨TokenType.Lambda, "lambda"⟩
          (AST.createLeaf ⟨TokenType.ID, "x"⟩)
          (NodePtr.node ⟨TokenType.BinaryOperator, "+"⟩ (AST.createLeaf ⟨TokenType.ID, "y"⟩)
            (AST.createLeaf ⟨TokenType.ID, "x"⟩))) [] [] []).2
        = [([], false), ([true], false), ([true, true], true), ([false, true], false),
           ([false], true)] :=
  ⟨by decide!,
    (C34_memo_agrees
      ⟨[⟨TokenType.Lambda, "lambda"⟩, ⟨TokenType.ID, "x"⟩, ⟨TokenType.Dot, "."⟩,
        ⟨TokenType.ID, "y"⟩, ⟨TokenType.BinaryOperator, "+"⟩, ⟨TokenType.ID, "x"⟩,
        ⟨TokenType.EndOfFile, "#"⟩], 0⟩ _ (by decide!)).2.1,
    by decide!⟩

/-- C40: for a tree of the parser, every node with no free variables
(`util::IsClosedSubtree` with the empty bound set holds) is returned by
`MSPChecker::FindMaximallyClosed` or lies properly below a returned node, and
the returned node at or above it is unique; `util::IsClosedSubtree` is monotone
in the bound set. -/
theorem C40_closed_nodes_covered (p : Parser) (root : NodePtr)
    (h : p.buildAST = Outcome.ok root) :
    (∀ n : NodeRef, n.isNodeOf root → util.IsClosedSubtreeRoot n.node = true →
      (n ∈ MSPChecker.FindMaximallyClosed ⟨root⟩
        ∨ ∃ r ∈ MSPChecker.FindMaximallyClosed ⟨root⟩, ∃ s, s ≠ [] ∧ n.path = s ++ r.path)
      ∧ ∃! r, r ∈ MSPChecker.FindMaximallyClosed ⟨root⟩ ∧ ∃ s, n.path = s ++ r.path)
    ∧ ∀ (t : NodePtr) (bound bound1 : List String), (∀ x ∈ bound, x ∈ bound1) →
        util.IsClosedSubtree t bound = true → util.IsClosedSubtree t bound1 = true := by
  refine ⟨?_, util.IsClosedSubtree_mono⟩
  have hs := (Parser.buildAST_shape h).2
  rw [MSPChecker.FindMaximallyClosed_eq root hs]
  intro n hn hc
  obtain ⟨hn1, hn2⟩ := hn
  have hctx : closedInContext root n.path = true := by
    rw [closedInContext, hn2]
    exact util.IsClosedSubtree_mono _ [] _ (fun x hx => absurd hx (List.not_mem_nil x)) hc
  obtain ⟨s, a, e, hm⟩ := maximallyClosed_cover n.path (by rw [hn2]; exact hn1) hctx
  have hself : ∀ r : NodeRef, r ∈ maximallyClosed root → r.path = n.path → r = n := by
    intro r hr hp
    obtain ⟨⟨-, n1⟩, -⟩ := maximallyClosed_mem.1 hr
    obtain ⟨p1, nd1⟩ := r
    obtain ⟨p2, nd2⟩ := n
    simp only at hp n1 hn2
    subst hp
    rw [← n1, ← hn2]
  constructor
  · cases s with
    | nil =>
      left
      rw [← hself _ hm (by simpa using e.symm)]
      exact hm
    | cons turn s1 =>
      right
      exact ⟨_, hm, turn :: s1, by simp, e⟩
  · refine ⟨_, ⟨hm, s, e⟩, ?_⟩
    rintro r ⟨hr, s2, e2⟩
    have hpath : r.path = a := by
      rw [e] at e2
      rcases List.append_eq_append_iff.1 e2 with ⟨c, -, hc1⟩ | ⟨c, -, hc1⟩
      · by_contra hne
        have hcn : c ≠ [] := by
          intro e0
          subst e0
          exact hne (by simpa using hc1.symm)
        have := maximallyClosed_ancestor hs hm (r := ⟨a, root.nodeAt a⟩) hc1 hcn
        rw [(maximallyClosed_mem.1 hr).2.1] at this
        simp at this
      · by_contra hne
        have hcn : c ≠ [] := by
          intro e0
          subst e0
          exact hne (by simpa using hc1)
        have := maximallyClosed_ancestor hs hr hc1 hcn
        rw [(maximallyClosed_mem.1 hm).2.1] at this
        simp at this
    obtain ⟨⟨-, n1⟩, -⟩ := maximallyClosed_mem.1 hr
    obtain ⟨p1, nd1⟩ := r
    simp only at hpath n1
    subst hpath
    rw [← n1]

/-- Instance of C40: in the tree of `lambda x. y + 2` the literal `2` has no
free variables and is returned. -/
theorem C40_closed_nodes_covered_witness :
    Parser.buildAST
        ⟨[⟨TokenType.Lambda, "lambda"⟩, ⟨TokenType.ID, "x"⟩, ⟨TokenType.Dot, "."⟩,
          ⟨TokenType.ID, "y"⟩, ⟨TokenType.BinaryOperator, "+"⟩, ⟨TokenType.Number, "2"⟩,
          ⟨TokenType.EndOfFile, "#"⟩], 0⟩
      = Outcome.ok (NodePtr.node ⟨TokenType.Lambda, "lambda"⟩ (AST.createLeaf ⟨TokenType.ID, "x"⟩)
          (NodePtr.node ⟨TokenType.BinaryOperator, "+"⟩ (AST.createLeaf ⟨TokenType.ID, "y"⟩)
            (AST.createLeaf ⟨TokenType.Number, "2"⟩)))
    ∧ ((⟨[true, true], AST.createLeaf ⟨TokenType.Number, "2"⟩⟩ : NodeRef)
        ∈ MSPChecker.FindMaximallyClosed
          ⟨NodePtr.node ⟨TokenType.Lambda, "lambda"⟩ (AST.createLeaf ⟨TokenType.ID, "x"⟩)
            (NodePtr.node ⟨TokenType.BinaryOperator, "+"⟩ (AST.createLeaf ⟨TokenType.ID, "y"⟩)
              (AST.createLeaf ⟨TokenType.Number, "2"⟩))⟩
      ∨ ∃ r ∈ MSPChecker.FindMaximallyClosed
          ⟨NodePtr.node ⟨TokenType.Lambda, "lambda"⟩ (AST.createLeaf ⟨TokenType.ID, "x"⟩)
            (NodePtr.node ⟨TokenType.BinaryOperator, "+"⟩ (AST.createLeaf ⟨TokenType.ID, "y"⟩)
              (AST.createLeaf ⟨TokenType.Number, "2"⟩))⟩,
          ∃ s, s ≠ [] ∧ [true, true] = s ++ r.path) :=
  ⟨by decide!,
    ((C40_closed_nodes_covered
      ⟨[⟨TokenType.Lambda, "lambda"⟩, ⟨TokenType.ID, "x"⟩, ⟨TokenType.Dot, "."⟩,
        ⟨TokenType.ID, "y"⟩, ⟨TokenType.BinaryOperator, "+"⟩, ⟨TokenType.Number, "2"⟩,
        ⟨TokenType.EndOfFile, "#"⟩], 0⟩ _ (by decide!)).1
      ⟨[true, true], AST.createLeaf ⟨TokenType.Number, "2"⟩⟩ ⟨by decide, by decide⟩
      (by decide)).1⟩

/-! ### Repeated subexpressions: the greedy rule -/

/-- C32: a canonical form with at least two occurrences is absent from the
result of `SubexpressionFinder::find` exactly when every one of its occurrences
has a proper ancestor among the occurrences of a record of the result that comes
earlier in the order of the reports; otherwise its record is in the result, with
all the occurrences of the form. -/
theorem C32_greedy_covering (root : NodePtr) (k : String)
    (h : 2 ≤ (occurrencesOf root k).length) :
    ((∀ r ∈ SubexpressionFinder.find ⟨root⟩, r.canonical ≠ k)
      ↔ coveredByEarlier (SubexpressionFinder.find ⟨root⟩) (recordOf root k))
    ∧ (¬ coveredByEarlier (SubexpressionFinder.find ⟨root⟩) (recordOf root k) →
        recordOf root k ∈ SubexpressionFinder.find ⟨root⟩)
    ∧ (∀ r ∈ SubexpressionFinder.find ⟨root⟩, r.canonical = k →
        r = recordOf root k ∧ r.occurrences = occurrencesOf root k) := by
  have hc := SubexpressionFinder.recordOf_mem h
  have hiff := SubexpressionFinder.mem_find_iff hc
  have huniq : ∀ r ∈ SubexpressionFinder.find ⟨root⟩, r.canonical = k → r = recordOf root k := by
    intro r hr hk
    have := SubexpressionFinder.eq_recordOf ((SubexpressionFinder.find_sublist root).subset hr)
    rw [hk] at this
    exact this
  refine ⟨?_, fun hcov => hiff.2 hcov, ?_⟩
  · constructor
    · intro habs
      by_contra hcov
      exact habs _ (hiff.2 hcov) rfl
    · intro hcov r hr hk
      rw [huniq r hr hk] at hr
      exact hiff.1 hr hcov
  · intro r hr hk
    refine ⟨huniq r hr hk, ?_⟩
    rw [huniq r hr hk]
    rfl

/-- Instance of C32: in the tree of `(a + b) * (a + b)` the form `a` occurs
twice and has no record, because the record of `a + b` comes earlier. -/
theorem C32_greedy_covering_witness :
    2 ≤ (occurrencesOf
        (NodePtr.node ⟨TokenType.BinaryOperator, "*"⟩
          (NodePtr.node ⟨TokenType.BinaryOperator, "+"⟩ (AST.createLeaf ⟨TokenType.ID, "a"⟩)
            (AST.createLeaf ⟨TokenType.ID, "b"⟩))
          (NodePtr.node ⟨TokenType.BinaryOperator, "+"⟩ (AST.createLeaf ⟨TokenType.ID, "a"⟩)
            (AST.createLeaf ⟨TokenType.ID, "b"⟩))) "a").length
    ∧ SubexpressionFinder.find
        ⟨NodePtr.node ⟨TokenType.BinaryOperator, "*"⟩
          (NodePtr.node ⟨TokenType.BinaryOperator, "+"⟩ (AST.createLeaf ⟨TokenType.ID, "a"⟩)
            (AST.createLeaf ⟨TokenType.ID, "b"⟩))
          (NodePtr.node ⟨TokenType.BinaryOperator, "+"⟩ (AST.createLeaf ⟨TokenType.ID, "a"⟩)
            (AST.createLeaf ⟨TokenType.ID, "b"⟩))⟩
      = [⟨"+(a,b)", 2, 2, 3,
          [⟨[false], NodePtr.node ⟨TokenType.BinaryOperator, "+"⟩
              (AST.createLeaf ⟨TokenType.ID, "a"⟩) (AST.createLeaf ⟨TokenType.ID, "b"⟩)⟩,
           ⟨[true], NodePtr.node ⟨TokenType.BinaryOperator, "+"⟩
              (AST.createLeaf ⟨TokenType.ID, "a"⟩) (AST.createLeaf ⟨TokenType.ID, "b"⟩)⟩]⟩]
    ∧ coveredByEarlier
        (SubexpressionFinder.find
          ⟨NodePtr.node ⟨TokenType.BinaryOperator, "*"⟩
            (NodePtr.node ⟨TokenType.BinaryOperator, "+"⟩ (AST.createLeaf ⟨TokenType.ID, "a"⟩)
              (AST.createLeaf ⟨TokenType.ID, "b"⟩))
            (NodePtr.node ⟨TokenType.BinaryOperator, "+"⟩ (AST.createLeaf ⟨TokenType.ID, "a"⟩)
              (AST.createLeaf ⟨TokenType.ID, "b"⟩))⟩)
        (recordOf
          (NodePtr.node ⟨TokenType.BinaryOperator, "*"⟩
            (NodePtr.node ⟨TokenType.BinaryOperator, "+"⟩ (AST.createLeaf ⟨TokenType.ID, "a"⟩)
              (AST.createLeaf ⟨TokenType.ID, "b"⟩))
            (NodePtr.node ⟨TokenType.BinaryOperator, "+"⟩ (AST.createLeaf ⟨TokenType.ID, "a"⟩)
              (AST.createLeaf ⟨TokenType.ID, "b"⟩))) "a") :=
  have h : SubexpressionFinder.find
        ⟨NodePtr.node ⟨TokenType.BinaryOperator, "*"⟩
          (NodePtr.node ⟨TokenType.BinaryOperator, "+"⟩ (AST.createLeaf ⟨TokenType.ID, "a"⟩)
            (AST.createLeaf ⟨TokenType.ID, "b"⟩))
          (NodePtr.node ⟨TokenType.BinaryOperator, "+"⟩ (AST.createLeaf ⟨TokenType.ID, "a"⟩)
            (AST.createLeaf ⟨TokenType.ID, "b"⟩))⟩
      = [⟨"+(a,b)", 2, 2, 3,
          [⟨[false], NodePtr.node ⟨TokenType.BinaryOperator, "+"⟩
              (AST.createLeaf ⟨TokenType.ID, "a"⟩) (AST.createLeaf ⟨TokenType.ID, "b"⟩)⟩,
           ⟨[true], NodePtr.node ⟨TokenType.BinaryOperator, "+"⟩
              (AST.createLeaf ⟨TokenType.ID, "a"⟩) (AST.createLeaf ⟨TokenType.ID, "b"⟩)⟩]⟩] := by
    decide!
  ⟨by decide!, h,
    (C32_greedy_covering _ "a" (by decide!)).1.1 (by
      rw [h]
      intro r hr
      rw [List.mem_singleton] at hr
      subst hr
      decide)⟩

/-! ### Parser: a sign in front of a power; parentheses -/

/-- C35: a prefix sign binds tighter than `^`.  For atoms `x` and `y` and a
sign `s`, the sources `s x ^ y` and `sx ^ y` parse to the power whose base is
the sign applied to `x` and whose exponent is `y`, which is not the sign applied
to the power of `x` and `y`. -/
theorem C35_sign_binds_tighter (s x y : String) (hs : s ∈ ["+", "-"]) (hx : isAtom x = true)
    (hy : isAtom y = true) :
    parse (s ++ " " ++ x ++ " ^ " ++ y)
      = Outcome.ok (NodePtr.node ⟨TokenType.BinaryOperator, "^"⟩
          (NodePtr.node ⟨TokenType.BinaryOperator, s⟩ (AST.createLeaf ⟨TokenType.Number, "0"⟩)
            (AST.createLeaf (atomToken x)))
          (AST.createLeaf (atomToken y)))
    ∧ parse (s ++ x ++ " ^ " ++ y)
      = Outcome.ok (NodePtr.node ⟨TokenType.BinaryOperator, "^"⟩
          (NodePtr.node ⟨TokenType.BinaryOperator, s⟩ (AST.createLeaf ⟨TokenType.Number, "0"⟩)
            (AST.createLeaf (atomToken x)))
          (AST.createLeaf (atomToken y)))
    ∧ parse (s ++ " " ++ x ++ " ^ " ++ y)
      ≠ Outcome.ok (NodePtr.node ⟨TokenType.BinaryOperator, s⟩
          (AST.createLeaf ⟨TokenType.Number, "0"⟩)
          (NodePtr.node ⟨TokenType.BinaryOperator, "^"⟩ (AST.createLeaf (atomToken x))
            (AST.createLeaf (atomToken y)))) := by
  have hs5 : s ∈ ["+", "-", "*", "/", "^"] := by
    simp only [List.mem_cons, List.mem_singleton, List.not_mem_nil, or_false] at hs ⊢
    rcases hs with h | h <;> simp [h]
  have hend : isAtEnd ⟨[⟨TokenType.BinaryOperator, s⟩, atomToken x,
      ⟨TokenType.BinaryOperator, "^"⟩, atomToken y, ⟨TokenType.EndOfFile, "#"⟩], 4⟩ = true := by
    simp [isAtEnd, peek]
  have hrest : Lex (x.data ++ ' ' :: ("^".data ++ ' ' :: (y.data ++ [])))
      [atomToken x, ⟨TokenType.BinaryOperator, "^"⟩, atomToken y, ⟨TokenType.EndOfFile, "#"⟩] :=
    Lex.atom hx (isSeparator_space _) (Lex.space (by decide)
      (Lex.operator (by decide) (Lex.space (by decide) (Lex.atom hy isSeparator_nil Lex.nil))))
  have h1 : parse (s ++ " " ++ x ++ " ^ " ++ y)
      = Outcome.ok (NodePtr.node ⟨TokenType.BinaryOperator, "^"⟩
          (NodePtr.node ⟨TokenType.BinaryOperator, s⟩ (AST.createLeaf ⟨TokenType.Number, "0"⟩)
            (AST.createLeaf (atomToken x)))
          (AST.createLeaf (atomToken y))) := by
    rw [parse_eq_ok]
    refine ⟨_, _, ?_, run_sign_power s x y hs, hend⟩
    have e : (s ++ " " ++ x ++ " ^ " ++ y).data
        = s.data ++ ' ' :: (x.data ++ ' ' :: ("^".data ++ ' ' :: (y.data ++ []))) := by
      simp [String.data_append]
    rw [e]
    exact Lex.operator hs5 (Lex.space (by decide) hrest)
  refine ⟨h1, ?_, ?_⟩
  · rw [parse_eq_ok]
    refine ⟨_, _, ?_, run_sign_power s x y hs, hend⟩
    have e : (s ++ x ++ " ^ " ++ y).data
        = s.data ++ (x.data ++ ' ' :: ("^".data ++ ' ' :: (y.data ++ []))) := by
      simp [String.data_append]
    rw [e]
    exact Lex.operator hs5 hrest
  · rw [h1]
    intro h
    simp only [Outcome.ok.injEq, NodePtr.node.injEq, Token.mk.injEq, true_and] at h
    have := h.1
    subst this
    simp at hs

/-- Instance of C35: `- 2 ^ x`. -/
theorem C35_sign_binds_tighter_witness :
    parse ("-" ++ " " ++ "2" ++ " ^ " ++ "x")
      = Outcome.ok (NodePtr.node ⟨TokenType.BinaryOperator, "^"⟩
          (NodePtr.node ⟨TokenType.BinaryOperator, "-"⟩ (AST.createLeaf ⟨TokenType.Number, "0"⟩)
            (AST.createLeaf (atomToken "2")))
          (AST.createLeaf (atomToken "x"))) :=
  (C35_sign_binds_tighter "-" "2" "x" (by decide) (by decide) (by decide)).1

/-- C39: parentheses are transparent.  When a source `s` parses to the tree
`t`, the source `(s)` parses to the same tree `t`; no node stands for the
parentheses. -/
theorem C39_parentheses_transparent (s : String) (t : NodePtr) (h : parse s = Outcome.ok t) :
    parse ("(" ++ s ++ ")") = Outcome.ok t := by
  rw [parse_eq_ok] at h ⊢
  obtain ⟨ts, q, hl, hr, he⟩ := h
  have hstop := hr.stops_at_last hl (Nat.zero_le _) he
  simp only at hstop
  have hlen := List.length_pos.2 hl.ne_nil
  have hag : Agree ⟨ts, 0⟩
      ⟨⟨TokenType.OpenScope, "("⟩ ::
        (ts.dropLast ++ [⟨TokenType.CloseScope, ")"⟩, ⟨TokenType.EndOfFile, "#"⟩]), 1⟩
      (ts.length - 1) := by
    constructor
    · intro k hk
      simp only [peek_eq, shift, Nat.zero_add]
      rw [show 1 + k = k + 1 by omega, List.getD_cons_succ]
      exact List.getD_dropLast_append ts _ k _ (by omega)
    · right
      simp only [peek_eq, shift]
      rw [show 1 + (ts.length - 1) = (ts.length - 1) + 1 by omega, List.getD_cons_succ,
        List.getD_append_right _ _ _ _ (by simp)]
      simp
  have r := hr.frame _ (ts.length - 1) (by simp only [hstop]; omega) hag
  simp only [shift] at r
  have hclose : check TokenType.CloseScope
      ⟨⟨TokenType.OpenScope, "("⟩ ::
        (ts.dropLast ++ [⟨TokenType.CloseScope, ")"⟩, ⟨TokenType.EndOfFile, "#"⟩]),
        1 + (ts.length - 1)⟩ = true := by
    simp only [check_eq, peek_eq]
    rw [show 1 + (ts.length - 1) = (ts.length - 1) + 1 by omega, List.getD_cons_succ,
      List.getD_append_right _ _ _ _ (by simp)]
    simp
  have hend : isAtEnd (Parser.next
      ⟨⟨TokenType.OpenScope, "("⟩ ::
        (ts.dropLast ++ [⟨TokenType.CloseScope, ")"⟩, ⟨TokenType.EndOfFile, "#"⟩]),
        1 + (ts.length - 1)⟩) = true := by
    simp only [isAtEnd, peek_eq, next, decide_eq_true_eq]
    rw [show 1 + (ts.length - 1) + 1 = (ts.length - 1 + 1) + 1 by omega, List.getD_cons_succ,
      List.getD_append_right _ _ _ _ (by simp)]
    simp
  refine ⟨_, _, lex_parenthesized s ts hl, Run.unary_expression ?_ (isAtEnd_not_binary hend),
    hend⟩
  refine Run.unaryPrimary (p := ⟨_, 0⟩) (by simp [check_eq, peek]) (by simp [isSign, check_eq, peek])
    (by simp [check_eq, peek]) ?_
  exact Run.primaryParen (p := ⟨_, 0⟩) (by simp [check_eq, peek]) (by simp [check_eq, peek])
    (by simp [check_eq, peek]) r hclose

/-- Instance of C39: `(a + b * 2)`. -/
theorem C39_parentheses_transparent_witness :
    parse "a + b * 2"
      = Outcome.ok (NodePtr.node ⟨TokenType.BinaryOperator, "+"⟩
          (AST.createLeaf ⟨TokenType.ID, "a"⟩)
          (NodePtr.node ⟨TokenType.BinaryOperator, "*"⟩ (AST.createLeaf ⟨TokenType.ID, "b"⟩)
            (AST.createLeaf ⟨TokenType.Number, "2"⟩)))
    ∧ parse ("(" ++ "a + b * 2" ++ ")")
      = Outcome.ok (NodePtr.node ⟨TokenType.BinaryOperator, "+"⟩
          (AST.createLeaf ⟨TokenType.ID, "a"⟩)
          (NodePtr.node ⟨TokenType.BinaryOperator, "*"⟩ (AST.createLeaf ⟨TokenType.ID, "b"⟩)
            (AST.createLeaf ⟨TokenType.Number, "2"⟩))) :=
  ⟨by decide!, C39_parentheses_transparent "a + b * 2" _ (by decide!)⟩

/-! ### Lexer: the text of the tokens -/

/-- C38: lexing loses nothing but white space.  When `Tokenizer::tokenizeAll`
returns a token vector, the last token is the end-of-file token, and the
concatenation of the texts of the tokens before it is the input without its
white-space characters. -/
theorem C38_texts_restore_source (t : Tokenizer) (ts : List Token) (t1 : Tokenizer)
    (h : t.tokenizeAll = Outcome.ok (ts, t1)) :
    ts.getLast?.map Token.type = some TokenType.EndOfFile
    ∧ (concatTexts ts.dropLast).data = t.input_.filter (fun c => !Tokenizer.isspace c)
    ∧ concatTexts ts.dropLast = String.mk (t.input_.filter fun c => !Tokenizer.isspace c) := by
  have hl : Lex t.input_ ts := (tokenizeAll_eq_ok t ts).1 ⟨t1, h⟩
  have hd : (concatTexts ts.dropLast).data
      = t.input_.filter (fun c => !Tokenizer.isspace c) := by
    rw [concatTexts_data]
    exact hl.text
  refine ⟨hl.getLast, hd, ?_⟩
  rw [← hd]

/-- Instance of C38: the source ` cos( x )+ 1.5`. -/
theorem C38_texts_restore_source_witness :
    Tokenizer.tokenizeAll (Tokenizer.new " cos( x )+ 1.5")
      = Outcome.ok ([⟨TokenType.UnaryOperator, "cos"⟩, ⟨TokenType.OpenScope, "("⟩,
          ⟨TokenType.ID, "x"⟩, ⟨TokenType.CloseScope, ")"⟩, ⟨TokenType.BinaryOperator, "+"⟩,
          ⟨TokenType.Number, "1.5"⟩, ⟨TokenType.EndOfFile, "#"⟩], ⟨" cos( x )+ 1.5".data, 14⟩)
    ∧ (concatTexts [⟨TokenType.UnaryOperator, "cos"⟩, ⟨TokenType.OpenScope, "("⟩,
          ⟨TokenType.ID, "x"⟩, ⟨TokenType.CloseScope, ")"⟩, ⟨TokenType.BinaryOperator, "+"⟩,
          ⟨TokenType.Number, "1.5"⟩]).data = "cos(x)+1.5".data :=
  ⟨by decide!,
    (C38_texts_restore_source (Tokenizer.new " cos( x )+ 1.5")
      [⟨TokenType.UnaryOperator, "cos"⟩, ⟨TokenType.OpenScope, "("⟩,
        ⟨TokenType.ID, "x"⟩, ⟨TokenType.CloseScope, ")"⟩, ⟨TokenType.BinaryOperator, "+"⟩,
        ⟨TokenType.Number, "1.5"⟩, ⟨TokenType.EndOfFile, "#"⟩] ⟨" cos( x )+ 1.5".data, 14⟩
      (by decide!)).2.1⟩

/-! ### The pushdown automaton and the parser -/

/-- C36 (as stated, refuted): on the token vector of the source `1` the function
`Parser::buildAST` returns a tree and `PDA::Parse` throws
`UnprocessedTokensError`.  Without the final `EndOfFile` token the two still
differ: `PDA::Parse` returns true on the tokens of `cos x`, which the parser
rejects, and throws on the tokens of `-x`, which the parser accepts. -/
theorem C36_pda_rejects_accepted_source :
    (Tokenizer.new "1").tokenizeAll
      = Outcome.ok ([⟨TokenType.Number, "1"⟩, ⟨TokenType.EndOfFile, "#"⟩], ⟨"1".data, 1⟩)
    ∧ Parser.buildAST ⟨[⟨TokenType.Number, "1"⟩, ⟨TokenType.EndOfFile, "#"⟩], 0⟩
      = Outcome.ok (AST.createLeaf ⟨TokenType.Number, "1"⟩)
    ∧ (PDA.new [⟨TokenType.Number, "1"⟩, ⟨TokenType.EndOfFile, "#"⟩]).Parse
      = Outcome.thrown (ParserException.UnprocessedTokensError "#")
    ∧ (PDA.new [⟨TokenType.UnaryOperator, "cos"⟩, ⟨TokenType.ID, "x"⟩]).Parse
      = Outcome.ok (true, ⟨[], [⟨TokenType.UnaryOperator, "cos"⟩, ⟨TokenType.ID, "x"⟩], 2⟩)
    ∧ parse "cos x"
      = Outcome.thrown (ParserException.UnexpectedTokenError "'(' after unary operator" "x")
    ∧ (PDA.new [⟨TokenType.BinaryOperator, "-"⟩, ⟨TokenType.ID, "x"⟩]).Parse
      = Outcome.thrown (ParserException.SyntaxError
          "Unexpected operator '-' where operand expected (number, variable or expression)")
    ∧ parse "-x"
      = Outcome.ok (NodePtr.node ⟨TokenType.BinaryOperator, "-"⟩
          (AST.createLeaf ⟨TokenType.Number, "0"⟩) (AST.createLeaf ⟨TokenType.ID, "x"⟩)) :=
  ⟨by decide!, by decide!, by decide!, by decide!, by decide!, by decide!, by decide!⟩

/-- C36 (amended): on every token vector returned by `Tokenizer::tokenizeAll`,
`PDA::Parse` throws and never returns true, whether `Parser::buildAST` succeeds
on that vector or not: no rule of the grammar reads the final `EndOfFile`
token. -/
theorem C36_pda_never_accepts (t : Tokenizer) (ts : List Token) (t1 : Tokenizer)
    (h : t.tokenizeAll = Outcome.ok (ts, t1)) :
    (∃ e, (PDA.new ts).Parse = Outcome.thrown e)
    ∧ ∀ pda : PDA, (PDA.new ts).Parse ≠ Outcome.ok (true, pda) := by
  have hl : Lex t.input_ ts := (tokenizeAll_eq_ok t ts).1 ⟨t1, h⟩
  obtain ⟨e, he⟩ := PDA.Parse_thrown ts hl.ne_nil hl.last_eof
  refine ⟨⟨e, he⟩, ?_⟩
  intro pda hp
  rw [he] at hp
  simp at hp

/-- Instance of C36: the tokens of `2 + 3`. -/
theorem C36_pda_never_accepts_witness :
    (Tokenizer.new "2 + 3").tokenizeAll
        = Outcome.ok ([⟨TokenType.Number, "2"⟩, ⟨TokenType.BinaryOperator, "+"⟩,
            ⟨TokenType.Number, "3"⟩, ⟨TokenType.EndOfFile, "#"⟩], ⟨"2 + 3".data, 5⟩)
    ∧ ∃ e, (PDA.new [⟨TokenType.Number, "2"⟩, ⟨TokenType.BinaryOperator, "+"⟩,
            ⟨TokenType.Number, "3"⟩, ⟨TokenType.EndOfFile, "#"⟩]).Parse = Outcome.thrown e :=
  have h : (Tokenizer.new "2 + 3").tokenizeAll
      = Outcome.ok ([⟨TokenType.Number, "2"⟩, ⟨TokenType.BinaryOperator, "+"⟩,
          ⟨TokenType.Number, "3"⟩, ⟨TokenType.EndOfFile, "#"⟩], ⟨"2 + 3".data, 5⟩) := by decide!
  ⟨h, (C36_pda_never_accepts _ _ _ h).1⟩

/-! ### The canonical form as a key -/

/-- C37: the canonical key creates no false matches.  When two subtrees of
trees that the parser returns for two sources have the same
`util::CanonicalForm` string, they are identical up to swapping the operands of
`+` and `*` nodes (equal tokens, kind and text, node by node), and so they have
the same height and the same node count. -/
theorem C37_canonical_no_false_matches (s1 s2 : String) (root1 root2 : NodePtr)
    (h1 : parse s1 = Outcome.ok root1) (h2 : parse s2 = Outcome.ok root2) (p1 p2 : List Bool)
    (he : util.CanonicalForm (root1.nodeAt p1) = util.CanonicalForm (root2.nodeAt p2)) :
    sameUpToSwap (root1.nodeAt p1) (root2.nodeAt p2) = true
    ∧ util.Height (root1.nodeAt p1) = util.Height (root2.nodeAt p2)
    ∧ util.NodeCount (root1.nodeAt p1) = util.NodeCount (root2.nodeAt p2) := by
  obtain ⟨-, a1, b1⟩ := parse_valid h1
  obtain ⟨-, a2, b2⟩ := parse_valid h2
  have hsame := canonical_same (ShapeOK_nodeAt a1 p1) (TokensOK_nodeAt b1 p1)
    (ShapeOK_nodeAt a2 p2) (TokensOK_nodeAt b2 p2) he
  exact ⟨hsame, sameUpToSwap_height _ _ hsame⟩

/-- Instance of C37: the tree of `a + b` and the left operand of the tree of
`(b + a) * 2`. -/
theorem C37_canonical_no_false_matches_witness :
    util.CanonicalForm (NodePtr.node ⟨TokenType.BinaryOperator, "+"⟩
        (AST.createLeaf ⟨TokenType.ID, "a"⟩) (AST.createLeaf ⟨TokenType.ID, "b"⟩))
      = util.CanonicalForm (NodePtr.node ⟨TokenType.BinaryOperator, "+"⟩
        (AST.createLeaf ⟨TokenType.ID, "b"⟩) (AST.createLeaf ⟨TokenType.ID, "a"⟩))
    ∧ sameUpToSwap
        (NodePtr.node ⟨TokenType.BinaryOperator, "+"⟩
          (AST.createLeaf ⟨TokenType.ID, "a"⟩) (AST.createLeaf ⟨TokenType.ID, "b"⟩))
        (NodePtr.node ⟨TokenType.BinaryOperator, "+"⟩
          (AST.createLeaf ⟨TokenType.ID, "b"⟩) (AST.createLeaf ⟨TokenType.ID, "a"⟩)) = true :=
  ⟨by decide!,
    (C37_canonical_no_false_matches "a + b" "(b + a) * 2"
      (NodePtr.node ⟨TokenType.BinaryOperator, "+"⟩
        (AST.createLeaf ⟨TokenType.ID, "a"⟩) (AST.createLeaf ⟨TokenType.ID, "b"⟩))
      (NodePtr.node ⟨TokenType.BinaryOperator, "*"⟩
        (NodePtr.node ⟨TokenType.BinaryOperator, "+"⟩
          (AST.createLeaf ⟨TokenType.ID, "b"⟩) (AST.createLeaf ⟨TokenType.ID, "a"⟩))
        (AST.createLeaf ⟨TokenType.Number, "2"⟩))
      (by decide!) (by decide!) [] [false] (by decide!)).1⟩

/-- C33: for the tree that the parser returns for a source, every record
returned by `SubexpressionFinder::find` has the height `util::Height(o)` and the
node count `util::NodeCount(o)` of every one of its occurrences `o`. -/
theorem C33_record_measures (s : String) (root : NodePtr) (h : parse s = Outcome.ok root) :
    ∀ r ∈ SubexpressionFinder.find ⟨root⟩, ∀ o ∈ r.occurrences,
      r.height = util.Height o.node ∧ r.node_count = util.NodeCount o.node := by
  obtain ⟨-, hs, ht⟩ := parse_valid h
  intro r hr o ho
  have hm := (SubexpressionFinder.find_sublist root).subset hr
  obtain ⟨-, -, hocc, nd, hlast, hh, hc⟩ := SubexpressionFinder.mem_sorted_candidates.1 hm
  have key : ∀ x ∈ r.occurrences, ShapeOK x.node = true ∧ TokensOK x.node = true
      ∧ util.CanonicalForm x.node = r.canonical := by
    intro x hx
    rw [hocc, occurrencesOf, List.mem_filter, (postOrder_perm root).mem_iff, preOrder_mem] at hx
    obtain ⟨⟨-, hnode⟩, hcan⟩ := hx
    rw [← hnode]
    refine ⟨ShapeOK_nodeAt hs _, TokensOK_nodeAt ht _, ?_⟩
    rw [hnode]
    simpa using hcan
  have hnd : nd ∈ r.occurrences := List.mem_of_getLast?_eq_some hlast
  obtain ⟨a1, b1, c1⟩ := key o ho
  obtain ⟨a2, b2, c2⟩ := key nd hnd
  have hsame := canonical_same a2 b2 a1 b1 (by rw [c1, c2])
  obtain ⟨e1, e2⟩ := sameUpToSwap_height _ _ hsame
  rw [hh, hc, e1, e2]
  exact ⟨rfl, rfl⟩

/-- Instance of C33: the record of `a + b` in the tree of
`(a + b) * (b + a)`, at its first occurrence. -/
theorem C33_record_measures_witness :
    SubexpressionFinder.find
        ⟨NodePtr.node ⟨TokenType.BinaryOperator, "*"⟩
          (NodePtr.node ⟨TokenType.BinaryOperator, "+"⟩ (AST.createLeaf ⟨TokenType.ID, "a"⟩)
            (AST.createLeaf ⟨TokenType.ID, "b"⟩))
          (NodePtr.node ⟨TokenType.BinaryOperator, "+"⟩ (AST.createLeaf ⟨TokenType.ID, "b"⟩)
            (AST.createLeaf ⟨TokenType.ID, "a"⟩))⟩
      = [⟨"+(a,b)", 2, 2, 3,
          [⟨[false], NodePtr.node ⟨TokenType.BinaryOperator, "+"⟩
              (AST.createLeaf ⟨TokenType.ID, "a"⟩) (AST.createLeaf ⟨TokenType.ID, "b"⟩)⟩,
           ⟨[true], NodePtr.node ⟨TokenType.BinaryOperator, "+"⟩
              (AST.createLeaf ⟨TokenType.ID, "b"⟩) (AST.createLeaf ⟨TokenType.ID, "a"⟩)⟩]⟩]
    ∧ 2 = util.Height (NodePtr.node ⟨TokenType.BinaryOperator, "+"⟩
          (AST.createLeaf ⟨TokenType.ID, "a"⟩) (AST.createLeaf ⟨TokenType.ID, "b"⟩))
    ∧ 3 = util.NodeCount (NodePtr.node ⟨TokenType.BinaryOperator, "+"⟩
          (AST.createLeaf ⟨TokenType.ID, "a"⟩) (AST.createLeaf ⟨TokenType.ID, "b"⟩)) :=
  ⟨by decide!,
    C33_record_measures "(a + b) * (b + a)"
      (NodePtr.node ⟨TokenType.BinaryOperator, "*"⟩
        (NodePtr.node ⟨TokenType.BinaryOperator, "+"⟩ (AST.createLeaf ⟨TokenType.ID, "a"⟩)
          (AST.createLeaf ⟨TokenType.ID, "b"⟩))
        (NodePtr.node ⟨TokenType.BinaryOperator, "+"⟩ (AST.createLeaf ⟨TokenType.ID, "b"⟩)
          (AST.createLeaf ⟨TokenType.ID, "a"⟩)))
      (by decide!)
      ⟨"+(a,b)", 2, 2, 3,
        [⟨[false], NodePtr.node ⟨TokenType.BinaryOperator, "+"⟩
            (AST.createLeaf ⟨TokenType.ID, "a"⟩) (AST.createLeaf ⟨TokenType.ID, "b"⟩)⟩,
         ⟨[true], NodePtr.node ⟨TokenType.BinaryOperator, "+"⟩
            (AST.createLeaf ⟨TokenType.ID, "b"⟩) (AST.createLeaf ⟨TokenType.ID, "a"⟩)⟩]⟩
      (by decide!)
      ⟨[false], NodePtr.node ⟨TokenType.BinaryOperator, "+"⟩
          (AST.createLeaf ⟨TokenType.ID, "a"⟩) (AST.createLeaf ⟨TokenType.ID, "b"⟩)⟩
      (List.mem_cons_self _ _)⟩

end ASTLab
